import Mathlib

/-!
# BRISK: Hamming distance engine and brute-force matcher

A shallow embedding of `include/brisk/internal/hamming-inl.h` and
`src/brute-force-matcher.cc`, followed by the properties proved about them.

Registers are modelled byte by byte, machine integers are natural numbers or
integers reduced modulo the word size wherever the C++ arithmetic can wrap.
-/

namespace brisk

/-! ## 128-bit registers -/

/-- One 128-bit register or memory word (`__m128i`, `uint8x16_t`): sixteen bytes,
byte 0 being the least significant one (little-endian lanes). -/
abbrev M128 := Mathlib.Vector (Fin 256) 16

/-- Reduction of a natural number to one byte (`uint8_t` wrap-around). -/
def byte (x : Nat) : Fin 256 := ⟨x % 256, Nat.mod_lt x (by decide)⟩

/-- The k-th unsigned 16-bit lane of a register. -/
def lane16 (x : M128) (k : Fin 8) : Nat :=
  (x.get ⟨2 * k.val, by omega⟩).val + 256 * (x.get ⟨2 * k.val + 1, by omega⟩).val

/-- The k-th unsigned 32-bit lane of a register. -/
def lane32 (x : M128) (k : Fin 4) : Nat :=
  (x.get ⟨4 * k.val, by omega⟩).val + 256 * (x.get ⟨4 * k.val + 1, by omega⟩).val
    + 65536 * (x.get ⟨4 * k.val + 2, by omega⟩).val
    + 16777216 * (x.get ⟨4 * k.val + 3, by omega⟩).val

/-- The k-th unsigned 64-bit lane of a register. -/
def lane64 (x : M128) (k : Fin 2) : Nat :=
  lane32 x ⟨2 * k.val, by omega⟩ + 4294967296 * lane32 x ⟨2 * k.val + 1, by omega⟩

/-- Register whose 16-bit lanes are the given values (each reduced to 16 bits). -/
def ofLanes16 (f : Fin 8 → Nat) : M128 :=
  Mathlib.Vector.ofFn fun i => byte (f ⟨i.val / 2, by omega⟩ / 256 ^ (i.val % 2))

/-- Register whose 32-bit lanes are the given values (each reduced to 32 bits). -/
def ofLanes32 (f : Fin 4 → Nat) : M128 :=
  Mathlib.Vector.ofFn fun i => byte (f ⟨i.val / 4, by omega⟩ / 256 ^ (i.val % 4))

/-- Register whose 64-bit lanes are the given values (each reduced to 64 bits). -/
def ofLanes64 (f : Fin 2 → Nat) : M128 :=
  Mathlib.Vector.ofFn fun i => byte (f ⟨i.val / 8, by omega⟩ / 256 ^ (i.val % 8))

/-- Number of set bits among the low `bits` bits of `x`. -/
def popcnt : Nat → Nat → Nat
  | 0, _ => 0
  | bits + 1, x => x % 2 + popcnt bits (x / 2)

/-- Table `POPCOUNT_4bit`: population count of every nibble value. -/
def POPCOUNT_4bit : M128 :=
  ⟨[0, 1, 1, 2, 1, 2, 2, 3, 1, 2, 2, 3, 2, 3, 3, 4], rfl⟩

/-- Table `MASK_4bit`: sixteen bytes `0x0f`. -/
def MASK_4bit : M128 := Mathlib.Vector.replicate 16 0xf

/-! ## SSE intrinsics used by `SSSE3PopcntofXORed` -/

/-- Aligned 128-bit load: the value stored at the address. -/
def _mm_load_si128 (p : M128) : M128 := p

/-- The all-zero register. -/
def _mm_setzero_si128 : M128 := Mathlib.Vector.replicate 16 0

/-- Register with the 32-bit lanes `e0` (lowest) to `e3` (highest). -/
def _mm_set_epi32 (e3 e2 e1 e0 : Nat) : M128 :=
  ofLanes32 fun k => if k.val = 0 then e0 else if k.val = 1 then e1 else if k.val = 2 then e2 else e3

/-- Bitwise exclusive or of two registers. -/
def _mm_xor_si128 (a b : M128) : M128 :=
  Mathlib.Vector.ofFn fun i => byte ((a.get i).val ^^^ (b.get i).val)

/-- Bitwise and of two registers. -/
def _mm_and_si128 (a b : M128) : M128 :=
  Mathlib.Vector.ofFn fun i => byte ((a.get i).val &&& (b.get i).val)

/-- Logical right shift of every 16-bit lane by the amount held in the low 64
bits of `count`; a count above 15 clears the lanes. -/
def _mm_srl_epi16 (a count : M128) : M128 :=
  ofLanes16 fun k => if 15 < lane64 count 0 then 0 else lane16 a k >>> lane64 count 0

/-- Byte shuffle (`PSHUFB`): byte `i` of the result is zero when bit 7 of the
selector byte is set, otherwise the byte of `a` indexed by the low four bits of the
selector. -/
def _mm_shuffle_epi8 (a b : M128) : M128 :=
  Mathlib.Vector.ofFn fun i => if (b.get i).val &&& 0x80 ≠ 0 then 0
    else a.get ⟨(b.get i).val &&& 0xf, Nat.lt_succ_of_le Nat.and_le_right⟩

/-- Byte-wise addition with wrap-around in every 8-bit lane. -/
def _mm_add_epi8 (a b : M128) : M128 :=
  Mathlib.Vector.ofFn fun i => byte ((a.get i).val + (b.get i).val)

/-- Absolute difference of two bytes. -/
def absDiff (x y : Nat) : Nat := if x < y then y - x else x - y

/-- Sum of absolute byte differences (`PSADBW`): each 64-bit lane receives the sum
over its eight bytes. -/
def _mm_sad_epu8 (a b : M128) : M128 :=
  ofLanes64 fun h =>
    absDiff (a.get ⟨8 * h.val, by omega⟩).val (b.get ⟨8 * h.val, by omega⟩).val
    + absDiff (a.get ⟨8 * h.val + 1, by omega⟩).val (b.get ⟨8 * h.val + 1, by omega⟩).val
    + absDiff (a.get ⟨8 * h.val + 2, by omega⟩).val (b.get ⟨8 * h.val + 2, by omega⟩).val
    + absDiff (a.get ⟨8 * h.val + 3, by omega⟩).val (b.get ⟨8 * h.val + 3, by omega⟩).val
    + absDiff (a.get ⟨8 * h.val + 4, by omega⟩).val (b.get ⟨8 * h.val + 4, by omega⟩).val
    + absDiff (a.get ⟨8 * h.val + 5, by omega⟩).val (b.get ⟨8 * h.val + 5, by omega⟩).val
    + absDiff (a.get ⟨8 * h.val + 6, by omega⟩).val (b.get ⟨8 * h.val + 6, by omega⟩).val
    + absDiff (a.get ⟨8 * h.val + 7, by omega⟩).val (b.get ⟨8 * h.val + 7, by omega⟩).val

/-- Addition with wrap-around in every 32-bit lane. -/
def _mm_add_epi32 (a b : M128) : M128 :=
  ofLanes32 fun k => (lane32 a k + lane32 b k) % 4294967296

/-- A packed single-precision register (`__m128`) whose four lanes hold
integer-valued floats, each represented by the integer it equals. Every float
produced from a 32-bit integer is of this kind. -/
abbrev M128f := Fin 4 → Int

/-- Reading of a 32-bit lane as a signed integer (two-complement). -/
def toSigned32 (x : Nat) : Int :=
  if x < 2147483648 then (x : Int) else (x : Int) - 4294967296

/-- Number of low bits a magnitude loses when it is stored with a 24-bit
significand; `fuel` bounds the search. -/
def f32Shift : Nat → Nat → Nat
  | 0, _ => 0
  | fuel + 1, a => if a < 16777216 then 0 else 1 + f32Shift fuel (a / 2)

/-- Rounding of a non-negative integer below `2 ^ 128` to single precision, to
nearest with ties to even (the default rounding mode); the fuel 128 covers every
such magnitude. -/
def roundF32Nat (a : Nat) : Nat :=
  let e := f32Shift 128 a
  let q := a / 2 ^ e
  let r := a % 2 ^ e
  if 2 * r > 2 ^ e ∨ (2 * r = 2 ^ e ∧ q % 2 = 1) then (q + 1) * 2 ^ e else q * 2 ^ e

/-- Rounding of an integer to single precision (`static_cast<float>`, `CVTDQ2PS`). -/
def roundF32 (v : Int) : Int :=
  if v < 0 then -((roundF32Nat v.natAbs : Nat) : Int) else ((roundF32Nat v.natAbs : Nat) : Int)

/-- Conversion of the four signed 32-bit lanes to single precision. -/
def _mm_cvtepi32_ps (a : M128) : M128f :=
  fun k => roundF32 (toSigned32 (lane32 a k))

/-- Move of the two high lanes of `b` to the two low lanes of the result; the two high
lanes come from `a`. -/
def _mm_movehl_ps (a b : M128f) : M128f :=
  fun k => if h : k.val < 2 then b ⟨k.val + 2, by omega⟩ else a k

/-- Conversion of four single-precision lanes to signed 32-bit integers; a value
outside the 32-bit range gives the indefinite integer `0x80000000`. -/
def _mm_cvtps_epi32 (a : M128f) : M128 :=
  ofLanes32 fun k =>
    if -2147483648 ≤ a k ∧ a k < 2147483648 then (a k % 4294967296).toNat else 2147483648

/-- The lowest 32-bit lane, as the bit pattern stored into the `uint32_t` result. -/
def _mm_cvtsi128_si32 (a : M128) : Nat := lane32 a 0

/-! ## The Hamming functions -/

/-- Ways in which a Hamming call fails to deliver a count: the exception thrown
for a null signature, and a read past the end of a signature buffer (undefined
in C++, kept apart from the exception). -/
inductive HammingError where
  | signatureNull
  | outOfBounds
  deriving DecidableEq, Repr

/-- One pass through the body of the `do ... while` loop of `SSSE3PopcntofXORed` on
the pair of words just read: returns the new `xmm0` and the new local
accumulator `xmm4`. -/
def ssse3Body (w1 w2 xmm4 : M128) : M128 × M128 :=
  let xmm7 := _mm_load_si128 POPCOUNT_4bit
  let xmm6 := _mm_load_si128 MASK_4bit
  let shiftval := _mm_set_epi32 0 0 0 4
  let xmm0 := _mm_xor_si128 w1 w2
  let xmm1 := xmm0
  let xmm1 := _mm_srl_epi16 xmm1 shiftval
  let xmm0 := _mm_and_si128 xmm0 xmm6
  let xmm1 := _mm_and_si128 xmm1 xmm6
  let xmm2 := xmm7
  let xmm3 := xmm7
  let xmm2 := _mm_shuffle_epi8 xmm2 xmm0
  let xmm3 := _mm_shuffle_epi8 xmm3 xmm1
  let xmm4 := _mm_add_epi8 xmm4 xmm2
  let xmm4 := _mm_add_epi8 xmm4 xmm3
  (xmm0, xmm4)

/-- The `do ... while (signature1 < end)` loop. `i` is the offset of `signature1`
from its initial value when the body is entered and `more` is `end - signature1 - 1`
there (clamped at zero): the body always runs, and the loop is re-entered exactly
when the incremented pointer is still below `end`. -/
def ssse3Loop (signature1 signature2 : List M128) :
    Nat → Nat → M128 → Except HammingError (M128 × M128)
  | more, i, xmm4 =>
    match signature1[i]?, signature2[i]? with
    | some w1, some w2 =>
      let st := ssse3Body w1 w2 xmm4
      match more with
      | 0 => .ok st
      | m + 1 => ssse3Loop signature1 signature2 m (i + 1) st.2
    | _, _ => .error .outOfBounds

/-- The code after the loop: horizontal reduction of the local accumulator. -/
def ssse3Reduce (xmm0 xmm4 : M128) : Nat :=
  let xmm5 := _mm_setzero_si128
  let xmm4 := _mm_sad_epu8 xmm4 xmm5
  let xmm5 := _mm_add_epi32 xmm5 xmm4
  let xmm0 := _mm_cvtps_epi32 (_mm_movehl_ps (_mm_cvtepi32_ps xmm0) (_mm_cvtepi32_ps xmm5))
  let xmm0 := _mm_add_epi32 xmm0 xmm5
  _mm_cvtsi128_si32 xmm0

/-- Function `Hamming::SSSE3PopcntofXORed` (the path compiled without NEON).
A null pointer is `none`; a non-null pointer is the list of 128-bit words readable
from it. -/
def SSSE3PopcntofXORed (signature1 signature2 : Option (List M128))
    (numberOf128BitWords : Int) : Except HammingError Nat :=
  match signature1, signature2 with
  | some s1, some s2 =>
    match ssse3Loop s1 s2 (numberOf128BitWords - 1).toNat 0 _mm_setzero_si128 with
    | .ok st => .ok (ssse3Reduce st.1 st.2)
    | .error e => .error e
  | _, _ => .error .signatureNull

/-- Bitwise exclusive or of two NEON vectors. -/
def veorq_u8 (a b : M128) : M128 :=
  Mathlib.Vector.ofFn fun i => byte ((a.get i).val ^^^ (b.get i).val)

/-- Store of a vector as two 64-bit words: `buf[0]` is the low half. -/
def vst1q_u64 (x : M128) : Nat × Nat := (lane64 x 0, lane64 x 1)

/-- Population count of a 64-bit word (`__builtin_popcountll`). -/
def __builtin_popcountll (x : Nat) : Nat := popcnt 64 x

/-- The `for (i = 0; i < numberOf128BitWords; ++i)` loop of `NEONPopcntofXORed`;
`remaining` is `numberOf128BitWords - i`, and `result` is a `uint32_t`. -/
def neonLoop (signature1 signature2 : List M128) :
    Nat → Nat → Nat → Except HammingError Nat
  | 0, _, result => .ok result
  | remaining + 1, i, result =>
    match signature1[i]?, signature2[i]? with
    | some w1, some w2 =>
      let xor_result := veorq_u8 w1 w2
      let buf := vst1q_u64 xor_result
      let result := (result + __builtin_popcountll buf.1) % 4294967296
      let result := (result + __builtin_popcountll buf.2) % 4294967296
      neonLoop signature1 signature2 remaining (i + 1) result
    | _, _ => .error .outOfBounds

/-- Function `Hamming::NEONPopcntofXORed` (the path compiled with NEON). -/
def NEONPopcntofXORed (signature1 signature2 : Option (List M128))
    (numberOf128BitWords : Int) : Except HammingError Nat :=
  match signature1, signature2 with
  | some s1, some s2 => neonLoop s1 s2 numberOf128BitWords.toNat 0 0
  | _, _ => .error .signatureNull

/-- The byte-wise population count of `a XOR b` for one pair of words. -/
def wordPopcount (a b : M128) : Nat :=
  ((List.finRange 16).map fun j => popcnt 8 ((a.get j).val ^^^ (b.get j).val)).sum

/-- The byte-wise popcount reference: number of set bits of `a XOR b` over the
first `n` words of the two buffers (words missing from a buffer count as absent). -/
def popcountReference (a b : List M128) (n : Nat) : Nat :=
  (((a.zip b).take n).map fun p => wordPopcount p.1 p.2).sum

/-! ## Auxiliary quantities used in the proofs -/

/-- Population count of byte `j` of `w1 XOR w2`. -/
def bytePop (j : Fin 16) (p : M128 × M128) : Nat :=
  popcnt 8 ((p.1.get j).val ^^^ (p.2.get j).val)

/-- Sum over a list of word pairs of the population counts of byte `j`. -/
def colSum (j : Fin 16) (l : List (M128 × M128)) : Nat := (l.map (bytePop j)).sum

/-- Sum of the eight bytes of one 64-bit half of a register. -/
def halfSum (x : M128) (h : Fin 2) : Nat :=
  (x.get ⟨8 * h.val, by omega⟩).val + (x.get ⟨8 * h.val + 1, by omega⟩).val
    + (x.get ⟨8 * h.val + 2, by omega⟩).val + (x.get ⟨8 * h.val + 3, by omega⟩).val
    + (x.get ⟨8 * h.val + 4, by omega⟩).val + (x.get ⟨8 * h.val + 5, by omega⟩).val
    + (x.get ⟨8 * h.val + 6, by omega⟩).val + (x.get ⟨8 * h.val + 7, by omega⟩).val

/-- Sum of a quantity over the sixteen byte lanes. -/
def lanesTotal (f : Fin 16 → Nat) : Nat := ((List.finRange 16).map f).sum

/-- Sum of the byte-wise population counts of a list of word pairs. -/
def pairsPop (l : List (M128 × M128)) : Nat := (l.map fun p => wordPopcount p.1 p.2).sum

/-! ## Concrete signatures -/

/-- A 128-bit word with every bit set. -/
def onesWord : M128 := Mathlib.Vector.replicate 16 255

/-- A 128-bit word with every bit clear. -/
def zeroWord : M128 := Mathlib.Vector.replicate 16 0

/-- A signature of `n` words with every bit set. -/
def onesSignature (n : Nat) : List M128 := List.replicate n onesWord

/-- A signature of `n` words with every bit clear. -/
def zeroSignature (n : Nat) : List M128 := List.replicate n zeroWord

/-! ## The brute-force matcher (`src/brute-force-matcher.cc`)

The matcher is generic in the row type `D` of a descriptor matrix. The three
things `brisk::Hamming` fixes for it are fields of the matcher: the distance
functor `distance_`, the matrix type code of `ValueType`, and the largest value
of `DistanceType`. Floats (`DMatch::distance`, `minVal`) are integer-valued
here and are represented by the integer they equal. -/

/-- A descriptor matrix (`cv::Mat`): element type code, row width, and rows. -/
structure Mat (D : Type) where
  /-- Type code of the elements (`Mat::type()`). -/
  type : Nat
  /-- Number of columns. -/
  cols : Nat
  /-- The rows, in order. -/
  data : List D

/-- Number of rows of a matrix. -/
def Mat.rows {D : Type} (m : Mat D) : Nat := m.data.length

/-- Query `Mat::empty()`: no element at all. -/
def Mat.empty {D : Type} (m : Mat D) : Bool := m.rows == 0 || m.cols == 0

/-- A mask matrix (`cv::Mat` of `uchar`): entry `(q, t)` is non-zero when train
row `t` may be matched to query row `q`. -/
structure MaskMat where
  /-- Number of rows (query rows). -/
  rows : Nat
  /-- Number of columns (train rows). -/
  cols : Nat
  /-- The entries. -/
  entries : Nat → Nat → Nat

/-- Query `Mat::empty()` for a mask. -/
def MaskMat.empty (m : MaskMat) : Bool := m.rows == 0 || m.cols == 0

/-- Number of non-zero entries of row `queryIdx` of a mask
(`countNonZero(mask.row(queryIdx))`). -/
def countNonZeroRow (m : MaskMat) (queryIdx : Nat) : Nat :=
  ((List.range m.cols).filter fun t => m.entries queryIdx t != 0).length

/-- Function `DescriptorMatcher::isPossibleMatch` of OpenCV: an empty mask
allows every pair. -/
def isPossibleMatch (mask : MaskMat) (queryIdx trainIdx : Nat) : Bool :=
  mask.empty || mask.entries queryIdx trainIdx != 0

/-- Function `DescriptorMatcher::isMaskedOut` of OpenCV: there are masks, and
every one of them is non-empty with an all-zero row for the query. -/
def isMaskedOut (masks : List MaskMat) (queryIdx : Nat) : Bool :=
  !masks.isEmpty
    && (masks.filter fun m => !m.empty && countNonZeroRow m queryIdx == 0).length
      == masks.length

/-- A match record (`cv::DMatch`). -/
structure DMatch where
  /-- Index of the query row. -/
  queryIdx : Int
  /-- Index of the train row. -/
  trainIdx : Int
  /-- Index of the train set. -/
  imgIdx : Int
  /-- The distance, a `float`. -/
  distance : Int
  deriving DecidableEq, Repr

/-- The largest finite `float`, `(2 ^ 24 - 1) * 2 ^ 104`. -/
def FLT_MAX : Int := 340282346638528859811704183484516925440

/-- The default-constructed `cv::DMatch`. -/
def DMatch.default : DMatch := ⟨-1, -1, -1, FLT_MAX⟩

/-- The matcher object. -/
structure BruteForceMatcher (D : Type) where
  /-- The distance functor: two rows and the dimension give a `DistanceType`. -/
  distance_ : D → D → Int → Int
  /-- Value of `cv::DataType<ValueType>::type`. -/
  valueType : Nat
  /-- Value of `std::numeric_limits<DistanceType>::max()`. -/
  distMax : Int
  /-- The train descriptor sets. -/
  trainDescCollection : List (Mat D)

/-- Ways in which a matcher call fails to deliver its output: a failed `assert`,
and an access past the end of `masks` (undefined in C++, kept apart). -/
inductive MatchError where
  | assertion
  | outOfBounds
  deriving DecidableEq, Repr

/-- The two `assert`s on one train set. -/
def trainAsserts {D : Type} (M : BruteForceMatcher D) (queryDescriptors train : Mat D) : Bool :=
  (M.valueType == train.type || train.empty) && (queryDescriptors.cols == train.cols || train.empty)

/-- The loop over `tIdx` of step 1, on the rows of one train set from `tIdx` on:
the entry of `allDists[iIdx]` is the distance when the pair is allowed and stays
at the largest `DistanceType` otherwise. -/
def knnDistRow {D : Type} (M : BruteForceMatcher D) (dimension : Int) (masks : List MaskMat)
    (qIdx iIdx : Nat) (d1 : D) : List D → Nat → Except MatchError (List Int)
  | [], _ => .ok []
  | d2 :: rest, tIdx =>
    if masks.isEmpty then
      match knnDistRow M dimension masks qIdx iIdx d1 rest (tIdx + 1) with
      | .ok r => .ok (M.distance_ d1 d2 dimension :: r)
      | .error e => .error e
    else
      match masks[iIdx]? with
      | none => .error .outOfBounds
      | some mask =>
        match knnDistRow M dimension masks qIdx iIdx d1 rest (tIdx + 1) with
        | .ok r =>
          .ok ((if isPossibleMatch mask qIdx tIdx then M.distance_ d1 d2 dimension
            else M.distMax) :: r)
        | .error e => .error e

/-- Step 1 of `commonKnnMatchImpl` for one query row: the loop over `iIdx`, on the
train sets from `iIdx` on; the result is `allDists`. -/
def knnAllDists {D : Type} (M : BruteForceMatcher D) (queryDescriptors : Mat D)
    (masks : List MaskMat) (qIdx : Nat) (d1 : D) :
    List (Mat D) → Nat → Except MatchError (List (List Int))
  | [], _ => .ok []
  | train :: rest, iIdx =>
    if trainAsserts M queryDescriptors train then
      match knnDistRow M queryDescriptors.cols masks qIdx iIdx d1 train.data 0 with
      | .error e => .error e
      | .ok row =>
        match knnAllDists M queryDescriptors masks qIdx d1 rest (iIdx + 1) with
        | .ok r => .ok (row :: r)
        | .error e => .error e
    else .error .assertion

/-- Index of the first smallest element from position `i` on, given the best
position and value so far (the scan of `minMaxLoc`). -/
def minLocFrom : List Int → Nat → Nat → Int → Nat × Int
  | [], _, loc, val => (loc, val)
  | x :: rest, i, loc, val =>
    if x < val then minLocFrom rest (i + 1) i x else minLocFrom rest (i + 1) loc val

/-- Function `minMaxLoc` on a one-row matrix, for the minimum only: the column of the
first smallest entry, and that entry. -/
def minMaxLoc : List Int → Nat × Int
  | [] => (0, 0)
  | x :: rest => minLocFrom rest 1 0 x

/-- The loop over `iIdx` of step 2: the best match over the train sets from
`iIdx` on, `bestMatch` being the best so far. -/
def knnBest (qIdx : Nat) : List (List Int) → Nat → DMatch → DMatch
  | [], _, bestMatch => bestMatch
  | dists :: rest, iIdx, bestMatch =>
    if !dists.isEmpty then
      let minLoc := (minMaxLoc dists).1
      let minVal := (minMaxLoc dists).2
      if minVal < bestMatch.distance then
        knnBest qIdx rest (iIdx + 1) ⟨qIdx, minLoc, iIdx, roundF32 minVal⟩
      else knnBest qIdx rest (iIdx + 1) bestMatch
    else knnBest qIdx rest (iIdx + 1) bestMatch

/-- Assignment `allDists[imgIdx].at<DistanceType>(0, trainIdx) = v`. -/
def setDist (allDists : List (List Int)) (imgIdx trainIdx : Nat) (v : Int) : List (List Int) :=
  allDists.modify (fun row => row.set trainIdx v) imgIdx

/-- The loop `for (k = 0; k < knn; k++)` of step 2 with `remaining` passes to go:
picks the best match, stops when there is none, otherwise invalidates its entry and
appends it to `curMatches`. -/
def knnSelect (distMax : Int) (qIdx : Nat) :
    Nat → List (List Int) → List DMatch → List DMatch
  | 0, _, curMatches => curMatches
  | remaining + 1, allDists, curMatches =>
    let bestMatch := knnBest qIdx allDists 0 ⟨-1, -1, -1, FLT_MAX⟩
    if bestMatch.trainIdx = -1 then curMatches
    else
      knnSelect distMax qIdx remaining
        (setDist allDists bestMatch.imgIdx.toNat bestMatch.trainIdx.toNat distMax)
        (curMatches ++ [bestMatch])

/-- Order of `cv::DMatch` used by `std::sort`: `a` may stand before `b`, that is
`b < a` (`b.distance < a.distance`) does not hold. -/
def DMatch.le (a b : DMatch) : Prop := a.distance ≤ b.distance

instance : DecidableRel DMatch.le := fun a b => Int.decLe a.distance b.distance

/-- Call `std::sort(curMatches->begin(), curMatches->end())`: the matches in an
order in which no match is smaller than one before it. The order the library gives
to matches of equal distance is not fixed; here they keep their order. -/
def sortMatches (curMatches : List DMatch) : List DMatch :=
  curMatches.insertionSort DMatch.le

/-- The `else` branch of the query loop of `commonKnnMatchImpl`: the result slot of
a query row that is not masked out. -/
def knnQuery {D : Type} (M : BruteForceMatcher D) (queryDescriptors : Mat D) (knn : Int)
    (masks : List MaskMat) (qIdx : Nat) (d1 : D) : Except MatchError (List DMatch) :=
  match knnAllDists M queryDescriptors masks qIdx d1 M.trainDescCollection 0 with
  | .error e => .error e
  | .ok allDists => .ok (sortMatches (knnSelect M.distMax qIdx knn.toNat allDists []))

/-- The loop over the query rows from `qIdx` on: the result slots pushed to
`matches`, in the order of the pushes. -/
def knnLoop {D : Type} (M : BruteForceMatcher D) (queryDescriptors : Mat D) (knn : Int)
    (masks : List MaskMat) (compactResult : Bool) :
    List D → Nat → Except MatchError (List (List DMatch))
  | [], _ => .ok []
  | d1 :: rest, qIdx =>
    if isMaskedOut masks qIdx then
      match knnLoop M queryDescriptors knn masks compactResult rest (qIdx + 1) with
      | .ok r => .ok (if !compactResult then [] :: r else r)
      | .error e => .error e
    else
      match knnQuery M queryDescriptors knn masks qIdx d1 with
      | .error e => .error e
      | .ok curMatches =>
        match knnLoop M queryDescriptors knn masks compactResult rest (qIdx + 1) with
        | .ok r => .ok (curMatches :: r)
        | .error e => .error e

/-- Function `BruteForceMatcher::commonKnnMatchImpl`, with its `assert`s active:
the final content of `matches`, which holds `matchesIn` at the call. -/
def commonKnnMatchImpl {D : Type} (M : BruteForceMatcher D) (queryDescriptors : Mat D)
    (matchesIn : List (List DMatch)) (knn : Int) (masks : List MaskMat) (compactResult : Bool) :
    Except MatchError (List (List DMatch)) :=
  if queryDescriptors.empty then .error .assertion
  else if M.valueType != queryDescriptors.type then .error .assertion
  else
    match knnLoop M queryDescriptors knn masks compactResult queryDescriptors.data 0 with
    | .ok r => .ok (matchesIn ++ r)
    | .error e => .error e

/-- The loop over `tIdx` of `commonRadiusMatchImpl`, on the rows of one train set
from `tIdx` on: the matches pushed. `maxDistance` is a `float`, and the
`DistanceType` value `d` is converted to `float` for the comparison. -/
def radiusRow {D : Type} (M : BruteForceMatcher D) (dimension : Int) (maxDistance : ℚ)
    (masks : List MaskMat) (qIdx iIdx : Nat) (d1 : D) :
    List D → Nat → Except MatchError (List DMatch)
  | [], _ => .ok []
  | d2 :: rest, tIdx =>
    if masks.isEmpty then
      match radiusRow M dimension maxDistance masks qIdx iIdx d1 rest (tIdx + 1) with
      | .ok r =>
        let d := M.distance_ d1 d2 dimension
        .ok (if ((roundF32 d : Int) : ℚ) < maxDistance then ⟨qIdx, tIdx, iIdx, roundF32 d⟩ :: r
          else r)
      | .error e => .error e
    else
      match masks[iIdx]? with
      | none => .error .outOfBounds
      | some mask =>
        match radiusRow M dimension maxDistance masks qIdx iIdx d1 rest (tIdx + 1) with
        | .ok r =>
          let d := M.distance_ d1 d2 dimension
          .ok (if isPossibleMatch mask qIdx tIdx ∧ ((roundF32 d : Int) : ℚ) < maxDistance
            then ⟨qIdx, tIdx, iIdx, roundF32 d⟩ :: r else r)
        | .error e => .error e

/-- The loop over `iIdx` of `commonRadiusMatchImpl` for one query row, on the train
sets from `iIdx` on: the matches pushed to `curMatches`. -/
def radiusSets {D : Type} (M : BruteForceMatcher D) (queryDescriptors : Mat D)
    (maxDistance : ℚ) (masks : List MaskMat) (qIdx : Nat) (d1 : D) :
    List (Mat D) → Nat → Except MatchError (List DMatch)
  | [], _ => .ok []
  | train :: rest, iIdx =>
    if trainAsserts M queryDescriptors train then
      match radiusRow M queryDescriptors.cols maxDistance masks qIdx iIdx d1 train.data 0 with
      | .error e => .error e
      | .ok row =>
        match radiusSets M queryDescriptors maxDistance masks qIdx d1 rest (iIdx + 1) with
        | .ok r => .ok (row ++ r)
        | .error e => .error e
    else .error .assertion

/-- The `else` branch of the query loop of `commonRadiusMatchImpl`. -/
def radiusQuery {D : Type} (M : BruteForceMatcher D) (queryDescriptors : Mat D)
    (maxDistance : ℚ) (masks : List MaskMat) (qIdx : Nat) (d1 : D) :
    Except MatchError (List DMatch) :=
  match radiusSets M queryDescriptors maxDistance masks qIdx d1 M.trainDescCollection 0 with
  | .error e => .error e
  | .ok curMatches => .ok (sortMatches curMatches)

/-- The loop over the query rows of `commonRadiusMatchImpl` from `qIdx` on. -/
def radiusLoop {D : Type} (M : BruteForceMatcher D) (queryDescriptors : Mat D)
    (maxDistance : ℚ) (masks : List MaskMat) (compactResult : Bool) :
    List D → Nat → Except MatchError (List (List DMatch))
  | [], _ => .ok []
  | d1 :: rest, qIdx =>
    if isMaskedOut masks qIdx then
      match radiusLoop M queryDescriptors maxDistance masks compactResult rest (qIdx + 1) with
      | .ok r => .ok (if !compactResult then [] :: r else r)
      | .error e => .error e
    else
      match radiusQuery M queryDescriptors maxDistance masks qIdx d1 with
      | .error e => .error e
      | .ok curMatches =>
        match radiusLoop M queryDescriptors maxDistance masks compactResult rest (qIdx + 1) with
        | .ok r => .ok (curMatches :: r)
        | .error e => .error e

/-- Function `BruteForceMatcher::commonRadiusMatchImpl`, with its `assert`s active:
the final content of `matches`, which holds `matchesIn` at the call. The test for an
empty query is a `CV_DbgAssert`, which is empty unless `_DEBUG` is defined, and is
not made. -/
def commonRadiusMatchImpl {D : Type} (M : BruteForceMatcher D) (queryDescriptors : Mat D)
    (matchesIn : List (List DMatch)) (maxDistance : ℚ) (masks : List MaskMat)
    (compactResult : Bool) : Except MatchError (List (List DMatch)) :=
  if M.valueType != queryDescriptors.type then .error .assertion
  else
    match radiusLoop M queryDescriptors maxDistance masks compactResult
        queryDescriptors.data 0 with
    | .ok r => .ok (matchesIn ++ r)
    | .error e => .error e

/-! ## A concrete matcher -/

/-- The distance functor `brisk::Hamming` of a build with SSSE3, on rows of 128-bit
words: the call `SSSE3PopcntofXORed(a, b, size / 16)` for rows of `size` bytes; 0
stands for a call that fails. The header that declares the functor is not among the
sources; `hamming-inl.h` has the count it calls. -/
def exampleDistance (a b : List M128) (dimension : Int) : Int :=
  match SSSE3PopcntofXORed (some a) (some b) (dimension / 16) with
  | .ok d => d
  | .error _ => 0

/-- A matcher with the distance `exampleDistance`, the type code 0 (`CV_8U`) and
`2147483647` as largest distance value (a 32-bit `int`). -/
def exampleMatcher (train : List (Mat (List M128))) : BruteForceMatcher (List M128) :=
  ⟨exampleDistance, 0, 2147483647, train⟩

/-- A matrix of 16-byte rows of type code 0. -/
def exampleMat (rows : List (List M128)) : Mat (List M128) := ⟨0, 16, rows⟩

/-- A descriptor row of one word with the given byte in every position. -/
def constRow (b : Nat) : List M128 := [Mathlib.Vector.replicate 16 (byte b)]

/-- A mask over one query row and two train rows that allows train row 1 only. -/
def maskSecondOnly : MaskMat := ⟨1, 2, fun _ t => if t = 1 then 1 else 0⟩

/-- A mask over one query row and one train row that allows nothing. -/
def maskNone : MaskMat := ⟨1, 1, fun _ _ => 0⟩

/-- An empty mask matrix. -/
def maskEmpty : MaskMat := ⟨0, 0, fun _ _ => 0⟩

/-- Whether train row `tIdx` of train set `iIdx` is eligible for query row `qIdx`:
every pair is when there are no masks, otherwise the mask of the train set decides. -/
def eligible (masks : List MaskMat) (qIdx iIdx tIdx : Nat) : Bool :=
  masks.isEmpty ||
    match masks[iIdx]? with
    | some mask => isPossibleMatch mask qIdx tIdx
    | none => false

/-- The eligible rows of one train set within the threshold, the rows being
numbered from `tIdx` on: one record per row, with the distance itself. -/
def radiusReferenceRow {D : Type} (M : BruteForceMatcher D) (dimension : Int) (maxDistance : ℚ)
    (masks : List MaskMat) (qIdx iIdx : Nat) (d1 : D) (rows : List D) (tIdx : Nat) :
    List DMatch :=
  (rows.enumFrom tIdx).filterMap fun td =>
    if eligible masks qIdx iIdx td.1 ∧ ((M.distance_ d1 td.2 dimension : Int) : ℚ) < maxDistance
    then some ⟨qIdx, td.1, iIdx, M.distance_ d1 td.2 dimension⟩ else none

/-- The brute-force enumeration the radius match is compared with: over the train
sets, numbered from `iIdx` on, one record for every eligible train row whose
distance to the query row is strictly below the threshold. -/
def radiusReference {D : Type} (M : BruteForceMatcher D) (dimension : Int) (maxDistance : ℚ)
    (masks : List MaskMat) (qIdx : Nat) (d1 : D) (trains : List (Mat D)) (iIdx : Nat) :
    List DMatch :=
  ((trains.enumFrom iIdx).map fun it =>
    radiusReferenceRow M dimension maxDistance masks qIdx it.1 d1 it.2.data 0).flatten

/-- Whether every train set of the matcher passes the two `assert`s. -/
def trainsOk {D : Type} (M : BruteForceMatcher D) (queryDescriptors : Mat D) : Bool :=
  M.trainDescCollection.all fun train => trainAsserts M queryDescriptors train

/-- Whether one of the `n` query rows from `qIdx` on is not masked out. -/
def someQueryUnmasked (masks : List MaskMat) (qIdx n : Nat) : Bool :=
  (List.range' qIdx n).any fun q => !isMaskedOut masks q

/-! ## Copies of a matcher (`BruteForceMatcher::clone`) -/

/-- Call `std::transform(first, last, d_first, op)`: the elements of the source,
mapped by `op`, are assigned to the elements of the destination from its beginning
on; the destination keeps its size, and an assignment beyond its end is an access
outside it. -/
def transformInto {α β : Type} (op : α → β) : List α → List β → Except MatchError (List β)
  | [], dst => .ok dst
  | _ :: _, [] => .error .outOfBounds
  | a :: rest, _ :: dst =>
    match transformInto op rest dst with
    | .ok r => .ok (op a :: r)
    | .error e => .error e

/-- Function `BruteForceMatcher::clone`: the matcher the call is made on, as it is
after the call, and the matcher returned. `newTrainDescCollection` is the train
collection of the object that `new BruteForceMatcher(distance_)` gives, whose
constructor is declared in a header that is not among the sources, and `clone_op`
is the copy of a matrix. -/
def clone {D : Type} (M : BruteForceMatcher D) (newTrainDescCollection : List (Mat D))
    (clone_op : Mat D → Mat D) (emptyTrainData : Bool) :
    Except MatchError (BruteForceMatcher D × BruteForceMatcher D) :=
  let matcher : BruteForceMatcher D :=
    ⟨M.distance_, M.valueType, M.distMax, newTrainDescCollection⟩
  if !emptyTrainData then
    match transformInto clone_op M.trainDescCollection matcher.trainDescCollection with
    | .ok collection => .ok (M, { matcher with trainDescCollection := collection })
    | .error e => .error e
  else .ok (M, matcher)

/-- A matcher on rows that are integers, with the distance `min(|a - b|, 1000)`, the
type code 0 and `2147483647` as largest distance value. -/
def absDiffMatcher (train : List (Mat Int)) : BruteForceMatcher Int :=
  ⟨fun a b _ => min ((a - b).natAbs : Int) 1000, 0, 2147483647, train⟩


/-! ## Single precision on rational numbers

A `float` is the rational number it equals. Every operation on `float` operands
rounds its exact result to single precision (round to nearest, ties to even), one
operation at a time. A magnitude of `2 ^ 128` stands for infinity. -/

/-- Rounding of a rational number to the nearest integer, ties to the even one. -/
def roundHalfEven (t : ℚ) : Int :=
  if 2 * (t - ⌊t⌋) < 1 then ⌊t⌋
  else if 1 < 2 * (t - ⌊t⌋) then ⌊t⌋ + 1
  else if ⌊t⌋ % 2 = 0 then ⌊t⌋
  else ⌊t⌋ + 1

/-- Rounding of a non-negative rational number to single precision. The number is
taken in units of `2 ^ -149`, the spacing of the smallest floats; from `2 ^ 24`
units on, the spacing is the power of two that leaves 24 bits. From `2 ^ 128` on
the result is `2 ^ 128`. -/
def f32Mag (a : ℚ) : ℚ :=
  if ((2 ^ 128 : Nat) : ℚ) ≤ a then ((2 ^ 128 : Nat) : ℚ)
  else
    let e := f32Shift 254 ⌊a * ((2 ^ 149 : Nat) : ℚ)⌋.toNat
    ((roundHalfEven (a * ((2 ^ 149 : Nat) : ℚ) / ((2 ^ e : Nat) : ℚ)) * ((2 ^ e : Nat) : Int)
      : Int) : ℚ) / ((2 ^ 149 : Nat) : ℚ)

/-- Rounding of a rational number to single precision: the value a `float` takes
when it receives the exact result of an operation. -/
def f32 (q : ℚ) : ℚ := if q < 0 then -f32Mag (-q) else f32Mag q

/-- Constant `M_PI`, a `double`. -/
def M_PI : ℚ := 884279719003555 / 281474976710656

/-! ## The descriptor extractor (`src/brisk-descriptor-extractor.cc`)

Floats that the code only stores, copies and compares (keypoint coordinates, sizes
and angles) are rational numbers here. The floating-point expressions built on
`log`, the function `atan2` and the image samples are fields of `FloatOps`: the
functions below are stated for whatever values those take. The extractor is the one
without a camera model (`imageJacobians_` empty). -/

/-- A key point (`cv::KeyPoint`). -/
structure KeyPoint where
  /-- Coordinate `pt.x`. -/
  x : ℚ
  /-- Coordinate `pt.y`. -/
  y : ℚ
  /-- Diameter of the neighbourhood. -/
  size : ℚ
  /-- Orientation in degrees, `-1` when not set. -/
  angle : ℚ
  /-- Detector response. -/
  response : ℚ
  /-- Pyramid octave. -/
  octave : Int
  /-- Object class. -/
  class_id : Int
  deriving DecidableEq

/-- A pair of pattern points compared for one descriptor bit. -/
structure BriskShortPair where
  /-- Index of the first point. -/
  i : Nat
  /-- Index of the second point. -/
  j : Nat
  deriving DecidableEq

/-- A pair of pattern points used for the orientation. -/
structure BriskLongPair where
  /-- Index of the first point. -/
  i : Nat
  /-- Index of the second point. -/
  j : Nat
  /-- Fixed-point weight of the difference in `x`. -/
  weighted_dx : Int
  /-- Fixed-point weight of the difference in `y`. -/
  weighted_dy : Int
  deriving DecidableEq

/-- Element depths of a `cv::Mat`. -/
inductive Depth where
  | CV_8U
  | CV_8S
  | CV_16U
  | CV_16S
  | CV_32S
  | CV_32F
  | CV_64F
  deriving DecidableEq, Repr

/-- Size in bytes of one channel of an element. -/
def Depth.elemSize1 : Depth → Nat
  | .CV_8U => 1
  | .CV_8S => 1
  | .CV_16U => 2
  | .CV_16S => 2
  | .CV_32S => 4
  | .CV_32F => 4
  | .CV_64F => 8

/-- What `doDescriptorComputation` reads of the image header. -/
structure Image where
  /-- Result of `isContinuous()`. -/
  isContinuous : Bool
  /-- Result of `channels()`. -/
  channels : Nat
  /-- Result of `depth()`. -/
  depth : Depth
  /-- Number of columns. -/
  cols : Int
  /-- Number of rows. -/
  rows : Int

/-- Query `Mat::elemSize()`: bytes per element. -/
def Image.elemSize (image : Image) : Nat := image.channels * image.depth.elemSize1

/-- Test `image.type() == CV_<depth>C1`. -/
def Image.isC1 (image : Image) (depth : Depth) : Bool :=
  image.depth == depth && image.channels == 1

/-- The members of the extractor that `doDescriptorComputation` and
`setDescriptorBits` read. `noShortPairs_` is the length of `shortPairs_`, and
`noLongPairs_` the length of `longPairs_`. The array `patternPoints_` has the
`unsigned int` number `points_ * scales_ * n_rot_` of entries, as both constructions
of the tables allocate it. -/
structure BriskDescriptorExtractor where
  /-- Member `rotationInvariance`. -/
  rotationInvariance : Bool
  /-- Member `scaleInvariance`. -/
  scaleInvariance : Bool
  /-- Number of pattern points. -/
  points_ : Nat
  /-- Border needed at every scale (`unsigned int` entries). -/
  sizeList_ : List Nat
  /-- The short pairs. -/
  shortPairs_ : List BriskShortPair
  /-- The long pairs. -/
  longPairs_ : List BriskLongPair
  /-- Number of bytes of a descriptor. -/
  strings_ : Nat

/-- Constant `scales_`. -/
def scales_ : Nat := 64

/-- Constant `n_rot_`. -/
def n_rot_ : Nat := 1024

/-- Values of the floating-point expressions of `doDescriptorComputation`. -/
structure FloatOps where
  /-- Value of `static_cast<int>(scales_ / lb_scalerange
  * (log(size / basicSize06) / log2) + 0.5)` for a key point size. -/
  scaleExpr : ℚ → Int
  /-- Value of the same expression for the size `1.45 * basicSize_`. -/
  basicScaleExpr : Int
  /-- Value of `SmoothedIntensity` on the image at a position, for a scale, a
  rotation and a pattern point whose entry lies in `patternPoints_`. -/
  smoothedIntensity : Image → ℚ → ℚ → Nat → Int → Nat → Int
  /-- Value of `atan2(y, x)`. -/
  atan2 : ℚ → ℚ → ℚ
  /-- Value of `static_cast<int>((n_rot_ * angle) / 360.0 + 0.5)`. -/
  rotEstimated : ℚ → Int
  /-- Value of `static_cast<int>(n_rot_ * (angle / 360.0) + 0.5)`. -/
  rotSupplied : ℚ → Int

/-- The descriptor matrix (`cv::Mat` of `CV_8UC1`). Its buffer is accessed through
`UINT32_ALIAS` only and is kept as the sequence of its 32-bit words. -/
structure Descriptors where
  /-- Number of rows. -/
  rows : Nat
  /-- Number of columns, in bytes. -/
  cols : Nat
  /-- The buffer, in 32-bit words. -/
  words : List Nat
  deriving DecidableEq

/-- Ways in which the extractor fails: the three exceptions, and an access outside
an array (undefined in C++, kept apart). -/
inductive ExtractError where
  | descriptorsNull
  | requires8Bit
  | unsupportedFormat
  | outOfBounds
  deriving DecidableEq, Repr

/-- Function `RoiPredicate`: whether the key point lies outside the region. -/
def RoiPredicate (minX minY maxX maxY : ℚ) (keyPt : KeyPoint) : Bool :=
  decide (keyPt.x < minX) || decide (keyPt.x ≥ maxX)
    || decide (keyPt.y < minY) || decide (keyPt.y ≥ maxY)

/-- The loop over the short pairs of `setDescriptorBits`: `ptr2` is the index of the
current word and `shifter` the current bit. -/
def setBitsLoop (values : List Int) :
    List BriskShortPair → Nat → Nat → List Nat → Except ExtractError (List Nat)
  | [], _, _, words => .ok words
  | iter :: rest, ptr2, shifter, words =>
    match values[iter.i]?, values[iter.j]? with
    | some t1, some t2 =>
      if t1 > t2 then
        match words[ptr2]? with
        | some w =>
          if shifter + 1 = 32 then
            setBitsLoop values rest (ptr2 + 1) 0 (words.set ptr2 (w ||| (1 <<< shifter)))
          else
            setBitsLoop values rest ptr2 (shifter + 1) (words.set ptr2 (w ||| (1 <<< shifter)))
        | none => .error .outOfBounds
      else if shifter + 1 = 32 then setBitsLoop values rest (ptr2 + 1) 0 words
      else setBitsLoop values rest ptr2 (shifter + 1) words
    | _, _ => .error .outOfBounds

/-- Function `BriskDescriptorExtractor::setDescriptorBits`. A null `descriptors`
is `none`; `ptr` is byte `strings_ * keypoint_idx` of the buffer, that is word
`strings_ * keypoint_idx / 4`. -/
def setDescriptorBits (E : BriskDescriptorExtractor) (keypoint_idx : Nat) (values : List Int)
    (descriptors : Option Descriptors) : Except ExtractError Descriptors :=
  match descriptors with
  | none => .error .descriptorsNull
  | some d =>
    match setBitsLoop values E.shortPairs_ (E.strings_ * keypoint_idx / 4) 0 d.words with
    | .ok words => .ok { d with words := words }
    | .error e => .error e

/-- Function `BriskDescriptorExtractor::AllocateDescriptors`: a zero matrix of
`count` rows of `strings_` bytes. -/
def AllocateDescriptors (E : BriskDescriptorExtractor) (count : Nat) : Descriptors :=
  ⟨count, E.strings_, List.replicate (count * E.strings_ / 4) 0⟩

/-- The scale index of a key point in `doDescriptorComputation`. -/
def keypointScale (E : BriskDescriptorExtractor) (F : FloatOps) (kp : KeyPoint) : Nat :=
  if E.scaleInvariance then
    let scale := (max (F.scaleExpr kp.size) 0).toNat
    if scale ≥ scales_ then scales_ - 1 else scale
  else (max F.basicScaleExpr 0).toNat

/-- The first loop of `doDescriptorComputation`: the key points kept, each with its
scale (`valid_kp` and `valid_scales`). The bounds are `int`s converted to
`float`. -/
def borderLoop (E : BriskDescriptorExtractor) (F : FloatOps) (image : Image) :
    List KeyPoint → Except ExtractError (List (KeyPoint × Nat))
  | [] => .ok []
  | kp :: rest =>
    let scale := keypointScale E F kp
    match E.sizeList_[scale]? with
    | none => .error .outOfBounds
    | some size =>
      let border := toSigned32 (size % 4294967296)
      let border_x := image.cols - border
      let border_y := image.rows - border
      match borderLoop E F image rest with
      | .error e => .error e
      | .ok valid =>
        .ok (if !RoiPredicate (roundF32 border) (roundF32 border) (roundF32 border_x)
            (roundF32 border_y) kp then (kp, scale) :: valid else valid)

/-- The index `scale * n_rot_ * points_ + rot * points_ + point` at which
`SmoothedIntensity` reads `patternPoints_`. Its parameters `scale`, `rot` and `point`
are `unsigned int`s, so that an `int` rotation index is taken modulo `2 ^ 32`, and
so is the sum. -/
def patternIndex (E : BriskDescriptorExtractor) (scale : Nat) (rot : Int) (point : Nat) : Nat :=
  (scale % 4294967296 * n_rot_ * E.points_ + (rot % 4294967296).toNat * E.points_ + point)
    % 4294967296

/-- Number of entries of the array `patternPoints_`. -/
def patternTableSize (E : BriskDescriptorExtractor) : Nat :=
  E.points_ * scales_ * n_rot_ % 4294967296

/-- The values that the loop over the pattern points stores in `_values` when every
read of `patternPoints_` is inside the array. -/
def sampledList (E : BriskDescriptorExtractor) (F : FloatOps) (image : Image) (kp : KeyPoint)
    (scale : Nat) (rot : Int) : List Int :=
  (List.range E.points_).map fun i => F.smoothedIntensity image kp.x kp.y scale rot i

/-- The loop `for (i = 0; i < points_; i++) *(pvalues++) = SmoothedIntensity(...)`:
the gray values of the pattern points for one key point, scale and rotation. A read
of `patternPoints_` outside the array is an access outside it. -/
def sampleValues (E : BriskDescriptorExtractor) (F : FloatOps) (image : Image) (kp : KeyPoint)
    (scale : Nat) (rot : Int) : Except ExtractError (List Int) :=
  if (List.range E.points_).all fun i => decide (patternIndex E scale rot i < patternTableSize E)
  then .ok (sampledList E F image kp scale rot)
  else .error .outOfBounds

/-- Value of `atan2(static_cast<float>(direction1), static_cast<float>(direction0))
/ M_PI * 180.0` as the `float` angle of a key point receives it: the two sums are
converted to `float`, the division and the multiplication are those of `double`,
taken as exact, and the result is rounded to single precision. -/
def orientationDegrees (F : FloatOps) (direction1 direction0 : Int) : ℚ :=
  f32 (F.atan2 ((roundF32 direction1 : Int) : ℚ) ((roundF32 direction0 : Int) : ℚ) / M_PI * 180)

/-- The loop over the long pairs: `direction0` and `direction1`. The division is
the one of `int`, which truncates. -/
def directionLoop (values : List Int) :
    List BriskLongPair → Int → Int → Except ExtractError (Int × Int)
  | [], direction0, direction1 => .ok (direction0, direction1)
  | iter :: rest, direction0, direction1 =>
    match values[iter.i]?, values[iter.j]? with
    | some t1, some t2 =>
      let delta_t := t1 - t2
      let tmp0 := (delta_t * iter.weighted_dx).tdiv 1024
      let tmp1 := (delta_t * iter.weighted_dy).tdiv 1024
      directionLoop values rest (direction0 + tmp0) (direction1 + tmp1)
    | _, _ => .error .outOfBounds

/-- The two corrections of `theta` after its computation. -/
def wrapTheta (theta : Int) : Int :=
  let theta := if theta < 0 then theta + n_rot_ else theta
  if theta ≥ n_rot_ then theta - n_rot_ else theta

/-- The part of the second loop that fixes the angle of a key point and the
rotation index `theta`. -/
def resolveTheta (E : BriskDescriptorExtractor) (F : FloatOps) (image : Image) (kp : KeyPoint)
    (scale : Nat) : Except ExtractError (KeyPoint × Int) :=
  if kp.angle = -1 then
    if !E.rotationInvariance then .ok (kp, 0)
    else
      match sampleValues E F image kp scale 0 with
      | .error e => .error e
      | .ok values =>
        match directionLoop values E.longPairs_ 0 0 with
        | .error e => .error e
        | .ok direction =>
          let kp := { kp with angle := orientationDegrees F direction.2 direction.1 }
          .ok (kp, wrapTheta (F.rotEstimated kp.angle))
  else if !E.rotationInvariance then .ok (kp, 0)
  else .ok (kp, wrapTheta (F.rotSupplied kp.angle))

/-- The second loop of `doDescriptorComputation` on the key points from index `k`
on: the key points with their angles, and the descriptors. -/
def extractLoop (E : BriskDescriptorExtractor) (F : FloatOps) (image : Image) :
    List (KeyPoint × Nat) → Nat → Descriptors → Except ExtractError (List KeyPoint × Descriptors)
  | [], _, descriptors => .ok ([], descriptors)
  | (kp, scale) :: rest, k, descriptors =>
    match resolveTheta E F image kp scale with
    | .error e => .error e
    | .ok (kp, theta) =>
      match sampleValues E F image kp scale theta with
      | .error e => .error e
      | .ok values =>
        match setDescriptorBits E k values (some descriptors) with
        | .error e => .error e
        | .ok descriptors =>
          match extractLoop E F image rest (k + 1) descriptors with
          | .error e => .error e
          | .ok (kps, descriptors) => .ok (kp :: kps, descriptors)

/-- Function `BriskDescriptorExtractor::doDescriptorComputation`: the final
`keypoints` and `descriptors`. -/
def doDescriptorComputation (E : BriskDescriptorExtractor) (F : FloatOps) (image : Image)
    (keypoints : List KeyPoint) : Except ExtractError (List KeyPoint × Descriptors) :=
  if !image.isContinuous || image.channels != 1 || image.elemSize != 1 then
    .error .requires8Bit
  else
    match borderLoop E F image keypoints with
    | .error e => .error e
    | .ok valid =>
      let descriptors := AllocateDescriptors E valid.length
      if image.isC1 .CV_16U then
        extractLoop E F image valid 0 descriptors
      else if image.isC1 .CV_8U then
        extractLoop E F image valid 0 descriptors
      else .error .unsupportedFormat

/-! ## Reference descriptions for the extractor -/

/-- The comparison behind one descriptor bit: whether the value of the first point
of the pair is strictly greater than the value of the second. -/
def pairBit (values : List Int) (p : BriskShortPair) : Bool :=
  decide (values.getD p.i 0 > values.getD p.j 0)

/-- The value a descriptor is meant to have at bit position `m`: the comparison of
the `m`-th pair, and 0 at and beyond the number of pairs. -/
def descriptorBit (values : List Int) (pairs : List BriskShortPair) (m : Nat) : Bool :=
  match pairs[m]? with
  | some p => pairBit values p
  | none => false

/-- Bit `m` of the descriptor row that starts at word `base` of a buffer: bit
`m mod 32` of word `m div 32` of the row. -/
def rowBit (words : List Nat) (base m : Nat) : Bool :=
  (words.getD (base + m / 32) 0).testBit (m % 32)

/-- Whether a key point lies in the region a border leaves inside the image. -/
def insideBorder (image : Image) (border : Int) (kp : KeyPoint) : Bool :=
  decide ((border : ℚ) ≤ kp.x) && decide (kp.x < ((image.cols - border : Int) : ℚ))
    && decide ((border : ℚ) ≤ kp.y) && decide (kp.y < ((image.rows - border : Int) : ℚ))

/-- The border of a key point: the entry of `sizeList_` at its scale index. -/
def keypointBorder (E : BriskDescriptorExtractor) (F : FloatOps) (kp : KeyPoint) : Int :=
  ((E.sizeList_.getD (keypointScale E F kp) 0 : Nat) : Int)

/-- Whether the first loop of `doDescriptorComputation` keeps a key point: the test
of `RoiPredicate` on the bounds converted to `float`. -/
def keepsKeypoint (E : BriskDescriptorExtractor) (F : FloatOps) (image : Image)
    (kp : KeyPoint) : Bool :=
  match E.sizeList_[keypointScale E F kp]? with
  | none => false
  | some size =>
    !RoiPredicate (roundF32 (toSigned32 (size % 4294967296)))
      (roundF32 (toSigned32 (size % 4294967296)))
      (roundF32 (image.cols - toSigned32 (size % 4294967296)))
      (roundF32 (image.rows - toSigned32 (size % 4294967296))) kp

/-- The pattern tables fit together: the row width is a multiple of four bytes and
holds one bit per short pair, and the pairs refer to pattern points. -/
def patternFits (E : BriskDescriptorExtractor) : Prop :=
  4 ∣ E.strings_ ∧ E.shortPairs_.length ≤ 8 * E.strings_
    ∧ (∀ p ∈ E.shortPairs_, p.i < E.points_ ∧ p.j < E.points_)
    ∧ (∀ p ∈ E.longPairs_, p.i < E.points_ ∧ p.j < E.points_)

/-- The image is one of continuous single-channel 8-bit unsigned elements. -/
def imageAccepted (image : Image) : Prop :=
  image.isContinuous = true ∧ image.channels = 1 ∧ image.depth = Depth.CV_8U

/-- The scale index of every key point is an index of `sizeList_`. -/
def scalesInRange (E : BriskDescriptorExtractor) (F : FloatOps) (keypoints : List KeyPoint) :
    Prop :=
  ∀ kp ∈ keypoints, keypointScale E F kp < E.sizeList_.length

/-- The rotation indices stay in the table: `sizeList_` has its `scales_` entries,
the number of entries of `patternPoints_` has not wrapped, and the value cast to
`int` for the rotation index lies from `-n_rot_` up to below `2 * n_rot_`, where
the two corrections bring it into `[0, n_rot_)`: for every estimated angle, and for
the angle of every key point that comes with one. -/
def rotationsInTable (E : BriskDescriptorExtractor) (F : FloatOps) (keypoints : List KeyPoint) :
    Prop :=
  E.sizeList_.length = scales_ ∧ E.points_ * scales_ * n_rot_ < 4294967296
    ∧ (∀ direction1 direction0 : Int,
      -(n_rot_ : Int) ≤ F.rotEstimated (orientationDegrees F direction1 direction0)
        ∧ F.rotEstimated (orientationDegrees F direction1 direction0) < 2 * (n_rot_ : Int))
    ∧ ∀ kp ∈ keypoints, kp.angle ≠ -1 →
      -(n_rot_ : Int) ≤ F.rotSupplied kp.angle ∧ F.rotSupplied kp.angle < 2 * (n_rot_ : Int)

/-! ## A concrete extractor -/

/-- An extractor with three pattern points, three short pairs, one long pair, a
border of 2 at every scale and rows of 16 bytes. -/
def exampleExtractor : BriskDescriptorExtractor :=
  ⟨true, true, 3, List.replicate 64 2, [⟨0, 1⟩, ⟨1, 0⟩, ⟨2, 0⟩], [⟨2, 0, 1024, 2048⟩], 16⟩

/-- Values for the floating-point expressions: scale index 0 for every size, the
sample `7 * point mod 5` everywhere, `M_PI / 4` for every `atan2`, which gives an
orientation of 45 degrees, and rotation index 128. -/
def exampleFloatOps : FloatOps :=
  ⟨fun _ => 0, 17, fun _ _ _ _ _ i => ((7 * i % 5 : Nat) : Int), fun _ _ => M_PI / 4,
    fun _ => 128, fun _ => 128⟩

/-- A continuous single-channel 8-bit image of 10 by 10 pixels. -/
def exampleImage : Image := ⟨true, 1, .CV_8U, 10, 10⟩

/-- Three key points: one inside the border without an angle, one on the border, one
inside with an angle of 90 degrees. -/
def exampleKeypoints : List KeyPoint :=
  [⟨5, 5, 7, -1, 0, 0, 0⟩, ⟨0, 0, 7, 30, 0, 0, 0⟩, ⟨6, 4, 7, 90, 0, 0, 0⟩]

/-! ## Scale and rotation indices -/

/-- Conversion `static_cast<int>` of a floating-point value within the range of
`int`: truncation toward zero. -/
def truncToInt (t : ℚ) : Int := if 0 ≤ t then ⌊t⌋ else ⌈t⌉

/-- Saturation of a value to the interval from `lo` to `hi`. -/
def clampInt (v lo hi : Int) : Int := max lo (min v hi)

/-- Value of `static_cast<int>((n_rot_ * angle) / 360.0 + 0.5)`, the rotation index
before correction for an estimated angle, with exact arithmetic (the operations are
exact for instance at the multiples of 45 degrees). -/
def rotEstimatedExact (angle : ℚ) : Int := truncToInt ((n_rot_ * angle) / 360 + 1 / 2)

/-- Value of `static_cast<int>(n_rot_ * (angle / 360.0) + 0.5)`, the rotation index
before correction for a supplied angle, with exact arithmetic. -/
def rotSuppliedExact (angle : ℚ) : Int := truncToInt (n_rot_ * (angle / 360) + 1 / 2)

/-- Rounding to the nearest integer, halves upward. -/
def roundNearest (t : ℚ) : Int := ⌊t + 1 / 2⌋

/-- The rotation index the orientation is meant to give: `angle / (360 / 1024)`
rounded to the nearest integer and reduced modulo 1024 into `[0, 1024)`. -/
def rotationIndexReference (angle : ℚ) : Int := roundNearest (angle / (360 / 1024)) % 1024

/-- The values of `exampleFloatOps` with the two rotation expressions computed
exactly. -/
def exactRotationOps : FloatOps :=
  { exampleFloatOps with rotEstimated := rotEstimatedExact, rotSupplied := rotSuppliedExact }

/-! ## Construction of the pattern tables (`generateKernel`, `InitFromStream`)

The arithmetic that gives the pattern points, their `sigma` and the borders is exact
here (rational numbers); the functions of `<cmath>` that have no rational value are
fields of `PatternOps`. The pair generation, which compares squared distances with
thresholds, is in single precision: it reads the coordinates as the `float`s that
the array holds, and every operation on `float` operands rounds its result
(`f32`). -/

/-- A pattern point (`BriskPatternPoint`). -/
structure BriskPatternPoint where
  /-- Offset in `x`. -/
  x : ℚ
  /-- Offset in `y`. -/
  y : ℚ
  /-- Standard deviation of the smoothing. -/
  sigma : ℚ
  deriving DecidableEq

/-- Values of the functions of `<cmath>` used while the tables are built. -/
structure PatternOps where
  /-- Value of `pow(2.0, scale * lb_scale_step)`, stored in `scaleList_[scale]`. -/
  scaleList : Nat → ℚ
  /-- Value of `cos(alpha + theta)` for a rotation, a point number and the number of
  points of its ring. -/
  cosRing : Nat → Nat → Int → ℚ
  /-- Value of `sin(alpha + theta)` for the same arguments. -/
  sinRing : Nat → Nat → Int → ℚ
  /-- Value of `sin(M_PI / numberList[ring])` for a number of points. -/
  sinPi : Int → ℚ
  /-- Value of `cos(theta)` for a rotation. -/
  cosRot : Nat → ℚ
  /-- Value of `sin(theta)` for a rotation. -/
  sinRot : Nat → ℚ
  /-- Value of `sqrt`. -/
  sqrt : ℚ → ℚ

/-- Constant `sigma_scale`. -/
def sigma_scale : ℚ := 13 / 10

/-- The `unsigned int size = ceil(v) + 1` of one pattern point; a negative value,
whose conversion is undefined in C++, gives 0. -/
def pointSize (v : ℚ) : Nat := (⌈v⌉ + 1).toNat

/-- The loop over `num` of `generateKernel` for one scale, rotation and ring: the
pattern points written, each with its `size`. -/
def ringPoints (ops : PatternOps) (scale rot ring : Nat) (radius : ℚ) (count : Int) :
    List (BriskPatternPoint × Nat) :=
  (List.range count.toNat).map fun num =>
    let sigma := if ring = 0 then sigma_scale * ops.scaleList scale * (1 / 2)
      else sigma_scale * ops.scaleList scale * radius * ops.sinPi count
    (⟨ops.scaleList scale * radius * ops.cosRing rot num count,
      ops.scaleList scale * radius * ops.sinRing rot num count, sigma⟩,
      pointSize (ops.scaleList scale * radius + sigma))

/-- The loop over `ring` of `generateKernel` for one scale and rotation. -/
def rotationPoints (ops : PatternOps) (radiusList : List ℚ) (numberList : List Int)
    (scale rot : Nat) : List (BriskPatternPoint × Nat) :=
  ((radiusList.zip numberList).enum.map fun rc =>
    ringPoints ops scale rot rc.1 rc.2.1 rc.2.2).flatten

/-- The loop over `rot` of `generateKernel` for one scale. -/
def scalePoints (ops : PatternOps) (radiusList : List ℚ) (numberList : List Int)
    (scale : Nat) : List (BriskPatternPoint × Nat) :=
  ((List.range n_rot_).map fun rot => rotationPoints ops radiusList numberList scale rot).flatten

/-- The value of `sizeList_[scale]` after the points of a scale: it starts at 0 and
is replaced by every larger `size`. -/
def sizeListEntry (points : List (BriskPatternPoint × Nat)) : Nat :=
  points.foldl (fun size p => if size < p.2 then p.2 else size) 0

/-- The order in which the two nested loops visit the pairs: `i` from 1 to
`points_ - 1`, and for each `i`, `j` from 0 to `i - 1`. -/
def pairEnumeration (points_ : Nat) : List (Nat × Nat) :=
  ((List.range' 1 (points_ - 1)).map fun i => (List.range i).map fun j => (i, j)).flatten

/-- Value of the `float` variable `dx = pj.x - pi.x` (or `dy`) for the coordinates
`ci` and `cj` of two pattern points: the coordinates are `float`s, and so is their
difference. -/
def floatDifference (ci cj : ℚ) : ℚ := f32 (f32 cj - f32 ci)

/-- Value of the `float` variable `norm_sq = dx * dx + dy * dy` for two pattern
points `pi` and `pj`: the two products and the sum are rounded one after the
other. -/
def normSq (pi pj : BriskPatternPoint) : ℚ :=
  f32 (f32 (floatDifference pi.x pj.x * floatDifference pi.x pj.x)
    + f32 (floatDifference pi.y pj.y * floatDifference pi.y pj.y))

/-- Value of `int((d / norm_sq) * 2048.0 + 0.5)` for the `float`s `d` and `norm_sq`:
the quotient is rounded to single precision, the multiplication and the addition are
those of `double`, taken as exact, and the conversion truncates. -/
def longPairWeight (d norm_sq : ℚ) : Int :=
  truncToInt (f32 (d / norm_sq) * 2048 + 1 / 2)

/-- The pair tables while they are built: `shortPairs_` is an array whose entries
are `none` until they are written. -/
structure PairTables where
  /-- The long pairs, in the order written. -/
  longPairs_ : List BriskLongPair
  /-- The array of short pairs. -/
  shortPairs_ : List (Option BriskShortPair)
  /-- Number of short pairs written. -/
  noShortPairs_ : Nat
  deriving DecidableEq

/-- Ways in which the construction of the tables fails: a failed `assert`, an
access outside an array (undefined in C++, kept apart), the exception for a
wrong number of short pairs, and a failed read from the stream. -/
inductive KernelError where
  | assertion
  | outOfBounds
  | shortPairsMismatch
  | streamFailed
  deriving DecidableEq, Repr

/-- Value of the `unsigned int` expression `points_ * (points_ - 1) / 2`, the number
of entries of the arrays `shortPairs_` and `longPairs_` and of a filled
`indexChange`. -/
def pairCapacity (points_ : Nat) : Nat :=
  points_ * ((points_ + 4294967295) % 4294967296) % 4294967296 / 2

/-- The body of the inner loop of the pair generation for the pair `(i, j)`;
`dMin_sq` and `dMax_sq` are the two `float` thresholds. The array `longPairs_` has as
many entries as the array `shortPairs_`; a long pair beyond them is an access
outside the array. -/
def pairStep (patternPoints_ : List BriskPatternPoint) (dMin_sq dMax_sq : ℚ)
    (indexChange : List Nat) (st : PairTables) (ij : Nat × Nat) :
    Except KernelError PairTables :=
  match patternPoints_[ij.2]?, patternPoints_[ij.1]? with
  | some pj, some pi =>
    let norm_sq := normSq pi pj
    if norm_sq > dMin_sq ∧ st.shortPairs_.length ≤ st.longPairs_.length then .error .outOfBounds
    else
      let longPairs := if norm_sq > dMin_sq then
          st.longPairs_ ++ [⟨ij.1, ij.2, longPairWeight (floatDifference pi.x pj.x) norm_sq,
            longPairWeight (floatDifference pi.y pj.y) norm_sq⟩]
        else st.longPairs_
      if norm_sq < dMax_sq then
        match indexChange[st.noShortPairs_]? with
        | none => .error .assertion
        | some idx =>
          if idx < st.shortPairs_.length then
            .ok ⟨longPairs, st.shortPairs_.set idx (some ⟨ij.1, ij.2⟩), st.noShortPairs_ + 1⟩
          else .error .outOfBounds
      else .ok ⟨longPairs, st.shortPairs_, st.noShortPairs_⟩
  | _, _ => .error .outOfBounds

/-- The two nested loops of the pair generation, on the pairs still to visit. -/
def pairLoop (patternPoints_ : List BriskPatternPoint) (dMin_sq dMax_sq : ℚ)
    (indexChange : List Nat) : List (Nat × Nat) → PairTables → Except KernelError PairTables
  | [], st => .ok st
  | ij :: rest, st =>
    match pairStep patternPoints_ dMin_sq dMax_sq indexChange st ij with
    | .error e => .error e
    | .ok st => pairLoop patternPoints_ dMin_sq dMax_sq indexChange rest st

/-- The pair generation of `generateKernel`: allocation of the arrays, filling of an
empty `indexChange` with `0 .. n`, the two `float` thresholds `dMin_sq = dMin_ * dMin_`
and `dMax_sq = dMax_ * dMax_`, and the loops. -/
def kernelPairs (patternPoints_ : List BriskPatternPoint) (points_ : Nat) (dMin_ dMax_ : ℚ)
    (indexChange : List Nat) : Except KernelError PairTables :=
  let indexChange := if indexChange.length = 0 then List.range (pairCapacity points_)
    else indexChange
  pairLoop patternPoints_ (f32 (dMin_ * dMin_)) (f32 (dMax_ * dMax_)) indexChange
    (pairEnumeration points_) ⟨[], List.replicate (pairCapacity points_) none, 0⟩

/-- The number of bytes of a descriptor, `(int)ceil((float(noShortPairs_)) / 128.0)
* 4 * 4`: the count is converted to `float` first. -/
def stringsOf (noShortPairs_ : Nat) : Nat :=
  (⌈((roundF32 (noShortPairs_ : Int) : Int) : ℚ) / 128⌉).toNat * 4 * 4

/-- The members that the construction of the tables sets. -/
structure KernelTables where
  /-- Member `dMax_`. -/
  dMax_ : ℚ
  /-- Member `dMin_`. -/
  dMin_ : ℚ
  /-- Number of pattern points. -/
  points_ : Nat
  /-- The pattern points of all scales and rotations. -/
  patternPoints_ : List BriskPatternPoint
  /-- The border of every scale. -/
  sizeList_ : List Nat
  /-- The array of short pairs. -/
  shortPairs_ : List (Option BriskShortPair)
  /-- The long pairs. -/
  longPairs_ : List BriskLongPair
  /-- Number of short pairs. -/
  noShortPairs_ : Nat
  /-- Number of long pairs. -/
  noLongPairs_ : Nat
  /-- Number of bytes of a descriptor. -/
  strings_ : Nat

/-- The statements of `generateKernel` after its first `assert`, for lists of radii
and of numbers of points that have one entry per ring: the tables built. `points_` is
the `unsigned int` sum of the numbers of points, and the array `patternPoints_` has
the `unsigned int` number `points_ * scales_ * n_rot_` of entries: more points than
that are written outside the array. -/
def kernelTables (ops : PatternOps) (radiusList : List ℚ) (numberList : List Int)
    (dMax dMin : ℚ) (indexChange : List Nat) : Except KernelError KernelTables :=
  let points_ := (numberList.sum % 4294967296).toNat
  let scales := (List.range scales_).map fun scale =>
    scalePoints ops radiusList numberList scale
  let patternPoints_ := (scales.map fun pts => pts.map Prod.fst).flatten
  let sizeList_ := scales.map sizeListEntry
  if points_ * scales_ * n_rot_ % 4294967296 < patternPoints_.length then .error .outOfBounds
  else
    match kernelPairs patternPoints_ points_ dMin dMax indexChange with
    | .error e => .error e
    | .ok pairs =>
      .ok ⟨dMax, dMin, points_, patternPoints_, sizeList_, pairs.shortPairs_,
        pairs.longPairs_, pairs.noShortPairs_, pairs.longPairs_.length,
        stringsOf pairs.noShortPairs_⟩

/-- Function `BriskDescriptorExtractor::generateKernel`, with its `assert`s active:
the tables built. -/
def generateKernel (ops : PatternOps) (radiusList : List ℚ) (numberList : List Int)
    (dMax dMin : ℚ) (indexChange : List Nat) : Except KernelError KernelTables :=
  if radiusList.length != 0 && radiusList.length == numberList.length then
    kernelTables ops radiusList numberList dMax dMin indexChange
  else .error .assertion

/-- Function `BriskDescriptorExtractor::generateKernel` as compiled with `NDEBUG`,
where an `assert` is no statement. The loops run over the `rings = radiusList.size()`
first entries of `numberList`, and an entry read beyond its end is an access outside
it; where the `assert` of the pair generation would have failed, `indexChange` is
read beyond its end. -/
def generateKernelNDEBUG (ops : PatternOps) (radiusList : List ℚ) (numberList : List Int)
    (dMax dMin : ℚ) (indexChange : List Nat) : Except KernelError KernelTables :=
  if numberList.length < radiusList.length then .error .outOfBounds
  else
    match kernelTables ops radiusList (numberList.take radiusList.length) dMax dMin
        indexChange with
    | .error .assertion => .error .outOfBounds
    | .error e => .error e
    | .ok tables => .ok tables

/-- Function `BriskDescriptorExtractor::descriptorSize`. -/
def descriptorSize (E : BriskDescriptorExtractor) : Nat := E.strings_

/-- The pattern stream: whether it is `good()` at the call, and the numbers that
remain to be read from it. -/
structure PatternStream where
  /-- Result of `good()`. -/
  good : Bool
  /-- The numbers in the stream. -/
  tokens : List ℚ

/-- Extraction `pattern_stream >> n` of an `unsigned int`: succeeds on a natural
number below `2^32`. -/
def readUnsigned : List ℚ → Option (Nat × List ℚ)
  | [] => none
  | q :: rest =>
    if q.den = 1 ∧ 0 ≤ q.num ∧ q.num.toNat < 4294967296 then some (q.num.toNat, rest) else none

/-- The loop that reads `u_x[i]`, `u_y[i]` and `sigma[i]` for `count` points, each
multiplied by `patternScale`. -/
def readPoints (patternScale : ℚ) : Nat → List ℚ → Option (List BriskPatternPoint × List ℚ)
  | 0, tokens => some ([], tokens)
  | count + 1, u_x :: u_y :: sigma :: tokens =>
    match readPoints patternScale count tokens with
    | some r => some (⟨u_x * patternScale, u_y * patternScale, sigma * patternScale⟩ :: r.1, r.2)
    | none => none
  | _ + 1, _ => none

/-- The loop that reads `count` short pairs. -/
def readShortPairs : Nat → List ℚ → Option (List BriskShortPair × List ℚ)
  | 0, tokens => some ([], tokens)
  | count + 1, tokens =>
    match readUnsigned tokens with
    | none => none
    | some (i, tokens) =>
      match readUnsigned tokens with
      | none => none
      | some (j, tokens) =>
        match readShortPairs count tokens with
        | some r => some (⟨i, j⟩ :: r.1, r.2)
        | none => none

/-- The loop that reads `count` long pairs and computes their weights from the
points `u`, in single precision as the pair generation of `generateKernel` does. A
pair that names a point beyond `u` (an access outside the arrays in C++) ends the
reading; the weights of a pair of coincident points, for which C++ converts a NaN to
`int`, are 0 here. -/
def readLongPairs (u : List BriskPatternPoint) : Nat → List ℚ →
    Option (List BriskLongPair × List ℚ)
  | 0, tokens => some ([], tokens)
  | count + 1, tokens =>
    match readUnsigned tokens with
    | none => none
    | some (i, tokens) =>
      match readUnsigned tokens with
      | none => none
      | some (j, tokens) =>
        match u[i]?, u[j]? with
        | some pi, some pj =>
          match readLongPairs u count tokens with
          | some r =>
            some (⟨i, j, longPairWeight (floatDifference pi.x pj.x) (normSq pi pj),
              longPairWeight (floatDifference pi.y pj.y) (normSq pi pj)⟩ :: r.1, r.2)
          | none => none
        | _, _ => none

/-- The loop over the points of `InitFromStream` for one scale and rotation: the
pattern points written, each with its `size`. -/
def streamRotationPoints (ops : PatternOps) (u : List BriskPatternPoint) (scale rot : Nat) :
    List (BriskPatternPoint × Nat) :=
  u.map fun p =>
    let x := ops.scaleList scale * (p.x * ops.cosRot rot - p.y * ops.sinRot rot)
    let y := ops.scaleList scale * (p.x * ops.sinRot rot + p.y * ops.cosRot rot)
    let sigma := sigma_scale * ops.scaleList scale * p.sigma
    (⟨x, y, sigma⟩, pointSize (ops.sqrt (x * x + y * y) + sigma))

/-- The loop over `rot` of `InitFromStream` for one scale. -/
def streamScalePoints (ops : PatternOps) (u : List BriskPatternPoint) (scale : Nat) :
    List (BriskPatternPoint × Nat) :=
  ((List.range n_rot_).map fun rot => streamRotationPoints ops u scale rot).flatten

/-- Constant `kDescriptorLength`. -/
def kDescriptorLength : Nat := 384

/-- Function `BriskDescriptorExtractor::InitFromStream`, with its `assert` active:
the tables built. The two invariance flags are stored as given and are left out; a
failed extraction from the stream, after which the members hold no defined value,
is kept apart from the exception. The array `patternPoints_` has the `unsigned int`
number `points_ * scales_ * n_rot_` of entries: more points than that are written
outside the array. -/
def InitFromStream (ops : PatternOps) (pattern_stream : PatternStream) (patternScale : ℚ) :
    Except KernelError KernelTables :=
  if !pattern_stream.good then .error .assertion
  else
    match readUnsigned pattern_stream.tokens with
    | none => .error .streamFailed
    | some (points_, tokens) =>
      match readPoints patternScale points_ tokens with
      | none => .error .streamFailed
      | some (u, tokens) =>
        let scales := (List.range scales_).map fun scale => streamScalePoints ops u scale
        let patternPoints_ := (scales.map fun pts => pts.map Prod.fst).flatten
        let sizeList_ := scales.map sizeListEntry
        if points_ * scales_ * n_rot_ % 4294967296 < patternPoints_.length then
          .error .outOfBounds
        else
          match readUnsigned tokens with
          | none => .error .streamFailed
          | some (noShortPairs_, tokens) =>
            match readShortPairs noShortPairs_ tokens with
            | none => .error .streamFailed
            | some (shortPairs, tokens) =>
              match readUnsigned tokens with
              | none => .error .streamFailed
              | some (noLongPairs_, tokens) =>
                match readLongPairs u noLongPairs_ tokens with
                | none => .error .streamFailed
                | some (longPairs, _) =>
                  if noShortPairs_ != kDescriptorLength then .error .shortPairsMismatch
                  else
                    .ok ⟨0, 0, points_, patternPoints_, sizeList_, shortPairs.map some,
                      longPairs, noShortPairs_, noLongPairs_, stringsOf noShortPairs_⟩

/-- The numbers of a well-formed pattern stream: the number of points and the
points, the declared number of short pairs and the short pairs, the number of long
pairs and the long pairs. -/
def serializePattern (points : List BriskPatternPoint) (declaredShortPairs : Nat)
    (shortPairs : List BriskShortPair) (longPairs : List (Nat × Nat)) : List ℚ :=
  [(points.length : ℚ)] ++ (points.map fun p => [p.x, p.y, p.sigma]).flatten
    ++ [(declaredShortPairs : ℚ)] ++ (shortPairs.map fun p => [(p.i : ℚ), (p.j : ℚ)]).flatten
    ++ [(longPairs.length : ℚ)] ++ (longPairs.map fun p => [(p.1 : ℚ), (p.2 : ℚ)]).flatten

/-- Value of the `float` variable `norm_sq` for the pair `(i, j)` of points of
`patternPoints_`. -/
def pairNormSq (patternPoints_ : List BriskPatternPoint) (ij : Nat × Nat) : ℚ :=
  match patternPoints_[ij.2]?, patternPoints_[ij.1]? with
  | some pj, some pi => normSq pi pj
  | _, _ => 0

/-- Whether a pair belongs to the long pairs: its `norm_sq` is above the threshold
`dMin_sq`. -/
def isLongPair (patternPoints_ : List BriskPatternPoint) (dMin_sq : ℚ) (ij : Nat × Nat) : Bool :=
  decide (pairNormSq patternPoints_ ij > dMin_sq)

/-- Whether a pair belongs to the short pairs: its `norm_sq` is below the threshold
`dMax_sq`. -/
def isShortPair (patternPoints_ : List BriskPatternPoint) (dMax_sq : ℚ) (ij : Nat × Nat) : Bool :=
  decide (pairNormSq patternPoints_ ij < dMax_sq)

/-- The array of short pairs after the pairs of a list have been stored one after
the other, pair number `n + k` of the list at position `indexChange[n + k]`. -/
def writeShorts (indexChange : List Nat) :
    Nat → List (Nat × Nat) → List (Option BriskShortPair) → List (Option BriskShortPair)
  | _, [], array => array
  | n, ij :: rest, array =>
    writeShorts indexChange (n + 1) rest (array.set (indexChange.getD n 0) (some ⟨ij.1, ij.2⟩))

/-- The remapping `generateKernel` works with: the one supplied, or `0 .. n` when
none is supplied. -/
def effectiveIndexChange (points_ : Nat) (indexChange : List Nat) : List Nat :=
  if indexChange.length = 0 then List.range (pairCapacity points_) else indexChange

/-- The squared distance of the pair `(i, j)` of points of `patternPoints_`, in exact
arithmetic on the stored coordinates. -/
def pairSquaredDistance (patternPoints_ : List BriskPatternPoint) (ij : Nat × Nat) : ℚ :=
  match patternPoints_[ij.2]?, patternPoints_[ij.1]? with
  | some pj, some pi => (pj.x - pi.x) * (pj.x - pi.x) + (pj.y - pi.y) * (pj.y - pi.y)
  | _, _ => 0

/-! ## Concrete patterns -/

/-- Three pattern points at the corners of a 3-4-5 triangle. -/
def threePoints : List BriskPatternPoint := [⟨0, 0, 1⟩, ⟨3, 0, 1⟩, ⟨0, 4, 1⟩]

/-- Values for the functions of `<cmath>`: scale factor 1, the direction `(1, 0)`
for every angle, and the integer part of the square root. -/
def examplePatternOps : PatternOps :=
  ⟨fun _ => 1, fun _ _ _ => 1, fun _ _ _ => 0, fun _ => 0, fun _ => 1, fun _ => 0,
    fun v => ((Nat.sqrt ⌊v⌋.toNat : Nat) : ℚ)⟩

/-- Values of `cos` at the eighths of a turn for which `10 * cos` is the `float` that
`generateKernel` stores as `x` on a ring of radius 10: `1`, `0.7071067810058594`,
`6.123234e-17`, and so on. -/
def storedCos : List ℚ :=
  [1, 926819 / 1310720, 5783231 / 94447329657392904273920, -926819 / 1310720, -1,
    -926819 / 1310720, -4337423 / 23611832414348226068480, 926819 / 1310720]

/-- Values of `sin` at the eighths of a turn for which `10 * sin` is the `float` that
`generateKernel` stores as `y` on a ring of radius 10. -/
def storedSin : List ℚ :=
  [0, 926819 / 1310720, 1, 926819 / 1310720, 5783231 / 47223664828696452136960,
    -926819 / 1310720, -1, -926819 / 1310720]

/-- Values for the functions of `<cmath>` on rings whose numbers of points divide 8:
scale factor `1 + scale / 16`, the values `storedCos` and `storedSin` at the eighth
of a turn reached by a point of a ring and a rotation by a multiple of 128 steps, and
`3 / 8` for the sine in `sigma`. -/
def storedRingOps : PatternOps :=
  ⟨fun scale => 1 + (scale : ℚ) / 16,
    fun rot num count => storedCos.getD ((num * (8 / count.toNat) + rot / 128) % 8) 1,
    fun rot num count => storedSin.getD ((num * (8 / count.toNat) + rot / 128) % 8) 0,
    fun _ => 3 / 8,
    fun rot => storedCos.getD (rot / 128 % 8) 1, fun rot => storedSin.getD (rot / 128 % 8) 0,
    fun v => ((Nat.sqrt ⌊v⌋.toNat : Nat) : ℚ)⟩

/-- The five pattern points that `generateKernel` stores for scale 0 and rotation 0,
one ring of radius 0 with 1 point and one ring of radius 10 with 4 points: the
`float`s nearest to `10 * cos` and `10 * sin` of the multiples of `M_PI / 2`. -/
def fivePoints : List BriskPatternPoint :=
  [⟨0, 0, 13 / 20⟩, ⟨10, 0, 39 / 8⟩, ⟨5783231 / 9444732965739290427392, 10, 39 / 8⟩,
    ⟨-10, 5783231 / 4722366482869645213696, 39 / 8⟩,
    ⟨-4337423 / 2361183241434822606848, -10, 39 / 8⟩]

/-- The nine pattern points that `generateKernel` stores for scale 0 and rotation 0,
one ring of radius 0 with 1 point and one ring of radius 10 with 8 points: the
`float`s nearest to `10 * cos` and `10 * sin` of the multiples of `M_PI / 4`. -/
def ninePoints : List BriskPatternPoint :=
  [⟨0, 0, 13 / 20⟩, ⟨10, 0, 39 / 8⟩, ⟨926819 / 131072, 926819 / 131072, 39 / 8⟩,
    ⟨5783231 / 9444732965739290427392, 10, 39 / 8⟩,
    ⟨-926819 / 131072, 926819 / 131072, 39 / 8⟩,
    ⟨-10, 5783231 / 4722366482869645213696, 39 / 8⟩,
    ⟨-926819 / 131072, -926819 / 131072, 39 / 8⟩,
    ⟨-4337423 / 2361183241434822606848, -10, 39 / 8⟩,
    ⟨926819 / 131072, -926819 / 131072, 39 / 8⟩]

/-! ## Reference descriptions for the orientation -/

/-- What one long pair adds to a direction sum: the difference of the values of its
two points times a weight, divided by `divisor` as `int`s are (toward zero). -/
def directionTerm (values : List Int) (i j : Nat) (weight divisor : Int) : Int :=
  ((values.getD i 0 - values.getD j 0) * weight).tdiv divisor


/-! ## Sampling of the image (`SmoothedIntensity<unsigned char, int>`)

The arithmetic on `float` is exact here (rational numbers), the conversions of an
`int` to `float` included; a conversion of a `float` to `int` truncates. The
arithmetic on `int` is the one of the integers. The function is the one without a
warp (`warp` null), as the extractor without a camera model calls it. -/

/-- An 8-bit single-channel continuous image: its size and its buffer, row after
row. -/
structure PixelImage where
  /-- Number of columns. -/
  cols : Int
  /-- Number of rows. -/
  rows : Int
  /-- The pixels. -/
  data : List Nat

/-- Ways in which the sampling fails to deliver a value: an access outside a buffer
and a division by zero (both undefined in C++). -/
inductive SampleError where
  | outOfBounds
  | divisionByZero
  deriving DecidableEq, Repr

/-- Read of `*(data + offset)`, converted to `int`. -/
def readAt (data : List Nat) (offset : Int) : Except SampleError Int :=
  if offset < 0 then .error .outOfBounds
  else
    match data[offset.toNat]? with
    | some v => .ok (v : Int)
    | none => .error .outOfBounds

/-- Read of an entry of the integral table. -/
def readIntegral (data : List Int) (offset : Int) : Except SampleError Int :=
  if offset < 0 then .error .outOfBounds
  else
    match data[offset.toNat]? with
    | some v => .ok v
    | none => .error .outOfBounds

/-- The branch `sigma_half < 0.5` of `SmoothedIntensity`: interpolation between four
pixels. -/
def bilinearSample (image : PixelImage) (xf yf : ℚ) : Except SampleError Int :=
  let x := truncToInt xf
  let y := truncToInt yf
  if x < 0 then .ok (-1)
  else if x > image.cols - 2 then .ok (-1)
  else if y < 0 then .ok (-1)
  else if y > image.rows - 2 then .ok (-1)
  else
    let r_x := truncToInt ((xf - x) * 1024)
    let r_y := truncToInt ((yf - y) * 1024)
    let r_x_1 := 1024 - r_x
    let r_y_1 := 1024 - r_y
    let ptr := x + y * image.cols
    match readAt image.data ptr with
    | .error e => .error e
    | .ok p0 =>
      match readAt image.data (ptr + 1) with
      | .error e => .error e
      | .ok p1 =>
        match readAt image.data (ptr + 1 + image.cols) with
        | .error e => .error e
        | .ok p2 =>
          match readAt image.data (ptr + 1 + image.cols - 1) with
          | .error e => .error e
          | .ok p3 =>
            .ok ((r_x_1 * r_y_1 * p0 + r_x * r_y_1 * p1 + r_x * r_y * p2
              + r_x_1 * r_y * p3).tdiv 1024)

/-- The borders of the square of an area sample, rounded, and the overlap of the
square with the pixels at its borders. -/
structure AreaGeometry where
  /-- Column of the left border. -/
  x_left : Int
  /-- Row of the top border. -/
  y_top : Int
  /-- Column of the right border. -/
  x_right : Int
  /-- Row of the bottom border. -/
  y_bottom : Int
  /-- Overlap with the left column. -/
  r_x_1 : ℚ
  /-- Overlap with the top row. -/
  r_y_1 : ℚ
  /-- Overlap with the right column. -/
  r_x1 : ℚ
  /-- Overlap with the bottom row. -/
  r_y1 : ℚ
  /-- Number of columns between the border columns. -/
  dx : Int
  /-- Number of rows between the border rows. -/
  dy : Int

/-- The values of `x_left` to `dy` in `SmoothedIntensity`. -/
def areaGeometry (xf yf sigma_half : ℚ) : AreaGeometry :=
  let x_1 := xf - sigma_half
  let x1 := xf + sigma_half
  let y_1 := yf - sigma_half
  let y1 := yf + sigma_half
  let x_left := truncToInt (x_1 + 1 / 2)
  let y_top := truncToInt (y_1 + 1 / 2)
  let x_right := truncToInt (x1 + 1 / 2)
  let y_bottom := truncToInt (y1 + 1 / 2)
  { x_left := x_left, y_top := y_top, x_right := x_right, y_bottom := y_bottom,
    r_x_1 := (x_left : ℚ) - x_1 + 1 / 2, r_y_1 := (y_top : ℚ) - y_1 + 1 / 2,
    r_x1 := x1 - (x_right : ℚ) + 1 / 2, r_y1 := y1 - (y_bottom : ℚ) + 1 / 2,
    dx := x_right - x_left - 1, dy := y_bottom - y_top - 1 }

/-- The integer weights of an area sample. -/
structure AreaWeights where
  /-- Variable `scaling`. -/
  scaling : Int
  /-- Variable `scaling2`. -/
  scaling2 : Int
  /-- Weight of the top left pixel. -/
  A : Int
  /-- Weight of the top right pixel. -/
  B : Int
  /-- Weight of the bottom right pixel. -/
  C : Int
  /-- Weight of the bottom left pixel. -/
  D : Int
  /-- Weight of the left column. -/
  r_x_1_i : Int
  /-- Weight of the top row. -/
  r_y_1_i : Int
  /-- Weight of the right column. -/
  r_x1_i : Int
  /-- Weight of the bottom row. -/
  r_y1_i : Int

/-- The values of `scaling` to `r_y1_i` in `SmoothedIntensity`. -/
def areaWeights (g : AreaGeometry) (area : ℚ) : AreaWeights :=
  let scaling := truncToInt (4194304 / area)
  { scaling := scaling, scaling2 := truncToInt ((scaling : ℚ) * area / 1024),
    A := truncToInt (g.r_x_1 * g.r_y_1 * scaling), B := truncToInt (g.r_x1 * g.r_y_1 * scaling),
    C := truncToInt (g.r_x1 * g.r_y1 * scaling), D := truncToInt (g.r_x_1 * g.r_y1 * scaling),
    r_x_1_i := truncToInt (g.r_x_1 * scaling), r_y_1_i := truncToInt (g.r_y_1 * scaling),
    r_x1_i := truncToInt (g.r_x1 * scaling), r_y1_i := truncToInt (g.r_y1 * scaling) }

/-- The division by `scaling2` that ends both branches. -/
def scaledResult (ret_val scaling2 : Int) : Except SampleError Int :=
  if scaling2 = 0 then .error .divisionByZero else .ok (ret_val.tdiv scaling2)

/-- The branch `dx + dy > 2` of `SmoothedIntensity`: the four corner pixels, and the
edges and the interior from twelve entries of the integral table. -/
def integralBranch (image : PixelImage) (integral : List Int) (g : AreaGeometry)
    (w : AreaWeights) : Except SampleError Int :=
  let imagecols := image.cols
  let integralcols := imagecols + 1
  let ptr := g.x_left + imagecols * g.y_top
  match readAt image.data ptr with
  | .error e => .error e
  | .ok pA =>
  let ptr := ptr + (g.dx + 1)
  match readAt image.data ptr with
  | .error e => .error e
  | .ok pB =>
  let ptr := ptr + (g.dy * imagecols + 1)
  match readAt image.data ptr with
  | .error e => .error e
  | .ok pC =>
  let ptr := ptr - (g.dx + 1)
  match readAt image.data ptr with
  | .error e => .error e
  | .ok pD =>
  let ret_val := w.A * pA + w.B * pB + w.C * pC + w.D * pD
  let ptr_integral := g.x_left + integralcols * g.y_top + 1
  match readIntegral integral ptr_integral with
  | .error e => .error e
  | .ok tmp1 =>
  let ptr_integral := ptr_integral + g.dx
  match readIntegral integral ptr_integral with
  | .error e => .error e
  | .ok tmp2 =>
  let ptr_integral := ptr_integral + integralcols
  match readIntegral integral ptr_integral with
  | .error e => .error e
  | .ok tmp3 =>
  let ptr_integral := ptr_integral + 1
  match readIntegral integral ptr_integral with
  | .error e => .error e
  | .ok tmp4 =>
  let ptr_integral := ptr_integral + g.dy * integralcols
  match readIntegral integral ptr_integral with
  | .error e => .error e
  | .ok tmp5 =>
  let ptr_integral := ptr_integral - 1
  match readIntegral integral ptr_integral with
  | .error e => .error e
  | .ok tmp6 =>
  let ptr_integral := ptr_integral + integralcols
  match readIntegral integral ptr_integral with
  | .error e => .error e
  | .ok tmp7 =>
  let ptr_integral := ptr_integral - g.dx
  match readIntegral integral ptr_integral with
  | .error e => .error e
  | .ok tmp8 =>
  let ptr_integral := ptr_integral - integralcols
  match readIntegral integral ptr_integral with
  | .error e => .error e
  | .ok tmp9 =>
  let ptr_integral := ptr_integral - 1
  match readIntegral integral ptr_integral with
  | .error e => .error e
  | .ok tmp10 =>
  let ptr_integral := ptr_integral - g.dy * integralcols
  match readIntegral integral ptr_integral with
  | .error e => .error e
  | .ok tmp11 =>
  let ptr_integral := ptr_integral + 1
  match readIntegral integral ptr_integral with
  | .error e => .error e
  | .ok tmp12 =>
  let upper := (tmp3 - tmp2 + tmp1 - tmp12) * w.r_y_1_i
  let middle := (tmp6 - tmp3 + tmp12 - tmp9) * w.scaling
  let left := (tmp9 - tmp12 + tmp11 - tmp10) * w.r_x_1_i
  let right := (tmp5 - tmp4 + tmp3 - tmp6) * w.r_x1_i
  let bottom := (tmp7 - tmp6 + tmp9 - tmp8) * w.r_y1_i
  scaledResult (ret_val + upper + middle + left + right + bottom) w.scaling2

/-- A loop `for (; ptr < end; ptr++) ret_val += weight * *ptr` that has `count`
passes to make: the final `ptr` and `ret_val`. -/
def stripLoop (data : List Nat) (weight : Int) :
    Nat → Int → Int → Except SampleError (Int × Int)
  | 0, ptr, ret_val => .ok (ptr, ret_val)
  | count + 1, ptr, ret_val =>
    match readAt data ptr with
    | .error e => .error e
    | .ok p => stripLoop data weight count (ptr + 1) (ret_val + weight * p)

/-- The loop over the rows between the border rows in the pixel walk, with `count`
passes to make. -/
def middleLoop (data : List Nat) (imagecols dx : Int) (w : AreaWeights) :
    Nat → Int → Int → Except SampleError (Int × Int)
  | 0, ptr, ret_val => .ok (ptr, ret_val)
  | count + 1, ptr, ret_val =>
    match readAt data ptr with
    | .error e => .error e
    | .ok p =>
      match stripLoop data w.scaling dx.toNat (ptr + 1) (ret_val + w.r_x_1_i * p) with
      | .error e => .error e
      | .ok (ptr, ret_val) =>
        match readAt data ptr with
        | .error e => .error e
        | .ok q => middleLoop data imagecols dx w count (ptr + (imagecols - dx - 1))
            (ret_val + w.r_x1_i * q)

/-- The last branch of `SmoothedIntensity`: the walk over the pixels of the square.
A loop whose end is `dx` elements after its start makes `dx` passes, and the loop
over the rows, which advances by a row of the image, makes `dy` passes. -/
def pixelWalk (image : PixelImage) (g : AreaGeometry) (w : AreaWeights) :
    Except SampleError Int :=
  let imagecols := image.cols
  let ptr := g.x_left + imagecols * g.y_top
  match readAt image.data ptr with
  | .error e => .error e
  | .ok pA =>
  match stripLoop image.data w.r_y_1_i g.dx.toNat (ptr + 1) (w.A * pA) with
  | .error e => .error e
  | .ok (ptr, ret_val) =>
  match readAt image.data ptr with
  | .error e => .error e
  | .ok pB =>
  match middleLoop image.data imagecols g.dx w g.dy.toNat (ptr + (imagecols - g.dx - 1))
      (ret_val + w.B * pB) with
  | .error e => .error e
  | .ok (ptr, ret_val) =>
  match readAt image.data ptr with
  | .error e => .error e
  | .ok pD =>
  match stripLoop image.data w.r_y1_i g.dx.toNat (ptr + 1) (ret_val + w.D * pD) with
  | .error e => .error e
  | .ok (ptr, ret_val) =>
  match readAt image.data ptr with
  | .error e => .error e
  | .ok pC => scaledResult (ret_val + w.C * pC) w.scaling2

/-- The part of `SmoothedIntensity` for `sigma_half ≥ 0.5`. -/
def areaSample (image : PixelImage) (integral : List Int) (xf yf sigma_half : ℚ) :
    Except SampleError Int :=
  let area := 4 * sigma_half * sigma_half
  let x_1 := xf - sigma_half
  let x1 := xf + sigma_half
  let y_1 := yf - sigma_half
  let y1 := yf + sigma_half
  if x_1 < 0 then .ok (-1)
  else if x1 > ((image.cols - 1 : Int) : ℚ) then .ok (-1)
  else if y_1 < 0 then .ok (-1)
  else if y1 > ((image.rows - 1 : Int) : ℚ) then .ok (-1)
  else
    let g := areaGeometry xf yf sigma_half
    let w := areaWeights g area
    if g.dx + g.dy > 2 then integralBranch image integral g w else pixelWalk image g w

/-- Function `BriskDescriptorExtractor::SmoothedIntensity<unsigned char, int>`
without a warp. The index of the pattern point is an `unsigned int`. -/
def SmoothedIntensity (patternPoints_ : List BriskPatternPoint) (points_ : Nat)
    (image : PixelImage) (integral : List Int) (key_x key_y : ℚ) (scale rot point : Nat) :
    Except SampleError Int :=
  match patternPoints_[(scale * n_rot_ * points_ + rot * points_ + point) % 4294967296]? with
  | none => .error .outOfBounds
  | some briskPoint =>
    let xf := briskPoint.x + key_x
    let yf := briskPoint.y + key_y
    if briskPoint.sigma < 1 / 2 then bilinearSample image xf yf
    else areaSample image integral xf yf briskPoint.sigma

/-! ## Reference descriptions for the sampling -/

/-- Pixel `(row, col)` of an image, 0 outside its buffer. -/
def pixelAt (image : PixelImage) (row col : Nat) : Int :=
  ((image.data.getD (row * image.cols.toNat + col) 0 : Nat) : Int)

/-- Entry `(row, col)` of the exact integral table of an image: the sum of the
pixels above row `row` and left of column `col`. -/
def integralEntry (image : PixelImage) (row col : Nat) : Int :=
  ((List.range row).map fun r => ((List.range col).map fun c => pixelAt image r c).sum).sum

/-- The exact integral table of an image, of `rows + 1` rows and `cols + 1`
columns. -/
def integralTable (image : PixelImage) : List Int :=
  ((List.range (image.rows.toNat + 1)).map fun r =>
    (List.range (image.cols.toNat + 1)).map fun c => integralEntry image r c).flatten

/-- An image of 7 by 7 pixels that are 0 except pixel `(5, 5)`, which is 255. -/
def spotImage : PixelImage :=
  ⟨7, 7, (List.range 49).map fun k => if k = 40 then 255 else 0⟩

/-- An image of 2 by 2 pixels. -/
def smallImage : PixelImage := ⟨2, 2, [10, 20, 30, 40]⟩

/-! ## Reference descriptions for the layout of the pattern -/

/-- The points of the base layout in the order in which the loops over `ring` and
`num` visit them: for each, the ring, its radius, its number of points, and the
number of the point on it. -/
def ringIndex (radiusList : List ℚ) (numberList : List Int) : List (Nat × ℚ × Int × Nat) :=
  ((radiusList.zip numberList).enum.map fun rc =>
    (List.range rc.2.2.toNat).map fun num => (rc.1, rc.2.1, rc.2.2, num)).flatten

/-- The pattern point that `generateKernel` writes for a scale, a rotation and a
point of the base layout, with its `size`. -/
def layoutPoint (ops : PatternOps) (scale rot : Nat) (q : Nat × ℚ × Int × Nat) :
    BriskPatternPoint × Nat :=
  let sigma := if q.1 = 0 then sigma_scale * ops.scaleList scale * (1 / 2)
    else sigma_scale * ops.scaleList scale * q.2.1 * ops.sinPi q.2.2.1
  (⟨ops.scaleList scale * q.2.1 * ops.cosRing rot q.2.2.2 q.2.2.1,
    ops.scaleList scale * q.2.1 * ops.sinRing rot q.2.2.2 q.2.2.1, sigma⟩,
    pointSize (ops.scaleList scale * q.2.1 + sigma))

theorem byte_val (x : Nat) : (byte x).val = x % 256 := rfl

theorem byte_val_of_lt {x : Nat} (h : x < 256) : (byte x).val = x := by
  rw [byte_val]; exact Nat.mod_eq_of_lt h

theorem xor_byte_lt (a b : Fin 256) : a.val ^^^ b.val < 256 :=
  @Nat.xor_lt_two_pow a.val b.val 8 a.isLt b.isLt

theorem popcount_table (y : Nat) (hy : y < 16) :
    (POPCOUNT_4bit.get ⟨y, hy⟩).val = popcnt 4 y := by
  interval_cases y <;> rfl

theorem popcnt_nibbles (x : Nat) : popcnt 8 x = popcnt 4 (x % 16) + popcnt 4 (x / 16) := by
  simp only [popcnt]
  omega

theorem popcnt8_le (x : Nat) : popcnt 8 x ≤ 8 := by
  simp only [popcnt]
  omega

theorem shiftval_lane : lane64 (_mm_set_epi32 0 0 0 4) 0 = 4 := by decide

theorem and_mask_val (y : Nat) : y &&& 0xf = y % 16 :=
  Nat.and_pow_two_sub_one_eq_mod y 4

theorem and_high_bit (y : Nat) (hy : y < 16) : y &&& 0x80 = 0 := by
  interval_cases y <;> rfl

theorem and_mask_get (x : M128) (j : Fin 16) :
    ((_mm_and_si128 x MASK_4bit).get j).val = (x.get j).val % 16 := by
  simp only [_mm_and_si128, MASK_4bit, Mathlib.Vector.get_ofFn, Mathlib.Vector.get_replicate,
    byte_val]
  have h := and_mask_val (x.get j).val
  have h2 : ((15 : Fin 256) : Nat) = 0xf := rfl
  rw [h2, h]
  omega

theorem shuffle_popcount (y : M128) (j : Fin 16) (hy : (y.get j).val < 16) :
    ((_mm_shuffle_epi8 POPCOUNT_4bit y).get j).val = popcnt 4 (y.get j).val := by
  simp only [_mm_shuffle_epi8, Mathlib.Vector.get_ofFn]
  rw [if_neg (by rw [and_high_bit _ hy]; simp)]
  rw [popcount_table]
  rw [and_mask_val, Nat.mod_eq_of_lt hy]

theorem srl4_get (x : M128) (j : Fin 16) :
    ((_mm_srl_epi16 x (_mm_set_epi32 0 0 0 4)).get j).val % 16 = (x.get j).val / 16 := by
  simp only [_mm_srl_epi16, shiftval_lane, ofLanes16, Mathlib.Vector.get_ofFn, byte_val, lane16,
    Nat.shiftRight_eq_div_pow]
  rw [if_neg (by decide)]
  rcases Nat.mod_two_eq_zero_or_one j.val with h | h
  · have e1 : (⟨2 * (j.val / 2), by omega⟩ : Fin 16) = j := Fin.ext (by simp; omega)
    have hb := (x.get ⟨2 * (j.val / 2) + 1, by omega⟩).isLt
    have hj := (x.get j).isLt
    simp only [h, e1]
    omega
  · have e1 : (⟨2 * (j.val / 2) + 1, by omega⟩ : Fin 16) = j := Fin.ext (by simp; omega)
    have hb := (x.get ⟨2 * (j.val / 2), by omega⟩).isLt
    have hj := (x.get j).isLt
    simp only [h, e1]
    omega

theorem bytePop_le (j : Fin 16) (p : M128 × M128) : bytePop j p ≤ 8 := popcnt8_le _

theorem xor_get (a b : M128) (j : Fin 16) :
    ((_mm_xor_si128 a b).get j).val = (a.get j).val ^^^ (b.get j).val := by
  simp only [_mm_xor_si128, Mathlib.Vector.get_ofFn]
  exact byte_val_of_lt (xor_byte_lt _ _)

/-- One pass of the loop body adds, in every byte lane and modulo 256, the
population count of the corresponding byte of `w1 XOR w2`. -/
theorem ssse3Body_acc (w1 w2 acc : M128) (j : Fin 16) :
    ((ssse3Body w1 w2 acc).2.get j).val = ((acc.get j).val + bytePop j (w1, w2)) % 256 := by
  have hlo : ((_mm_and_si128 (_mm_xor_si128 w1 w2) MASK_4bit).get j).val < 16 := by
    rw [and_mask_get]; exact Nat.mod_lt _ (by decide)
  have hhi : ((_mm_and_si128 (_mm_srl_epi16 (_mm_xor_si128 w1 w2) (_mm_set_epi32 0 0 0 4))
      MASK_4bit).get j).val < 16 := by
    rw [and_mask_get]; exact Nat.mod_lt _ (by decide)
  simp only [ssse3Body, _mm_load_si128, _mm_add_epi8, Mathlib.Vector.get_ofFn, byte_val]
  rw [shuffle_popcount _ _ hlo, shuffle_popcount _ _ hhi, and_mask_get, and_mask_get, srl4_get,
    xor_get, bytePop, popcnt_nibbles ((w1.get j).val ^^^ (w2.get j).val)]
  omega

theorem colSum_cons (j : Fin 16) (p : M128 × M128) (l : List (M128 × M128)) :
    colSum j (p :: l) = bytePop j p + colSum j l := by
  simp [colSum]

theorem colSum_le (j : Fin 16) (l : List (M128 × M128)) : colSum j l ≤ 8 * l.length := by
  induction l with
  | nil => simp [colSum]
  | cons p l ih =>
    rw [colSum_cons, List.length_cons]
    have := bytePop_le j p
    omega

theorem zip_drop_cons (s1 s2 : List M128) (i : Nat) (h1 : i < s1.length) (h2 : i < s2.length) :
    (s1.zip s2).drop i = (s1[i], s2[i]) :: (s1.zip s2).drop (i + 1) := by
  have h : i < (s1.zip s2).length := by simp; omega
  rw [List.drop_eq_getElem_cons h]
  simp

/-- The loop, entered at word `i` with `more` further passes to follow, succeeds
when the `more + 1` words it reads exist, and its local accumulator then holds in
every byte lane the column sum modulo 256. -/
theorem ssse3Loop_spec (s1 s2 : List M128) :
    ∀ (more i : Nat) (acc : M128), i + more < s1.length → i + more < s2.length →
      ∃ st, ssse3Loop s1 s2 more i acc = .ok st ∧
        ∀ j, (st.2.get j).val
          = ((acc.get j).val + colSum j (((s1.zip s2).drop i).take (more + 1))) % 256 := by
  intro more
  induction more with
  | zero =>
    intro i acc h1 h2
    have h1' : i < s1.length := by omega
    have h2' : i < s2.length := by omega
    refine ⟨ssse3Body s1[i] s2[i] acc, ?_, ?_⟩
    · rw [ssse3Loop]
      simp [List.getElem?_eq_getElem h1', List.getElem?_eq_getElem h2']
    · intro j
      rw [zip_drop_cons s1 s2 i h1' h2', ssse3Body_acc]
      simp [colSum]
  | succ m ih =>
    intro i acc h1 h2
    have h1' : i < s1.length := by omega
    have h2' : i < s2.length := by omega
    obtain ⟨st, hst, hacc⟩ := ih (i + 1) (ssse3Body s1[i] s2[i] acc).2 (by omega) (by omega)
    refine ⟨st, ?_, ?_⟩
    · rw [ssse3Loop]
      simp [List.getElem?_eq_getElem h1', List.getElem?_eq_getElem h2', hst]
    · intro j
      rw [hacc j, zip_drop_cons s1 s2 i h1' h2', ssse3Body_acc, List.take_succ_cons, colSum_cons]
      omega

theorem lane32_lt (x : M128) (k : Fin 4) : lane32 x k < 4294967296 := by
  have h0 := (x.get ⟨4 * k.val, by omega⟩).isLt
  have h1 := (x.get ⟨4 * k.val + 1, by omega⟩).isLt
  have h2 := (x.get ⟨4 * k.val + 2, by omega⟩).isLt
  have h3 := (x.get ⟨4 * k.val + 3, by omega⟩).isLt
  simp only [lane32]
  omega

theorem lane32_ofLanes32 (g : Fin 4 → Nat) (k : Fin 4) :
    lane32 (ofLanes32 g) k = g k % 4294967296 := by
  have e0 : (⟨(4 * k.val) / 4, by omega⟩ : Fin 4) = k := Fin.ext (by simp)
  have e1 : (⟨(4 * k.val + 1) / 4, by omega⟩ : Fin 4) = k := Fin.ext (by simp; omega)
  have e2 : (⟨(4 * k.val + 2) / 4, by omega⟩ : Fin 4) = k := Fin.ext (by simp; omega)
  have e3 : (⟨(4 * k.val + 3) / 4, by omega⟩ : Fin 4) = k := Fin.ext (by simp; omega)
  have m0 : (4 * k.val) % 4 = 0 := by omega
  have m1 : (4 * k.val + 1) % 4 = 1 := by omega
  have m2 : (4 * k.val + 2) % 4 = 2 := by omega
  have m3 : (4 * k.val + 3) % 4 = 3 := by omega
  simp only [lane32, ofLanes32, Mathlib.Vector.get_ofFn, byte_val, e0, e1, e2, e3, m0, m1, m2, m3]
  norm_num
  omega

theorem lane32_ofLanes64 (S : Fin 2 → Nat) (h : Fin 2) :
    lane32 (ofLanes64 S) ⟨2 * h.val, by omega⟩ = S h % 4294967296 := by
  have e0 : (⟨(4 * (2 * h.val)) / 8, by omega⟩ : Fin 2) = h := Fin.ext (by simp; omega)
  have e1 : (⟨(4 * (2 * h.val) + 1) / 8, by omega⟩ : Fin 2) = h := Fin.ext (by simp; omega)
  have e2 : (⟨(4 * (2 * h.val) + 2) / 8, by omega⟩ : Fin 2) = h := Fin.ext (by simp; omega)
  have e3 : (⟨(4 * (2 * h.val) + 3) / 8, by omega⟩ : Fin 2) = h := Fin.ext (by simp; omega)
  have m0 : (4 * (2 * h.val)) % 8 = 0 := by omega
  have m1 : (4 * (2 * h.val) + 1) % 8 = 1 := by omega
  have m2 : (4 * (2 * h.val) + 2) % 8 = 2 := by omega
  have m3 : (4 * (2 * h.val) + 3) % 8 = 3 := by omega
  simp only [lane32, ofLanes64, Mathlib.Vector.get_ofFn, byte_val, e0, e1, e2, e3, m0, m1, m2, m3]
  norm_num
  omega

theorem lane32_zero (k : Fin 4) : lane32 _mm_setzero_si128 k = 0 := by
  simp only [lane32, _mm_setzero_si128, Mathlib.Vector.get_replicate]
  rfl

theorem roundF32Nat_small (a : Nat) (h : a < 16777216) : roundF32Nat a = a := by
  simp [roundF32Nat, f32Shift, h, Nat.mod_one]

theorem roundF32_small (a : Nat) (h : a < 16777216) : roundF32 (a : Int) = (a : Int) := by
  have h0 : ¬ ((a : Int) < 0) := by omega
  simp only [roundF32, if_neg h0, Int.natAbs_ofNat, roundF32Nat_small a h]

theorem halfSum_le (x : M128) (h : Fin 2) : halfSum x h ≤ 2040 := by
  have h0 := (x.get ⟨8 * h.val, by omega⟩).isLt
  have h1 := (x.get ⟨8 * h.val + 1, by omega⟩).isLt
  have h2 := (x.get ⟨8 * h.val + 2, by omega⟩).isLt
  have h3 := (x.get ⟨8 * h.val + 3, by omega⟩).isLt
  have h4 := (x.get ⟨8 * h.val + 4, by omega⟩).isLt
  have h5 := (x.get ⟨8 * h.val + 5, by omega⟩).isLt
  have h6 := (x.get ⟨8 * h.val + 6, by omega⟩).isLt
  have h7 := (x.get ⟨8 * h.val + 7, by omega⟩).isLt
  simp only [halfSum]
  omega

theorem sad_zero (x : M128) :
    _mm_sad_epu8 x _mm_setzero_si128 = ofLanes64 (halfSum x) := by
  simp only [_mm_sad_epu8, halfSum, _mm_setzero_si128, Mathlib.Vector.get_replicate, absDiff]
  congr 1

/-- The code after the loop returns the sum of the sixteen bytes of the local
accumulator, whatever `xmm0` holds. -/
theorem ssse3Reduce_eq (xmm0 xmm4 : M128) :
    ssse3Reduce xmm0 xmm4 = halfSum xmm4 0 + halfSum xmm4 1 := by
  have hs0 := halfSum_le xmm4 0
  have hs1 := halfSum_le xmm4 1
  have l0 : lane32 (ofLanes64 (halfSum xmm4)) 0 = halfSum xmm4 0 := by
    have := lane32_ofLanes64 (halfSum xmm4) 0
    simp only [Fin.val_zero, Nat.mul_zero] at this
    rw [show (0 : Fin 4) = ⟨0, by omega⟩ from rfl, this]
    omega
  have l2 : lane32 (ofLanes64 (halfSum xmm4)) 2 = halfSum xmm4 1 := by
    have := lane32_ofLanes64 (halfSum xmm4) 1
    simp only [Fin.val_one, Nat.mul_one] at this
    rw [show (2 : Fin 4) = ⟨2, by omega⟩ from rfl, this]
    omega
  simp only [ssse3Reduce, _mm_cvtsi128_si32, _mm_add_epi32, lane32_ofLanes32, lane32_zero,
    sad_zero, Nat.zero_add, _mm_cvtps_epi32, _mm_movehl_ps, _mm_cvtepi32_ps]
  simp only [Fin.val_zero, Nat.zero_lt_two, dite_true, Nat.zero_add]
  rw [show (⟨2, by omega⟩ : Fin 4) = 2 from rfl, l0, l2]
  have e0 : halfSum xmm4 0 % 4294967296 = halfSum xmm4 0 := Nat.mod_eq_of_lt (by omega)
  have e1 : halfSum xmm4 1 % 4294967296 = halfSum xmm4 1 := Nat.mod_eq_of_lt (by omega)
  have hr : roundF32 (toSigned32 (halfSum xmm4 1)) = (halfSum xmm4 1 : Int) := by
    rw [toSigned32, if_pos (by omega)]
    exact roundF32_small _ (by omega)
  simp only [e0, e1, hr]
  rw [if_pos (by omega)]
  have : ((halfSum xmm4 1 : Int) % 4294967296).toNat = halfSum xmm4 1 := by omega
  rw [this]
  omega

theorem finRange16 : List.finRange 16 = [0, 1, 2, 3, 4, 5, 6, 7, 8, 9, 10, 11, 12, 13, 14, 15] := by
  decide

theorem halfSum_zero (x : M128) :
    halfSum x 0 = (x.get 0).val + (x.get 1).val + (x.get 2).val + (x.get 3).val
      + (x.get 4).val + (x.get 5).val + (x.get 6).val + (x.get 7).val := rfl

theorem halfSum_one (x : M128) :
    halfSum x 1 = (x.get 8).val + (x.get 9).val + (x.get 10).val + (x.get 11).val
      + (x.get 12).val + (x.get 13).val + (x.get 14).val + (x.get 15).val := rfl

theorem halfSum_total (x : M128) :
    halfSum x 0 + halfSum x 1 = lanesTotal fun j => (x.get j).val := by
  rw [halfSum_zero, halfSum_one]
  simp only [lanesTotal, finRange16, List.map_cons, List.map_nil, List.sum_cons, List.sum_nil]
  omega

theorem lanesTotal_congr (f g : Fin 16 → Nat) (h : ∀ j, f j = g j) :
    lanesTotal f = lanesTotal g := by
  have : f = g := funext h
  rw [this]

theorem lanesTotal_add (f g : Fin 16 → Nat) :
    lanesTotal (fun j => f j + g j) = lanesTotal f + lanesTotal g := by
  simp only [lanesTotal]
  exact List.sum_map_add

theorem lanesTotal_le (f g : Fin 16 → Nat) (h : ∀ j, f j ≤ g j) :
    lanesTotal f ≤ lanesTotal g := by
  simp only [lanesTotal]
  exact List.sum_le_sum (fun j _ => h j)

theorem lanesTotal_const (c : Nat) : lanesTotal (fun _ => c) = 16 * c := by
  simp [lanesTotal, finRange16]
  omega

theorem wordPopcount_eq (p : M128 × M128) :
    wordPopcount p.1 p.2 = lanesTotal fun j => bytePop j p := rfl

theorem lanesTotal_colSum (l : List (M128 × M128)) :
    lanesTotal (fun j => colSum j l) = (l.map fun p => wordPopcount p.1 p.2).sum := by
  induction l with
  | nil => simp [colSum, lanesTotal_const]
  | cons p l ih =>
    simp only [colSum_cons, lanesTotal_add, ih, List.map_cons, List.sum_cons, wordPopcount_eq]

/-- What `SSSE3PopcntofXORed` computes: with `N = max 1 n` words read, the sum
over the sixteen byte lanes of the lane's bit count reduced modulo 256. -/
theorem ssse3_value (a b : List M128) (n : Int)
    (ha : (n - 1).toNat < a.length) (hb : (n - 1).toNat < b.length) :
    SSSE3PopcntofXORed (some a) (some b) n
      = .ok (lanesTotal fun j => colSum j ((a.zip b).take ((n - 1).toNat + 1)) % 256) := by
  obtain ⟨st, hst, hacc⟩ := ssse3Loop_spec a b (n - 1).toNat 0 _mm_setzero_si128
    (by omega) (by omega)
  have key : ssse3Reduce st.1 st.2
      = lanesTotal fun j => colSum j ((a.zip b).take ((n - 1).toNat + 1)) % 256 := by
    rw [ssse3Reduce_eq, halfSum_total]
    apply lanesTotal_congr
    intro j
    rw [hacc j]
    have hz : (_mm_setzero_si128.get j).val = 0 := by
      simp only [_mm_setzero_si128, Mathlib.Vector.get_replicate]
      rfl
    rw [hz, List.drop_zero, Nat.zero_add]
  dsimp only [SSSE3PopcntofXORed]
  rw [hst]
  dsimp only
  rw [key]

/-! ## Symmetry and the self-distance -/

theorem xor_si128_comm (a b : M128) : _mm_xor_si128 a b = _mm_xor_si128 b a := by
  simp only [_mm_xor_si128, Nat.xor_comm]

theorem ssse3Body_comm (w1 w2 acc : M128) : ssse3Body w1 w2 acc = ssse3Body w2 w1 acc := by
  simp only [ssse3Body, xor_si128_comm w1 w2]

theorem ssse3Loop_comm (s1 s2 : List M128) :
    ∀ (more i : Nat) (acc : M128), ssse3Loop s1 s2 more i acc = ssse3Loop s2 s1 more i acc := by
  intro more
  induction more with
  | zero =>
    intro i acc
    rw [ssse3Loop, ssse3Loop]
    cases h1 : s1[i]? <;> cases h2 : s2[i]? <;> simp [ssse3Body_comm]
  | succ m ih =>
    intro i acc
    rw [ssse3Loop, ssse3Loop]
    cases h1 : s1[i]? <;> cases h2 : s2[i]? <;> simp [ssse3Body_comm, ih]

theorem ssse3_comm (a b : Option (List M128)) (n : Int) :
    SSSE3PopcntofXORed a b n = SSSE3PopcntofXORed b a n := by
  cases a <;> cases b <;> simp [SSSE3PopcntofXORed, ssse3Loop_comm]

theorem veorq_comm (a b : M128) : veorq_u8 a b = veorq_u8 b a := by
  simp only [veorq_u8, Nat.xor_comm]

theorem neonLoop_comm (s1 s2 : List M128) :
    ∀ (remaining i result : Nat),
      neonLoop s1 s2 remaining i result = neonLoop s2 s1 remaining i result := by
  intro remaining
  induction remaining with
  | zero => intro i result; rw [neonLoop, neonLoop]
  | succ m ih =>
    intro i result
    rw [neonLoop, neonLoop]
    cases h1 : s1[i]? <;> cases h2 : s2[i]? <;> simp [veorq_comm, ih]

theorem neon_comm (a b : Option (List M128)) (n : Int) :
    NEONPopcntofXORed a b n = NEONPopcntofXORed b a n := by
  cases a <;> cases b <;> simp [NEONPopcntofXORed, neonLoop_comm]

/-! ## The NEON path -/

theorem popcnt_mod (k x : Nat) : popcnt k (x % 2 ^ k) = popcnt k x := by
  induction k generalizing x with
  | zero => rfl
  | succ k ih =>
    have h1 : x % 2 ^ (k + 1) % 2 = x % 2 := by
      have : 2 ^ (k + 1) = 2 * 2 ^ k := by ring
      rw [this, Nat.mod_mul_right_mod]
    have h2 : x % 2 ^ (k + 1) / 2 = x / 2 % 2 ^ k := by
      have : 2 ^ (k + 1) = 2 * 2 ^ k := by ring
      rw [this, Nat.mod_mul_right_div_self]
    simp only [popcnt, h1, h2, ih]

theorem popcnt_split (k m x : Nat) : popcnt (k + m) x = popcnt k x + popcnt m (x / 2 ^ k) := by
  induction k generalizing x with
  | zero => simp [popcnt]
  | succ k ih =>
    have e : k + 1 + m = (k + m) + 1 := by omega
    have h : x / 2 / 2 ^ k = x / 2 ^ (k + 1) := by
      rw [Nat.div_div_eq_div_mul, pow_succ, Nat.mul_comm]
    rw [e]
    simp only [popcnt, ih, h]
    omega

theorem popcnt_byte_cons (m b r : Nat) (hb : b < 256) :
    popcnt (8 + m) (b + 256 * r) = popcnt 8 b + popcnt m r := by
  rw [popcnt_split, ← popcnt_mod 8 (b + 256 * r)]
  have h1 : (b + 256 * r) % 2 ^ 8 = b := by norm_num; omega
  have h2 : (b + 256 * r) / 2 ^ 8 = r := by norm_num; omega
  rw [h1, h2]

theorem popcnt64_bytes (b0 b1 b2 b3 b4 b5 b6 b7 : Nat) (h0 : b0 < 256) (h1 : b1 < 256)
    (h2 : b2 < 256) (h3 : b3 < 256) (h4 : b4 < 256) (h5 : b5 < 256) (h6 : b6 < 256)
    (h7 : b7 < 256) :
    popcnt 64 (b0 + 256 * (b1 + 256 * (b2 + 256 * (b3 + 256 * (b4 + 256 * (b5 + 256 *
      (b6 + 256 * (b7 + 256 * 0))))))))
      = popcnt 8 b0 + popcnt 8 b1 + popcnt 8 b2 + popcnt 8 b3 + popcnt 8 b4 + popcnt 8 b5
        + popcnt 8 b6 + popcnt 8 b7 := by
  rw [show (64 : Nat) = 8 + (8 + (8 + (8 + (8 + (8 + (8 + (8 + 0))))))) from rfl]
  rw [popcnt_byte_cons _ _ _ h0, popcnt_byte_cons _ _ _ h1, popcnt_byte_cons _ _ _ h2,
    popcnt_byte_cons _ _ _ h3, popcnt_byte_cons _ _ _ h4, popcnt_byte_cons _ _ _ h5,
    popcnt_byte_cons _ _ _ h6, popcnt_byte_cons _ _ _ h7]
  simp only [popcnt]
  omega

theorem lane64_zero (x : M128) :
    lane64 x 0 = (x.get 0).val + 256 * ((x.get 1).val + 256 * ((x.get 2).val + 256 *
      ((x.get 3).val + 256 * ((x.get 4).val + 256 * ((x.get 5).val + 256 * ((x.get 6).val
        + 256 * ((x.get 7).val + 256 * 0))))))) := by
  have h : lane64 x 0 = ((x.get 0).val + 256 * (x.get 1).val + 65536 * (x.get 2).val
      + 16777216 * (x.get 3).val) + 4294967296 * ((x.get 4).val + 256 * (x.get 5).val
      + 65536 * (x.get 6).val + 16777216 * (x.get 7).val) := rfl
  rw [h]
  omega

theorem lane64_one (x : M128) :
    lane64 x 1 = (x.get 8).val + 256 * ((x.get 9).val + 256 * ((x.get 10).val + 256 *
      ((x.get 11).val + 256 * ((x.get 12).val + 256 * ((x.get 13).val + 256 * ((x.get 14).val
        + 256 * ((x.get 15).val + 256 * 0))))))) := by
  have h : lane64 x 1 = ((x.get 8).val + 256 * (x.get 9).val + 65536 * (x.get 10).val
      + 16777216 * (x.get 11).val) + 4294967296 * ((x.get 12).val + 256 * (x.get 13).val
      + 65536 * (x.get 14).val + 16777216 * (x.get 15).val) := rfl
  rw [h]
  omega

theorem veorq_get (a b : M128) (j : Fin 16) :
    ((veorq_u8 a b).get j).val = (a.get j).val ^^^ (b.get j).val := by
  simp only [veorq_u8, Mathlib.Vector.get_ofFn]
  exact byte_val_of_lt (xor_byte_lt _ _)

/-- The two 64-bit population counts of one pass of the NEON loop add up to the
byte-wise population count of the pair of words. -/
theorem neon_word (w1 w2 : M128) :
    __builtin_popcountll (vst1q_u64 (veorq_u8 w1 w2)).1
      + __builtin_popcountll (vst1q_u64 (veorq_u8 w1 w2)).2 = wordPopcount w1 w2 := by
  simp only [__builtin_popcountll, vst1q_u64, lane64_zero, lane64_one]
  rw [popcnt64_bytes _ _ _ _ _ _ _ _ (Fin.isLt _) (Fin.isLt _) (Fin.isLt _) (Fin.isLt _)
      (Fin.isLt _) (Fin.isLt _) (Fin.isLt _) (Fin.isLt _),
    popcnt64_bytes _ _ _ _ _ _ _ _ (Fin.isLt _) (Fin.isLt _) (Fin.isLt _) (Fin.isLt _)
      (Fin.isLt _) (Fin.isLt _) (Fin.isLt _) (Fin.isLt _)]
  simp only [veorq_get, wordPopcount, finRange16, List.map_cons, List.map_nil, List.sum_cons,
    List.sum_nil]
  omega

theorem popcountReference_eq (a b : List M128) (n : Nat) :
    popcountReference a b n = pairsPop ((a.zip b).take n) := rfl

/-- The NEON loop succeeds when the words it reads exist, and adds the byte-wise
population counts of those words to `result` modulo `2 ^ 32`. -/
theorem neonLoop_spec (s1 s2 : List M128) :
    ∀ (remaining i result : Nat), i + remaining ≤ s1.length → i + remaining ≤ s2.length →
      result < 4294967296 →
      neonLoop s1 s2 remaining i result
        = .ok ((result + pairsPop (((s1.zip s2).drop i).take remaining)) % 4294967296) := by
  intro remaining
  induction remaining with
  | zero =>
    intro i result _ _ hr
    simp only [neonLoop, pairsPop, List.take_zero, List.map_nil, List.sum_nil, Nat.add_zero,
      Nat.mod_eq_of_lt hr]
  | succ m ih =>
    intro i result h1 h2 _
    have h1' : i < s1.length := by omega
    have h2' : i < s2.length := by omega
    have hw := neon_word s1[i] s2[i]
    rw [neonLoop]
    simp only [List.getElem?_eq_getElem h1', List.getElem?_eq_getElem h2']
    rw [ih (i + 1) _ (by omega) (by omega) (Nat.mod_lt _ (by decide)),
      zip_drop_cons s1 s2 i h1' h2', List.take_succ_cons]
    simp only [pairsPop, List.map_cons, List.sum_cons]
    rw [← hw]
    apply congrArg Except.ok
    omega

theorem neon_value (a b : List M128) (n : Int)
    (ha : n ≤ a.length) (hb : n ≤ b.length) :
    NEONPopcntofXORed (some a) (some b) n
      = .ok (popcountReference a b n.toNat % 4294967296) := by
  have h := neonLoop_spec a b n.toNat 0 0 (by omega) (by omega) (by decide)
  simp only [NEONPopcntofXORed, h, popcountReference_eq, List.drop_zero, Nat.zero_add]

/-! ## The two paths on each concrete signature -/

theorem wordPopcount_ones_zero : wordPopcount onesWord zeroWord = 128 := by decide

theorem bytePop_ones_zero (j : Fin 16) : bytePop j (onesWord, zeroWord) = 8 := by
  revert j; decide

theorem zip_signatures (n : Nat) :
    (onesSignature n).zip (zeroSignature n) = List.replicate n (onesWord, zeroWord) := by
  simp [onesSignature, zeroSignature, List.zip_replicate]

theorem colSum_replicate (j : Fin 16) (n : Nat) (p : M128 × M128) :
    colSum j (List.replicate n p) = n * bytePop j p := by
  simp [colSum]

theorem pairsPop_replicate (n : Nat) (p : M128 × M128) :
    pairsPop (List.replicate n p) = n * wordPopcount p.1 p.2 := by
  simp [pairsPop]

theorem popcountReference_ones_zero (n : Nat) :
    popcountReference (onesSignature n) (zeroSignature n) n = 128 * n := by
  rw [popcountReference_eq, zip_signatures, List.take_replicate, Nat.min_self,
    pairsPop_replicate, wordPopcount_ones_zero, Nat.mul_comm]

theorem ssse3_ones_zero (n : Nat) (hn : 1 ≤ n) :
    SSSE3PopcntofXORed (some (onesSignature n)) (some (zeroSignature n)) (n : Int)
      = .ok (16 * ((8 * n) % 256)) := by
  have e : ((n : Int) - 1).toNat + 1 = n := by omega
  rw [ssse3_value _ _ _ (by simp [onesSignature]; omega) (by simp [zeroSignature]; omega), e,
    zip_signatures, List.take_replicate, Nat.min_self]
  apply congrArg Except.ok
  rw [← lanesTotal_const]
  apply lanesTotal_congr
  intro j
  rw [colSum_replicate, bytePop_ones_zero, Nat.mul_comm]

/-! ## General facts about the two Hamming paths -/

theorem wordPopcount_le (a b : M128) : wordPopcount a b ≤ 128 := by
  have h := lanesTotal_le (fun j => bytePop j (a, b)) (fun _ => 8) (fun j => bytePop_le j (a, b))
  rw [lanesTotal_const] at h
  exact h

theorem pairsPop_le (l : List (M128 × M128)) : pairsPop l ≤ 128 * l.length := by
  induction l with
  | nil => simp [pairsPop]
  | cons p l ih =>
    have h := wordPopcount_le p.1 p.2
    simp only [pairsPop, List.map_cons, List.sum_cons, List.length_cons] at ih ⊢
    omega

theorem popcountReference_le (a b : List M128) (n : Nat) :
    popcountReference a b n ≤ 128 * n := by
  rw [popcountReference_eq]
  have h := pairsPop_le ((a.zip b).take n)
  have h2 : ((a.zip b).take n).length ≤ n := by simp
  calc pairsPop ((a.zip b).take n) ≤ 128 * ((a.zip b).take n).length := h
    _ ≤ 128 * n := Nat.mul_le_mul_left _ h2

/-- For one to thirty-one words no byte lane wraps, and the SSSE3 path returns
the byte-wise reference. -/
theorem ssse3_exact (a b : List M128) (n : Int) (h1 : 1 ≤ n) (h31 : n ≤ 31)
    (ha : n ≤ a.length) (hb : n ≤ b.length) :
    SSSE3PopcntofXORed (some a) (some b) n = .ok (popcountReference a b n.toNat) := by
  have e : (n - 1).toNat + 1 = n.toNat := by omega
  rw [ssse3_value a b n (by omega) (by omega), e, popcountReference_eq, pairsPop,
    ← lanesTotal_colSum]
  apply congrArg Except.ok
  apply lanesTotal_congr
  intro j
  have h := colSum_le j ((a.zip b).take n.toNat)
  have h2 : ((a.zip b).take n.toNat).length ≤ n.toNat := by simp
  exact Nat.mod_eq_of_lt (by omega)

/-- For at least one word the SSSE3 result never exceeds the number of bits
compared. -/
theorem ssse3_le_bits (a b : List M128) (n : Int) (h1 : 1 ≤ n)
    (ha : n ≤ a.length) (hb : n ≤ b.length) :
    ∃ d, SSSE3PopcntofXORed (some a) (some b) n = .ok d ∧ (d : Int) ≤ 128 * n := by
  have e : (n - 1).toNat + 1 = n.toNat := by omega
  refine ⟨_, ssse3_value a b n (by omega) (by omega), ?_⟩
  rw [e]
  have h := lanesTotal_le (fun j => colSum j ((a.zip b).take n.toNat) % 256)
    (fun j => colSum j ((a.zip b).take n.toNat)) (fun j => Nat.mod_le _ _)
  rw [lanesTotal_colSum] at h
  have h3 := popcountReference_le a b n.toNat
  rw [popcountReference_eq, pairsPop] at h3
  omega

theorem bytePop_self (j : Fin 16) (w : M128) : bytePop j (w, w) = 0 := by
  simp [bytePop, Nat.xor_self, popcnt]

theorem mem_zip_self (a : List M128) (p : M128 × M128) (hp : p ∈ a.zip a) : p.1 = p.2 := by
  induction a with
  | nil => simp at hp
  | cons w l ih =>
    simp only [List.zip_cons_cons, List.mem_cons] at hp
    rcases hp with h | h
    · rw [h]
    · exact ih h

theorem colSum_self (j : Fin 16) (a : List M128) (n : Nat) :
    colSum j ((a.zip a).take n) = 0 := by
  simp only [colSum]
  apply List.sum_eq_zero
  intro x hx
  obtain ⟨p, hp, rfl⟩ := List.mem_map.mp hx
  have h := mem_zip_self a p (List.mem_of_mem_take hp)
  obtain ⟨x, y⟩ := p
  simp only at h
  subst h
  exact bytePop_self j x

theorem pairsPop_self (a : List M128) (n : Nat) : pairsPop ((a.zip a).take n) = 0 := by
  rw [pairsPop, ← lanesTotal_colSum]
  simp only [colSum_self]
  exact lanesTotal_const 0

theorem ssse3Loop_not_null (s1 s2 : List M128) :
    ∀ (more i : Nat) (acc : M128), ssse3Loop s1 s2 more i acc ≠ .error .signatureNull := by
  intro more
  induction more with
  | zero =>
    intro i acc
    rw [ssse3Loop]
    cases h1 : s1[i]? <;> cases h2 : s2[i]? <;> simp
  | succ m ih =>
    intro i acc
    rw [ssse3Loop]
    cases h1 : s1[i]? <;> cases h2 : s2[i]? <;> simp [ih]

theorem neonLoop_not_null (s1 s2 : List M128) :
    ∀ (remaining i result : Nat),
      neonLoop s1 s2 remaining i result ≠ .error .signatureNull := by
  intro remaining
  induction remaining with
  | zero => intro i result; simp [neonLoop]
  | succ m ih =>
    intro i result
    rw [neonLoop]
    cases h1 : s1[i]? <;> cases h2 : s2[i]? <;> simp [ih]

theorem ssse3_null_iff (a b : Option (List M128)) (n : Int) :
    SSSE3PopcntofXORed a b n = .error .signatureNull ↔ a = none ∨ b = none := by
  cases a with
  | none => simp [SSSE3PopcntofXORed]
  | some s1 =>
    cases b with
    | none => simp [SSSE3PopcntofXORed]
    | some s2 =>
      simp only [SSSE3PopcntofXORed, reduceCtorEq, or_self, iff_false]
      have h := ssse3Loop_not_null s1 s2 (n - 1).toNat 0 _mm_setzero_si128
      cases hl : ssse3Loop s1 s2 (n - 1).toNat 0 _mm_setzero_si128 with
      | ok st => simp
      | error e =>
        rw [hl] at h
        simpa using h

theorem neon_null_iff (a b : Option (List M128)) (n : Int) :
    NEONPopcntofXORed a b n = .error .signatureNull ↔ a = none ∨ b = none := by
  cases a with
  | none => simp [NEONPopcntofXORed]
  | some s1 =>
    cases b with
    | none => simp [NEONPopcntofXORed]
    | some s2 =>
      simp only [NEONPopcntofXORed, reduceCtorEq, or_self, iff_false]
      exact neonLoop_not_null s1 s2 n.toNat 0 0

theorem onesSignature_length (n : Nat) : (onesSignature n).length = n :=
  List.length_replicate n onesWord

theorem zeroSignature_length (n : Nat) : (zeroSignature n).length = n :=
  List.length_replicate n zeroWord

/-! ## Structure of the matcher loops -/

theorem sortMatches_length (l : List DMatch) : (sortMatches l).length = l.length :=
  List.length_insertionSort _ l

theorem sortMatches_perm (l : List DMatch) : (sortMatches l).Perm l :=
  List.perm_insertionSort _ l

instance : IsTotal DMatch DMatch.le := ⟨fun a b => Int.le_total a.distance b.distance⟩

instance : IsTrans DMatch DMatch.le := ⟨fun _ _ _ h1 h2 => Int.le_trans h1 h2⟩

theorem sortMatches_sorted (l : List DMatch) : (sortMatches l).Sorted DMatch.le :=
  List.sorted_insertionSort _ l

theorem sortMatches_mem (l : List DMatch) (m : DMatch) : m ∈ sortMatches l ↔ m ∈ l :=
  (sortMatches_perm l).mem_iff

/-- The best match is the one given or carries the index of the query row. -/
theorem knnBest_queryIdx (qIdx : Nat) :
    ∀ (allDists : List (List Int)) (iIdx : Nat) (b : DMatch),
      knnBest qIdx allDists iIdx b = b ∨ ((knnBest qIdx allDists iIdx b).queryIdx = qIdx
        ∧ 0 ≤ (knnBest qIdx allDists iIdx b).trainIdx) := by
  intro allDists
  induction allDists with
  | nil => intro iIdx b; left; rfl
  | cons dists rest ih =>
    intro iIdx b
    simp only [knnBest]
    split
    · split
      · rcases ih (iIdx + 1) ⟨qIdx, (minMaxLoc dists).1, iIdx, roundF32 (minMaxLoc dists).2⟩
          with h | h
        · right; rw [h]; simp
        · right; exact h
      · exact ih (iIdx + 1) b
    · exact ih (iIdx + 1) b

theorem knnSelect_spec (distMax : Int) (qIdx : Nat) :
    ∀ (remaining : Nat) (allDists : List (List Int)) (cur : List DMatch),
      (knnSelect distMax qIdx remaining allDists cur).length ≤ cur.length + remaining
        ∧ ∀ m ∈ knnSelect distMax qIdx remaining allDists cur, m ∈ cur ∨ m.queryIdx = qIdx := by
  intro remaining
  induction remaining with
  | zero => intro allDists cur; exact ⟨by simp [knnSelect], fun m hm => Or.inl (by simpa [knnSelect] using hm)⟩
  | succ k ih =>
    intro allDists cur
    simp only [knnSelect]
    split
    · exact ⟨by omega, fun m hm => Or.inl hm⟩
    · rename_i hne
      obtain ⟨h1, h2⟩ := ih (setDist allDists
        (knnBest qIdx allDists 0 ⟨-1, -1, -1, FLT_MAX⟩).imgIdx.toNat
        (knnBest qIdx allDists 0 ⟨-1, -1, -1, FLT_MAX⟩).trainIdx.toNat distMax)
        (cur ++ [knnBest qIdx allDists 0 ⟨-1, -1, -1, FLT_MAX⟩])
      constructor
      · simp only [List.length_append, List.length_singleton] at h1
        omega
      · intro m hm
        rcases h2 m hm with h | h
        · rcases List.mem_append.mp h with h | h
          · left; exact h
          · right
            rw [List.mem_singleton] at h
            rcases knnBest_queryIdx qIdx allDists 0 ⟨-1, -1, -1, FLT_MAX⟩ with hb | hb
            · rw [hb] at hne; simp at hne
            · rw [h]; exact hb.1
        · right; exact h

/-- A result slot of a query row of `commonKnnMatchImpl`. -/
theorem knnQuery_spec {D : Type} (M : BruteForceMatcher D) (query : Mat D) (knn : Int)
    (masks : List MaskMat) (qIdx : Nat) (d1 : D) (slot : List DMatch)
    (h : knnQuery M query knn masks qIdx d1 = .ok slot) :
    slot.length ≤ knn.toNat ∧ slot.Sorted DMatch.le ∧ ∀ m ∈ slot, m.queryIdx = qIdx := by
  simp only [knnQuery] at h
  split at h
  · simp at h
  · rename_i allDists _
    simp only [Except.ok.injEq] at h
    subst h
    obtain ⟨h1, h2⟩ := knnSelect_spec M.distMax qIdx knn.toNat allDists []
    refine ⟨?_, sortMatches_sorted _, ?_⟩
    · rw [sortMatches_length]; simpa using h1
    · intro m hm
      rw [sortMatches_mem] at hm
      rcases h2 m hm with h | h
      · simp at h
      · exact h

/-- The slots pushed by the query loop of `commonKnnMatchImpl`: every slot is
empty or the slot of a query row. -/
theorem knnLoop_slots {D : Type} (M : BruteForceMatcher D) (query : Mat D) (knn : Int)
    (masks : List MaskMat) (compact : Bool) :
    ∀ (ds : List D) (qIdx : Nat) (r : List (List DMatch)),
      knnLoop M query knn masks compact ds qIdx = .ok r →
      ∀ slot ∈ r, slot = [] ∨ ∃ q d, knnQuery M query knn masks q d = .ok slot := by
  intro ds
  induction ds with
  | nil => intro qIdx r h; simp [knnLoop] at h; subst h; simp
  | cons d1 rest ih =>
    intro qIdx r h slot hs
    simp only [knnLoop] at h
    split at h
    · split at h
      · rename_i r1 hr1
        simp only [Except.ok.injEq] at h
        subst h
        cases compact
        · simp only [Bool.not_false, if_true, List.mem_cons] at hs
          rcases hs with hs | hs
          · left; exact hs
          · exact ih _ _ hr1 slot hs
        · simp only [Bool.not_true, Bool.false_eq_true, if_false] at hs
          exact ih _ _ hr1 slot hs
      · simp at h
    · split at h
      · simp at h
      · rename_i cur hcur
        split at h
        · rename_i r1 hr1
          simp only [Except.ok.injEq] at h
          subst h
          rcases List.mem_cons.mp hs with hs | hs
          · right; exact ⟨_, _, hs ▸ hcur⟩
          · exact ih _ _ hr1 slot hs
        · simp at h

/-- Without compaction the query loop of `commonKnnMatchImpl` pushes one slot
per query row, in order. -/
theorem knnLoop_full {D : Type} (M : BruteForceMatcher D) (query : Mat D) (knn : Int)
    (masks : List MaskMat) :
    ∀ (ds : List D) (qIdx : Nat) (r : List (List DMatch)),
      knnLoop M query knn masks false ds qIdx = .ok r →
      r.length = ds.length ∧ ∀ (i : Nat) (d : D), ds[i]? = some d →
        ∃ slot, r[i]? = some slot ∧
          (if isMaskedOut masks (qIdx + i) then slot = []
            else knnQuery M query knn masks (qIdx + i) d = .ok slot) := by
  intro ds
  induction ds with
  | nil => intro qIdx r h; simp [knnLoop] at h; subst h; simp
  | cons d1 rest ih =>
    intro qIdx r h
    simp only [knnLoop] at h
    split at h
    · rename_i hm
      split at h
      · rename_i r1 hr1
        simp only [Except.ok.injEq, Bool.not_false, if_true] at h
        subst h
        obtain ⟨hl, hi⟩ := ih _ _ hr1
        refine ⟨by simp [hl], ?_⟩
        intro i d hd
        cases i with
        | zero => exact ⟨[], by simp, by simp [hm]⟩
        | succ j =>
          simp only [List.getElem?_cons_succ] at hd ⊢
          have := hi j d hd
          rwa [show qIdx + 1 + j = qIdx + (j + 1) by omega] at this
      · simp at h
    · rename_i hm
      split at h
      · simp at h
      · rename_i cur hcur
        split at h
        · rename_i r1 hr1
          simp only [Except.ok.injEq] at h
          subst h
          obtain ⟨hl, hi⟩ := ih _ _ hr1
          refine ⟨by simp [hl], ?_⟩
          intro i d hd
          cases i with
          | zero =>
            simp only [List.getElem?_cons_zero, Option.some.injEq] at hd
            subst hd
            exact ⟨cur, by simp, by simp [hm, hcur]⟩
          | succ j =>
            simp only [List.getElem?_cons_succ] at hd ⊢
            have := hi j d hd
            rwa [show qIdx + 1 + j = qIdx + (j + 1) by omega] at this
        · simp at h

/-! ## When the matcher loops deliver a result -/

theorem radiusRow_queryIdx {D : Type} (M : BruteForceMatcher D) (dimension : Int)
    (maxDistance : ℚ) (masks : List MaskMat) (qIdx iIdx : Nat) (d1 : D) :
    ∀ (rows : List D) (tIdx : Nat) (r : List DMatch),
      radiusRow M dimension maxDistance masks qIdx iIdx d1 rows tIdx = .ok r →
      ∀ m ∈ r, m.queryIdx = qIdx := by
  intro rows
  induction rows with
  | nil => intro tIdx r h; simp [radiusRow] at h; subst h; simp
  | cons d2 rest ih =>
    intro tIdx r h m hm
    simp only [radiusRow] at h
    split at h
    · split at h
      · rename_i r1 hr1
        simp only [Except.ok.injEq] at h
        subst h
        split at hm
        · rcases List.mem_cons.mp hm with hm | hm
          · rw [hm]
          · exact ih _ _ hr1 m hm
        · exact ih _ _ hr1 m hm
      · simp at h
    · split at h
      · simp at h
      · split at h
        · rename_i r1 hr1
          simp only [Except.ok.injEq] at h
          subst h
          split at hm
          · rcases List.mem_cons.mp hm with hm | hm
            · rw [hm]
            · exact ih _ _ hr1 m hm
          · exact ih _ _ hr1 m hm
        · simp at h

theorem radiusSets_queryIdx {D : Type} (M : BruteForceMatcher D) (query : Mat D)
    (maxDistance : ℚ) (masks : List MaskMat) (qIdx : Nat) (d1 : D) :
    ∀ (trains : List (Mat D)) (iIdx : Nat) (r : List DMatch),
      radiusSets M query maxDistance masks qIdx d1 trains iIdx = .ok r →
      ∀ m ∈ r, m.queryIdx = qIdx := by
  intro trains
  induction trains with
  | nil => intro iIdx r h; simp [radiusSets] at h; subst h; simp
  | cons train rest ih =>
    intro iIdx r h m hm
    simp only [radiusSets] at h
    split at h
    · split at h
      · simp at h
      · rename_i row hrow
        split at h
        · rename_i r1 hr1
          simp only [Except.ok.injEq] at h
          subst h
          rcases List.mem_append.mp hm with hm | hm
          · exact radiusRow_queryIdx M _ maxDistance masks qIdx iIdx d1 _ _ _ hrow m hm
          · exact ih _ _ hr1 m hm
        · simp at h
    · simp at h

/-- A result slot of a query row of `commonRadiusMatchImpl`. -/
theorem radiusQuery_spec {D : Type} (M : BruteForceMatcher D) (query : Mat D)
    (maxDistance : ℚ) (masks : List MaskMat) (qIdx : Nat) (d1 : D) (slot : List DMatch)
    (h : radiusQuery M query maxDistance masks qIdx d1 = .ok slot) :
    slot.Sorted DMatch.le ∧ ∀ m ∈ slot, m.queryIdx = qIdx := by
  simp only [radiusQuery] at h
  split at h
  · simp at h
  · rename_i cur hcur
    simp only [Except.ok.injEq] at h
    subst h
    refine ⟨sortMatches_sorted _, ?_⟩
    intro m hm
    rw [sortMatches_mem] at hm
    exact radiusSets_queryIdx M query maxDistance masks qIdx d1 _ _ _ hcur m hm

theorem radiusLoop_slots {D : Type} (M : BruteForceMatcher D) (query : Mat D)
    (maxDistance : ℚ) (masks : List MaskMat) (compact : Bool) :
    ∀ (ds : List D) (qIdx : Nat) (r : List (List DMatch)),
      radiusLoop M query maxDistance masks compact ds qIdx = .ok r →
      ∀ slot ∈ r, slot = [] ∨ ∃ q d, radiusQuery M query maxDistance masks q d = .ok slot := by
  intro ds
  induction ds with
  | nil => intro qIdx r h; simp [radiusLoop] at h; subst h; simp
  | cons d1 rest ih =>
    intro qIdx r h slot hs
    simp only [radiusLoop] at h
    split at h
    · split at h
      · rename_i r1 hr1
        simp only [Except.ok.injEq] at h
        subst h
        cases compact
        · simp only [Bool.not_false, if_true, List.mem_cons] at hs
          rcases hs with hs | hs
          · left; exact hs
          · exact ih _ _ hr1 slot hs
        · simp only [Bool.not_true, Bool.false_eq_true, if_false] at hs
          exact ih _ _ hr1 slot hs
      · simp at h
    · split at h
      · simp at h
      · rename_i cur hcur
        split at h
        · rename_i r1 hr1
          simp only [Except.ok.injEq] at h
          subst h
          rcases List.mem_cons.mp hs with hs | hs
          · right; exact ⟨_, _, hs ▸ hcur⟩
          · exact ih _ _ hr1 slot hs
        · simp at h

theorem radiusLoop_full {D : Type} (M : BruteForceMatcher D) (query : Mat D)
    (maxDistance : ℚ) (masks : List MaskMat) :
    ∀ (ds : List D) (qIdx : Nat) (r : List (List DMatch)),
      radiusLoop M query maxDistance masks false ds qIdx = .ok r →
      r.length = ds.length ∧ ∀ (i : Nat) (d : D), ds[i]? = some d →
        ∃ slot, r[i]? = some slot ∧
          (if isMaskedOut masks (qIdx + i) then slot = []
            else radiusQuery M query maxDistance masks (qIdx + i) d = .ok slot) := by
  intro ds
  induction ds with
  | nil => intro qIdx r h; simp [radiusLoop] at h; subst h; simp
  | cons d1 rest ih =>
    intro qIdx r h
    simp only [radiusLoop] at h
    split at h
    · rename_i hm
      split at h
      · rename_i r1 hr1
        simp only [Except.ok.injEq, Bool.not_false, if_true] at h
        subst h
        obtain ⟨hl, hi⟩ := ih _ _ hr1
        refine ⟨by simp [hl], ?_⟩
        intro i d hd
        cases i with
        | zero => exact ⟨[], by simp, by simp [hm]⟩
        | succ j =>
          simp only [List.getElem?_cons_succ] at hd ⊢
          have := hi j d hd
          rwa [show qIdx + 1 + j = qIdx + (j + 1) by omega] at this
      · simp at h
    · rename_i hm
      split at h
      · simp at h
      · rename_i cur hcur
        split at h
        · rename_i r1 hr1
          simp only [Except.ok.injEq] at h
          subst h
          obtain ⟨hl, hi⟩ := ih _ _ hr1
          refine ⟨by simp [hl], ?_⟩
          intro i d hd
          cases i with
          | zero =>
            simp only [List.getElem?_cons_zero, Option.some.injEq] at hd
            subst hd
            exact ⟨cur, by simp, by simp [hm, hcur]⟩
          | succ j =>
            simp only [List.getElem?_cons_succ] at hd ⊢
            have := hi j d hd
            rwa [show qIdx + 1 + j = qIdx + (j + 1) by omega] at this
        · simp at h

theorem radiusRow_ok {D : Type} (M : BruteForceMatcher D) (dimension : Int) (maxDistance : ℚ)
    (masks : List MaskMat) (qIdx iIdx : Nat) (d1 : D)
    (hm : masks = [] ∨ iIdx < masks.length) :
    ∀ (rows : List D) (tIdx : Nat),
      ∃ r, radiusRow M dimension maxDistance masks qIdx iIdx d1 rows tIdx = .ok r := by
  intro rows
  induction rows with
  | nil => intro tIdx; exact ⟨[], rfl⟩
  | cons d2 rest ih =>
    intro tIdx
    obtain ⟨r, hr⟩ := ih (tIdx + 1)
    simp only [radiusRow]
    rcases hm with hm | hm
    · subst hm
      simp [hr]
    · split
      · simp [hr]
      · rw [List.getElem?_eq_getElem hm]
        simp [hr]

theorem radiusReferenceRow_cons {D : Type} (M : BruteForceMatcher D) (dimension : Int)
    (maxDistance : ℚ) (masks : List MaskMat) (qIdx iIdx : Nat) (d1 d2 : D) (rest : List D)
    (tIdx : Nat) :
    radiusReferenceRow M dimension maxDistance masks qIdx iIdx d1 (d2 :: rest) tIdx
      = if eligible masks qIdx iIdx tIdx ∧ ((M.distance_ d1 d2 dimension : Int) : ℚ) < maxDistance
        then ⟨qIdx, tIdx, iIdx, M.distance_ d1 d2 dimension⟩
          :: radiusReferenceRow M dimension maxDistance masks qIdx iIdx d1 rest (tIdx + 1)
        else radiusReferenceRow M dimension maxDistance masks qIdx iIdx d1 rest (tIdx + 1) := by
  simp only [radiusReferenceRow, List.enumFrom_cons, List.filterMap_cons]
  by_cases hc : eligible masks qIdx iIdx tIdx = true
      ∧ ((M.distance_ d1 d2 dimension : Int) : ℚ) < maxDistance
  · simp only [if_pos hc]
  · simp only [if_neg hc]

/-- With distances that a `float` holds exactly, the loop over the rows of one
train set pushes the reference enumeration of that set. -/
theorem radiusRow_eq {D : Type} (M : BruteForceMatcher D) (dimension : Int) (maxDistance : ℚ)
    (masks : List MaskMat) (qIdx iIdx : Nat) (d1 : D)
    (hm : masks = [] ∨ iIdx < masks.length) :
    ∀ (rows : List D) (tIdx : Nat),
      (∀ d2 ∈ rows, roundF32 (M.distance_ d1 d2 dimension) = M.distance_ d1 d2 dimension) →
      radiusRow M dimension maxDistance masks qIdx iIdx d1 rows tIdx
        = .ok (radiusReferenceRow M dimension maxDistance masks qIdx iIdx d1 rows tIdx) := by
  intro rows
  induction rows with
  | nil => intro tIdx _; rfl
  | cons d2 rest ih =>
    intro tIdx hex
    have hr := ih (tIdx + 1) (fun d hd => hex d (List.mem_cons_of_mem _ hd))
    have h2 := hex d2 (List.mem_cons_self _ _)
    rw [radiusReferenceRow_cons]
    simp only [radiusRow, hr, h2]
    rcases hm with hm | hm
    · subst hm
      simp [eligible]
    · by_cases he : masks.isEmpty = true
      · simp [eligible, he]
      · simp [eligible, he, List.getElem?_eq_getElem hm]

theorem radiusSets_result {D : Type} (M : BruteForceMatcher D) (query : Mat D)
    (maxDistance : ℚ) (masks : List MaskMat) (qIdx : Nat) (d1 : D) :
    ∀ (trains : List (Mat D)) (iIdx : Nat), (masks = [] ∨ iIdx + trains.length ≤ masks.length) →
      ((trains.all fun train => trainAsserts M query train) = true →
        ∃ r, radiusSets M query maxDistance masks qIdx d1 trains iIdx = .ok r)
      ∧ ((trains.all fun train => trainAsserts M query train) = false →
        radiusSets M query maxDistance masks qIdx d1 trains iIdx = .error .assertion) := by
  intro trains
  induction trains with
  | nil => intro iIdx _; simp [radiusSets]
  | cons train rest ih =>
    intro iIdx hm
    have hm1 : masks = [] ∨ iIdx < masks.length := by
      rcases hm with h | h
      · left; exact h
      · right; simp only [List.length_cons] at h; omega
    have hm2 : masks = [] ∨ iIdx + 1 + rest.length ≤ masks.length := by
      rcases hm with h | h
      · left; exact h
      · right; simp only [List.length_cons] at h; omega
    obtain ⟨row, hrow⟩ := radiusRow_ok M query.cols maxDistance masks qIdx iIdx d1 hm1
      train.data 0
    obtain ⟨ih1, ih2⟩ := ih (iIdx + 1) hm2
    simp only [radiusSets, List.all_cons, Bool.and_eq_true, Bool.and_eq_false_iff]
    constructor
    · rintro ⟨ha, hall⟩
      obtain ⟨r, hr⟩ := ih1 hall
      simp [ha, hrow, hr]
    · intro h
      by_cases ha : trainAsserts M query train = true
      · rcases h with h | h
        · rw [h] at ha; simp at ha
        · simp [ha, hrow, ih2 h]
      · simp [ha]

/-- With distances that a `float` holds exactly and train sets that pass the
`assert`s, the loop over the train sets pushes the reference enumeration. -/
theorem radiusSets_eq {D : Type} (M : BruteForceMatcher D) (query : Mat D)
    (maxDistance : ℚ) (masks : List MaskMat) (qIdx : Nat) (d1 : D) :
    ∀ (trains : List (Mat D)) (iIdx : Nat), (masks = [] ∨ iIdx + trains.length ≤ masks.length) →
      (trains.all fun train => trainAsserts M query train) = true →
      (∀ train ∈ trains, ∀ d2 ∈ train.data,
        roundF32 (M.distance_ d1 d2 query.cols) = M.distance_ d1 d2 query.cols) →
      radiusSets M query maxDistance masks qIdx d1 trains iIdx
        = .ok (radiusReference M query.cols maxDistance masks qIdx d1 trains iIdx) := by
  intro trains
  induction trains with
  | nil => intro iIdx _ _ _; rfl
  | cons train rest ih =>
    intro iIdx hm hall hex
    have hm1 : masks = [] ∨ iIdx < masks.length := by
      rcases hm with h | h
      · left; exact h
      · right; simp only [List.length_cons] at h; omega
    have hm2 : masks = [] ∨ iIdx + 1 + rest.length ≤ masks.length := by
      rcases hm with h | h
      · left; exact h
      · right; simp only [List.length_cons] at h; omega
    simp only [List.all_cons, Bool.and_eq_true] at hall
    have hrow := radiusRow_eq M query.cols maxDistance masks qIdx iIdx d1 hm1 train.data 0
      (hex train (List.mem_cons_self _ _))
    have hr := ih (iIdx + 1) hm2 hall.2 (fun t ht => hex t (List.mem_cons_of_mem _ ht))
    simp only [radiusSets, hall.1, if_true, hrow, hr, radiusReference, List.enumFrom_cons,
      List.map_cons, List.flatten_cons]

theorem radiusQuery_result {D : Type} (M : BruteForceMatcher D) (query : Mat D)
    (maxDistance : ℚ) (masks : List MaskMat) (qIdx : Nat) (d1 : D)
    (hm : masks = [] ∨ M.trainDescCollection.length ≤ masks.length) :
    (trainsOk M query = true → ∃ slot, radiusQuery M query maxDistance masks qIdx d1 = .ok slot)
      ∧ (trainsOk M query = false →
        radiusQuery M query maxDistance masks qIdx d1 = .error .assertion) := by
  obtain ⟨h1, h2⟩ := radiusSets_result M query maxDistance masks qIdx d1 M.trainDescCollection 0
    (by simpa using hm)
  constructor
  · intro h
    obtain ⟨r, hr⟩ := h1 h
    exact ⟨sortMatches r, by simp only [radiusQuery, hr]⟩
  · intro h
    simp only [radiusQuery, h2 h]

theorem radiusLoop_result {D : Type} (M : BruteForceMatcher D) (query : Mat D)
    (maxDistance : ℚ) (masks : List MaskMat) (compact : Bool)
    (hm : masks = [] ∨ M.trainDescCollection.length ≤ masks.length) :
    ∀ (ds : List D) (qIdx : Nat),
      (trainsOk M query = true ∨ someQueryUnmasked masks qIdx ds.length = false →
        ∃ r, radiusLoop M query maxDistance masks compact ds qIdx = .ok r)
      ∧ (trainsOk M query = false ∧ someQueryUnmasked masks qIdx ds.length = true →
        radiusLoop M query maxDistance masks compact ds qIdx = .error .assertion) := by
  intro ds
  induction ds with
  | nil => intro qIdx; simp [radiusLoop, someQueryUnmasked]
  | cons d1 rest ih =>
    intro qIdx
    obtain ⟨ih1, ih2⟩ := ih (qIdx + 1)
    obtain ⟨q1, q2⟩ := radiusQuery_result M query maxDistance masks qIdx d1 hm
    simp only [someQueryUnmasked, List.length_cons, List.range'_succ, List.any_cons,
      Bool.or_eq_false_iff, Bool.or_eq_true, Bool.not_eq_true', Bool.not_eq_false'] at *
    by_cases hmask : isMaskedOut masks qIdx = true
    · simp only [radiusLoop, hmask, if_true]
      constructor
      · intro h
        have : trainsOk M query = true ∨ ((List.range' (qIdx + 1) rest.length).any fun q =>
            !isMaskedOut masks q) = false := by
          rcases h with h | h
          · left; exact h
          · right; exact h.2
        obtain ⟨r, hr⟩ := ih1 this
        simp [hr]
      · rintro ⟨h1, h2⟩
        rcases h2 with h2 | h2
        · simp at h2
        · simp [ih2 ⟨h1, h2⟩]
    · simp only [radiusLoop, hmask, Bool.false_eq_true, if_false]
      have hmask' : isMaskedOut masks qIdx = false := by simpa using hmask
      constructor
      · intro h
        rcases h with h | h
        · obtain ⟨slot, hs⟩ := q1 h
          obtain ⟨r, hr⟩ := ih1 (Or.inl h)
          simp [hs, hr]
        · simp [hmask'] at h
      · rintro ⟨h1, _⟩
        simp [q2 h1]

/-! ## The matcher as a whole -/

theorem commonKnnMatchImpl_ok {D : Type} (M : BruteForceMatcher D) (query : Mat D)
    (knn : Int) (masks : List MaskMat) (compact : Bool) (out : List (List DMatch))
    (h : commonKnnMatchImpl M query [] knn masks compact = .ok out) :
    query.empty = false ∧ M.valueType = query.type
      ∧ knnLoop M query knn masks compact query.data 0 = .ok out := by
  simp only [commonKnnMatchImpl] at h
  split at h
  · simp at h
  · rename_i he
    split at h
    · simp at h
    · rename_i ht
      split at h
      · rename_i r hr
        simp only [List.nil_append, Except.ok.injEq] at h
        subst h
        exact ⟨by simpa using he, by simpa using ht, hr⟩
      · simp at h

theorem commonRadiusMatchImpl_ok {D : Type} (M : BruteForceMatcher D) (query : Mat D)
    (maxDistance : ℚ) (masks : List MaskMat) (compact : Bool) (out : List (List DMatch))
    (h : commonRadiusMatchImpl M query [] maxDistance masks compact = .ok out) :
    M.valueType = query.type
      ∧ radiusLoop M query maxDistance masks compact query.data 0 = .ok out := by
  simp only [commonRadiusMatchImpl] at h
  split at h
  · simp at h
  · rename_i ht
    split at h
    · rename_i r hr
      simp only [List.nil_append, Except.ok.injEq] at h
      subst h
      exact ⟨by simpa using ht, hr⟩
    · simp at h

theorem sorted_distances (slot : List DMatch) (h : slot.Sorted DMatch.le) :
    (slot.map DMatch.distance).Sorted (· ≤ ·) := by
  simp only [List.Sorted, List.pairwise_map]
  exact h

/-- Without compaction `commonKnnMatchImpl` fills one slot per query row, in
order, and slot `q` holds only matches of query row `q`. -/
theorem knn_one_slot_per_query {D : Type} (M : BruteForceMatcher D) (query : Mat D)
    (knn : Int) (masks : List MaskMat) (out : List (List DMatch))
    (h : commonKnnMatchImpl M query [] knn masks false = .ok out) :
    out.length = query.rows
      ∧ ∀ (q : Nat) (slot : List DMatch), out[q]? = some slot →
        ∀ m ∈ slot, m.queryIdx = q := by
  obtain ⟨_, _, hl⟩ := commonKnnMatchImpl_ok M query knn masks false out h
  obtain ⟨h1, h2⟩ := knnLoop_full M query knn masks query.data 0 out hl
  refine ⟨h1, ?_⟩
  intro q slot hs m hm
  have hq : q < query.data.length := by
    have := (List.getElem?_eq_some_iff.mp hs).1
    omega
  obtain ⟨slot2, hs2, hc⟩ := h2 q query.data[q] (List.getElem?_eq_getElem hq)
  rw [hs] at hs2
  simp only [Option.some.injEq] at hs2
  subst hs2
  split at hc
  · subst hc; simp at hm
  · rw [Nat.zero_add] at hc
    exact (knnQuery_spec M query knn masks q _ _ hc).2.2 m hm

/-- Without compaction `commonRadiusMatchImpl` fills one slot per query row, in
order, and slot `q` holds only matches of query row `q`. -/
theorem radius_one_slot_per_query {D : Type} (M : BruteForceMatcher D) (query : Mat D)
    (maxDistance : ℚ) (masks : List MaskMat) (out : List (List DMatch))
    (h : commonRadiusMatchImpl M query [] maxDistance masks false = .ok out) :
    out.length = query.rows
      ∧ ∀ (q : Nat) (slot : List DMatch), out[q]? = some slot →
        ∀ m ∈ slot, m.queryIdx = q := by
  obtain ⟨_, hl⟩ := commonRadiusMatchImpl_ok M query maxDistance masks false out h
  obtain ⟨h1, h2⟩ := radiusLoop_full M query maxDistance masks query.data 0 out hl
  refine ⟨h1, ?_⟩
  intro q slot hs m hm
  have hq : q < query.data.length := by
    have := (List.getElem?_eq_some_iff.mp hs).1
    omega
  obtain ⟨slot2, hs2, hc⟩ := h2 q query.data[q] (List.getElem?_eq_getElem hq)
  rw [hs] at hs2
  simp only [Option.some.injEq] at hs2
  subst hs2
  split at hc
  · subst hc; simp at hm
  · rw [Nat.zero_add] at hc
    exact (radiusQuery_spec M query maxDistance masks q _ _ hc).2 m hm

/-- Whatever `compactResult` is, the query loop of `commonRadiusMatchImpl`
pushes the slot of every query row that is not masked out. -/
theorem radiusLoop_mem {D : Type} (M : BruteForceMatcher D) (query : Mat D)
    (maxDistance : ℚ) (masks : List MaskMat) (compact : Bool) :
    ∀ (ds : List D) (qIdx : Nat) (r : List (List DMatch)),
      radiusLoop M query maxDistance masks compact ds qIdx = .ok r →
      ∀ (i : Nat) (d : D), ds[i]? = some d → isMaskedOut masks (qIdx + i) = false →
        ∃ slot ∈ r, radiusQuery M query maxDistance masks (qIdx + i) d = .ok slot := by
  intro ds
  induction ds with
  | nil => intro qIdx r _ i d hd; simp at hd
  | cons d1 rest ih =>
    intro qIdx r h i d hd hmask
    simp only [radiusLoop] at h
    split at h
    · rename_i hm
      split at h
      · rename_i r1 hr1
        simp only [Except.ok.injEq] at h
        subst h
        cases i with
        | zero => simp [hm] at hmask
        | succ j =>
          simp only [List.getElem?_cons_succ] at hd
          obtain ⟨slot, hs, hq⟩ := ih _ _ hr1 j d hd
            (by rwa [show qIdx + 1 + j = qIdx + (j + 1) by omega])
          refine ⟨slot, ?_, by rwa [show qIdx + 1 + j = qIdx + (j + 1) by omega] at hq⟩
          split
          · exact List.mem_cons_of_mem _ hs
          · exact hs
      · simp at h
    · split at h
      · simp at h
      · rename_i cur hcur
        split at h
        · rename_i r1 hr1
          simp only [Except.ok.injEq] at h
          subst h
          cases i with
          | zero =>
            simp only [List.getElem?_cons_zero, Option.some.injEq] at hd
            subst hd
            exact ⟨cur, List.mem_cons_self _ _, hcur⟩
          | succ j =>
            simp only [List.getElem?_cons_succ] at hd
            obtain ⟨slot, hs, hq⟩ := ih _ _ hr1 j d hd
              (by rwa [show qIdx + 1 + j = qIdx + (j + 1) by omega])
            exact ⟨slot, List.mem_cons_of_mem _ hs,
              by rwa [show qIdx + 1 + j = qIdx + (j + 1) by omega] at hq⟩
        · simp at h

/-- With compaction the query loop of `commonKnnMatchImpl` pushes the slots of
the query rows that are not masked out, in order, and nothing else. -/
theorem knnLoop_compact {D : Type} (M : BruteForceMatcher D) (query : Mat D) (knn : Int)
    (masks : List MaskMat) :
    ∀ (ds : List D) (qIdx : Nat) (r : List (List DMatch)),
      knnLoop M query knn masks true ds qIdx = .ok r →
      List.Forall₂ (fun qd slot => knnQuery M query knn masks qd.1 qd.2 = .ok slot)
        ((ds.enumFrom qIdx).filter fun qd => !isMaskedOut masks qd.1) r := by
  intro ds
  induction ds with
  | nil => intro qIdx r h; simp [knnLoop] at h; subst h; simp
  | cons d1 rest ih =>
    intro qIdx r h
    simp only [knnLoop] at h
    split at h
    · rename_i hm
      split at h
      · rename_i r1 hr1
        simp only [Except.ok.injEq, Bool.not_true, Bool.false_eq_true, if_false] at h
        subst h
        simp only [List.enumFrom_cons, List.filter_cons, hm, Bool.not_true, Bool.false_eq_true,
          if_false]
        exact ih _ _ hr1
      · simp at h
    · rename_i hm
      split at h
      · simp at h
      · rename_i cur hcur
        split at h
        · rename_i r1 hr1
          simp only [Except.ok.injEq] at h
          subst h
          have hm' : isMaskedOut masks qIdx = false := by simpa using hm
          simp only [List.enumFrom_cons, List.filter_cons, hm', Bool.not_false, if_true]
          exact List.Forall₂.cons hcur (ih _ _ hr1)
        · simp at h

theorem forall₂_enum_filter {D : Type} (p : Nat → Bool) (R : Nat → List DMatch → Prop)
    (ds : List D) (r : List (List DMatch))
    (h : List.Forall₂ (fun (qd : Nat × D) slot => R qd.1 slot)
      (ds.enum.filter fun qd => p qd.1) r) :
    List.Forall₂ R ((List.range ds.length).filter p) r := by
  have e : (List.range ds.length).filter p
      = (ds.enum.filter fun qd => p qd.1).map Prod.fst := by
    rw [← List.enum_map_fst ds, List.filter_map]
    rfl
  rw [e, List.forall₂_map_left_iff]
  exact h

theorem minLocFrom_mem :
    ∀ (rest : List Int) (i loc : Nat) (val : Int),
      (minLocFrom rest i loc val).2 = val ∨ (minLocFrom rest i loc val).2 ∈ rest := by
  intro rest
  induction rest with
  | nil => intro i loc val; left; rfl
  | cons x rest ih =>
    intro i loc val
    simp only [minLocFrom]
    split
    · rcases ih (i + 1) i x with h | h
      · right; rw [h]; exact List.mem_cons_self _ _
      · right; exact List.mem_cons_of_mem _ h
    · rcases ih (i + 1) loc val with h | h
      · left; exact h
      · right; exact List.mem_cons_of_mem _ h

theorem minMaxLoc_mem (dists : List Int) (h : dists ≠ []) : (minMaxLoc dists).2 ∈ dists := by
  cases dists with
  | nil => exact absurd rfl h
  | cons x rest =>
    simp only [minMaxLoc]
    rcases minLocFrom_mem rest 1 0 x with h | h
    · rw [h]; exact List.mem_cons_self _ _
    · exact List.mem_cons_of_mem _ h

/-- When every entry is below `FLT_MAX` and some train set has a row, the scan of
step 2 started from the default match finds a match. -/
theorem knnBest_found (qIdx : Nat) :
    ∀ (allDists : List (List Int)) (iIdx : Nat) (b : DMatch),
      (∀ row ∈ allDists, ∀ x ∈ row, x < FLT_MAX) → (∃ row ∈ allDists, row ≠ []) →
      b.distance = FLT_MAX → 0 ≤ (knnBest qIdx allDists iIdx b).trainIdx := by
  intro allDists
  induction allDists with
  | nil => intro iIdx b _ h; simp at h
  | cons dists rest ih =>
    intro iIdx b hlt hne hb
    simp only [knnBest]
    by_cases hd : dists = []
    · subst hd
      simp only [List.isEmpty_nil, Bool.not_true, Bool.false_eq_true, if_false]
      apply ih (iIdx + 1) b (fun row hr => hlt row (List.mem_cons_of_mem _ hr)) _ hb
      obtain ⟨row, hr, hrne⟩ := hne
      rcases List.mem_cons.mp hr with h | h
      · exact absurd h hrne
      · exact ⟨row, h, hrne⟩
    · have hmem := minMaxLoc_mem dists hd
      have hmin : (minMaxLoc dists).2 < b.distance := by
        rw [hb]; exact hlt dists (List.mem_cons_self _ _) _ hmem
      have hemp : dists.isEmpty = false := by
        cases dists with
        | nil => exact absurd rfl hd
        | cons _ _ => rfl
      simp only [hemp, Bool.not_false, if_true, hmin]
      rcases knnBest_queryIdx qIdx rest (iIdx + 1)
        ⟨qIdx, (minMaxLoc dists).1, iIdx, roundF32 (minMaxLoc dists).2⟩ with h | h
      · rw [h]; simp
      · exact h.2

theorem mem_modify {α : Type} (f : α → α) :
    ∀ (l : List α) (n : Nat) (y : α), y ∈ l.modify f n → y ∈ l ∨ ∃ x ∈ l, y = f x := by
  intro l
  induction l with
  | nil => intro n y h; cases n <;> simp [List.modify] at h
  | cons a l ih =>
    intro n y h
    cases n with
    | zero =>
      simp only [List.modify_zero_cons, List.mem_cons] at h
      rcases h with h | h
      · right; exact ⟨a, List.mem_cons_self _ _, h⟩
      · left; exact List.mem_cons_of_mem _ h
    | succ n =>
      simp only [List.modify_succ_cons, List.mem_cons] at h
      rcases h with h | h
      · left; rw [h]; exact List.mem_cons_self _ _
      · rcases ih n y h with h | ⟨x, hx, hy⟩
        · left; exact List.mem_cons_of_mem _ h
        · right; exact ⟨x, List.mem_cons_of_mem _ hx, hy⟩

theorem modify_set_nonempty (imgIdx trainIdx : Nat) (v : Int) :
    ∀ (l : List (List Int)), (∃ row ∈ l, row ≠ []) →
      ∃ row ∈ l.modify (fun row => row.set trainIdx v) imgIdx, row ≠ [] := by
  intro l
  induction l generalizing imgIdx with
  | nil => intro h; simp at h
  | cons a l ih =>
    rintro ⟨row, hr, hne⟩
    cases imgIdx with
    | zero =>
      simp only [List.modify_zero_cons]
      rcases List.mem_cons.mp hr with h | h
      · refine ⟨a.set trainIdx v, List.mem_cons_self _ _, ?_⟩
        subst h
        intro hc
        have := congrArg List.length hc
        simp only [List.length_set, List.length_nil] at this
        exact hne (List.length_eq_zero.mp this)
      · exact ⟨row, List.mem_cons_of_mem _ h, hne⟩
    | succ n =>
      simp only [List.modify_succ_cons]
      rcases List.mem_cons.mp hr with h | h
      · exact ⟨a, List.mem_cons_self _ _, h ▸ hne⟩
      · obtain ⟨row2, hr2, hne2⟩ := ih n ⟨row, h, hne⟩
        exact ⟨row2, List.mem_cons_of_mem _ hr2, hne2⟩

/-- With a largest distance value below `FLT_MAX`, as for every integer
`DistanceType`, an invalidated or masked entry is still selected: when some train
set has a row, the selection loop appends a match on every pass. -/
theorem knnSelect_length_eq (distMax : Int) (qIdx : Nat) (hmax : distMax < FLT_MAX) :
    ∀ (remaining : Nat) (allDists : List (List Int)) (cur : List DMatch),
      (∀ row ∈ allDists, ∀ x ∈ row, x < FLT_MAX) → (∃ row ∈ allDists, row ≠ []) →
      (knnSelect distMax qIdx remaining allDists cur).length = cur.length + remaining := by
  intro remaining
  induction remaining with
  | zero => intro allDists cur _ _; simp [knnSelect]
  | succ k ih =>
    intro allDists cur hlt hne
    have hb := knnBest_found qIdx allDists 0 ⟨-1, -1, -1, FLT_MAX⟩ hlt hne rfl
    simp only [knnSelect]
    rw [if_neg (by omega)]
    rw [ih]
    · simp only [List.length_append, List.length_singleton]; omega
    · intro row hr x hx
      rcases mem_modify _ _ _ _ hr with h | ⟨row0, h0, he⟩
      · exact hlt row h x hx
      · subst he
        rcases List.mem_or_eq_of_mem_set hx with h | h
        · exact hlt row0 h0 x h
        · rw [h]; exact hmax
    · exact modify_set_nonempty _ _ _ allDists hne

/-! ## The bits written by `setDescriptorBits` -/

theorem getD_set_words (l : List Nat) (i j a : Nat) :
    (l.set i a).getD j 0 = if i = j ∧ i < l.length then a else l.getD j 0 := by
  simp only [List.getD_eq_getElem?_getD, List.getElem?_set]
  by_cases h : i = j
  · subst h
    by_cases hl : i < l.length
    · simp [hl]
    · simp [hl, List.getElem?_eq_none (Nat.le_of_not_lt hl)]
  · simp [h]

theorem testBit_or_one_shift (w s b : Nat) :
    (w ||| (1 <<< s)).testBit b = (w.testBit b || decide (s = b)) := by
  rw [Nat.testBit_or, Nat.one_shiftLeft, Nat.testBit_two_pow]

theorem descriptorBit_cons_zero (values : List Int) (p : BriskShortPair)
    (rest : List BriskShortPair) : descriptorBit values (p :: rest) 0 = pairBit values p := by
  simp [descriptorBit]

theorem descriptorBit_cons_succ (values : List Int) (p : BriskShortPair)
    (rest : List BriskShortPair) (m : Nat) :
    descriptorBit values (p :: rest) (m + 1) = descriptorBit values rest m := by
  simp [descriptorBit]

/-- The loop of `setDescriptorBits`, entered at pair number `n` of a row starting at
word `base`, returns when the values and the words it touches exist. It leaves the
length of the buffer alone and sets a bit exactly when it was set before or is the
bit of one of the pairs processed whose comparison holds. -/
theorem setBitsLoop_spec (values : List Int) (base : Nat) :
    ∀ (pairs : List BriskShortPair) (n : Nat) (words : List Nat),
      (∀ p ∈ pairs, p.i < values.length ∧ p.j < values.length) →
      (base + (n + pairs.length + 31) / 32 ≤ words.length + (if pairs = [] then 1 else 0)) →
      ∃ words', setBitsLoop values pairs (base + n / 32) (n % 32) words = .ok words'
        ∧ words'.length = words.length
        ∧ ∀ (w b : Nat), b < 32 →
          (words'.getD w 0).testBit b
            = ((words.getD w 0).testBit b
              || (decide (base ≤ w) && decide (n ≤ 32 * (w - base) + b)
                && descriptorBit values pairs (32 * (w - base) + b - n))) := by
  intro pairs
  induction pairs with
  | nil =>
    intro n words _ _
    refine ⟨words, rfl, rfl, ?_⟩
    intro w b _
    simp [descriptorBit]
  | cons p rest ih =>
    intro n words hv hb
    have hp := hv p (List.mem_cons_self _ _)
    have hrest : ∀ q ∈ rest, q.i < values.length ∧ q.j < values.length :=
      fun q hq => hv q (List.mem_cons_of_mem _ hq)
    simp only [List.length_cons, reduceCtorEq, if_false, Nat.add_zero] at hb
    have hw : base + n / 32 < words.length := by omega
    have hstep : ∀ words1 : List Nat, words1.length = words.length →
        ∃ words', (if n % 32 + 1 = 32 then setBitsLoop values rest (base + n / 32 + 1) 0 words1
            else setBitsLoop values rest (base + n / 32) (n % 32 + 1) words1) = .ok words'
          ∧ words'.length = words.length
          ∧ ∀ (w b : Nat), b < 32 →
            (words'.getD w 0).testBit b
              = ((words1.getD w 0).testBit b
                || (decide (base ≤ w) && decide (n + 1 ≤ 32 * (w - base) + b)
                  && descriptorBit values rest (32 * (w - base) + b - (n + 1)))) := by
      intro words1 hl
      have hb1 : base + (n + 1 + rest.length + 31) / 32
          ≤ words1.length + (if rest = [] then 1 else 0) := by
        rw [hl]
        split
        · rename_i hr
          subst hr
          simp only [List.length_nil] at hb ⊢
          omega
        · omega
      obtain ⟨words', h1, h2, h3⟩ := ih (n + 1) words1 hrest hb1
      refine ⟨words', ?_, by rw [h2, hl], h3⟩
      rw [← h1]
      by_cases hs : n % 32 + 1 = 32
      · rw [if_pos hs]
        have e1 : (n + 1) / 32 = n / 32 + 1 := by omega
        have e2 : (n + 1) % 32 = 0 := by omega
        rw [e1, e2, Nat.add_assoc]
      · rw [if_neg hs]
        have e1 : (n + 1) / 32 = n / 32 := by omega
        have e2 : (n + 1) % 32 = n % 32 + 1 := by omega
        rw [e1, e2]
    simp only [setBitsLoop, List.getElem?_eq_getElem hp.1, List.getElem?_eq_getElem hp.2,
      List.getElem?_eq_getElem hw]
    have hcmp : pairBit values p = decide (values[p.i] > values[p.j]) := by
      simp only [pairBit, List.getD_eq_getElem?_getD, List.getElem?_eq_getElem hp.1,
        List.getElem?_eq_getElem hp.2, Option.getD_some]
    by_cases hc : values[p.i] > values[p.j]
    · simp only [hc, if_true]
      obtain ⟨words', h1, h2, h3⟩ := hstep
        (words.set (base + n / 32) (words[base + n / 32] ||| (1 <<< (n % 32))))
        (by simp)
      refine ⟨words', h1, h2, ?_⟩
      intro w b hb32
      rw [h3 w b hb32, getD_set_words]
      have hbit : pairBit values p = true := by rw [hcmp]; simpa using hc
      by_cases hw1 : base + n / 32 = w
      · have hwd : words[base + n / 32] = words.getD w 0 := by
          subst hw1
          simp [List.getD_eq_getElem?_getD, List.getElem?_eq_getElem hw]
        rw [if_pos ⟨hw1, hw⟩, testBit_or_one_shift, hwd]
        have hge : base ≤ w := by omega
        by_cases hbn : n % 32 = b
        · have hm : 32 * (w - base) + b = n := by omega
          simp [hge, hm, hbn, descriptorBit_cons_zero, hbit]
        · have hne : ¬ (32 * (w - base) + b = n) := by omega
          by_cases hlt : n + 1 ≤ 32 * (w - base) + b
          · have e : 32 * (w - base) + b - n = (32 * (w - base) + b - (n + 1)) + 1 := by omega
            have hle : n ≤ 32 * (w - base) + b := by omega
            simp [hge, hbn, hlt, hle, e, descriptorBit_cons_succ]
          · have hle : ¬ (n ≤ 32 * (w - base) + b) := by omega
            simp [hbn, hlt, hle]
      · rw [if_neg (by intro h; exact hw1 h.1)]
        by_cases hge : base ≤ w
        · have hne : ¬ (32 * (w - base) + b = n) := by omega
          by_cases hlt : n + 1 ≤ 32 * (w - base) + b
          · have e : 32 * (w - base) + b - n = (32 * (w - base) + b - (n + 1)) + 1 := by omega
            have hle : n ≤ 32 * (w - base) + b := by omega
            simp [hge, hlt, hle, e, descriptorBit_cons_succ]
          · have hle : ¬ (n ≤ 32 * (w - base) + b) := by omega
            simp [hlt, hle]
        · simp [hge]
    · simp only [hc, if_false]
      obtain ⟨words', h1, h2, h3⟩ := hstep words rfl
      refine ⟨words', h1, h2, ?_⟩
      intro w b hb32
      rw [h3 w b hb32]
      have hbit : pairBit values p = false := by rw [hcmp]; simpa using hc
      by_cases hge : base ≤ w
      · by_cases hlt : n + 1 ≤ 32 * (w - base) + b
        · have e : 32 * (w - base) + b - n = (32 * (w - base) + b - (n + 1)) + 1 := by omega
          have hle : n ≤ 32 * (w - base) + b := by omega
          simp [hge, hlt, hle, e, descriptorBit_cons_succ]
        · by_cases hm : 32 * (w - base) + b = n
          · simp [hge, hlt, hm, descriptorBit_cons_zero, hbit]
          · have hle : ¬ (n ≤ 32 * (w - base) + b) := by omega
            simp [hlt, hle]
      · simp [hge]

theorem getD_replicate_zero (n w : Nat) : (List.replicate n 0).getD w 0 = 0 := by
  simp only [List.getD_eq_getElem?_getD, List.getElem?_replicate]
  split <;> rfl

theorem rowBit_replicate_zero (n base m : Nat) : rowBit (List.replicate n 0) base m = false := by
  simp [rowBit, getD_replicate_zero]

/-- What `setDescriptorBits` does to a buffer: with a row width that is a multiple
of four bytes and holds all the pairs, row `k` inside the buffer and values for all
pair indices, the call returns, keeps the size of the buffer, gives every bit of row
`k` the value it had or the value of its pair, and changes no bit of another row. -/
theorem setDescriptorBits_spec (E : BriskDescriptorExtractor) (k : Nat) (values : List Int)
    (d : Descriptors) (s : Nat) (hs : E.strings_ = 4 * s)
    (hfit : E.shortPairs_.length ≤ 32 * s)
    (hv : ∀ p ∈ E.shortPairs_, p.i < values.length ∧ p.j < values.length)
    (hb : s * (k + 1) ≤ d.words.length) :
    ∃ d', setDescriptorBits E k values (some d) = .ok d'
      ∧ d'.rows = d.rows ∧ d'.cols = d.cols ∧ d'.words.length = d.words.length
      ∧ (∀ m, m < 32 * s →
        rowBit d'.words (s * k) m
          = (rowBit d.words (s * k) m || descriptorBit values E.shortPairs_ m))
      ∧ (∀ r m, r ≠ k → m < 32 * s → rowBit d'.words (s * r) m = rowBit d.words (s * r) m) := by
  have hbase : E.strings_ * k / 4 = s * k := by
    rw [hs, Nat.mul_assoc, Nat.mul_div_cancel_left _ (by decide : 0 < 4)]
  have hsk : s * (k + 1) = s * k + s := by ring
  have hbound : s * k + (0 + E.shortPairs_.length + 31) / 32
      ≤ d.words.length + (if E.shortPairs_ = [] then 1 else 0) := by
    split <;> omega
  obtain ⟨words', h1, h2, h3⟩ := setBitsLoop_spec values (s * k) E.shortPairs_ 0 d.words hv hbound
  simp only [Nat.zero_div, Nat.add_zero, Nat.zero_mod] at h1
  refine ⟨{ d with words := words' }, ?_, rfl, rfl, h2, ?_, ?_⟩
  · simp only [setDescriptorBits, hbase, h1]
  · intro m hm
    have hb32 : m % 32 < 32 := Nat.mod_lt _ (by decide)
    have e : 32 * (s * k + m / 32 - s * k) + m % 32 - 0 = m := by omega
    simp only [rowBit]
    rw [h3 _ _ hb32, e]
    simp
  · intro r m hr hm
    have hb32 : m % 32 < 32 := Nat.mod_lt _ (by decide)
    simp only [rowBit]
    rw [h3 _ _ hb32]
    by_cases hlt : r < k
    · have : s * (r + 1) ≤ s * k := Nat.mul_le_mul_left s hlt
      have hsr : s * (r + 1) = s * r + s := by ring
      have : ¬ (s * k ≤ s * r + m / 32) := by omega
      simp [this]
    · have hgt : k + 1 ≤ r := by omega
      have h4 : s * (k + 1) ≤ s * r := Nat.mul_le_mul_left s hgt
      have hd : descriptorBit values E.shortPairs_
          (32 * (s * r + m / 32 - s * k) + m % 32 - 0) = false := by
        simp only [descriptorBit]
        rw [List.getElem?_eq_none (by omega)]
      rw [hd]
      simp

/-! ## The two loops of `doDescriptorComputation` -/

theorem borderLoop_eq (E : BriskDescriptorExtractor) (F : FloatOps) (image : Image) :
    ∀ (kps : List KeyPoint), scalesInRange E F kps →
      borderLoop E F image kps
        = .ok ((kps.filter (keepsKeypoint E F image)).map fun kp => (kp, keypointScale E F kp)) := by
  intro kps
  induction kps with
  | nil => intro _; rfl
  | cons kp rest ih =>
    intro h
    have hk := h kp (List.mem_cons_self _ _)
    have hr := ih (fun q hq => h q (List.mem_cons_of_mem _ hq))
    simp only [borderLoop, List.getElem?_eq_getElem hk, hr, List.filter_cons, keepsKeypoint]
    split <;> simp

theorem directionLoop_ok (values : List Int) :
    ∀ (pairs : List BriskLongPair) (d0 d1 : Int),
      (∀ p ∈ pairs, p.i < values.length ∧ p.j < values.length) →
      ∃ d, directionLoop values pairs d0 d1 = .ok d := by
  intro pairs
  induction pairs with
  | nil => intro d0 d1 _; exact ⟨(d0, d1), rfl⟩
  | cons p rest ih =>
    intro d0 d1 h
    have hp := h p (List.mem_cons_self _ _)
    simp only [directionLoop, List.getElem?_eq_getElem hp.1, List.getElem?_eq_getElem hp.2]
    exact ih _ _ (fun q hq => h q (List.mem_cons_of_mem _ hq))

theorem mem_of_getElem?_some {α : Type} (l : List α) (i : Nat) (a : α)
    (h : l[i]? = some a) : a ∈ l := by
  obtain ⟨hi, ha⟩ := List.getElem?_eq_some_iff.mp h
  rw [← ha]
  exact List.getElem_mem hi

theorem sampledList_length (E : BriskDescriptorExtractor) (F : FloatOps) (image : Image)
    (kp : KeyPoint) (scale : Nat) (rot : Int) :
    (sampledList E F image kp scale rot).length = E.points_ := by
  simp [sampledList]

/-- The sampling loop reads inside `patternPoints_` when the number of its entries
has not wrapped, the scale index is below `scales_` and the rotation index lies in
`[0, n_rot_)`. -/
theorem sampleValues_ok (E : BriskDescriptorExtractor) (F : FloatOps) (image : Image)
    (kp : KeyPoint) (scale : Nat) (rot : Int)
    (hp : E.points_ * scales_ * n_rot_ < 4294967296) (hs : scale < scales_)
    (h0 : 0 ≤ rot) (h1 : rot < (n_rot_ : Int)) :
    sampleValues E F image kp scale rot = .ok (sampledList E F image kp scale rot) := by
  have hall : ((List.range E.points_).all fun i =>
      decide (patternIndex E scale rot i < patternTableSize E)) = true := by
    rw [List.all_eq_true]
    intro i hi
    rw [List.mem_range] at hi
    simp only [decide_eq_true_eq, patternIndex, patternTableSize]
    simp only [scales_, n_rot_] at hp hs h1 ⊢
    obtain ⟨r, rfl⟩ := Int.eq_ofNat_of_zero_le h0
    have hr : r < 1024 := by omega
    have e0 : ((r : Int) % 4294967296).toNat = r := by omega
    have e1 : scale % 4294967296 = scale := by omega
    rw [e0, e1]
    have a1 : scale * 1024 * E.points_ = 1024 * (scale * E.points_) := by ring
    have a2 : E.points_ * 64 * 1024 = 65536 * E.points_ := by ring
    have b1 : scale * E.points_ ≤ 63 * E.points_ := Nat.mul_le_mul_right _ (by omega)
    have b2 : r * E.points_ ≤ 1023 * E.points_ := Nat.mul_le_mul_right _ (by omega)
    rw [a1]
    rw [a2] at hp ⊢
    omega
  simp only [sampleValues, hall, if_true]

/-- The sampling loop fails when the entry of the first pattern point lies outside
`patternPoints_`. -/
theorem sampleValues_outside (E : BriskDescriptorExtractor) (F : FloatOps) (image : Image)
    (kp : KeyPoint) (scale : Nat) (rot : Int) (hp : 0 < E.points_)
    (h : patternTableSize E ≤ patternIndex E scale rot 0) :
    sampleValues E F image kp scale rot = .error .outOfBounds := by
  have hall : ((List.range E.points_).all fun i =>
      decide (patternIndex E scale rot i < patternTableSize E)) = false := by
    rw [Bool.eq_false_iff]
    intro hc
    rw [List.all_eq_true] at hc
    have := hc 0 (List.mem_range.mpr hp)
    simp only [decide_eq_true_eq] at this
    omega
  simp only [sampleValues, hall, Bool.false_eq_true, if_false]

/-- The angle step returns when the long pairs refer to pattern points and the
unrotated pattern lies in the table; it changes the angle only, and only an angle of
`-1` under rotation invariance, which becomes the estimated orientation. The
rotation index is 0 without rotation invariance and the corrected value of the cast
otherwise. -/
theorem resolveTheta_spec (E : BriskDescriptorExtractor) (F : FloatOps) (image : Image)
    (inp : KeyPoint) (scale : Nat)
    (hl : ∀ p ∈ E.longPairs_, p.i < E.points_ ∧ p.j < E.points_)
    (hp : E.points_ * scales_ * n_rot_ < 4294967296) (hs : scale < scales_) :
    ∃ out theta, resolveTheta E F image inp scale = .ok (out, theta)
      ∧ out = { inp with angle := out.angle }
      ∧ (E.rotationInvariance = true → inp.angle = -1 →
        ∃ direction, directionLoop (sampledList E F image inp scale 0) E.longPairs_ 0 0
            = .ok direction
          ∧ out.angle = orientationDegrees F direction.2 direction.1)
      ∧ (inp.angle ≠ -1 → out.angle = inp.angle)
      ∧ (E.rotationInvariance = false → out.angle = inp.angle)
      ∧ (theta = 0
        ∨ (∃ direction1 direction0 : Int,
          theta = wrapTheta (F.rotEstimated (orientationDegrees F direction1 direction0)))
        ∨ (inp.angle ≠ -1 ∧ theta = wrapTheta (F.rotSupplied inp.angle))) := by
  obtain ⟨direction, hd⟩ := directionLoop_ok (sampledList E F image inp scale 0) E.longPairs_ 0 0
    (by simpa [sampledList_length] using hl)
  have hsv := sampleValues_ok E F image inp scale 0 hp hs (Int.le_refl 0) (by decide)
  simp only [resolveTheta]
  by_cases ha : inp.angle = -1
  · by_cases hr : E.rotationInvariance = true
    · simp only [ha, hr, if_true, Bool.not_true, Bool.false_eq_true, if_false, hsv, hd]
      refine ⟨_, _, rfl, rfl, fun _ _ => ⟨direction, rfl, rfl⟩, fun h => absurd rfl h, ?_,
        Or.inr (Or.inl ⟨direction.2, direction.1, rfl⟩)⟩
      intro h; simp at h
    · have hr' : E.rotationInvariance = false := by simpa using hr
      simp only [ha, hr', if_true, Bool.not_false]
      exact ⟨_, _, rfl, rfl, fun h => by simp at h, fun _ => ha, fun _ => ha, Or.inl rfl⟩
  · by_cases hr : E.rotationInvariance = true
    · simp only [ha, hr, if_false, Bool.not_true, Bool.false_eq_true]
      exact ⟨_, _, rfl, rfl, fun _ h => h.elim, fun _ => rfl, fun _ => rfl,
        Or.inr (Or.inr ⟨ha, rfl⟩)⟩
    · have hr' : E.rotationInvariance = false := by simpa using hr
      simp only [ha, hr', if_false, Bool.not_false, if_true]
      exact ⟨_, _, rfl, rfl, fun h => by simp at h, fun _ => rfl, fun _ => rfl, Or.inl rfl⟩

theorem wrapTheta_in_table (t : Int) (h1 : -(n_rot_ : Int) ≤ t) (h2 : t < 2 * (n_rot_ : Int)) :
    0 ≤ wrapTheta t ∧ wrapTheta t < (n_rot_ : Int) := by
  simp only [wrapTheta, n_rot_] at *
  split_ifs <;> omega

/-- The second loop of `doDescriptorComputation`, entered at row `k`: it returns
when the rows it writes lie in the buffer and the rotation indices in the table;
the key points it returns are those given with their angles resolved, the rows before
`k` keep their bits, and row `k + j` receives the bits of the values sampled for key
point `j`. -/
theorem extractLoop_spec (E : BriskDescriptorExtractor) (F : FloatOps) (image : Image)
    (s : Nat) (hs : E.strings_ = 4 * s) (hfit : E.shortPairs_.length ≤ 32 * s)
    (hsp : ∀ p ∈ E.shortPairs_, p.i < E.points_ ∧ p.j < E.points_)
    (hlp : ∀ p ∈ E.longPairs_, p.i < E.points_ ∧ p.j < E.points_)
    (hp : E.points_ * scales_ * n_rot_ < 4294967296)
    (hest : ∀ direction1 direction0 : Int,
      -(n_rot_ : Int) ≤ F.rotEstimated (orientationDegrees F direction1 direction0)
        ∧ F.rotEstimated (orientationDegrees F direction1 direction0) < 2 * (n_rot_ : Int)) :
    ∀ (valid : List (KeyPoint × Nat)) (k : Nat) (d : Descriptors),
      s * (k + valid.length) ≤ d.words.length →
      (∀ inp ∈ valid, inp.2 < scales_ ∧ (inp.1.angle ≠ -1 →
        -(n_rot_ : Int) ≤ F.rotSupplied inp.1.angle
          ∧ F.rotSupplied inp.1.angle < 2 * (n_rot_ : Int))) →
      ∃ kps d', extractLoop E F image valid k d = .ok (kps, d')
        ∧ d'.rows = d.rows ∧ d'.cols = d.cols ∧ d'.words.length = d.words.length
        ∧ kps.length = valid.length
        ∧ (∀ r m, r < k → m < 32 * s → rowBit d'.words (s * r) m = rowBit d.words (s * r) m)
        ∧ (∀ (j : Nat) (inp : KeyPoint × Nat), valid[j]? = some inp →
          ∃ out theta, kps[j]? = some out
            ∧ resolveTheta E F image inp.1 inp.2 = .ok (out, theta)
            ∧ 0 ≤ theta ∧ theta < (n_rot_ : Int)
            ∧ ∀ m, m < 32 * s →
              rowBit d'.words (s * (k + j)) m
                = (rowBit d.words (s * (k + j)) m
                  || descriptorBit (sampledList E F image out inp.2 theta) E.shortPairs_ m)) := by
  intro valid
  induction valid with
  | nil =>
    intro k d _ _
    exact ⟨[], d, rfl, rfl, rfl, rfl, rfl, fun _ _ _ _ => rfl, fun j inp h => by simp at h⟩
  | cons head rest ih =>
    intro k d hb hv
    obtain ⟨inp, scale⟩ := head
    simp only [List.length_cons] at hb
    obtain ⟨hsc, hsup⟩ := hv (inp, scale) (List.mem_cons_self _ _)
    simp only [] at hsc hsup
    obtain ⟨out, theta, hres, _, _, _, _, hth⟩ := resolveTheta_spec E F image inp scale hlp hp hsc
    have hrange : 0 ≤ theta ∧ theta < (n_rot_ : Int) := by
      rcases hth with h0 | ⟨d1, d0, h1⟩ | ⟨ha, h2⟩
      · rw [h0]; exact ⟨Int.le_refl 0, by decide⟩
      · rw [h1]; exact wrapTheta_in_table _ (hest d1 d0).1 (hest d1 d0).2
      · rw [h2]; exact wrapTheta_in_table _ (hsup ha).1 (hsup ha).2
    have hsv := sampleValues_ok E F image out scale theta hp hsc hrange.1 hrange.2
    have hb1 : s * (k + 1) ≤ d.words.length := by
      have : s * (k + 1) ≤ s * (k + (rest.length + 1)) := Nat.mul_le_mul_left s (by omega)
      omega
    obtain ⟨d1, hset, hr1, hc1, hl1, hrow1, hframe1⟩ := setDescriptorBits_spec E k
      (sampledList E F image out scale theta) d s hs hfit
      (by simpa [sampledList_length] using hsp) hb1
    obtain ⟨kps, d2, hloop, hr2, hc2, hl2, hlen, hkeep, hrows⟩ := ih (k + 1) d1
      (by rw [hl1]; rw [show k + 1 + rest.length = k + (rest.length + 1) by omega]; exact hb)
      (fun q hq => hv q (List.mem_cons_of_mem _ hq))
    refine ⟨out :: kps, d2, ?_, by rw [hr2, hr1], by rw [hc2, hc1], by rw [hl2, hl1],
      by simp [hlen], ?_, ?_⟩
    · simp only [extractLoop, hres, hsv, hset, hloop]
    · intro r m hr hm
      rw [hkeep r m (by omega) hm, hframe1 r m (by omega) hm]
    · intro j inp2 hj
      cases j with
      | zero =>
        simp only [List.getElem?_cons_zero, Option.some.injEq] at hj
        subst hj
        refine ⟨out, theta, by simp, hres, hrange.1, hrange.2, ?_⟩
        intro m hm
        rw [Nat.add_zero, hkeep k m (by omega) hm, hrow1 m hm]
      | succ i =>
        simp only [List.getElem?_cons_succ] at hj
        obtain ⟨out2, theta2, ho, hres2, ht0, ht1, hbits⟩ := hrows i inp2 hj
        refine ⟨out2, theta2, by simpa using ho, hres2, ht0, ht1, ?_⟩
        intro m hm
        have e : k + (i + 1) = k + 1 + i := by omega
        rw [e, hbits m hm, hframe1 (k + 1 + i) m (by omega) hm]

/-- The whole of `doDescriptorComputation` on an accepted image, with rotation
indices that stay in the table: it returns, the descriptor matrix has one row of
`strings_` bytes per key point returned, the key points returned are those that the
border test keeps, in order and with their angles resolved, and row `r` holds the
bits of the values sampled for key point `r`. -/
theorem doDescriptorComputation_spec (E : BriskDescriptorExtractor) (F : FloatOps)
    (image : Image) (keypoints : List KeyPoint) (himg : imageAccepted image)
    (hfit : patternFits E) (hsc : scalesInRange E F keypoints)
    (hrot : rotationsInTable E F keypoints) :
    ∃ kps d, doDescriptorComputation E F image keypoints = .ok (kps, d)
      ∧ d.rows = kps.length ∧ d.cols = E.strings_
      ∧ kps.length = (keypoints.filter (keepsKeypoint E F image)).length
      ∧ ∀ (r : Nat) (inp : KeyPoint),
        (keypoints.filter (keepsKeypoint E F image))[r]? = some inp →
        ∃ out theta, kps[r]? = some out
          ∧ resolveTheta E F image inp (keypointScale E F inp) = .ok (out, theta)
          ∧ 0 ≤ theta ∧ theta < (n_rot_ : Int)
          ∧ ∀ m, m < 8 * E.strings_ →
            rowBit d.words (E.strings_ / 4 * r) m
              = descriptorBit (sampledList E F image out (keypointScale E F inp) theta)
                E.shortPairs_ m := by
  obtain ⟨hc, hch, hdep⟩ := himg
  obtain ⟨⟨s, hs⟩, hlen, hsp, hlp⟩ := hfit
  obtain ⟨hsl, hp, hest, hsup⟩ := hrot
  have hfit' : E.shortPairs_.length ≤ 32 * s := by omega
  have hdiv : E.strings_ / 4 = s := by omega
  have h8 : 8 * E.strings_ = 32 * s := by omega
  have hwords : ∀ n : Nat, n * E.strings_ / 4 = s * n := by
    intro n
    rw [hs, Nat.mul_comm n (4 * s), Nat.mul_assoc, Nat.mul_div_cancel_left _ (by decide : 0 < 4)]
  have hborder := borderLoop_eq E F image keypoints hsc
  obtain ⟨kps, d, hloop, hr, hcol, hl, hkl, _, hrows⟩ := extractLoop_spec E F image s hs hfit' hsp
    hlp hp hest
    ((keypoints.filter (keepsKeypoint E F image)).map fun kp => (kp, keypointScale E F kp)) 0
    (AllocateDescriptors E ((keypoints.filter (keepsKeypoint E F image)).map
      fun kp => (kp, keypointScale E F kp)).length)
    (by simp [AllocateDescriptors, hwords])
    (by
      intro inp hinp
      simp only [List.mem_map, List.mem_filter] at hinp
      obtain ⟨kp, ⟨hkp, _⟩, rfl⟩ := hinp
      exact ⟨by have := hsc kp hkp; rw [hsl] at this; exact this, hsup kp hkp⟩)
  simp only [List.length_map] at hkl hr hcol hl hrows hloop
  refine ⟨kps, d, ?_, ?_, ?_, hkl, ?_⟩
  · have hes : image.elemSize = 1 := by simp [Image.elemSize, hch, hdep, Depth.elemSize1]
    simp only [doDescriptorComputation, hc, hch, hes, hborder, List.length_map, Image.isC1, hdep,
      hloop]
    simp
  · rw [hr, hkl]; rfl
  · rw [hcol]; rfl
  · intro r inp hinp
    obtain ⟨out, theta, ho, hres, ht0, ht1, hbits⟩ := hrows r (inp, keypointScale E F inp)
      (by simp [List.getElem?_map, hinp])
    refine ⟨out, theta, ho, hres, ht0, ht1, ?_⟩
    intro m hm
    rw [hdiv]
    have := hbits m (by omega)
    rw [Nat.zero_add] at this
    rw [this]
    simp [AllocateDescriptors, rowBit_replicate_zero]

/-! ## The border test -/

theorem roundF32_exact (v : Int) (h : v.natAbs < 16777216) : roundF32 v = v := by
  simp only [roundF32, roundF32Nat_small _ h]
  split <;> omega

theorem roundF32_nonneg (v : Int) (h : 0 ≤ v) : 0 ≤ roundF32 v := by
  simp only [roundF32]
  rw [if_neg (by omega)]
  exact Int.natCast_nonneg _

theorem roundF32_nonpos (v : Int) (h : v ≤ 0) : roundF32 v ≤ 0 := by
  simp only [roundF32]
  split
  · have := Int.natCast_nonneg (roundF32Nat v.natAbs)
    omega
  · have hv : v = 0 := by omega
    subst hv
    simp [roundF32Nat, f32Shift]

theorem toSigned32_small (size : Nat) (h : size < 2147483648) :
    toSigned32 (size % 4294967296) = (size : Int) := by
  have : size % 4294967296 = size := Nat.mod_eq_of_lt (by omega)
  rw [this, toSigned32, if_pos h]

theorem roi_iff (x y b cx cy : ℚ) :
    (!(decide (x < b) || decide (x ≥ cx) || decide (y < b) || decide (y ≥ cy)))
      = (decide (b ≤ x) && decide (x < cx) && decide (b ≤ y) && decide (y < cy)) := by
  by_cases h1 : x < b <;> by_cases h2 : x < cx <;> by_cases h3 : y < b <;> by_cases h4 : y < cy
    <;> simp [h1, h2, h3, h4, not_le.mpr, le_of_lt, not_lt.mp]

/-- With an image and borders small enough for `float` to hold them exactly, the
border test of the code is the test `border ≤ x < cols - border` and
`border ≤ y < rows - border`. -/
theorem keepsKeypoint_eq_insideBorder (E : BriskDescriptorExtractor) (F : FloatOps)
    (image : Image) (kp : KeyPoint) (hk : keypointScale E F kp < E.sizeList_.length)
    (hsize : ∀ b ∈ E.sizeList_, b < 16777216)
    (hcols : 0 ≤ image.cols ∧ image.cols < 16777216)
    (hrows : 0 ≤ image.rows ∧ image.rows < 16777216) :
    keepsKeypoint E F image kp = insideBorder image (keypointBorder E F kp) kp := by
  have hb := hsize _ (List.getElem_mem hk)
  have hd : E.sizeList_.getD (keypointScale E F kp) 0 = E.sizeList_[keypointScale E F kp] := by
    simp [List.getD_eq_getElem?_getD, List.getElem?_eq_getElem hk]
  simp only [keepsKeypoint, List.getElem?_eq_getElem hk, keypointBorder, hd,
    toSigned32_small _ (by omega : E.sizeList_[keypointScale E F kp] < 2147483648)]
  rw [roundF32_exact _ (by omega), roundF32_exact _ (by omega), roundF32_exact _ (by omega)]
  exact roi_iff _ _ _ _ _

/-- In an image narrower than a border that is at most `2 ^ 31 - 1`, the border
test keeps no key point at that border. -/
theorem keepsKeypoint_small_image (E : BriskDescriptorExtractor) (F : FloatOps)
    (image : Image) (kp : KeyPoint) (B0 : Nat)
    (hmin : ∀ b ∈ E.sizeList_, B0 ≤ b ∧ b < 2147483648) (hcols : image.cols < B0) :
    keepsKeypoint E F image kp = false := by
  simp only [keepsKeypoint]
  split
  · rfl
  · rename_i size hsz
    obtain ⟨hk, hget⟩ := List.getElem?_eq_some_iff.mp hsz
    have hb := hmin size (hget ▸ List.getElem_mem hk)
    rw [toSigned32_small _ hb.2]
    have h1 : (0 : ℚ) ≤ ((roundF32 (size : Int) : Int) : ℚ) := by
      exact_mod_cast roundF32_nonneg _ (by omega)
    have h2 : ((roundF32 (image.cols - (size : Int)) : Int) : ℚ) ≤ 0 := by
      exact_mod_cast roundF32_nonpos _ (by omega)
    simp only [RoiPredicate, Bool.not_eq_false', Bool.or_eq_true, decide_eq_true_eq]
    by_cases hx : kp.x < ((roundF32 (size : Int) : Int) : ℚ)
    · left; left; left; exact hx
    · left; left; right
      simp only [not_lt] at hx
      exact le_trans h2 (le_trans h1 hx)

theorem doDescriptorComputation_unique (E : BriskDescriptorExtractor) (F : FloatOps)
    (image : Image) (keypoints : List KeyPoint) (a b : List KeyPoint × Descriptors)
    (ha : doDescriptorComputation E F image keypoints = .ok a)
    (hb : doDescriptorComputation E F image keypoints = .ok b) : a = b := by
  rw [ha] at hb
  exact Except.ok.inj hb

/-- When the scale indices are in range, the rotation indices stay in the table
and the pattern tables fit together, `doDescriptorComputation` fails exactly for an
image that is not continuous, not single-channel or not of depth `CV_8U`. -/
theorem doDescriptorComputation_fails_iff (E : BriskDescriptorExtractor) (F : FloatOps)
    (image : Image) (keypoints : List KeyPoint) (hfit : patternFits E)
    (hsc : scalesInRange E F keypoints) (hrot : rotationsInTable E F keypoints) :
    (∃ e, doDescriptorComputation E F image keypoints = .error e) ↔ ¬ imageAccepted image := by
  constructor
  · rintro ⟨e, he⟩ hacc
    obtain ⟨kps, d, hok, _⟩ :=
      doDescriptorComputation_spec E F image keypoints hacc hfit hsc hrot
    rw [hok] at he
    simp at he
  · intro hacc
    by_cases h1 : (!image.isContinuous || image.channels != 1 || image.elemSize != 1) = true
    · exact ⟨.requires8Bit, by simp only [doDescriptorComputation, h1, if_true]⟩
    · simp only [Bool.or_eq_true, Bool.not_eq_true', bne_iff_ne, ne_eq, not_or, not_not,
        Bool.not_eq_false] at h1
      obtain ⟨⟨hc, hch⟩, hes⟩ := h1
      have hdep : image.depth = Depth.CV_8S := by
        simp only [Image.elemSize, hch, Nat.one_mul] at hes
        cases hd : image.depth <;> simp [hd, Depth.elemSize1] at hes
        · exact absurd ⟨hc, hch, hd⟩ hacc
        · rfl
      refine ⟨.unsupportedFormat, ?_⟩
      have hes' : image.elemSize = 1 := hes
      simp only [doDescriptorComputation, hc, hch, hes', borderLoop_eq E F image keypoints hsc,
        Image.isC1, hdep]
      simp

theorem example_accepted : imageAccepted exampleImage := ⟨rfl, rfl, rfl⟩

theorem example_fits : patternFits exampleExtractor :=
  ⟨⟨4, rfl⟩, by decide, by decide, by decide⟩

theorem example_scales : scalesInRange exampleExtractor exampleFloatOps exampleKeypoints := by
  intro kp _
  simp [keypointScale, exampleExtractor, exampleFloatOps, scales_]

theorem example_sizes : ∀ b ∈ exampleExtractor.sizeList_, b < 16777216 := by
  intro b hb
  simp only [exampleExtractor, List.mem_replicate] at hb
  omega

theorem example_rotations :
    rotationsInTable exampleExtractor exampleFloatOps exampleKeypoints :=
  ⟨by simp [exampleExtractor, scales_], by decide,
    fun _ _ => ⟨by simp [exampleFloatOps, n_rot_], by simp [exampleFloatOps, n_rot_]⟩,
    fun _ _ _ => ⟨by simp [exampleFloatOps, n_rot_], by simp [exampleFloatOps, n_rot_]⟩⟩

set_option maxRecDepth 100000 in
theorem run_extract :
    doDescriptorComputation exampleExtractor exampleFloatOps exampleImage exampleKeypoints
      = .ok ([⟨5, 5, 7, 45, 0, 0, 0⟩, ⟨6, 4, 7, 90, 0, 0, 0⟩], ⟨2, 16, [6, 0, 0, 0, 6, 0, 0, 0]⟩) := by
  with_unfolding_all rfl

/-- A key point that comes with an angle of -400 degrees has the rotation index
-113 after the two corrections, and with it the sampling loop reads a pattern point
before the array: the call of `doDescriptorComputation` does not return. -/
theorem rotation_index_outside_table :
    doDescriptorComputation exampleExtractor exactRotationOps exampleImage
      [⟨5, 5, 7, -400, 0, 0, 0⟩] = .error .outOfBounds := by
  with_unfolding_all rfl

/-! ## Scale and rotation indices -/

theorem truncToInt_clamp (t : ℚ) (hi : Int) (hhi : 0 ≤ hi) :
    clampInt (truncToInt t) 0 hi = clampInt ⌊t⌋ 0 hi := by
  simp only [truncToInt]
  split
  · rfl
  · rename_i h
    have h1 : ⌈t⌉ ≤ 0 := Int.ceil_le.mpr (by push_cast; exact le_of_lt (not_le.mp h))
    have h2 : ⌊t⌋ < 0 := Int.floor_lt.mpr (by push_cast; exact not_le.mp h)
    simp only [clampInt, max_def, min_def]
    split_ifs <;> omega

theorem keypointScale_clamp (E : BriskDescriptorExtractor) (F : FloatOps) (kp : KeyPoint)
    (hsi : E.scaleInvariance = true) :
    (keypointScale E F kp : Int) = clampInt (F.scaleExpr kp.size) 0 63 := by
  simp only [keypointScale, hsi, if_true, scales_, clampInt, max_def, min_def]
  split_ifs <;> omega

theorem wrapTheta_range (t : Int) (h1 : -1024 ≤ t) (h2 : t < 2048) :
    0 ≤ wrapTheta t ∧ wrapTheta t < 1024 := by
  simp only [wrapTheta, n_rot_]
  split_ifs <;> omega

theorem truncToInt_bounds (t : ℚ) (lo hi : Int) (hlo : lo ≤ 0) (hhi : 0 < hi)
    (h1 : (lo : ℚ) - 1 < t) (h2 : t < hi) :
    lo ≤ truncToInt t ∧ truncToInt t < hi := by
  simp only [truncToInt]
  split
  · rename_i h0
    have : 0 ≤ ⌊t⌋ := Int.floor_nonneg.mpr h0
    exact ⟨by omega, Int.floor_lt.mpr h2⟩
  · rename_i h0
    have h3 : ⌈t⌉ ≤ 0 := Int.ceil_le.mpr (by push_cast; exact le_of_lt (not_le.mp h0))
    have h4 : ((lo - 1 : Int) : ℚ) < ((⌈t⌉ : Int) : ℚ) := by
      push_cast
      exact lt_of_lt_of_le h1 (Int.le_ceil t)
    have := Int.cast_lt.mp h4
    exact ⟨by omega, by omega⟩

theorem rotExact_range (a : ℚ) (h1 : -360 ≤ a) (h2 : a ≤ 719) :
    (-1024 ≤ rotEstimatedExact a ∧ rotEstimatedExact a < 2048)
      ∧ (-1024 ≤ rotSuppliedExact a ∧ rotSuppliedExact a < 2048) := by
  constructor
  · apply truncToInt_bounds _ _ _ (by decide) (by decide)
    · simp only [n_rot_]; push_cast; linarith
    · simp only [n_rot_]; push_cast; linarith
  · apply truncToInt_bounds _ _ _ (by decide) (by decide)
    · simp only [n_rot_]; push_cast; linarith
    · simp only [n_rot_]; push_cast; linarith

/-- For an angle from 0 to 360 degrees the corrected rotation index of the estimated
branch is the reference index. -/
theorem rotEstimated_nonneg_angle (a : ℚ) (h1 : 0 ≤ a) (h2 : a ≤ 360) :
    wrapTheta (rotEstimatedExact a) = rotationIndexReference a := by
  have e : a / (360 / 1024) + 1 / 2 = (n_rot_ * a) / 360 + 1 / 2 := by
    simp only [n_rot_]; push_cast; ring
  have h0 : (0 : ℚ) ≤ (n_rot_ * a) / 360 + 1 / 2 := by
    simp only [n_rot_]; push_cast; linarith
  have hlo : 0 ≤ ⌊(n_rot_ * a) / 360 + 1 / 2⌋ := Int.floor_nonneg.mpr h0
  have hhi : ⌊(n_rot_ * a) / 360 + 1 / 2⌋ < 1025 := Int.floor_lt.mpr (by
    simp only [n_rot_]; push_cast; linarith)
  simp only [rotationIndexReference, roundNearest, e, rotEstimatedExact, truncToInt, if_pos h0,
    wrapTheta, n_rot_] at *
  split_ifs <;> omega

/-! ## The pair generation -/

theorem f32_zero : f32 0 = 0 := by with_unfolding_all rfl

set_option maxRecDepth 100000 in
theorem f32_one : f32 1 = 1 := by with_unfolding_all rfl

theorem mem_pairEnumeration (points_ i j : Nat) :
    (i, j) ∈ pairEnumeration points_ ↔ j < i ∧ i < points_ := by
  simp only [pairEnumeration, List.mem_flatten, List.mem_map, List.mem_range']
  constructor
  · rintro ⟨l, ⟨a, ⟨k, hk, rfl⟩, rfl⟩, hm⟩
    simp only [List.mem_map, List.mem_range, Prod.mk.injEq] at hm
    obtain ⟨b, hb, h1, h2⟩ := hm
    omega
  · rintro ⟨h1, h2⟩
    refine ⟨_, ⟨i, ⟨i - 1, by omega, by omega⟩, rfl⟩, ?_⟩
    simp only [List.mem_map, List.mem_range, Prod.mk.injEq]
    exact ⟨j, h1, by simp⟩

theorem pairEnumeration_nodup (points_ : Nat) : (pairEnumeration points_).Nodup := by
  simp only [pairEnumeration]
  rw [List.nodup_flatten]
  constructor
  · intro l hl
    simp only [List.mem_map, List.mem_range'] at hl
    obtain ⟨a, _, rfl⟩ := hl
    exact (List.nodup_range a).map (fun x y h => by simpa using h)
  · rw [List.pairwise_map]
    apply List.Pairwise.imp_of_mem _ (List.nodup_range' 1 (points_ - 1))
    intro a b _ _ hab
    simp only [Function.onFun, List.Disjoint, List.mem_map, List.mem_range]
    rintro x ⟨j1, _, rfl⟩ ⟨j2, _, h⟩
    simp only [Prod.mk.injEq] at h
    exact hab h.1.symm

theorem pairEnumeration_length (points_ : Nat) :
    (pairEnumeration points_).length = points_ * (points_ - 1) / 2 := by
  have h : ∀ n s, (((List.range' s n).map fun i => (List.range i).map fun j => (i, j)).flatten).length
      = n * s + n * (n - 1) / 2 := by
    intro n
    induction n with
    | zero => intro s; simp
    | succ n ih =>
      intro s
      simp only [List.range'_succ, List.map_cons, List.flatten_cons, List.length_append,
        List.length_map, List.length_range, ih]
      have e : (n + 1) * (n + 1 - 1) / 2 = n + n * (n - 1) / 2 := by
        cases n with
        | zero => rfl
        | succ m =>
          simp only [Nat.add_sub_cancel]
          have : (m + 1 + 1) * (m + 1) = 2 * (m + 1) + (m + 1) * m := by ring
          rw [this, Nat.mul_add_div (by decide : 0 < 2)]
      rw [e]
      ring_nf
  simp only [pairEnumeration]
  rw [h]
  cases points_ with
  | zero => rfl
  | succ n =>
    simp only [Nat.add_sub_cancel]
    cases n with
    | zero => rfl
    | succ m =>
      simp only [Nat.add_sub_cancel]
      have e1 : (m + 1) * 1 + (m + 1) * m / 2 = (2 * (m + 1) + (m + 1) * m) / 2 := by
        rw [Nat.mul_add_div (by decide : 0 < 2)]; ring
      rw [e1]
      congr 1
      ring

/-- What one pass of the body of the pair loops does when it returns. -/
theorem pairStep_ok (pts : List BriskPatternPoint) (dMin_sq dMax_sq : ℚ) (ic : List Nat)
    (st T : PairTables) (ij : Nat × Nat)
    (h : pairStep pts dMin_sq dMax_sq ic st ij = .ok T) :
    T.longPairs_.map (fun p => (p.i, p.j))
        = st.longPairs_.map (fun p => (p.i, p.j))
          ++ (if isLongPair pts dMin_sq ij then [ij] else [])
      ∧ (isShortPair pts dMax_sq ij = true →
        T.noShortPairs_ = st.noShortPairs_ + 1
          ∧ T.shortPairs_ = st.shortPairs_.set (ic.getD st.noShortPairs_ 0) (some ⟨ij.1, ij.2⟩)
          ∧ st.noShortPairs_ < ic.length ∧ ic.getD st.noShortPairs_ 0 < st.shortPairs_.length)
      ∧ (isShortPair pts dMax_sq ij = false →
        T.noShortPairs_ = st.noShortPairs_ ∧ T.shortPairs_ = st.shortPairs_) := by
  simp only [pairStep] at h
  split at h
  · rename_i pj pi hj hi
    have hn : pairNormSq pts ij = normSq pi pj := by simp only [pairNormSq, hj, hi]
    have hlong : ∀ (l : List BriskLongPair) (a b : Int),
        (if normSq pi pj > dMin_sq then l ++ [⟨ij.1, ij.2, a, b⟩] else l).map
            (fun p => (p.i, p.j))
          = l.map (fun p => (p.i, p.j)) ++ (if isLongPair pts dMin_sq ij then [ij] else []) := by
      intro l a b
      simp only [isLongPair, hn]
      by_cases hc : normSq pi pj > dMin_sq
      · simp [hc]
      · simp [hc]
    split at h
    · simp at h
    · by_cases hs : normSq pi pj < dMax_sq
      · simp only [hs, if_true] at h
        split at h
        · simp at h
        · rename_i idx hidx
          split at h
          · rename_i hlt
            simp only [Except.ok.injEq] at h
            subst h
            obtain ⟨hlen, hget⟩ := List.getElem?_eq_some_iff.mp hidx
            have hd : ic.getD st.noShortPairs_ 0 = idx := by
              simp [List.getD_eq_getElem?_getD, hidx]
            refine ⟨hlong _ _ _, fun _ => ⟨rfl, by rw [hd], hlen, by rw [hd]; exact hlt⟩, ?_⟩
            intro hf
            simp [isShortPair, hn, hs] at hf
          · simp at h
      · simp only [hs, if_false, Except.ok.injEq] at h
        subst h
        refine ⟨hlong _ _ _, ?_, fun _ => ⟨rfl, rfl⟩⟩
        intro ht
        simp [isShortPair, hn, hs] at ht
  · simp at h

/-- What the pair loops do when they return: the long pairs appended are the pairs
visited whose squared distance is above `dMin_sq`, in order, and the short pairs are
the pairs visited whose squared distance is below `dMax_sq`, stored one after the
other where `indexChange` says. -/
theorem pairLoop_ok (pts : List BriskPatternPoint) (dMin_sq dMax_sq : ℚ) (ic : List Nat) :
    ∀ (l : List (Nat × Nat)) (st T : PairTables),
      pairLoop pts dMin_sq dMax_sq ic l st = .ok T →
      T.longPairs_.map (fun p => (p.i, p.j))
          = st.longPairs_.map (fun p => (p.i, p.j)) ++ l.filter (isLongPair pts dMin_sq)
        ∧ T.noShortPairs_ = st.noShortPairs_ + (l.filter (isShortPair pts dMax_sq)).length
        ∧ T.shortPairs_
          = writeShorts ic st.noShortPairs_ (l.filter (isShortPair pts dMax_sq)) st.shortPairs_
        ∧ T.shortPairs_.length = st.shortPairs_.length
        ∧ (∀ k, k < (l.filter (isShortPair pts dMax_sq)).length →
          st.noShortPairs_ + k < ic.length
            ∧ ic.getD (st.noShortPairs_ + k) 0 < st.shortPairs_.length) := by
  intro l
  induction l with
  | nil =>
    intro st T h
    simp only [pairLoop, Except.ok.injEq] at h
    subst h
    simp [writeShorts]
  | cons ij rest ih =>
    intro st T h
    simp only [pairLoop] at h
    split at h
    · simp at h
    · rename_i st1 hst1
      obtain ⟨hl1, hs1, hn1⟩ := pairStep_ok pts dMin_sq dMax_sq ic st st1 ij hst1
      obtain ⟨hl2, hc2, ha2, hlen2, hb2⟩ := ih st1 T h
      by_cases hshort : isShortPair pts dMax_sq ij = true
      · obtain ⟨e1, e2, e3, e4⟩ := hs1 hshort
        have hlen1 : st1.shortPairs_.length = st.shortPairs_.length := by rw [e2]; simp
        refine ⟨?_, ?_, ?_, by rw [hlen2, hlen1], ?_⟩
        · rw [hl2, hl1, List.filter_cons]
          split <;> simp
        · rw [hc2, e1, List.filter_cons, if_pos hshort, List.length_cons]; omega
        · rw [ha2, e1, e2, List.filter_cons, if_pos hshort]
          rfl
        · intro k hk
          rw [List.filter_cons, if_pos hshort, List.length_cons] at hk
          cases k with
          | zero => exact ⟨e3, e4⟩
          | succ k =>
            have := hb2 k (by omega)
            rw [e1, hlen1] at this
            rw [show st.noShortPairs_ + (k + 1) = st.noShortPairs_ + 1 + k by omega]
            exact this
      · have hshort' : isShortPair pts dMax_sq ij = false := by simpa using hshort
        obtain ⟨e1, e2⟩ := hn1 hshort'
        refine ⟨?_, ?_, ?_, by rw [hlen2, e2], ?_⟩
        · rw [hl2, hl1, List.filter_cons]
          split <;> simp
        · rw [hc2, e1, List.filter_cons, if_neg hshort]
        · rw [ha2, e1, e2, List.filter_cons, if_neg hshort]
        · intro k hk
          rw [List.filter_cons, if_neg hshort] at hk
          have := hb2 k hk
          rwa [e1, e2] at this

theorem writeShorts_length (ic : List Nat) :
    ∀ (S : List (Nat × Nat)) (n : Nat) (arr : List (Option BriskShortPair)),
      (writeShorts ic n S arr).length = arr.length := by
  intro S
  induction S with
  | nil => intro n arr; rfl
  | cons p rest ih => intro n arr; simp [writeShorts, ih]

/-- Positions that no pair is stored at keep their content. -/
theorem writeShorts_other (ic : List Nat) :
    ∀ (S : List (Nat × Nat)) (n : Nat) (arr : List (Option BriskShortPair)) (pos : Nat),
      (∀ k, k < S.length → ic.getD (n + k) 0 ≠ pos) →
      (writeShorts ic n S arr)[pos]? = arr[pos]? := by
  intro S
  induction S with
  | nil => intro n arr pos _; rfl
  | cons p rest ih =>
    intro n arr pos h
    simp only [writeShorts]
    rw [ih (n + 1) _ pos (fun k hk => by
      have := h (k + 1) (by simp; omega)
      rwa [show n + (k + 1) = n + 1 + k by omega] at this)]
    have h0 := h 0 (by simp)
    rw [Nat.add_zero] at h0
    rw [List.getElem?_set_ne h0]

/-- With positions that differ from one another and lie in the array, pair `k` of
the list is found at position `indexChange[n + k]`. -/
theorem writeShorts_get (ic : List Nat) :
    ∀ (S : List (Nat × Nat)) (n : Nat) (arr : List (Option BriskShortPair)),
      (∀ k1 k2, k1 < S.length → k2 < S.length →
        ic.getD (n + k1) 0 = ic.getD (n + k2) 0 → k1 = k2) →
      (∀ k, k < S.length → ic.getD (n + k) 0 < arr.length) →
      ∀ (k : Nat) (ij : Nat × Nat), S[k]? = some ij →
        (writeShorts ic n S arr)[ic.getD (n + k) 0]? = some (some ⟨ij.1, ij.2⟩) := by
  intro S
  induction S with
  | nil => intro n arr _ _ k ij h; simp at h
  | cons p rest ih =>
    intro n arr hinj hb k ij hk
    simp only [writeShorts]
    cases k with
    | zero =>
      simp only [List.getElem?_cons_zero, Option.some.injEq] at hk
      subst hk
      have hne : ∀ k, k < rest.length → ic.getD (n + 1 + k) 0 ≠ ic.getD (n + 0) 0 := by
        intro k hk2 heq
        have := hinj (k + 1) 0 (by simp [hk2]) (by simp)
          (by rw [show n + (k + 1) = n + 1 + k by omega]; exact heq)
        omega
      rw [writeShorts_other ic rest (n + 1) _ _ hne]
      have h0 := hb 0 (by simp)
      rw [Nat.add_zero] at h0 ⊢
      rw [List.getElem?_set_self h0]
    | succ k =>
      simp only [List.getElem?_cons_succ] at hk
      have := ih (n + 1) (arr.set (ic.getD n 0) (some ⟨p.1, p.2⟩))
        (fun k1 k2 h1 h2 heq => by
          have := hinj (k1 + 1) (k2 + 1) (by simp; omega) (by simp; omega)
            (by rw [show n + (k1 + 1) = n + 1 + k1 by omega,
              show n + (k2 + 1) = n + 1 + k2 by omega]; exact heq)
          omega)
        (fun k1 h1 => by
          have := hb (k1 + 1) (by simp; omega)
          rw [show n + (k1 + 1) = n + 1 + k1 by omega] at this
          simpa using this)
        k ij hk
      rwa [show n + 1 + k = n + (k + 1) by omega] at this

/-- What the pair generation does when it returns. -/
theorem kernelPairs_ok (pts : List BriskPatternPoint) (points_ : Nat) (dMin dMax : ℚ)
    (ic : List Nat) (T : PairTables) (h : kernelPairs pts points_ dMin dMax ic = .ok T) :
    T.longPairs_.map (fun p => (p.i, p.j))
        = (pairEnumeration points_).filter (isLongPair pts (f32 (dMin * dMin)))
      ∧ T.noShortPairs_
        = ((pairEnumeration points_).filter (isShortPair pts (f32 (dMax * dMax)))).length
      ∧ T.shortPairs_
        = writeShorts (effectiveIndexChange points_ ic) 0
          ((pairEnumeration points_).filter (isShortPair pts (f32 (dMax * dMax))))
          (List.replicate (pairCapacity points_) none)
      ∧ T.shortPairs_.length = pairCapacity points_
      ∧ (∀ k, k < ((pairEnumeration points_).filter (isShortPair pts (f32 (dMax * dMax)))).length →
        k < (effectiveIndexChange points_ ic).length
          ∧ (effectiveIndexChange points_ ic).getD k 0 < pairCapacity points_) := by
  obtain ⟨h1, h2, h3, h4, h5⟩ := pairLoop_ok pts (f32 (dMin * dMin)) (f32 (dMax * dMax))
    (effectiveIndexChange points_ ic) (pairEnumeration points_)
    ⟨[], List.replicate (pairCapacity points_) none, 0⟩ T h
  simp only [List.map_nil, List.nil_append, Nat.zero_add, List.length_replicate] at h1 h2 h3 h4 h5
  exact ⟨h1, h2, h3, h4, h5⟩

/-- Without wrap-around the `unsigned int` number of entries of the pair arrays is
the number of pairs. -/
theorem pairCapacity_small (points_ : Nat) (h : points_ ≤ 65536) :
    pairCapacity points_ = points_ * (points_ - 1) / 2 := by
  simp only [pairCapacity]
  rcases Nat.eq_zero_or_pos points_ with h0 | h0
  · subst h0
    rfl
  · have e : (points_ + 4294967295) % 4294967296 = points_ - 1 := by omega
    have hb : points_ * (points_ - 1) ≤ 65536 * 65535 :=
      Nat.mul_le_mul h (by omega)
    rw [e, Nat.mod_eq_of_lt (by omega)]

/-- The pair loops return when the points they read exist, the positions they write
lie in the array of short pairs, and the array of long pairs has room for the pairs
still to visit. -/
theorem pairLoop_total (pts : List BriskPatternPoint) (dMin_sq dMax_sq : ℚ) (ic : List Nat) :
    ∀ (l : List (Nat × Nat)) (st : PairTables),
      (∀ ij ∈ l, ij.1 < pts.length ∧ ij.2 < pts.length) →
      st.noShortPairs_ + l.length ≤ ic.length →
      st.longPairs_.length + l.length ≤ st.shortPairs_.length →
      (∀ k, k < ic.length → ic.getD k 0 < st.shortPairs_.length) →
      ∃ T, pairLoop pts dMin_sq dMax_sq ic l st = .ok T := by
  intro l
  induction l with
  | nil => intro st _ _ _ _; exact ⟨st, rfl⟩
  | cons ij rest ih =>
    intro st hv hn hcap hb
    have hij := hv ij (List.mem_cons_self _ _)
    simp only [List.length_cons] at hn hcap
    have hlt : st.noShortPairs_ < ic.length := by omega
    have hidx : ic.getD st.noShortPairs_ 0 = ic[st.noShortPairs_] := by
      simp [List.getD_eq_getElem?_getD, List.getElem?_eq_getElem hlt]
    have hbound := hb st.noShortPairs_ hlt
    rw [hidx] at hbound
    have hroom : ¬ st.shortPairs_.length ≤ st.longPairs_.length := by omega
    simp only [pairLoop, pairStep, List.getElem?_eq_getElem hij.1, List.getElem?_eq_getElem hij.2,
      List.getElem?_eq_getElem hlt, hbound, if_true, hroom, and_false, if_false]
    split
    · rename_i e heq
      split at heq <;> simp at heq
    · rename_i st1 heq
      have hst1 : st1.shortPairs_.length = st.shortPairs_.length
          ∧ st1.longPairs_.length ≤ st.longPairs_.length + 1
          ∧ st1.noShortPairs_ ≤ st.noShortPairs_ + 1 := by
        split at heq
        · simp only [Except.ok.injEq] at heq
          subst heq
          refine ⟨by simp, ?_, Nat.le_refl _⟩
          simp only
          split <;> simp
        · simp only [Except.ok.injEq] at heq
          subst heq
          refine ⟨rfl, ?_, by simp⟩
          simp only
          split <;> simp
      obtain ⟨e1, e2, e3⟩ := hst1
      apply ih st1 (fun q hq => hv q (List.mem_cons_of_mem _ hq))
      · omega
      · omega
      · intro k hk
        rw [e1]
        exact hb k hk

/-- Without a remapping the pair generation returns when `patternPoints_` holds the
`points_` points of the base layout and the number of pairs does not wrap. -/
theorem kernelPairs_total (pts : List BriskPatternPoint) (points_ : Nat) (dMin dMax : ℚ)
    (hp : points_ ≤ pts.length) (hsmall : points_ ≤ 65536) :
    ∃ T, kernelPairs pts points_ dMin dMax [] = .ok T := by
  have hcap := pairCapacity_small points_ hsmall
  apply pairLoop_total
  · intro ij hij
    obtain ⟨i, j⟩ := ij
    have := (mem_pairEnumeration points_ i j).mp hij
    exact ⟨by simp only; omega, by simp only; omega⟩
  · simp [pairEnumeration_length, hcap]
  · simp [pairEnumeration_length, hcap]
  · intro k hk
    simp only [List.length_nil, if_true, List.length_range] at hk
    simp [List.getD_eq_getElem?_getD, List.getElem?_range hk, hk]

theorem filter_partition_length {α : Type} (p q : α → Bool) :
    ∀ (l : List α), (∀ x ∈ l, (p x = true ∧ q x = false) ∨ (p x = false ∧ q x = true)) →
      (l.filter p).length + (l.filter q).length = l.length := by
  intro l
  induction l with
  | nil => intro _; rfl
  | cons a l ih =>
    intro h
    have ha := h a (List.mem_cons_self _ _)
    have hl := ih (fun x hx => h x (List.mem_cons_of_mem _ hx))
    rcases ha with ⟨h1, h2⟩ | ⟨h1, h2⟩ <;> simp [List.filter_cons, h1, h2] <;> omega


/-! ## The border of a scale -/

theorem mem_scalePoints (ops : PatternOps) (radiusList : List ℚ) (numberList : List Int)
    (scale : Nat) (p : BriskPatternPoint × Nat)
    (hp : p ∈ scalePoints ops radiusList numberList scale) :
    ∃ rot ring radius count, radius ∈ radiusList
      ∧ p ∈ ringPoints ops scale rot ring radius count := by
  simp only [scalePoints, rotationPoints, List.mem_flatten, List.mem_map, List.mem_range] at hp
  obtain ⟨l, ⟨rot, _, rfl⟩, hp⟩ := hp
  simp only [List.mem_flatten, List.mem_map] at hp
  obtain ⟨l2, ⟨rc, hrc, rfl⟩, hp⟩ := hp
  refine ⟨rot, rc.1, rc.2.1, rc.2.2, ?_, hp⟩
  obtain ⟨n, q⟩ := rc
  obtain ⟨hlt, hq⟩ := List.mem_enum hrc
  have h2 : q ∈ radiusList.zip numberList := by
    rw [hq]
    exact List.getElem_mem hlt
  obtain ⟨r, c⟩ := q
  exact (List.of_mem_zip h2).1

theorem kernelTables_ok (ops : PatternOps) (radiusList : List ℚ) (numberList : List Int)
    (dMax dMin : ℚ) (indexChange : List Nat) (T : KernelTables)
    (h : kernelTables ops radiusList numberList dMax dMin indexChange = .ok T) :
    ∃ pairs, kernelPairs (((List.range scales_).map fun scale =>
          (scalePoints ops radiusList numberList scale).map Prod.fst).flatten)
        (numberList.sum % 4294967296).toNat dMin dMax indexChange = .ok pairs
      ∧ T = ⟨dMax, dMin, (numberList.sum % 4294967296).toNat,
        ((List.range scales_).map fun scale =>
          (scalePoints ops radiusList numberList scale).map Prod.fst).flatten,
        (List.range scales_).map fun scale =>
          sizeListEntry (scalePoints ops radiusList numberList scale),
        pairs.shortPairs_, pairs.longPairs_, pairs.noShortPairs_, pairs.longPairs_.length,
        stringsOf pairs.noShortPairs_⟩ := by
  simp only [kernelTables] at h
  split at h
  · exact absurd h (by simp)
  · split at h
    · exact absurd h (by simp)
    · rename_i pairs hp
      refine ⟨pairs, ?_, ?_⟩
      · exact hp
      · simp only [Except.ok.injEq] at h
        exact h.symm

theorem generateKernel_ok (ops : PatternOps) (radiusList : List ℚ) (numberList : List Int)
    (dMax dMin : ℚ) (indexChange : List Nat) (T : KernelTables)
    (h : generateKernel ops radiusList numberList dMax dMin indexChange = .ok T) :
    radiusList.length ≠ 0 ∧ radiusList.length = numberList.length
      ∧ ∃ pairs, kernelPairs (((List.range scales_).map fun scale =>
            (scalePoints ops radiusList numberList scale).map Prod.fst).flatten)
          (numberList.sum % 4294967296).toNat dMin dMax indexChange = .ok pairs
        ∧ T = ⟨dMax, dMin, (numberList.sum % 4294967296).toNat,
          ((List.range scales_).map fun scale =>
            (scalePoints ops radiusList numberList scale).map Prod.fst).flatten,
          (List.range scales_).map fun scale =>
            sizeListEntry (scalePoints ops radiusList numberList scale),
          pairs.shortPairs_, pairs.longPairs_, pairs.noShortPairs_, pairs.longPairs_.length,
          stringsOf pairs.noShortPairs_⟩ := by
  simp only [generateKernel] at h
  split at h
  · rename_i hc
    simp only [Bool.and_eq_true, bne_iff_ne, ne_eq, beq_iff_eq] at hc
    exact ⟨hc.1, hc.2, kernelTables_ok ops radiusList numberList dMax dMin indexChange T h⟩
  · exact absurd h (by simp)

/-! ## Construction of the tables as a whole -/

theorem ringPoints_length (ops : PatternOps) (scale rot ring : Nat) (radius : ℚ) (count : Int) :
    (ringPoints ops scale rot ring radius count).length = count.toNat := by
  simp [ringPoints]

theorem rotationPoints_length (ops : PatternOps) (radiusList : List ℚ) (numberList : List Int)
    (scale rot : Nat) (h : radiusList.length = numberList.length) :
    (rotationPoints ops radiusList numberList scale rot).length
      = (numberList.map Int.toNat).sum := by
  have e : ((radiusList.zip numberList).enum.map fun (rc : Nat × ℚ × Int) =>
      (ringPoints ops scale rot rc.1 rc.2.1 rc.2.2).length)
      = ((((radiusList.zip numberList).enum.map Prod.snd).map Prod.snd).map Int.toNat) := by
    rw [List.map_map, List.map_map]
    apply List.map_congr_left
    intro rc _
    simp [ringPoints_length]
  rw [rotationPoints, List.length_flatten, List.map_map]
  show (List.map (fun (rc : Nat × ℚ × Int) => (ringPoints ops scale rot rc.1 rc.2.1 rc.2.2).length) _).sum = _
  rw [e, List.enum_map_snd, List.map_snd_zip]
  omega

theorem sum_toNat (l : List Int) (h : ∀ c ∈ l, 0 ≤ c) :
    0 ≤ l.sum ∧ (l.map Int.toNat).sum = l.sum.toNat := by
  induction l with
  | nil => simp
  | cons x xs ih =>
    have hx : 0 ≤ x := h x (List.mem_cons_self _ _)
    obtain ⟨h1, h2⟩ := ih (fun c hc => h c (List.mem_cons_of_mem _ hc))
    simp only [List.map_cons, List.sum_cons, h2]
    omega

theorem length_flatten_const {α β : Type} (l : List α) (f : α → List β) (c : Nat)
    (h : ∀ a, (f a).length = c) : ((l.map f).flatten).length = l.length * c := by
  induction l with
  | nil => simp
  | cons a rest ih =>
    simp only [List.map_cons, List.flatten_cons, List.length_append, List.length_cons, h, ih]
    rw [Nat.succ_mul]
    omega

theorem scalePoints_length (ops : PatternOps) (radiusList : List ℚ) (numberList : List Int)
    (scale : Nat) (h : radiusList.length = numberList.length) :
    (scalePoints ops radiusList numberList scale).length
      = n_rot_ * (numberList.map Int.toNat).sum := by
  rw [scalePoints, length_flatten_const _ _ _
    (fun rot => rotationPoints_length ops radiusList numberList scale rot h), List.length_range]

/-- The number of pattern points that `generateKernel` writes. -/
theorem patternPoints_length (ops : PatternOps) (radiusList : List ℚ)
    (numberList : List Int) (h : radiusList.length = numberList.length) :
    (((List.range scales_).map fun scale =>
        (scalePoints ops radiusList numberList scale).map Prod.fst).flatten).length
      = scales_ * (n_rot_ * (numberList.map Int.toNat).sum) := by
  rw [length_flatten_const _ _ (n_rot_ * (numberList.map Int.toNat).sum)
    (fun scale => by rw [List.length_map, scalePoints_length _ _ _ _ h]), List.length_range]

/-- The number of pattern points that `InitFromStream` writes. -/
theorem streamPoints_length (ops : PatternOps) (u : List BriskPatternPoint) :
    (((List.range scales_).map fun scale =>
        (streamScalePoints ops u scale).map Prod.fst).flatten).length
      = scales_ * (n_rot_ * u.length) := by
  rw [length_flatten_const _ _ (n_rot_ * u.length) (fun scale => by
    rw [List.length_map, streamScalePoints, length_flatten_const _ _ u.length
      (fun rot => by simp [streamRotationPoints]), List.length_range]), List.length_range]

/-- With lists of equal length, numbers of points that are not negative and fewer
than 65536 points in all, the construction of the tables without a remapping
returns. -/
theorem kernelTables_total (ops : PatternOps) (radiusList : List ℚ) (numberList : List Int)
    (dMax dMin : ℚ) (h : radiusList.length = numberList.length)
    (hn : ∀ c ∈ numberList, 0 ≤ c) (hsum : numberList.sum < 65536) :
    ∃ T, kernelTables ops radiusList numberList dMax dMin [] = .ok T := by
  obtain ⟨hs0, hs1⟩ := sum_toNat numberList hn
  have hlen := patternPoints_length ops radiusList numberList h
  have hpts : (numberList.sum % 4294967296).toNat = numberList.sum.toNat := by omega
  have hsmall : (numberList.sum % 4294967296).toNat < 65536 := by omega
  obtain ⟨P, hP⟩ := kernelPairs_total (((List.range scales_).map fun scale =>
      (scalePoints ops radiusList numberList scale).map Prod.fst).flatten)
    (numberList.sum % 4294967296).toNat dMin dMax
    (by rw [hlen, hs1, hpts]; simp only [scales_, n_rot_]; omega) (by omega)
  have hguard : ¬ ((numberList.sum % 4294967296).toNat * scales_ * n_rot_ % 4294967296
      < (((List.range scales_).map fun scale =>
        (scalePoints ops radiusList numberList scale).map Prod.fst).flatten).length) := by
    rw [hlen, hs1, hpts]
    simp only [scales_, n_rot_]
    omega
  cases hg : kernelTables ops radiusList numberList dMax dMin [] with
  | ok T => exact ⟨T, rfl⟩
  | error e =>
    exfalso
    unfold kernelTables at hg
    simp only [] at hg
    split at hg
    · rename_i hover
      exact hguard hover
    · split at hg
      · rename_i e2 he
        have he2 : kernelPairs (((List.range scales_).map fun scale =>
            (scalePoints ops radiusList numberList scale).map Prod.fst).flatten)
          (numberList.sum % 4294967296).toNat dMin dMax [] = .error e2 := he
        rw [hP] at he2
        exact absurd he2 (by simp)
      · exact absurd hg (by simp)

/-- With its lists of equal length, numbers of points that are not negative and
fewer than 65536 points in all, `generateKernel` without a remapping returns. -/
theorem generateKernel_total (ops : PatternOps) (radiusList : List ℚ) (numberList : List Int)
    (dMax dMin : ℚ) (h0 : radiusList.length ≠ 0) (h : radiusList.length = numberList.length)
    (hn : ∀ c ∈ numberList, 0 ≤ c) (hsum : numberList.sum < 65536) :
    ∃ T, generateKernel ops radiusList numberList dMax dMin [] = .ok T := by
  have hcond : (radiusList.length != 0 && radiusList.length == numberList.length) = true := by
    have h0n : numberList.length ≠ 0 := h ▸ h0
    simp [h0n, h]
  obtain ⟨T, hT⟩ := kernelTables_total ops radiusList numberList dMax dMin h hn hsum
  exact ⟨T, by rw [generateKernel, if_pos hcond, hT]⟩

theorem InitFromStream_ok (ops : PatternOps) (pattern_stream : PatternStream)
    (patternScale : ℚ) (T : KernelTables)
    (h : InitFromStream ops pattern_stream patternScale = .ok T) :
    ∃ u, T.patternPoints_ = ((List.range scales_).map fun scale =>
          (streamScalePoints ops u scale).map Prod.fst).flatten
      ∧ T.sizeList_ = ((List.range scales_).map fun scale =>
          sizeListEntry (streamScalePoints ops u scale))
      ∧ T.noShortPairs_ = 384 ∧ T.strings_ = stringsOf 384 := by
  unfold InitFromStream at h
  split at h
  · exact absurd h (by simp)
  · split at h
    · exact absurd h (by simp)
    · split at h
      · exact absurd h (by simp)
      · rename_i u tokens hu
        simp only [] at h
        split at h
        · exact absurd h (by simp)
        · split at h
          · exact absurd h (by simp)
          · split at h
            · exact absurd h (by simp)
            · split at h
              · exact absurd h (by simp)
              · split at h
                · exact absurd h (by simp)
                · split at h
                  · exact absurd h (by simp)
                  · rename_i hne
                    simp only [Except.ok.injEq] at h
                    subst h
                    simp only [bne_iff_ne, ne_eq, not_not] at hne
                    exact ⟨u, rfl, rfl, hne, by rw [hne]; rfl⟩


/-! ## Reading of a serialized pattern -/

theorem readUnsigned_natCast (n : Nat) (rest : List ℚ) (h : n < 4294967296) :
    readUnsigned ((n : ℚ) :: rest) = some (n, rest) := by
  simp only [readUnsigned, Rat.den_natCast, Rat.num_natCast, Int.toNat_ofNat]
  rw [if_pos ⟨trivial, Int.natCast_nonneg _, h⟩]

theorem readPoints_serialized (patternScale : ℚ) (points : List BriskPatternPoint)
    (rest : List ℚ) :
    readPoints patternScale points.length
        ((points.map fun p => [p.x, p.y, p.sigma]).flatten ++ rest)
      = some (points.map fun p =>
          ⟨p.x * patternScale, p.y * patternScale, p.sigma * patternScale⟩, rest) := by
  induction points with
  | nil => simp [readPoints]
  | cons p ps ih =>
    show readPoints patternScale (ps.length + 1)
      (p.x :: p.y :: p.sigma :: ((ps.map fun p => [p.x, p.y, p.sigma]).flatten ++ rest)) = _
    rw [readPoints, ih]
    rfl

theorem readShortPairs_serialized (shortPairs : List BriskShortPair) (rest : List ℚ)
    (h : ∀ p ∈ shortPairs, p.i < 4294967296 ∧ p.j < 4294967296) :
    readShortPairs shortPairs.length
        ((shortPairs.map fun p => [(p.i : ℚ), (p.j : ℚ)]).flatten ++ rest)
      = some (shortPairs, rest) := by
  induction shortPairs with
  | nil => simp [readShortPairs]
  | cons p ps ih =>
    obtain ⟨h1, h2⟩ := h p (List.mem_cons_self _ _)
    show readShortPairs (ps.length + 1)
      ((p.i : ℚ) :: (p.j : ℚ) :: ((ps.map fun p => [(p.i : ℚ), (p.j : ℚ)]).flatten ++ rest)) = _
    rw [readShortPairs]
    simp only [readUnsigned_natCast _ _ h1, readUnsigned_natCast _ _ h2,
      ih (fun q hq => h q (List.mem_cons_of_mem _ hq))]

theorem readLongPairs_serialized (u : List BriskPatternPoint) (longPairs : List (Nat × Nat))
    (rest : List ℚ) (hu : u.length < 4294967296)
    (h : ∀ p ∈ longPairs, p.1 < u.length ∧ p.2 < u.length) :
    ∃ L, readLongPairs u longPairs.length
        ((longPairs.map fun p => [(p.1 : ℚ), (p.2 : ℚ)]).flatten ++ rest) = some (L, rest) := by
  induction longPairs with
  | nil => exact ⟨[], by simp [readLongPairs]⟩
  | cons p ps ih =>
    obtain ⟨h1, h2⟩ := h p (List.mem_cons_self _ _)
    obtain ⟨L, hL⟩ := ih (fun q hq => h q (List.mem_cons_of_mem _ hq))
    show ∃ L, readLongPairs u (ps.length + 1)
      ((p.1 : ℚ) :: (p.2 : ℚ) :: ((ps.map fun p => [(p.1 : ℚ), (p.2 : ℚ)]).flatten ++ rest))
        = some (L, rest)
    rw [readLongPairs]
    simp only [readUnsigned_natCast _ _ (by omega : p.1 < 4294967296),
      readUnsigned_natCast _ _ (by omega : p.2 < 4294967296), List.getElem?_eq_getElem h1,
      List.getElem?_eq_getElem h2, hL]
    exact ⟨_, rfl⟩

theorem InitFromStream_serialized (ops : PatternOps) (points : List BriskPatternPoint)
    (n : Nat) (shortPairs : List BriskShortPair) (longPairs : List (Nat × Nat))
    (patternScale : ℚ) (hp : points.length < 65536) (hn : n < 4294967296)
    (hs : shortPairs.length = n)
    (hsi : ∀ p ∈ shortPairs, p.i < 4294967296 ∧ p.j < 4294967296)
    (hl : longPairs.length < 4294967296)
    (hli : ∀ p ∈ longPairs, p.1 < points.length ∧ p.2 < points.length) :
    (n ≠ 384 →
        InitFromStream ops ⟨true, serializePattern points n shortPairs longPairs⟩ patternScale
          = .error .shortPairsMismatch)
      ∧ (n = 384 → ∃ T,
        InitFromStream ops ⟨true, serializePattern points n shortPairs longPairs⟩ patternScale
          = .ok T
        ∧ T.noShortPairs_ = 384 ∧ T.shortPairs_ = shortPairs.map some
        ∧ T.points_ = points.length ∧ T.noLongPairs_ = longPairs.length
        ∧ T.strings_ = stringsOf 384) := by
  have hu : (points.map fun p => (⟨p.x * patternScale, p.y * patternScale,
      p.sigma * patternScale⟩ : BriskPatternPoint)).length < 4294967296 := by
    rw [List.length_map]; omega
  obtain ⟨L, hL⟩ := readLongPairs_serialized
    (points.map fun p => (⟨p.x * patternScale, p.y * patternScale,
      p.sigma * patternScale⟩ : BriskPatternPoint)) longPairs [] hu
    (fun p hp => by rw [List.length_map]; exact hli p hp)
  rw [List.append_nil] at hL
  subst hs
  have hread := readShortPairs_serialized shortPairs
    ((longPairs.length : ℚ) :: (longPairs.map fun p => [(p.1 : ℚ), (p.2 : ℚ)]).flatten) hsi
  have key : InitFromStream ops ⟨true, serializePattern points shortPairs.length shortPairs
      longPairs⟩ patternScale
      = if shortPairs.length != kDescriptorLength then .error .shortPairsMismatch
        else .ok ⟨0, 0, points.length,
          (((List.range scales_).map fun scale => streamScalePoints ops
            (points.map fun p => (⟨p.x * patternScale, p.y * patternScale,
              p.sigma * patternScale⟩ : BriskPatternPoint)) scale).map
              fun pts => pts.map Prod.fst).flatten,
          ((List.range scales_).map fun scale => streamScalePoints ops
            (points.map fun p => (⟨p.x * patternScale, p.y * patternScale,
              p.sigma * patternScale⟩ : BriskPatternPoint)) scale).map sizeListEntry,
          shortPairs.map some, L, shortPairs.length, longPairs.length,
          stringsOf shortPairs.length⟩ := by
    have hguard : ¬ (points.length * scales_ * n_rot_ % 4294967296
        < ((((List.range scales_).map fun scale => streamScalePoints ops
            (points.map fun p => (⟨p.x * patternScale, p.y * patternScale,
              p.sigma * patternScale⟩ : BriskPatternPoint)) scale).map
              fun pts => pts.map Prod.fst).flatten).length) := by
      rw [List.map_map]
      simp only [Function.comp_def]
      rw [streamPoints_length, List.length_map]
      simp only [scales_, n_rot_]
      omega
    unfold InitFromStream
    simp only [serializePattern, List.singleton_append, List.cons_append, List.append_assoc,
      List.nil_append,
      Bool.not_true, Bool.false_eq_true, if_false, readUnsigned_natCast _ _ (by omega : points.length < 4294967296),
      readPoints_serialized, hguard, readUnsigned_natCast _ _ hn, hread,
      readUnsigned_natCast _ _ hl, hL]
  constructor
  · intro hne
    rw [key, if_pos (by simpa [kDescriptorLength] using hne)]
  · intro he
    rw [key, if_neg (by simp [kDescriptorLength, he])]
    exact ⟨_, rfl, he, rfl, rfl, rfl, by show stringsOf _ = _; rw [he]⟩


/-! ## Patterns whose points coincide, and the length of a descriptor -/

theorem zero_radius_points (ops : PatternOps) (numberList : List Int) (p : BriskPatternPoint)
    (hp : p ∈ ((List.range scales_).map fun scale =>
      (scalePoints ops [0] numberList scale).map Prod.fst).flatten) : p.x = 0 ∧ p.y = 0 := by
  simp only [List.mem_flatten, List.mem_map] at hp
  obtain ⟨l, ⟨scale, _, rfl⟩, hp⟩ := hp
  simp only [List.mem_map] at hp
  obtain ⟨q, hq, rfl⟩ := hp
  obtain ⟨rot, ring, radius, count, hrad, hmem⟩ := mem_scalePoints _ _ _ _ _ hq
  have hr0 : radius = 0 := by simpa using hrad
  subst hr0
  simp only [ringPoints, List.mem_map] at hmem
  obtain ⟨num, _, rfl⟩ := hmem
  simp

theorem zero_radius_all_short (ops : PatternOps) (numberList : List Int) (dMax dMin : ℚ)
    (hd : 0 < f32 (dMax * dMax)) (T : KernelTables)
    (h : generateKernel ops [0] numberList dMax dMin [] = .ok T) :
    T.noShortPairs_ = T.points_ * (T.points_ - 1) / 2
      ∧ T.points_ = (numberList.sum % 4294967296).toNat
      ∧ T.strings_ = stringsOf T.noShortPairs_ := by
  obtain ⟨_, _, pairs, hp, hT⟩ := generateKernel_ok _ _ _ _ _ _ _ h
  obtain ⟨_, h2, _⟩ := kernelPairs_ok _ _ _ _ _ _ hp
  subst hT
  refine ⟨?_, rfl, rfl⟩
  show pairs.noShortPairs_ = _
  rw [h2, ← pairEnumeration_length]
  congr 1
  apply List.filter_eq_self.mpr
  intro ij _
  have hz : pairNormSq (((List.range scales_).map fun scale =>
      (scalePoints ops [0] numberList scale).map Prod.fst).flatten) ij = 0 := by
    simp only [pairNormSq]
    split
    · rename_i pj pi hj hi
      obtain ⟨hjx, hjy⟩ := zero_radius_points ops numberList pj (mem_of_getElem?_some _ _ _ hj)
      obtain ⟨hix, hiy⟩ := zero_radius_points ops numberList pi (mem_of_getElem?_some _ _ _ hi)
      simp [normSq, floatDifference, hjx, hjy, hix, hiy, f32_zero]
    · rfl
  simp only [isShortPair, hz, decide_eq_true_eq]
  exact hd

theorem stringsOf_small (n : Nat) (h : n < 16777216) : stringsOf n = (n + 127) / 128 * 16 := by
  have hr : roundF32 (n : Int) = (n : Int) := roundF32_exact _ (by omega)
  obtain ⟨k, hk⟩ : ∃ k, k = (n + 127) / 128 := ⟨_, rfl⟩
  have h1 : n ≤ k * 128 := by omega
  have h2 : k * 128 < n + 128 := by omega
  have h1q : (n : ℚ) ≤ (k : ℚ) * 128 := by exact_mod_cast h1
  have h2q : (k : ℚ) * 128 < (n : ℚ) + 128 := by exact_mod_cast h2
  have hc : ⌈((n : Int) : ℚ) / 128⌉ = ((k : Nat) : Int) := by
    rw [Int.ceil_eq_iff, Int.cast_natCast, Int.cast_natCast]
    constructor
    · rw [lt_div_iff₀ (by norm_num)]
      linarith
    · rw [div_le_iff₀ (by norm_num)]
      linarith
  simp only [stringsOf, hr, hc, Int.toNat_ofNat]
  omega


/-! ## Rounding to single precision is monotone -/

theorem f32Shift_le : ∀ (fuel a k : Nat), a / 2 ^ k < 16777216 → f32Shift fuel a ≤ k := by
  intro fuel
  induction fuel with
  | zero => intro a k _; simp [f32Shift]
  | succ fuel ih =>
    intro a k h
    simp only [f32Shift]
    split
    · exact Nat.zero_le _
    · rename_i hge
      cases k with
      | zero => simp at h; omega
      | succ k =>
        have h2 : a / 2 / 2 ^ k < 16777216 := by
          rw [Nat.div_div_eq_div_mul, ← Nat.pow_succ']
          exact h
        have := ih (a / 2) k h2
        omega

theorem f32Shift_spec : ∀ (fuel a : Nat), a < 16777216 * 2 ^ fuel →
    a / 2 ^ f32Shift fuel a < 16777216
      ∧ (f32Shift fuel a ≠ 0 → 8388608 ≤ a / 2 ^ f32Shift fuel a) := by
  intro fuel
  induction fuel with
  | zero =>
    intro a h
    simp only [f32Shift, pow_zero, Nat.div_one, ne_eq, not_true_eq_false, false_implies,
      and_true]
    omega
  | succ fuel ih =>
    intro a h
    simp only [f32Shift]
    split
    · rename_i hlt
      simp only [pow_zero, Nat.div_one, ne_eq, not_true_eq_false, false_implies, and_true]
      exact hlt
    · rename_i hge
      have h2 : a / 2 < 16777216 * 2 ^ fuel := by
        rw [Nat.pow_succ] at h
        omega
      obtain ⟨i1, i2⟩ := ih (a / 2) h2
      have e : a / 2 ^ (1 + f32Shift fuel (a / 2)) = a / 2 / 2 ^ f32Shift fuel (a / 2) := by
        rw [Nat.div_div_eq_div_mul, Nat.add_comm, Nat.pow_succ']
      rw [e]
      refine ⟨i1, fun _ => ?_⟩
      by_cases hz : f32Shift fuel (a / 2) = 0
      · rw [hz]
        simp only [pow_zero, Nat.div_one]
        omega
      · exact i2 hz

/-- Rounding to a multiple of `2 ^ e`, to nearest with ties to even. -/
theorem roundAt_mono (e a b : Nat) (h : a ≤ b) :
    (if 2 * (a % 2 ^ e) > 2 ^ e ∨ (2 * (a % 2 ^ e) = 2 ^ e ∧ a / 2 ^ e % 2 = 1)
        then (a / 2 ^ e + 1) * 2 ^ e else a / 2 ^ e * 2 ^ e)
      ≤ (if 2 * (b % 2 ^ e) > 2 ^ e ∨ (2 * (b % 2 ^ e) = 2 ^ e ∧ b / 2 ^ e % 2 = 1)
        then (b / 2 ^ e + 1) * 2 ^ e else b / 2 ^ e * 2 ^ e) := by
  have hpos : 0 < 2 ^ e := Nat.pow_pos (by decide)
  generalize 2 ^ e = m at hpos ⊢
  have hq : a / m ≤ b / m := Nat.div_le_div_right h
  have ha := Nat.div_add_mod a m
  have hb := Nat.div_add_mod b m
  have hra : a % m < m := Nat.mod_lt _ hpos
  have hrb : b % m < m := Nat.mod_lt _ hpos
  rcases Nat.lt_or_ge (a / m) (b / m) with hlt | hge
  · have h1 : (a / m + 1) * m ≤ b / m * m := Nat.mul_le_mul_right _ hlt
    have h2 : a / m * m ≤ (a / m + 1) * m := Nat.mul_le_mul_right _ (Nat.le_succ _)
    have h3 : b / m * m ≤ (b / m + 1) * m := Nat.mul_le_mul_right _ (Nat.le_succ _)
    split <;> split <;> omega
  · have heq : a / m = b / m := Nat.le_antisymm hq hge
    have hr : a % m ≤ b % m := by
      have e1 : m * (a / m) = m * (b / m) := by rw [heq]
      omega
    rw [heq]
    have h3 : b / m * m ≤ (b / m + 1) * m := Nat.mul_le_mul_right _ (Nat.le_succ _)
    split
    · rename_i hc
      split
      · exact Nat.le_refl _
      · rename_i hn
        exfalso
        apply hn
        rcases hc with hc | ⟨hc1, hc2⟩
        · left; omega
        · rcases Nat.lt_or_ge (2 * (a % m)) (2 * (b % m)) with h5 | h5
          · left; omega
          · right; exact ⟨by omega, hc2⟩
    · split
      · exact h3
      · exact Nat.le_refl _

theorem roundF32Nat_mono (a b : Nat) (h : a ≤ b) (hb : b < 16777216 * 2 ^ 128) :
    roundF32Nat a ≤ roundF32Nat b := by
  have ha : a < 16777216 * 2 ^ 128 := Nat.lt_of_le_of_lt h hb
  obtain ⟨a1, a2⟩ := f32Shift_spec 128 a ha
  obtain ⟨b1, b2⟩ := f32Shift_spec 128 b hb
  have hs : f32Shift 128 a ≤ f32Shift 128 b := by
    apply f32Shift_le
    exact Nat.lt_of_le_of_lt (Nat.div_le_div_right h) b1
  rcases Nat.lt_or_ge (f32Shift 128 a) (f32Shift 128 b) with hlt | hge
  · have hb0 : f32Shift 128 b ≠ 0 := by omega
    have hqb := b2 hb0
    have hua : roundF32Nat a ≤ 16777216 * 2 ^ f32Shift 128 a := by
      simp only [roundF32Nat]
      split
      · exact Nat.mul_le_mul_right _ a1
      · exact Nat.mul_le_mul_right _ (Nat.le_of_lt a1)
    have hlb : 8388608 * 2 ^ f32Shift 128 b ≤ roundF32Nat b := by
      simp only [roundF32Nat]
      split
      · exact Nat.mul_le_mul_right _ (by omega)
      · exact Nat.mul_le_mul_right _ hqb
    have hp : 16777216 * 2 ^ f32Shift 128 a ≤ 8388608 * 2 ^ f32Shift 128 b := by
      have e1 : 16777216 * 2 ^ f32Shift 128 a = 8388608 * 2 ^ (f32Shift 128 a + 1) := by
        rw [Nat.pow_succ]; omega
      rw [e1]
      exact Nat.mul_le_mul_left _ (Nat.pow_le_pow_right (by decide) hlt)
    omega
  · have heq : f32Shift 128 a = f32Shift 128 b := Nat.le_antisymm hs hge
    simp only [roundF32Nat]
    rw [heq]
    exact roundAt_mono _ a b h

/-- A number with a significand of at most 24 bits is a `float`. -/
theorem roundF32Nat_repr (m k : Nat) (hm : m < 16777216) : roundF32Nat (m * 2 ^ k) = m * 2 ^ k := by
  have hs : f32Shift 128 (m * 2 ^ k) ≤ k := by
    apply f32Shift_le
    rw [Nat.mul_div_cancel _ (Nat.pow_pos (by decide))]
    exact hm
  obtain ⟨d, hd⟩ := Nat.exists_eq_add_of_le hs
  have hr : m * 2 ^ k % 2 ^ f32Shift 128 (m * 2 ^ k) = 0 := by
    apply Nat.mod_eq_zero_of_dvd
    exact Dvd.dvd.mul_left (Nat.pow_dvd_pow 2 hs) m
  simp only [roundF32Nat, hr]
  have hpos : 0 < 2 ^ f32Shift 128 (m * 2 ^ k) := Nat.pow_pos (by decide)
  rw [if_neg (by omega)]
  exact Nat.div_mul_cancel (Dvd.dvd.mul_left (Nat.pow_dvd_pow 2 hs) m)

theorem roundF32Nat_idem (a : Nat) (ha : a < 16777216 * 2 ^ 128) :
    roundF32Nat (roundF32Nat a) = roundF32Nat a := by
  obtain ⟨a1, _⟩ := f32Shift_spec 128 a ha
  have hform : ∃ m k, m < 16777216 ∧ roundF32Nat a = m * 2 ^ k := by
    simp only [roundF32Nat]
    split
    · by_cases hq : a / 2 ^ f32Shift 128 a + 1 < 16777216
      · exact ⟨_, _, hq, rfl⟩
      · refine ⟨8388608, f32Shift 128 a + 1, by decide, ?_⟩
        have : a / 2 ^ f32Shift 128 a + 1 = 16777216 := by omega
        rw [this, Nat.pow_succ]
        omega
    · exact ⟨_, _, a1, rfl⟩
  obtain ⟨m, k, hm, he⟩ := hform
  rw [he, roundF32Nat_repr m k hm]

theorem roundF32Nat_le (a : Nat) (ha : a < 16777216 * 2 ^ 128) :
    roundF32Nat a ≤ 16777216 * 2 ^ 128 := by
  obtain ⟨a1, _⟩ := f32Shift_spec 128 a ha
  have hs : f32Shift 128 a ≤ 128 := by
    apply f32Shift_le
    rw [Nat.div_lt_iff_lt_mul (Nat.pow_pos (by decide))]
    exact ha
  have hp : 2 ^ f32Shift 128 a ≤ 2 ^ 128 := Nat.pow_le_pow_right (by decide) hs
  simp only [roundF32Nat]
  split
  · exact Nat.mul_le_mul a1 hp
  · exact Nat.mul_le_mul (Nat.le_of_lt a1) hp

theorem FLT_MAX_eq : FLT_MAX = ((16777215 * 2 ^ 104 : Nat) : Int) := by decide

theorem roundF32_of_nonneg (v : Int) (h : 0 ≤ v) :
    roundF32 v = ((roundF32Nat v.toNat : Nat) : Int) := by
  simp only [roundF32]
  rw [if_neg (by omega)]
  congr 2
  omega

theorem roundF32_of_neg (v : Int) (h : v < 0) :
    roundF32 v = -((roundF32Nat (-v).toNat : Nat) : Int) := by
  simp only [roundF32]
  rw [if_pos h]
  congr 3
  omega

theorem roundF32_FLT_MAX : roundF32 FLT_MAX = FLT_MAX := by
  rw [FLT_MAX_eq, roundF32_of_nonneg _ (Int.natCast_nonneg _), Int.toNat_ofNat,
    roundF32Nat_repr _ _ (by decide)]

theorem roundF32_neg_FLT_MAX : roundF32 (-FLT_MAX) = -FLT_MAX := by
  rw [FLT_MAX_eq, roundF32_of_neg _ (by decide), Int.neg_neg, Int.toNat_ofNat,
    roundF32Nat_repr _ _ (by decide)]

/-- Conversion to `float` keeps the order of integers of magnitude up to
`FLT_MAX`. -/
theorem roundF32_mono (v w : Int) (h : v ≤ w) (hv : -FLT_MAX ≤ v) (hw : w ≤ FLT_MAX) :
    roundF32 v ≤ roundF32 w := by
  have hF : FLT_MAX = ((16777215 * 2 ^ 104 : Nat) : Int) := FLT_MAX_eq
  have hB : 16777215 * 2 ^ 104 < 16777216 * 2 ^ 128 := by decide
  rcases Int.lt_or_le v 0 with hv0 | hv0
  · rcases Int.lt_or_le w 0 with hw0 | hw0
    · rw [roundF32_of_neg v hv0, roundF32_of_neg w hw0]
      have := roundF32Nat_mono (-w).toNat (-v).toNat (by omega) (by omega)
      omega
    · rw [roundF32_of_neg v hv0, roundF32_of_nonneg w hw0]
      omega
  · have hw0 : 0 ≤ w := by omega
    rw [roundF32_of_nonneg v hv0, roundF32_of_nonneg w hw0]
    have := roundF32Nat_mono v.toNat w.toNat (by omega) (by omega)
    omega

theorem roundF32_range (v : Int) (hv : -FLT_MAX ≤ v) (hw : v ≤ FLT_MAX) :
    -FLT_MAX ≤ roundF32 v ∧ roundF32 v ≤ FLT_MAX := by
  have h1 := roundF32_mono (-FLT_MAX) v hv (Int.le_refl _) hw
  have h2 := roundF32_mono v FLT_MAX hw hv (Int.le_refl _)
  rw [roundF32_neg_FLT_MAX] at h1
  rw [roundF32_FLT_MAX] at h2
  exact ⟨h1, h2⟩

theorem roundF32Nat_pos (a : Nat) (h : 0 < a) (ha : a < 16777216 * 2 ^ 128) :
    0 < roundF32Nat a := by
  have := roundF32Nat_mono 1 a h ha
  have h1 : roundF32Nat 1 = 1 := roundF32Nat_small 1 (by decide)
  omega

/-- A `float` converted to `float` is itself. -/
theorem roundF32_idem (v : Int) (hv : -FLT_MAX ≤ v) (hw : v ≤ FLT_MAX) :
    roundF32 (roundF32 v) = roundF32 v := by
  have hF : FLT_MAX = ((16777215 * 2 ^ 104 : Nat) : Int) := FLT_MAX_eq
  have hB : 16777215 * 2 ^ 104 < 16777216 * 2 ^ 128 := by decide
  rcases Int.lt_or_le v 0 with hv0 | hv0
  · have hb : (-v).toNat < 16777216 * 2 ^ 128 := by omega
    have hpos := roundF32Nat_pos (-v).toNat (by omega) hb
    rw [roundF32_of_neg v hv0, roundF32_of_neg _ (by omega), Int.neg_neg, Int.toNat_ofNat,
      roundF32Nat_idem _ hb]
  · have hb : v.toNat < 16777216 * 2 ^ 128 := by omega
    rw [roundF32_of_nonneg v hv0, roundF32_of_nonneg _ (Int.natCast_nonneg _), Int.toNat_ofNat,
      roundF32Nat_idem _ hb]

/-! ## The selection loop pushes its matches in order -/

theorem minLocFrom_le :
    ∀ (rest : List Int) (i loc : Nat) (val : Int),
      (minLocFrom rest i loc val).2 ≤ val ∧ ∀ x ∈ rest, (minLocFrom rest i loc val).2 ≤ x := by
  intro rest
  induction rest with
  | nil => intro i loc val; exact ⟨Int.le_refl _, fun x hx => by simp at hx⟩
  | cons y rest ih =>
    intro i loc val
    simp only [minLocFrom]
    split
    · rename_i hlt
      obtain ⟨h1, h2⟩ := ih (i + 1) i y
      refine ⟨by omega, fun x hx => ?_⟩
      rcases List.mem_cons.mp hx with h | h
      · rw [h]; exact h1
      · exact h2 x h
    · rename_i hge
      obtain ⟨h1, h2⟩ := ih (i + 1) loc val
      refine ⟨h1, fun x hx => ?_⟩
      rcases List.mem_cons.mp hx with h | h
      · rw [h]; omega
      · exact h2 x h

theorem minMaxLoc_le (dists : List Int) : ∀ x ∈ dists, (minMaxLoc dists).2 ≤ x := by
  cases dists with
  | nil => intro x hx; simp at hx
  | cons y rest =>
    intro x hx
    simp only [minMaxLoc]
    obtain ⟨h1, h2⟩ := minLocFrom_le rest 1 0 y
    rcases List.mem_cons.mp hx with h | h
    · rw [h]; exact h1
    · exact h2 x h

/-- The scan of step 2 ends with a match whose distance is a `float`, is not above
the one it started from and is not above the `float` of any entry; it is the match
it started from or the `float` of an entry. -/
theorem knnBest_min (qIdx : Nat) :
    ∀ (allDists : List (List Int)) (iIdx : Nat) (b : DMatch),
      (∀ row ∈ allDists, ∀ x ∈ row, -FLT_MAX ≤ x ∧ x ≤ FLT_MAX) →
      -FLT_MAX ≤ b.distance → b.distance ≤ FLT_MAX → roundF32 b.distance = b.distance →
      (knnBest qIdx allDists iIdx b).distance ≤ b.distance
        ∧ roundF32 (knnBest qIdx allDists iIdx b).distance
          = (knnBest qIdx allDists iIdx b).distance
        ∧ -FLT_MAX ≤ (knnBest qIdx allDists iIdx b).distance
        ∧ (∀ row ∈ allDists, ∀ x ∈ row, (knnBest qIdx allDists iIdx b).distance ≤ roundF32 x)
        ∧ (knnBest qIdx allDists iIdx b = b
          ∨ ∃ row ∈ allDists, ∃ x ∈ row,
            (knnBest qIdx allDists iIdx b).distance = roundF32 x) := by
  intro allDists
  induction allDists with
  | nil =>
    intro iIdx b _ hlo _ hfix
    exact ⟨Int.le_refl _, hfix, hlo, fun row hr => by simp at hr, Or.inl rfl⟩
  | cons dists rest ih =>
    intro iIdx b hr hlo hhi hfix
    have hrest : ∀ row ∈ rest, ∀ x ∈ row, -FLT_MAX ≤ x ∧ x ≤ FLT_MAX :=
      fun row h => hr row (List.mem_cons_of_mem _ h)
    have hkeep : ∀ x ∈ dists, b.distance ≤ (minMaxLoc dists).2 → b.distance ≤ roundF32 x := by
      intro x hx hle
      have h1 := minMaxLoc_le dists x hx
      have hx2 := hr dists (List.mem_cons_self _ _) x hx
      have := roundF32_mono b.distance x (by omega) hlo hx2.2
      rw [hfix] at this
      exact this
    simp only [knnBest]
    by_cases hne : dists = []
    · subst hne
      simp only [List.isEmpty_nil, Bool.not_true, Bool.false_eq_true, if_false]
      obtain ⟨i1, i2, i3, i4, i5⟩ := ih (iIdx + 1) b hrest hlo hhi hfix
      refine ⟨i1, i2, i3, fun row hrow x hx => ?_, ?_⟩
      · rcases List.mem_cons.mp hrow with h | h
        · subst h; simp at hx
        · exact i4 row h x hx
      · rcases i5 with h | ⟨row, hrow, x, hx, he⟩
        · left; exact h
        · right; exact ⟨row, List.mem_cons_of_mem _ hrow, x, hx, he⟩
    · have hnotempty : (!dists.isEmpty) = true := by
        cases dists with
        | nil => exact absurd rfl hne
        | cons _ _ => rfl
      simp only [hnotempty, if_true]
      have hmem := minMaxLoc_mem dists hne
      have hmr := hr dists (List.mem_cons_self _ _) _ hmem
      by_cases hlt : (minMaxLoc dists).2 < b.distance
      · simp only [hlt, if_true]
        have hrng := roundF32_range _ hmr.1 hmr.2
        have hnew : roundF32 (minMaxLoc dists).2 ≤ b.distance := by
          have := roundF32_mono (minMaxLoc dists).2 b.distance (by omega) hmr.1 hhi
          rw [hfix] at this
          exact this
        obtain ⟨i1, i2, i3, i4, i5⟩ := ih (iIdx + 1)
          ⟨qIdx, (minMaxLoc dists).1, iIdx, roundF32 (minMaxLoc dists).2⟩ hrest hrng.1 hrng.2
          (roundF32_idem _ hmr.1 hmr.2)
        simp only [] at i1
        refine ⟨by omega, i2, i3, fun row hrow x hx => ?_, ?_⟩
        · rcases List.mem_cons.mp hrow with h | h
          · subst h
            have h1 := minMaxLoc_le row x hx
            have hx2 := hr row (List.mem_cons_self _ _) x hx
            have := roundF32_mono _ x h1 hmr.1 hx2.2
            omega
          · exact i4 row h x hx
        · right
          rcases i5 with h | ⟨row, hrow, x, hx, he⟩
          · exact ⟨dists, List.mem_cons_self _ _, _, hmem, by rw [h]⟩
          · exact ⟨row, List.mem_cons_of_mem _ hrow, x, hx, he⟩
      · simp only [hlt, if_false]
        obtain ⟨i1, i2, i3, i4, i5⟩ := ih (iIdx + 1) b hrest hlo hhi hfix
        refine ⟨i1, i2, i3, fun row hrow x hx => ?_, ?_⟩
        · rcases List.mem_cons.mp hrow with h | h
          · subst h
            have := hkeep x hx (by omega)
            omega
          · exact i4 row h x hx
        · rcases i5 with h | ⟨row, hrow, x, hx, he⟩
          · left; exact h
          · right; exact ⟨row, List.mem_cons_of_mem _ hrow, x, hx, he⟩

theorem mem_setDist (allDists : List (List Int)) (imgIdx trainIdx : Nat) (v : Int)
    (row : List Int) (hrow : row ∈ setDist allDists imgIdx trainIdx v) (x : Int) (hx : x ∈ row) :
    x = v ∨ ∃ old ∈ allDists, x ∈ old := by
  simp only [setDist] at hrow
  rcases mem_modify _ allDists imgIdx row hrow with h | ⟨old, hold, he⟩
  · right; exact ⟨row, h, hx⟩
  · subst he
    rcases List.mem_or_eq_of_mem_set hx with h | h
    · right; exact ⟨old, hold, h⟩
    · left; exact h

/-- The matches that the selection loop appends are in non-decreasing order of
distance, whatever number of passes it makes. -/
theorem knnSelect_sorted (distMax : Int) (qIdx : Nat) (hlo : -FLT_MAX ≤ distMax)
    (hhi : distMax ≤ FLT_MAX) :
    ∀ (remaining : Nat) (allDists : List (List Int)) (curMatches : List DMatch),
      (∀ row ∈ allDists, ∀ x ∈ row, -FLT_MAX ≤ x ∧ x ≤ distMax) →
      curMatches.Sorted DMatch.le →
      (∀ m ∈ curMatches, ∀ row ∈ allDists, ∀ x ∈ row, m.distance ≤ roundF32 x) →
      (∀ m ∈ curMatches, m.distance ≤ roundF32 distMax) →
      (knnSelect distMax qIdx remaining allDists curMatches).Sorted DMatch.le := by
  intro remaining
  induction remaining with
  | zero => intro allDists cur _ hs _ _; exact hs
  | succ n ih =>
    intro allDists cur hr hs hall hdm
    simp only [knnSelect]
    split
    · exact hs
    · rename_i hfound
      have hr2 : ∀ row ∈ allDists, ∀ x ∈ row, -FLT_MAX ≤ x ∧ x ≤ FLT_MAX :=
        fun row h x hx => ⟨(hr row h x hx).1, Int.le_trans (hr row h x hx).2 hhi⟩
      obtain ⟨_, _, _, k4, k5⟩ := knnBest_min qIdx allDists 0 ⟨-1, -1, -1, FLT_MAX⟩ hr2
        (by decide) (Int.le_refl _) roundF32_FLT_MAX
      have hbest : ∃ row ∈ allDists, ∃ x ∈ row,
          (knnBest qIdx allDists 0 ⟨-1, -1, -1, FLT_MAX⟩).distance = roundF32 x := by
        rcases k5 with h | h
        · exfalso
          apply hfound
          rw [h]
        · exact h
      obtain ⟨row0, hrow0, x0, hx0, he0⟩ := hbest
      have hx0r := hr row0 hrow0 x0 hx0
      have hbdm : (knnBest qIdx allDists 0 ⟨-1, -1, -1, FLT_MAX⟩).distance
          ≤ roundF32 distMax := by
        rw [he0]
        exact roundF32_mono x0 distMax hx0r.2 hx0r.1 hhi
      apply ih
      · intro row hrow x hx
        rcases mem_setDist _ _ _ _ row hrow x hx with h | ⟨old, hold, hxo⟩
        · rw [h]; exact ⟨hlo, Int.le_refl _⟩
        · exact hr old hold x hxo
      · rw [List.Sorted, List.pairwise_append]
        refine ⟨hs, List.pairwise_singleton _ _, fun a ha b hb => ?_⟩
        rw [List.mem_singleton] at hb
        subst hb
        show a.distance ≤ _
        rw [he0]
        exact hall a ha row0 hrow0 x0 hx0
      · intro m hm row hrow x hx
        have hmle : ∀ y, (∃ old ∈ allDists, y ∈ old) → m.distance ≤ roundF32 y := by
          rintro y ⟨old, hold, hy⟩
          rcases List.mem_append.mp hm with h | h
          · exact hall m h old hold y hy
          · rw [List.mem_singleton] at h
            subst h
            exact k4 old hold y hy
        rcases mem_setDist _ _ _ _ row hrow x hx with h | h
        · rw [h]
          rcases List.mem_append.mp hm with h2 | h2
          · exact hdm m h2
          · rw [List.mem_singleton] at h2
            subst h2
            exact hbdm
        · exact hmle x h
      · intro m hm
        rcases List.mem_append.mp hm with h | h
        · exact hdm m h
        · rw [List.mem_singleton] at h
          subst h
          exact hbdm


theorem knnDistRow_entries {D : Type} (M : BruteForceMatcher D) (dimension : Int)
    (masks : List MaskMat) (qIdx iIdx : Nat) (d1 : D) :
    ∀ (rows : List D) (tIdx : Nat) (r : List Int),
      knnDistRow M dimension masks qIdx iIdx d1 rows tIdx = .ok r →
      ∀ x ∈ r, x = M.distMax ∨ ∃ d2, x = M.distance_ d1 d2 dimension := by
  intro rows
  induction rows with
  | nil =>
    intro tIdx r h x hx
    simp only [knnDistRow, Except.ok.injEq] at h
    subst h
    simp at hx
  | cons d2 rest ih =>
    intro tIdx r h x hx
    simp only [knnDistRow] at h
    split at h
    · split at h
      · rename_i r2 hr2
        simp only [Except.ok.injEq] at h
        subst h
        rcases List.mem_cons.mp hx with hx | hx
        · right; exact ⟨d2, hx⟩
        · exact ih (tIdx + 1) r2 hr2 x hx
      · simp at h
    · split at h
      · simp at h
      · split at h
        · rename_i r2 hr2
          simp only [Except.ok.injEq] at h
          subst h
          rcases List.mem_cons.mp hx with hx | hx
          · split at hx
            · right; exact ⟨d2, hx⟩
            · left; exact hx
          · exact ih (tIdx + 1) r2 hr2 x hx
        · simp at h

theorem knnAllDists_entries {D : Type} (M : BruteForceMatcher D) (query : Mat D)
    (masks : List MaskMat) (qIdx : Nat) (d1 : D) :
    ∀ (trains : List (Mat D)) (iIdx : Nat) (allDists : List (List Int)),
      knnAllDists M query masks qIdx d1 trains iIdx = .ok allDists →
      ∀ row ∈ allDists, ∀ x ∈ row,
        x = M.distMax ∨ ∃ d2, x = M.distance_ d1 d2 query.cols := by
  intro trains
  induction trains with
  | nil =>
    intro iIdx allDists h row hrow
    simp only [knnAllDists, Except.ok.injEq] at h
    subst h
    simp at hrow
  | cons train rest ih =>
    intro iIdx allDists h row hrow x hx
    simp only [knnAllDists] at h
    split at h
    · split at h
      · simp at h
      · rename_i r1 hr1
        split at h
        · rename_i r2 hr2
          simp only [Except.ok.injEq] at h
          subst h
          rcases List.mem_cons.mp hrow with hrow | hrow
          · subst hrow
            exact knnDistRow_entries M query.cols masks qIdx iIdx d1 train.data 0 _ hr1 x hx
          · exact ih (iIdx + 1) r2 hr2 row hrow x hx
        · simp at h
    · simp at h


/-! ## Copies of a matcher -/

theorem transformInto_short {α β : Type} (op : α → β) :
    ∀ (src : List α) (dst : List β), dst.length < src.length →
      transformInto op src dst = .error .outOfBounds := by
  intro src
  induction src with
  | nil => intro dst h; simp at h
  | cons a rest ih =>
    intro dst h
    cases dst with
    | nil => rfl
    | cons b dst =>
      simp only [List.length_cons] at h
      simp only [transformInto, ih dst (by omega)]

theorem transformInto_fits {α β : Type} (op : α → β) :
    ∀ (src : List α) (dst : List β), src.length ≤ dst.length →
      transformInto op src dst = .ok (src.map op ++ dst.drop src.length) := by
  intro src
  induction src with
  | nil => intro dst _; rfl
  | cons a rest ih =>
    intro dst h
    cases dst with
    | nil => simp at h
    | cons b dst =>
      simp only [List.length_cons] at h
      simp only [transformInto, ih dst (by omega), List.map_cons, List.length_cons,
        List.drop_succ_cons, List.cons_append]

/-- What `clone` does: with `emptyTrainData` it returns the new matcher as
constructed; otherwise it fails with an access outside the new collection when that
collection is shorter than the original one, and overwrites its first entries
otherwise. The matcher it is called on stays as it is. -/
theorem clone_spec {D : Type} (M : BruteForceMatcher D) (newTrainDescCollection : List (Mat D))
    (clone_op : Mat D → Mat D) :
    clone M newTrainDescCollection clone_op true
        = .ok (M, ⟨M.distance_, M.valueType, M.distMax, newTrainDescCollection⟩)
      ∧ (newTrainDescCollection.length < M.trainDescCollection.length →
        clone M newTrainDescCollection clone_op false = .error .outOfBounds)
      ∧ (M.trainDescCollection.length ≤ newTrainDescCollection.length →
        clone M newTrainDescCollection clone_op false
          = .ok (M, ⟨M.distance_, M.valueType, M.distMax,
            M.trainDescCollection.map clone_op
              ++ newTrainDescCollection.drop M.trainDescCollection.length⟩)) := by
  refine ⟨rfl, fun h => ?_, fun h => ?_⟩
  · simp only [clone, Bool.not_false, if_true, transformInto_short _ _ _ h]
  · simp only [clone, Bool.not_false, if_true, transformInto_fits _ _ _ h]

/-! ## The orientation sums -/

theorem directionLoop_sum (values : List Int) :
    ∀ (pairs : List BriskLongPair) (direction0 direction1 : Int),
      (∀ p ∈ pairs, p.i < values.length ∧ p.j < values.length) →
      directionLoop values pairs direction0 direction1
        = .ok (direction0 + (pairs.map fun p =>
              directionTerm values p.i p.j p.weighted_dx 1024).sum,
            direction1 + (pairs.map fun p =>
              directionTerm values p.i p.j p.weighted_dy 1024).sum) := by
  intro pairs
  induction pairs with
  | nil => intro d0 d1 _; simp [directionLoop]
  | cons p rest ih =>
    intro d0 d1 hv
    obtain ⟨hi, hj⟩ := hv p (List.mem_cons_self _ _)
    simp only [directionLoop, List.getElem?_eq_getElem hi, List.getElem?_eq_getElem hj]
    rw [ih _ _ (fun q hq => hv q (List.mem_cons_of_mem _ hq))]
    simp only [List.map_cons, List.sum_cons, directionTerm, List.getD_eq_getElem?_getD,
      List.getElem?_eq_getElem hi, List.getElem?_eq_getElem hj, Option.getD_some]
    congr 2 <;> omega

theorem pairStep_weights (pts : List BriskPatternPoint) (dMin_sq dMax_sq : ℚ) (ic : List Nat)
    (st T : PairTables) (ij : Nat × Nat)
    (h : pairStep pts dMin_sq dMax_sq ic st ij = .ok T) :
    ∀ p ∈ T.longPairs_, p ∈ st.longPairs_ ∨ ∃ pi pj, pts[p.i]? = some pi ∧ pts[p.j]? = some pj
      ∧ p.weighted_dx = longPairWeight (floatDifference pi.x pj.x) (normSq pi pj)
      ∧ p.weighted_dy = longPairWeight (floatDifference pi.y pj.y) (normSq pi pj) := by
  simp only [pairStep] at h
  split at h
  · rename_i pj pi hj hi
    have hlong : ∀ p ∈ (if normSq pi pj > dMin_sq then
          st.longPairs_ ++ [⟨ij.1, ij.2, longPairWeight (floatDifference pi.x pj.x) (normSq pi pj),
            longPairWeight (floatDifference pi.y pj.y) (normSq pi pj)⟩]
        else st.longPairs_),
        p ∈ st.longPairs_ ∨ ∃ pi pj, pts[p.i]? = some pi ∧ pts[p.j]? = some pj
          ∧ p.weighted_dx = longPairWeight (floatDifference pi.x pj.x) (normSq pi pj)
          ∧ p.weighted_dy = longPairWeight (floatDifference pi.y pj.y) (normSq pi pj) := by
      intro p hp
      split at hp
      · rcases List.mem_append.mp hp with hp | hp
        · left; exact hp
        · rw [List.mem_singleton] at hp
          subst hp
          right
          exact ⟨pi, pj, hi, hj, rfl, rfl⟩
      · left; exact hp
    split at h
    · simp at h
    · split at h
      · split at h
        · simp at h
        · split at h
          · simp only [Except.ok.injEq] at h
            subst h
            exact hlong
          · simp at h
      · simp only [Except.ok.injEq] at h
        subst h
        exact hlong
  · simp at h

theorem pairLoop_weights (pts : List BriskPatternPoint) (dMin_sq dMax_sq : ℚ) (ic : List Nat) :
    ∀ (l : List (Nat × Nat)) (st T : PairTables),
      pairLoop pts dMin_sq dMax_sq ic l st = .ok T →
      ∀ p ∈ T.longPairs_, p ∈ st.longPairs_ ∨ ∃ pi pj, pts[p.i]? = some pi
        ∧ pts[p.j]? = some pj
        ∧ p.weighted_dx = longPairWeight (floatDifference pi.x pj.x) (normSq pi pj)
        ∧ p.weighted_dy = longPairWeight (floatDifference pi.y pj.y) (normSq pi pj) := by
  intro l
  induction l with
  | nil =>
    intro st T h p hp
    simp only [pairLoop, Except.ok.injEq] at h
    subst h
    left; exact hp
  | cons ij rest ih =>
    intro st T h p hp
    simp only [pairLoop] at h
    split at h
    · simp at h
    · rename_i st1 hst1
      rcases ih st1 T h p hp with h1 | h1
      · exact pairStep_weights pts dMin_sq dMax_sq ic st st1 ij hst1 p h1
      · right; exact h1

/-- Every long pair that the pair generation stores has its differences of
coordinates divided by the squared distance, multiplied by 2048 and rounded. -/
theorem kernelPairs_weights (pts : List BriskPatternPoint) (points_ : Nat) (dMin dMax : ℚ)
    (ic : List Nat) (T : PairTables) (h : kernelPairs pts points_ dMin dMax ic = .ok T) :
    ∀ p ∈ T.longPairs_, ∃ pi pj, pts[p.i]? = some pi ∧ pts[p.j]? = some pj
      ∧ p.weighted_dx = longPairWeight (floatDifference pi.x pj.x) (normSq pi pj)
      ∧ p.weighted_dy = longPairWeight (floatDifference pi.y pj.y) (normSq pi pj) := by
  intro p hp
  rcases pairLoop_weights pts _ _ _ _ _ T h p hp with h1 | h1
  · simp at h1
  · exact h1

/-! ## The bits of the other rows -/

/-- The loop over the short pairs leaves every word alone that holds none of the
bits from the current one to the last. -/
theorem setBitsLoop_frame (values : List Int) :
    ∀ (pairs : List BriskShortPair) (ptr2 shifter : Nat) (words words' : List Nat),
      shifter < 32 → setBitsLoop values pairs ptr2 shifter words = .ok words' →
      words'.length = words.length
        ∧ ∀ w, (w < ptr2 ∨ 32 * ptr2 + shifter + pairs.length ≤ 32 * w) →
          words'[w]? = words[w]? := by
  intro pairs
  induction pairs with
  | nil =>
    intro ptr2 shifter words words' _ h
    simp only [setBitsLoop, Except.ok.injEq] at h
    subst h
    exact ⟨rfl, fun _ _ => rfl⟩
  | cons p rest ih =>
    intro ptr2 shifter words words' hs h
    simp only [setBitsLoop] at h
    split at h
    · split at h
      · split at h
        · rename_i wd hwd
          split at h
          · obtain ⟨i1, i2⟩ := ih (ptr2 + 1) 0 _ words' (by decide) h
            refine ⟨by rw [i1, List.length_set], fun w hw => ?_⟩
            simp only [List.length_cons] at hw
            rw [i2 w (by omega), List.getElem?_set_ne (by omega)]
          · obtain ⟨i1, i2⟩ := ih ptr2 (shifter + 1) _ words' (by omega) h
            refine ⟨by rw [i1, List.length_set], fun w hw => ?_⟩
            simp only [List.length_cons] at hw
            rw [i2 w (by omega), List.getElem?_set_ne (by omega)]
        · simp at h
      · split at h
        · obtain ⟨i1, i2⟩ := ih (ptr2 + 1) 0 _ words' (by decide) h
          refine ⟨i1, fun w hw => ?_⟩
          simp only [List.length_cons] at hw
          exact i2 w (by omega)
        · obtain ⟨i1, i2⟩ := ih ptr2 (shifter + 1) _ words' (by omega) h
          refine ⟨i1, fun w hw => ?_⟩
          simp only [List.length_cons] at hw
          exact i2 w (by omega)
    · simp at h


/-! ## The square of an area sample -/

theorem truncToInt_of_nonneg (t : ℚ) (h : 0 ≤ t) : truncToInt t = ⌊t⌋ := by
  simp only [truncToInt, if_pos h]

/-- Past the four tests on the borders of the square, the rounded borders lie in
the image and the right and bottom ones lie beyond the left and top ones. -/
theorem areaGeometry_bounds (xf yf sigma_half : ℚ) (cols rows : Int)
    (hs : 1 / 2 ≤ sigma_half) (hx0 : 0 ≤ xf - sigma_half)
    (hx1 : xf + sigma_half ≤ ((cols - 1 : Int) : ℚ)) (hy0 : 0 ≤ yf - sigma_half)
    (hy1 : yf + sigma_half ≤ ((rows - 1 : Int) : ℚ)) :
    0 ≤ (areaGeometry xf yf sigma_half).x_left
      ∧ 0 ≤ (areaGeometry xf yf sigma_half).dx
      ∧ (areaGeometry xf yf sigma_half).x_left + (areaGeometry xf yf sigma_half).dx + 1
        = (areaGeometry xf yf sigma_half).x_right
      ∧ (areaGeometry xf yf sigma_half).x_right ≤ cols - 1
      ∧ 0 ≤ (areaGeometry xf yf sigma_half).y_top
      ∧ 0 ≤ (areaGeometry xf yf sigma_half).dy
      ∧ (areaGeometry xf yf sigma_half).y_top + (areaGeometry xf yf sigma_half).dy + 1
        = (areaGeometry xf yf sigma_half).y_bottom
      ∧ (areaGeometry xf yf sigma_half).y_bottom ≤ rows - 1 := by
  have key : ∀ (c : ℚ) (n : Int), 0 ≤ c - sigma_half → c + sigma_half ≤ ((n - 1 : Int) : ℚ) →
      0 ≤ truncToInt (c - sigma_half + 1 / 2)
        ∧ truncToInt (c - sigma_half + 1 / 2) + 1 ≤ truncToInt (c + sigma_half + 1 / 2)
        ∧ truncToInt (c + sigma_half + 1 / 2) ≤ n - 1 := by
    intro c n h0 h1
    have p1 : (0 : ℚ) ≤ c - sigma_half + 1 / 2 := by linarith
    have p2 : (0 : ℚ) ≤ c + sigma_half + 1 / 2 := by linarith
    rw [truncToInt_of_nonneg _ p1, truncToInt_of_nonneg _ p2]
    refine ⟨Int.floor_nonneg.mpr p1, ?_, ?_⟩
    · rw [Int.le_floor]
      have := Int.floor_le (c - sigma_half + 1 / 2)
      push_cast
      linarith
    · have hlt : ⌊c + sigma_half + 1 / 2⌋ < n := by
        rw [Int.floor_lt]
        push_cast at h1
        linarith
      omega
  obtain ⟨a1, a2, a3⟩ := key xf cols hx0 hx1
  obtain ⟨b1, b2, b3⟩ := key yf rows hy0 hy1
  simp only [areaGeometry]
  refine ⟨a1, ?_, ?_, a3, b1, ?_, ?_, b3⟩ <;> omega

/-! ## Reads inside the buffers -/

theorem readAt_of_lt (data : List Nat) (offset : Int) (h0 : 0 ≤ offset)
    (h1 : offset < (data.length : Int)) :
    readAt data offset = .ok ((data.getD offset.toNat 0 : Nat) : Int) := by
  have hlt : offset.toNat < data.length := by omega
  simp only [readAt, if_neg (not_lt.mpr h0), List.getElem?_eq_getElem hlt,
    List.getD_eq_getElem?_getD, Option.getD_some]

theorem readIntegral_of_lt (data : List Int) (offset : Int) (h0 : 0 ≤ offset)
    (h1 : offset < (data.length : Int)) :
    readIntegral data offset = .ok (data.getD offset.toNat 0) := by
  have hlt : offset.toNat < data.length := by omega
  simp only [readIntegral, if_neg (not_lt.mpr h0), List.getElem?_eq_getElem hlt,
    List.getD_eq_getElem?_getD, Option.getD_some]

theorem stripLoop_ok (data : List Nat) (weight : Int) :
    ∀ (count : Nat) (ptr ret_val : Int), 0 ≤ ptr → ptr + count ≤ (data.length : Int) →
      ∃ r, stripLoop data weight count ptr ret_val = .ok (ptr + count, r) := by
  intro count
  induction count with
  | zero => intro ptr ret_val _ _; exact ⟨ret_val, by simp [stripLoop]⟩
  | succ n ih =>
    intro ptr ret_val h0 h1
    push_cast at h1
    obtain ⟨r, hr⟩ := ih (ptr + 1) (ret_val + weight * ((data.getD ptr.toNat 0 : Nat) : Int))
      (by omega) (by omega)
    refine ⟨r, ?_⟩
    simp only [stripLoop, readAt_of_lt data ptr h0 (by omega), hr]
    congr 2
    push_cast
    omega

theorem middleLoop_ok (data : List Nat) (imagecols dx : Int) (w : AreaWeights)
    (hdx : 0 ≤ dx) (hW : dx + 2 ≤ imagecols) :
    ∀ (count : Nat) (ptr ret_val : Int), 0 ≤ ptr →
      ptr + count * imagecols ≤ (data.length : Int) →
      ∃ r, middleLoop data imagecols dx w count ptr ret_val
        = .ok (ptr + count * imagecols, r) := by
  intro count
  induction count with
  | zero => intro ptr ret_val _ _; exact ⟨ret_val, by simp [middleLoop]⟩
  | succ n ih =>
    intro ptr ret_val h0 h1
    have hn : (0 : Int) ≤ (n : Int) * imagecols :=
      Int.mul_nonneg (Int.natCast_nonneg _) (by omega)
    have e : ((n + 1 : Nat) : Int) * imagecols = (n : Int) * imagecols + imagecols := by
      push_cast; ring
    rw [e] at h1 ⊢
    have hdxn : ((dx.toNat : Nat) : Int) = dx := Int.toNat_of_nonneg hdx
    obtain ⟨r1, hr1⟩ := stripLoop_ok data w.scaling dx.toNat (ptr + 1)
      (ret_val + w.r_x_1_i * ((data.getD ptr.toNat 0 : Nat) : Int)) (by omega) (by omega)
    obtain ⟨r2, hr2⟩ := ih (ptr + 1 + (dx.toNat : Int) + (imagecols - dx - 1))
      (r1 + w.r_x1_i * ((data.getD (ptr + 1 + (dx.toNat : Int)).toNat 0 : Nat) : Int))
      (by omega) (by omega)
    refine ⟨r2, ?_⟩
    simp only [middleLoop, readAt_of_lt data ptr h0 (by omega), hr1,
      readAt_of_lt data (ptr + 1 + (dx.toNat : Int)) (by omega) (by omega), hr2]
    congr 2
    omega

theorem scaledResult_ne_outOfBounds (ret_val scaling2 : Int) :
    scaledResult ret_val scaling2 ≠ .error .outOfBounds := by
  simp only [scaledResult]
  split <;> simp

/-- The pixel walk reads inside the image buffer when the square lies in the
image. -/
theorem pixelWalk_in_buffer (image : PixelImage) (g : AreaGeometry) (w : AreaWeights)
    (hdata : (image.data.length : Int) = image.rows * image.cols)
    (hx0 : 0 ≤ g.x_left) (hdx : 0 ≤ g.dx) (hx1 : g.x_left + g.dx + 1 ≤ image.cols - 1)
    (hy0 : 0 ≤ g.y_top) (hdy : 0 ≤ g.dy) (hy1 : g.y_top + g.dy + 1 ≤ image.rows - 1) :
    ∃ ret_val, pixelWalk image g w = scaledResult ret_val w.scaling2 := by
  have hWb : 0 ≤ image.cols * g.y_top := Int.mul_nonneg (by omega) hy0
  have hWd : 0 ≤ (g.dy.toNat : Int) * image.cols :=
    Int.mul_nonneg (Int.natCast_nonneg _) (by omega)
  have hdxn : ((g.dx.toNat : Nat) : Int) = g.dx := Int.toNat_of_nonneg hdx
  have hdyn : ((g.dy.toNat : Nat) : Int) = g.dy := Int.toNat_of_nonneg hdy
  have hrow : image.cols * (g.y_top + g.dy + 1) ≤ image.cols * (image.rows - 1) :=
    Int.mul_le_mul_of_nonneg_left hy1 (by omega)
  have e1 : image.cols * (g.y_top + g.dy + 1)
      = image.cols * g.y_top + (g.dy.toNat : Int) * image.cols + image.cols := by
    rw [hdyn]; ring
  have e2 : image.cols * (image.rows - 1) = image.rows * image.cols - image.cols := by ring
  rw [e1, e2] at hrow
  have hlen := hdata
  obtain ⟨r1, h1⟩ := stripLoop_ok image.data w.r_y_1_i g.dx.toNat
    (g.x_left + image.cols * g.y_top + 1)
    (w.A * ((image.data.getD (g.x_left + image.cols * g.y_top).toNat 0 : Nat) : Int))
    (by omega) (by omega)
  obtain ⟨r2, h2⟩ := middleLoop_ok image.data image.cols g.dx w hdx (by omega) g.dy.toNat
    (g.x_left + image.cols * g.y_top + 1 + (g.dx.toNat : Int) + (image.cols - g.dx - 1))
    (r1 + w.B * ((image.data.getD
      (g.x_left + image.cols * g.y_top + 1 + (g.dx.toNat : Int)).toNat 0 : Nat) : Int))
    (by omega) (by omega)
  obtain ⟨r3, h3⟩ := stripLoop_ok image.data w.r_y1_i g.dx.toNat
    (g.x_left + image.cols * g.y_top + 1 + (g.dx.toNat : Int) + (image.cols - g.dx - 1)
      + (g.dy.toNat : Int) * image.cols + 1)
    (r2 + w.D * ((image.data.getD
      (g.x_left + image.cols * g.y_top + 1 + (g.dx.toNat : Int) + (image.cols - g.dx - 1)
        + (g.dy.toNat : Int) * image.cols).toNat 0 : Nat) : Int))
    (by omega) (by omega)
  refine ⟨r3 + w.C * ((image.data.getD
      (g.x_left + image.cols * g.y_top + 1 + (g.dx.toNat : Int) + (image.cols - g.dx - 1)
        + (g.dy.toNat : Int) * image.cols + 1 + (g.dx.toNat : Int)).toNat 0 : Nat) : Int), ?_⟩
  simp only [pixelWalk,
    readAt_of_lt image.data (g.x_left + image.cols * g.y_top) (by omega) (by omega), h1,
    readAt_of_lt image.data (g.x_left + image.cols * g.y_top + 1 + (g.dx.toNat : Int))
      (by omega) (by omega), h2,
    readAt_of_lt image.data
      (g.x_left + image.cols * g.y_top + 1 + (g.dx.toNat : Int) + (image.cols - g.dx - 1)
        + (g.dy.toNat : Int) * image.cols) (by omega) (by omega), h3,
    readAt_of_lt image.data
      (g.x_left + image.cols * g.y_top + 1 + (g.dx.toNat : Int) + (image.cols - g.dx - 1)
        + (g.dy.toNat : Int) * image.cols + 1 + (g.dx.toNat : Int)) (by omega) (by omega)]

/-- The branch on the integral table reads inside the image buffer and inside the
table when the square lies in the image. -/
theorem integralBranch_in_buffer (image : PixelImage) (integral : List Int) (g : AreaGeometry)
    (w : AreaWeights) (hdata : (image.data.length : Int) = image.rows * image.cols)
    (hint : (integral.length : Int) = (image.rows + 1) * (image.cols + 1))
    (hx0 : 0 ≤ g.x_left) (hdx : 0 ≤ g.dx) (hx1 : g.x_left + g.dx + 1 ≤ image.cols - 1)
    (hy0 : 0 ≤ g.y_top) (hdy : 0 ≤ g.dy) (hy1 : g.y_top + g.dy + 1 ≤ image.rows - 1) :
    ∃ ret_val, integralBranch image integral g w = scaledResult ret_val w.scaling2 := by
  have hWb : 0 ≤ image.cols * g.y_top := Int.mul_nonneg (by omega) hy0
  have hWd : 0 ≤ g.dy * image.cols := Int.mul_nonneg hdy (by omega)
  have hrow : image.cols * (g.y_top + g.dy + 1) ≤ image.cols * (image.rows - 1) :=
    Int.mul_le_mul_of_nonneg_left hy1 (by omega)
  have e1 : image.cols * (g.y_top + g.dy + 1)
      = image.cols * g.y_top + g.dy * image.cols + image.cols := by ring
  have e2 : image.cols * (image.rows - 1) = image.rows * image.cols - image.cols := by ring
  rw [e1, e2] at hrow
  have hIb : 0 ≤ (image.cols + 1) * g.y_top := Int.mul_nonneg (by omega) hy0
  have hId : 0 ≤ g.dy * (image.cols + 1) := Int.mul_nonneg hdy (by omega)
  have hirow : (image.cols + 1) * (g.y_top + g.dy + 2) ≤ (image.cols + 1) * image.rows :=
    Int.mul_le_mul_of_nonneg_left (by omega) (by omega)
  have e3 : (image.cols + 1) * (g.y_top + g.dy + 2)
      = (image.cols + 1) * g.y_top + g.dy * (image.cols + 1) + 2 * image.cols + 2 := by ring
  have e4 : (image.cols + 1) * image.rows
      = (image.rows + 1) * (image.cols + 1) - image.cols - 1 := by ring
  rw [e3, e4] at hirow
  suffices hP : ∀ P : Except SampleError Int → Prop,
      (∀ r, P (scaledResult r w.scaling2)) → P (integralBranch image integral g w) from
    hP (fun z => ∃ ret_val, z = scaledResult ret_val w.scaling2) (fun r => ⟨r, rfl⟩)
  intro P hP
  unfold integralBranch
  simp only []
  rw [readAt_of_lt]
  simp only []
  rw [readAt_of_lt]
  simp only []
  rw [readAt_of_lt]
  simp only []
  rw [readAt_of_lt]
  simp only []
  rw [readIntegral_of_lt]
  simp only []
  rw [readIntegral_of_lt]
  simp only []
  rw [readIntegral_of_lt]
  simp only []
  rw [readIntegral_of_lt]
  simp only []
  rw [readIntegral_of_lt]
  simp only []
  rw [readIntegral_of_lt]
  simp only []
  rw [readIntegral_of_lt]
  simp only []
  rw [readIntegral_of_lt]
  simp only []
  rw [readIntegral_of_lt]
  simp only []
  rw [readIntegral_of_lt]
  simp only []
  rw [readIntegral_of_lt]
  simp only []
  rw [readIntegral_of_lt]
  simp only []
  exact hP _
  all_goals omega

/-! ## The weights of an area sample -/

theorem fraction_weight (t : ℚ) (h : 0 ≤ t) :
    0 ≤ truncToInt ((t - (truncToInt t : ℚ)) * 1024)
      ∧ truncToInt ((t - (truncToInt t : ℚ)) * 1024) ≤ 1023 := by
  rw [truncToInt_of_nonneg t h]
  have f1 := Int.floor_le t
  have f2 := Int.lt_floor_add_one t
  have p : (0 : ℚ) ≤ (t - (⌊t⌋ : ℚ)) * 1024 := by nlinarith
  rw [truncToInt_of_nonneg _ p]
  refine ⟨Int.floor_nonneg.mpr p, ?_⟩
  have : ⌊(t - (⌊t⌋ : ℚ)) * 1024⌋ < 1024 := by
    rw [Int.floor_lt]
    push_cast
    nlinarith
  omega

/-- At a position without a negative coordinate the interpolation returns -1 exactly
when the neighbourhood of four pixels passes the right or the bottom border of the
image; otherwise it reads inside the buffer, with weights from 0 to 1024 that add
up to 1024 along each axis, and returns a value that is not negative. -/
theorem bilinearSample_nonneg (image : PixelImage) (xf yf : ℚ) (hx : 0 ≤ xf) (hy : 0 ≤ yf)
    (hdata : (image.data.length : Int) = image.rows * image.cols) :
    (¬ (⌊xf⌋ + 1 ≤ image.cols - 1 ∧ ⌊yf⌋ + 1 ≤ image.rows - 1) →
        bilinearSample image xf yf = .ok (-1))
      ∧ (⌊xf⌋ + 1 ≤ image.cols - 1 ∧ ⌊yf⌋ + 1 ≤ image.rows - 1 →
        ∃ v, bilinearSample image xf yf = .ok v ∧ 0 ≤ v) := by
  have ex : truncToInt xf = ⌊xf⌋ := truncToInt_of_nonneg xf hx
  have ey : truncToInt yf = ⌊yf⌋ := truncToInt_of_nonneg yf hy
  have hfx : 0 ≤ ⌊xf⌋ := Int.floor_nonneg.mpr hx
  have hfy : 0 ≤ ⌊yf⌋ := Int.floor_nonneg.mpr hy
  obtain ⟨wx0, wx1⟩ := fraction_weight xf hx
  obtain ⟨wy0, wy1⟩ := fraction_weight yf hy
  rw [ex] at wx0 wx1
  rw [ey] at wy0 wy1
  constructor
  · intro h
    simp only [bilinearSample, ex, ey]
    rw [if_neg (by omega)]
    by_cases c1 : ⌊xf⌋ > image.cols - 2
    · rw [if_pos c1]
    · rw [if_neg c1, if_neg (by omega), if_pos (by omega)]
  · rintro ⟨h1, h2⟩
    have hWb : 0 ≤ ⌊yf⌋ * image.cols := Int.mul_nonneg hfy (by omega)
    have hrow : (⌊yf⌋ + 2) * image.cols ≤ image.rows * image.cols :=
      Int.mul_le_mul_of_nonneg_right (by omega) (by omega)
    have e1 : (⌊yf⌋ + 2) * image.cols = ⌊yf⌋ * image.cols + 2 * image.cols := by ring
    rw [e1] at hrow
    simp only [bilinearSample, ex, ey]
    rw [if_neg (by omega), if_neg (by omega), if_neg (by omega), if_neg (by omega)]
    rw [readAt_of_lt _ _ (by omega) (by omega), readAt_of_lt _ _ (by omega) (by omega),
      readAt_of_lt _ _ (by omega) (by omega), readAt_of_lt _ _ (by omega) (by omega)]
    refine ⟨_, rfl, ?_⟩
    apply Int.tdiv_nonneg _ (by decide)
    have n1 : (0 : Int) ≤ 1024 - truncToInt ((xf - (⌊xf⌋ : ℚ)) * 1024) := by omega
    have n2 : (0 : Int) ≤ 1024 - truncToInt ((yf - (⌊yf⌋ : ℚ)) * 1024) := by omega
    have q : ∀ k : Nat, (0 : Int) ≤ (k : Int) := fun k => Int.natCast_nonneg k
    exact Int.add_nonneg (Int.add_nonneg (Int.add_nonneg
      (Int.mul_nonneg (Int.mul_nonneg n1 n2) (q _))
      (Int.mul_nonneg (Int.mul_nonneg wx0 n2) (q _)))
      (Int.mul_nonneg (Int.mul_nonneg wx0 wy0) (q _)))
      (Int.mul_nonneg (Int.mul_nonneg n1 wy0) (q _))


/-! ## Positions in the array of pattern points -/

theorem getElem?_flatten_uniform {α : Type} (c : Nat) :
    ∀ (L : List (List α)), (∀ l ∈ L, l.length = c) → ∀ (i j : Nat), j < c →
      L.flatten[i * c + j]? = (L[i]?).bind fun l => l[j]? := by
  intro L
  induction L with
  | nil => intro _ i j _; simp
  | cons l L ih =>
    intro h i j hj
    have hl : l.length = c := h l (List.mem_cons_self _ _)
    cases i with
    | zero =>
      simp only [Nat.zero_mul, Nat.zero_add, List.flatten_cons, List.getElem?_cons_zero,
        Option.some_bind]
      rw [List.getElem?_append_left (by omega)]
    | succ i =>
      simp only [List.flatten_cons, List.getElem?_cons_succ]
      rw [List.getElem?_append_right (by rw [hl, Nat.succ_mul]; omega)]
      have e : (i + 1) * c + j - l.length = i * c + j := by
        rw [hl, Nat.succ_mul]; omega
      rw [e]
      exact ih (fun l' hl' => h l' (List.mem_cons_of_mem _ hl')) i j hj

theorem rotationPoints_eq_map (ops : PatternOps) (radiusList : List ℚ) (numberList : List Int)
    (scale rot : Nat) :
    rotationPoints ops radiusList numberList scale rot
      = (ringIndex radiusList numberList).map (layoutPoint ops scale rot) := by
  simp only [rotationPoints, ringIndex, List.map_flatten, List.map_map]
  congr 1
  apply List.map_congr_left
  intro rc _
  simp only [Function.comp, ringPoints, List.map_map]
  apply List.map_congr_left
  intro num _
  rfl

/-- The pattern point that `generateKernel` stores at the position of a scale, a
rotation and a point. -/
theorem generateKernel_point (ops : PatternOps) (radiusList : List ℚ) (numberList : List Int)
    (h : radiusList.length = numberList.length) (s r p : Nat) (hs : s < scales_)
    (hr : r < n_rot_) (hp : p < (numberList.map Int.toNat).sum) :
    (((List.range scales_).map fun scale =>
        (scalePoints ops radiusList numberList scale).map Prod.fst).flatten)[
        s * n_rot_ * (numberList.map Int.toNat).sum + r * (numberList.map Int.toNat).sum + p]?
      = ((ringIndex radiusList numberList)[p]?).map fun q => (layoutPoint ops s r q).1 := by
  have e : s * n_rot_ * (numberList.map Int.toNat).sum + r * (numberList.map Int.toNat).sum + p
      = s * (n_rot_ * (numberList.map Int.toNat).sum)
        + (r * (numberList.map Int.toNat).sum + p) := by ring
  have hblock : r * (numberList.map Int.toNat).sum + p
      < n_rot_ * (numberList.map Int.toNat).sum := by
    have : (r + 1) * (numberList.map Int.toNat).sum ≤ n_rot_ * (numberList.map Int.toNat).sum :=
      Nat.mul_le_mul_right _ hr
    rw [Nat.succ_mul] at this
    omega
  rw [e, getElem?_flatten_uniform (n_rot_ * (numberList.map Int.toNat).sum) _
    (fun l hl => by
      simp only [List.mem_map, List.mem_range] at hl
      obtain ⟨scale, _, rfl⟩ := hl
      rw [List.length_map, scalePoints_length _ _ _ _ h]) s _ hblock]
  rw [List.getElem?_map, List.getElem?_range hs]
  simp only [Option.map_some', Option.some_bind, List.getElem?_map, scalePoints]
  rw [getElem?_flatten_uniform (numberList.map Int.toNat).sum _
    (fun l hl => by
      simp only [List.mem_map, List.mem_range] at hl
      obtain ⟨rot, _, rfl⟩ := hl
      exact rotationPoints_length _ _ _ _ _ h) r p hp]
  rw [List.getElem?_map, List.getElem?_range hr]
  simp only [Option.map_some', Option.some_bind, rotationPoints_eq_map, List.getElem?_map,
    Option.map_map]
  rfl

theorem roundHalfEven_floor (t : ℚ) :
    ⌊t⌋ ≤ roundHalfEven t ∧ roundHalfEven t ≤ ⌊t⌋ + 1 := by
  simp only [roundHalfEven]
  split_ifs <;> omega

theorem roundHalfEven_intCast (k : Int) : roundHalfEven (k : ℚ) = k := by
  simp [roundHalfEven]

theorem roundHalfEven_mono (t u : ℚ) (h : t ≤ u) : roundHalfEven t ≤ roundHalfEven u := by
  have ft : ⌊t⌋ ≤ ⌊u⌋ := Int.floor_mono h
  rcases lt_or_eq_of_le ft with hlt | heq
  · have h1 := (roundHalfEven_floor t).2
    have h2 := (roundHalfEven_floor u).1
    omega
  · simp only [roundHalfEven]
    rw [← heq]
    have hfrac : t - ⌊t⌋ ≤ u - ⌊t⌋ := by linarith
    split_ifs <;> first | omega | (exfalso; linarith)

/-- The number of units of `2 ^ -149` that `f32Mag` gives. -/
theorem f32Mag_units (a : ℚ) (h0 : 0 ≤ a) (h1 : a < ((2 ^ 128 : Nat) : ℚ)) :
    ∃ (e : Nat) (g : Int), f32Mag a = (g : ℚ) / ((2 ^ 149 : Nat) : ℚ)
      ∧ e = f32Shift 254 ⌊a * ((2 ^ 149 : Nat) : ℚ)⌋.toNat
      ∧ g = roundHalfEven (a * ((2 ^ 149 : Nat) : ℚ) / ((2 ^ e : Nat) : ℚ)) * ((2 ^ e : Nat) : Int)
      ∧ e ≤ 253
      ∧ a * ((2 ^ 149 : Nat) : ℚ) / ((2 ^ e : Nat) : ℚ) < 16777216
      ∧ (e ≠ 0 → (8388608 : ℚ) ≤ a * ((2 ^ 149 : Nat) : ℚ) / ((2 ^ e : Nat) : ℚ)) := by
  have hA0 : 0 ≤ a * ((2 ^ 149 : Nat) : ℚ) := mul_nonneg h0 (by positivity)
  have hA1 : a * ((2 ^ 149 : Nat) : ℚ) < ((2 ^ 277 : Nat) : ℚ) := by
    have e : ((2 ^ 277 : Nat) : ℚ) = ((2 ^ 128 : Nat) : ℚ) * ((2 ^ 149 : Nat) : ℚ) := by
      norm_num
    rw [e]
    exact mul_lt_mul_of_pos_right h1 (by positivity)
  obtain ⟨n, hn⟩ : ∃ n : Nat, n = ⌊a * ((2 ^ 149 : Nat) : ℚ)⌋.toNat := ⟨_, rfl⟩
  have hfl : (n : Int) = ⌊a * ((2 ^ 149 : Nat) : ℚ)⌋ := by
    rw [hn, Int.toNat_of_nonneg (Int.floor_nonneg.mpr hA0)]
  have hn_le : (n : ℚ) ≤ a * ((2 ^ 149 : Nat) : ℚ) := by
    have := Int.floor_le (a * ((2 ^ 149 : Nat) : ℚ))
    rw [← hfl] at this
    exact_mod_cast this
  have hn_lt : a * ((2 ^ 149 : Nat) : ℚ) < (n : ℚ) + 1 := by
    have := Int.lt_floor_add_one (a * ((2 ^ 149 : Nat) : ℚ))
    rw [← hfl] at this
    exact_mod_cast this
  have hnb : n < 2 ^ 277 := by
    have : (n : ℚ) < ((2 ^ 277 : Nat) : ℚ) := lt_of_le_of_lt hn_le hA1
    exact_mod_cast this
  have hnb2 : n < 16777216 * 2 ^ 254 := by
    have : (2 : Nat) ^ 277 ≤ 16777216 * 2 ^ 254 := by norm_num
    omega
  obtain ⟨s1, s2⟩ := f32Shift_spec 254 n hnb2
  have hs253 : f32Shift 254 n ≤ 253 := by
    apply f32Shift_le
    rw [Nat.div_lt_iff_lt_mul (Nat.pow_pos (by decide))]
    have : (2 : Nat) ^ 277 = 16777216 * 2 ^ 253 := by norm_num
    omega
  have hpos : (0 : ℚ) < ((2 ^ f32Shift 254 n : Nat) : ℚ) := by positivity
  have hlt : n < 16777216 * 2 ^ f32Shift 254 n := by
    rw [← Nat.div_lt_iff_lt_mul (Nat.pow_pos (by decide))]
    exact s1
  refine ⟨f32Shift 254 n, _, ?_, by rw [hn], rfl, hs253, ?_, ?_⟩
  · simp only [f32Mag]
    rw [if_neg (not_le.mpr h1), ← hn]
  · rw [div_lt_iff₀ hpos]
    have h2 : (n : ℚ) + 1 ≤ 16777216 * ((2 ^ f32Shift 254 n : Nat) : ℚ) := by
      exact_mod_cast hlt
    linarith
  · intro hne
    have h3 := s2 hne
    rw [Nat.le_div_iff_mul_le (Nat.pow_pos (by decide))] at h3
    rw [le_div_iff₀ hpos]
    have h4 : (8388608 : ℚ) * ((2 ^ f32Shift 254 n : Nat) : ℚ) ≤ (n : ℚ) := by
      exact_mod_cast h3
    linarith

theorem f32Mag_le (a : ℚ) (h0 : 0 ≤ a) : f32Mag a ≤ ((2 ^ 128 : Nat) : ℚ) := by
  by_cases h1 : ((2 ^ 128 : Nat) : ℚ) ≤ a
  · simp only [f32Mag, if_pos h1]
    exact le_refl _
  · obtain ⟨e, g, hg, _, hgv, he, hlt, _⟩ := f32Mag_units a h0 (not_le.mp h1)
    rw [hg, div_le_iff₀ (by positivity)]
    have hr : roundHalfEven (a * ((2 ^ 149 : Nat) : ℚ) / ((2 ^ e : Nat) : ℚ)) ≤ 16777216 := by
      have := roundHalfEven_mono _ _ (le_of_lt hlt)
      have h2 : roundHalfEven (16777216 : ℚ) = 16777216 := by
        have := roundHalfEven_intCast 16777216
        simpa using this
      rw [h2] at this
      exact this
    have hp : ((2 ^ e : Nat) : Int) ≤ ((2 ^ 253 : Nat) : Int) := by
      exact_mod_cast Nat.pow_le_pow_right (by decide) he
    have hp0 : (0 : Int) ≤ ((2 ^ e : Nat) : Int) := Int.natCast_nonneg _
    have hgi : g ≤ 16777216 * ((2 ^ 253 : Nat) : Int) := by
      rw [hgv]
      calc roundHalfEven (a * ((2 ^ 149 : Nat) : ℚ) / ((2 ^ e : Nat) : ℚ)) * ((2 ^ e : Nat) : Int)
          ≤ 16777216 * ((2 ^ e : Nat) : Int) := Int.mul_le_mul_of_nonneg_right hr hp0
        _ ≤ 16777216 * ((2 ^ 253 : Nat) : Int) := Int.mul_le_mul_of_nonneg_left hp (by decide)
    have hq : (g : ℚ) ≤ ((16777216 * ((2 ^ 253 : Nat) : Int) : Int) : ℚ) := by exact_mod_cast hgi
    calc (g : ℚ) ≤ ((16777216 * ((2 ^ 253 : Nat) : Int) : Int) : ℚ) := hq
      _ = ((2 ^ 128 : Nat) : ℚ) * ((2 ^ 149 : Nat) : ℚ) := by norm_num

theorem f32Mag_nonneg (a : ℚ) (h0 : 0 ≤ a) : 0 ≤ f32Mag a := by
  by_cases h1 : ((2 ^ 128 : Nat) : ℚ) ≤ a
  · simp only [f32Mag, if_pos h1]
    positivity
  · obtain ⟨e, g, hg, _, hgv, _, _, _⟩ := f32Mag_units a h0 (not_le.mp h1)
    rw [hg]
    apply div_nonneg _ (by positivity)
    have hr : 0 ≤ roundHalfEven (a * ((2 ^ 149 : Nat) : ℚ) / ((2 ^ e : Nat) : ℚ)) := by
      have := roundHalfEven_mono 0 (a * ((2 ^ 149 : Nat) : ℚ) / ((2 ^ e : Nat) : ℚ))
        (div_nonneg (mul_nonneg h0 (by positivity : (0 : ℚ) ≤ ((2 ^ 149 : Nat) : ℚ)))
          (by positivity : (0 : ℚ) ≤ ((2 ^ e : Nat) : ℚ)))
      have h2 : roundHalfEven (0 : ℚ) = 0 := by
        have := roundHalfEven_intCast 0
        simpa using this
      rw [h2] at this
      exact this
    have : 0 ≤ g := by
      rw [hgv]
      exact Int.mul_nonneg hr (Int.natCast_nonneg _)
    exact_mod_cast this

theorem f32Mag_mono (a b : ℚ) (h0 : 0 ≤ a) (h : a ≤ b) : f32Mag a ≤ f32Mag b := by
  by_cases hb : ((2 ^ 128 : Nat) : ℚ) ≤ b
  · have : f32Mag b = ((2 ^ 128 : Nat) : ℚ) := by simp only [f32Mag, if_pos hb]
    rw [this]
    exact f32Mag_le a h0
  · have hb' := not_le.mp hb
    have ha' : a < ((2 ^ 128 : Nat) : ℚ) := lt_of_le_of_lt h hb'
    obtain ⟨ea, ga, hga, hea, hgav, _, alt, _⟩ := f32Mag_units a h0 ha'
    obtain ⟨eb, gb, hgb, heb, hgbv, _, blt, bge⟩ := f32Mag_units b (le_trans h0 h) hb'
    rw [hga, hgb]
    apply div_le_div_of_nonneg_right _ (by positivity)
    have hAB : a * ((2 ^ 149 : Nat) : ℚ) ≤ b * ((2 ^ 149 : Nat) : ℚ) :=
      mul_le_mul_of_nonneg_right h (by positivity)
    have hn : ⌊a * ((2 ^ 149 : Nat) : ℚ)⌋.toNat ≤ ⌊b * ((2 ^ 149 : Nat) : ℚ)⌋.toNat :=
      Int.toNat_le_toNat (Int.floor_mono hAB)
    have hnb : ⌊b * ((2 ^ 149 : Nat) : ℚ)⌋.toNat / 2 ^ eb < 16777216 := by
      rw [Nat.div_lt_iff_lt_mul (Nat.pow_pos (by decide))]
      have hpos : (0 : ℚ) < ((2 ^ eb : Nat) : ℚ) := by positivity
      have h1 : b * ((2 ^ 149 : Nat) : ℚ) < 16777216 * ((2 ^ eb : Nat) : ℚ) := by
        rwa [div_lt_iff₀ hpos] at blt
      have h2 : ((⌊b * ((2 ^ 149 : Nat) : ℚ)⌋.toNat : Nat) : ℚ) ≤ b * ((2 ^ 149 : Nat) : ℚ) := by
        have hfl := Int.floor_le (b * ((2 ^ 149 : Nat) : ℚ))
        have hnn : 0 ≤ ⌊b * ((2 ^ 149 : Nat) : ℚ)⌋ :=
          Int.floor_nonneg.mpr (mul_nonneg (le_trans h0 h) (by positivity))
        have : ((⌊b * ((2 ^ 149 : Nat) : ℚ)⌋.toNat : Nat) : Int) = ⌊b * ((2 ^ 149 : Nat) : ℚ)⌋ :=
          Int.toNat_of_nonneg hnn
        have h3 : ((⌊b * ((2 ^ 149 : Nat) : ℚ)⌋.toNat : Nat) : ℚ)
            = ((⌊b * ((2 ^ 149 : Nat) : ℚ)⌋ : Int) : ℚ) := by
          rw [← this]; push_cast; rfl
        rw [h3]
        exact hfl
      have h4 : ((⌊b * ((2 ^ 149 : Nat) : ℚ)⌋.toNat : Nat) : ℚ)
          < 16777216 * ((2 ^ eb : Nat) : ℚ) := lt_of_le_of_lt h2 h1
      exact_mod_cast h4
    have hs : ea ≤ eb := by
      rw [hea]
      apply f32Shift_le
      exact Nat.lt_of_le_of_lt (Nat.div_le_div_right hn) hnb
    rcases Nat.lt_or_ge ea eb with hlt | hge
    · -- different spacing: a power of two lies between
      have hr1 : roundHalfEven (a * ((2 ^ 149 : Nat) : ℚ) / ((2 ^ ea : Nat) : ℚ)) ≤ 16777216 := by
        have := roundHalfEven_mono _ _ (le_of_lt alt)
        have h2 : roundHalfEven (16777216 : ℚ) = 16777216 := by
          have := roundHalfEven_intCast 16777216
          simpa using this
        rw [h2] at this
        exact this
      have hr2 : 8388608 ≤ roundHalfEven (b * ((2 ^ 149 : Nat) : ℚ) / ((2 ^ eb : Nat) : ℚ)) := by
        have := roundHalfEven_mono _ _ (bge (by omega))
        have h2 : roundHalfEven (8388608 : ℚ) = 8388608 := by
          have := roundHalfEven_intCast 8388608
          simpa using this
        rw [h2] at this
        exact this
      obtain ⟨d, hd⟩ := Nat.exists_eq_add_of_lt hlt
      have hpow : ((2 ^ eb : Nat) : Int) = 2 * ((2 ^ d : Nat) : Int) * ((2 ^ ea : Nat) : Int) := by
        rw [hd]
        push_cast
        ring
      have hd1 : (1 : Int) ≤ ((2 ^ d : Nat) : Int) := by
        exact_mod_cast Nat.one_le_two_pow
      have hpa : (0 : Int) ≤ ((2 ^ ea : Nat) : Int) := Int.natCast_nonneg _
      have hga_le : ga ≤ 16777216 * ((2 ^ ea : Nat) : Int) := by
        rw [hgav]
        exact Int.mul_le_mul_of_nonneg_right hr1 hpa
      have hgb_ge : 8388608 * ((2 ^ eb : Nat) : Int) ≤ gb := by
        rw [hgbv]
        exact Int.mul_le_mul_of_nonneg_right hr2 (Int.natCast_nonneg _)
      have hmid : 16777216 * ((2 ^ ea : Nat) : Int) ≤ 8388608 * ((2 ^ eb : Nat) : Int) := by
        rw [hpow]
        nlinarith
      have : ga ≤ gb := le_trans hga_le (le_trans hmid hgb_ge)
      exact_mod_cast this
    · have heq : ea = eb := by omega
      subst heq
      have hr := roundHalfEven_mono _ _
        (div_le_div_of_nonneg_right hAB (by positivity : (0 : ℚ) ≤ ((2 ^ ea : Nat) : ℚ)))
      have : ga ≤ gb := by
        rw [hgav, hgbv]
        exact Int.mul_le_mul_of_nonneg_right hr (Int.natCast_nonneg _)
      exact_mod_cast this

/-- Rounding to single precision keeps the order. -/
theorem f32_mono (a b : ℚ) (h : a ≤ b) : f32 a ≤ f32 b := by
  simp only [f32]
  by_cases ha : a < 0
  · by_cases hb : b < 0
    · rw [if_pos ha, if_pos hb]
      have := f32Mag_mono (-b) (-a) (by linarith) (by linarith)
      linarith
    · rw [if_pos ha, if_neg hb]
      have h1 := f32Mag_nonneg (-a) (by linarith)
      have h2 := f32Mag_nonneg b (by linarith)
      linarith
  · have hb : ¬ b < 0 := by linarith
    rw [if_neg ha, if_neg hb]
    exact f32Mag_mono a b (by linarith) h

theorem f32_nonneg (a : ℚ) (h : 0 ≤ a) : 0 ≤ f32 a := by
  have := f32_mono 0 a h
  rwa [f32_zero] at this


/-! ## The pair generation on the first points of the table -/

theorem pairStep_congr (P Q : List BriskPatternPoint) (a b : ℚ) (ic : List Nat) (st : PairTables)
    (ij : Nat × Nat) (h1 : P[ij.1]? = Q[ij.1]?) (h2 : P[ij.2]? = Q[ij.2]?) :
    pairStep P a b ic st ij = pairStep Q a b ic st ij := by
  simp only [pairStep, h1, h2]

theorem pairLoop_congr (P Q : List BriskPatternPoint) (a b : ℚ) (ic : List Nat) (n : Nat)
    (h : ∀ i, i < n → P[i]? = Q[i]?) :
    ∀ (l : List (Nat × Nat)) (st : PairTables), (∀ ij ∈ l, ij.1 < n ∧ ij.2 < n) →
      pairLoop P a b ic l st = pairLoop Q a b ic l st
  | [], _, _ => rfl
  | ij :: rest, st, hl => by
    simp only [pairLoop]
    rw [pairStep_congr P Q a b ic st ij (h _ (hl ij (List.mem_cons_self _ _)).1)
      (h _ (hl ij (List.mem_cons_self _ _)).2)]
    cases pairStep Q a b ic st ij with
    | error e => rfl
    | ok st2 =>
      exact pairLoop_congr P Q a b ic n h rest st2
        (fun kl hkl => hl kl (List.mem_cons_of_mem _ hkl))

/-- The pair generation reads the first `points_` pattern points only. -/
theorem kernelPairs_congr (P Q : List BriskPatternPoint) (points_ : Nat) (dMin dMax : ℚ)
    (ic : List Nat) (h : ∀ i, i < points_ → P[i]? = Q[i]?) :
    kernelPairs P points_ dMin dMax ic = kernelPairs Q points_ dMin dMax ic := by
  simp only [kernelPairs]
  exact pairLoop_congr P Q _ _ _ points_ h _ _ (fun ij hij => by
    have := (mem_pairEnumeration points_ ij.1 ij.2).mp hij
    omega)

theorem pairNormSq_congr (P Q : List BriskPatternPoint) (ij : Nat × Nat)
    (h1 : P[ij.1]? = Q[ij.1]?) (h2 : P[ij.2]? = Q[ij.2]?) :
    pairNormSq P ij = pairNormSq Q ij := by
  simp only [pairNormSq, h1, h2]

theorem pairSquaredDistance_congr (P Q : List BriskPatternPoint) (ij : Nat × Nat)
    (h1 : P[ij.1]? = Q[ij.1]?) (h2 : P[ij.2]? = Q[ij.2]?) :
    pairSquaredDistance P ij = pairSquaredDistance Q ij := by
  simp only [pairSquaredDistance, h1, h2]

/-- The pattern points that `generateKernel` stores first are those of scale 0 and
rotation 0. -/
theorem generateKernel_base_point (ops : PatternOps) (radiusList : List ℚ)
    (numberList : List Int) (h : radiusList.length = numberList.length) (p : Nat)
    (hp : p < (numberList.map Int.toNat).sum) :
    (((List.range scales_).map fun scale =>
        (scalePoints ops radiusList numberList scale).map Prod.fst).flatten)[p]?
      = ((ringIndex radiusList numberList)[p]?).map fun q => (layoutPoint ops 0 0 q).1 := by
  have hpt := generateKernel_point ops radiusList numberList h 0 0 p (by decide) (by decide) hp
  simp only [Nat.zero_mul, Nat.zero_add] at hpt
  exact hpt

set_option maxRecDepth 100000 in
/-- With `storedRingOps` the first points of the table for the rings of radius 0 with 1
point and radius 10 with 4 points are `fivePoints`. -/
theorem stored_five_points (i : Nat) (hi : i < 5) :
    (((List.range scales_).map fun scale =>
        (scalePoints storedRingOps [0, 10] [1, 4] scale).map Prod.fst).flatten)[i]?
      = fivePoints[i]? := by
  rw [generateKernel_base_point storedRingOps [0, 10] [1, 4] (by decide) i hi]
  interval_cases i <;> with_unfolding_all rfl

set_option maxRecDepth 100000 in
/-- With `storedRingOps` the first points of the table for the rings of radius 0 with 1
point and radius 10 with 8 points are `ninePoints`. -/
theorem stored_nine_points (i : Nat) (hi : i < 9) :
    (((List.range scales_).map fun scale =>
        (scalePoints storedRingOps [0, 10] [1, 8] scale).map Prod.fst).flatten)[i]?
      = ninePoints[i]? := by
  rw [generateKernel_base_point storedRingOps [0, 10] [1, 8] (by decide) i hi]
  interval_cases i <;> with_unfolding_all rfl

set_option maxRecDepth 100000 in
/-- The pair generation on `fivePoints` with both thresholds 10: the six pairs of
ring points are long pairs, and no pair with the centre is assigned. -/
theorem five_points_pairs :
    kernelPairs fivePoints 5 10 10 []
      = .ok ⟨[⟨2, 1, 102, -101⟩, ⟨3, 1, 102, 0⟩, ⟨3, 2, 102, 102⟩, ⟨4, 1, 102, 102⟩,
          ⟨4, 2, 0, 102⟩, ⟨4, 3, -101, 102⟩], List.replicate 10 none, 0⟩ := by
  with_unfolding_all rfl

set_option maxRecDepth 100000 in
/-- The pair generation on `ninePoints` with both thresholds 20: 32 short pairs and
no long pair. -/
theorem nine_points_pairs_far :
    (kernelPairs ninePoints 9 20 20 []).map (fun t => (t.longPairs_.length, t.noShortPairs_))
      = .ok (0, 32) := by
  with_unfolding_all rfl

set_option maxRecDepth 100000 in
/-- The pair generation on `ninePoints` with both thresholds 10: 20 long pairs, and
the 8 pairs of neighbours on the ring as short pairs. -/
theorem nine_points_pairs_near :
    (kernelPairs ninePoints 9 10 10 []).map
        (fun t => (t.longPairs_.length, t.noShortPairs_, t.shortPairs_.take 8))
      = .ok (20, 8, [some ⟨2, 1⟩, some ⟨3, 2⟩, some ⟨4, 3⟩, some ⟨5, 4⟩, some ⟨6, 5⟩,
          some ⟨7, 6⟩, some ⟨8, 1⟩, some ⟨8, 7⟩]) := by
  with_unfolding_all rfl

set_option maxRecDepth 100000 in
/-- No pair of `ninePoints` has the exact squared distance 400. -/
theorem nine_points_exact_far :
    ((pairEnumeration 9).all fun ij =>
      decide (¬ (20 * 20 ≤ pairSquaredDistance ninePoints ij
        ∧ pairSquaredDistance ninePoints ij ≤ 20 * 20))) = true := by
  with_unfolding_all rfl

set_option maxRecDepth 100000 in
/-- No pair of `ninePoints` has a `norm_sq` from 64 to 81. -/
theorem nine_points_gap :
    ((pairEnumeration 9).all fun ij =>
      decide (¬ (f32 (8 * 8) ≤ pairNormSq ninePoints ij
        ∧ pairNormSq ninePoints ij ≤ f32 (9 * 9)))) = true := by
  with_unfolding_all rfl

set_option maxRecDepth 100000 in
/-- The pairs of `ninePoints` whose exact squared distance is below 100, in the order
of the loops. -/
theorem nine_points_exact_near :
    (pairEnumeration 9).filter (fun ij => decide (pairSquaredDistance ninePoints ij < 10 * 10))
      = [(2, 0), (2, 1), (3, 2), (4, 0), (4, 3), (5, 4), (6, 0), (6, 5), (7, 6), (8, 0),
        (8, 1), (8, 7)] := by
  with_unfolding_all rfl

set_option maxRecDepth 100000 in
/-- The exact squared distance from the centre to the points 2, 3 and 4 of
`fivePoints` is above 100, and the `norm_sq` of these pairs is 100. -/
theorem five_points_center :
    (10 * 10 < pairSquaredDistance fivePoints (2, 0)
        ∧ 10 * 10 < pairSquaredDistance fivePoints (3, 0)
        ∧ 10 * 10 < pairSquaredDistance fivePoints (4, 0))
      ∧ pairNormSq fivePoints (2, 0) = 100 ∧ pairNormSq fivePoints (3, 0) = 100
      ∧ pairNormSq fivePoints (4, 0) = 100 ∧ f32 (10 * 10) = 100 := by
  refine ⟨⟨?_, ?_, ?_⟩, ?_, ?_, ?_, ?_⟩
  · simp only [pairSquaredDistance, fivePoints]; norm_num
  · simp only [pairSquaredDistance, fivePoints]; norm_num
  · simp only [pairSquaredDistance, fivePoints]; norm_num
  · with_unfolding_all rfl
  · with_unfolding_all rfl
  · with_unfolding_all rfl
  · with_unfolding_all rfl

set_option maxRecDepth 100000 in
/-- The pair generation on `threePoints` with both thresholds 4. -/
theorem three_points_pairs :
    kernelPairs threePoints 3 4 4 []
      = .ok ⟨[⟨2, 1, 246, -327⟩], [some ⟨1, 0⟩, none, none], 1⟩ := by
  with_unfolding_all rfl

set_option maxRecDepth 100000 in
/-- The weights of a long pair with the differences 3 and -4 and the `norm_sq` 25. -/
theorem three_points_weights :
    longPairWeight (3 - 0) 25 = 246 ∧ longPairWeight (0 - 4) 25 = -327 :=
  ⟨by with_unfolding_all rfl, by with_unfolding_all rfl⟩

set_option maxRecDepth 100000 in
/-- The pairs of `threePoints` with a `norm_sq` above and below 16. -/
theorem three_points_filters :
    (pairEnumeration 3).filter (isLongPair threePoints (f32 (4 * 4))) = [(2, 1)]
      ∧ (pairEnumeration 3).filter (isShortPair threePoints (f32 (4 * 4))) = [(1, 0)] :=
  ⟨by with_unfolding_all rfl, by with_unfolding_all rfl⟩

set_option maxRecDepth 100000 in
/-- The pair generation on `threePoints` with both thresholds 6, without a remapping
and with the remapping `[2, 0, 1]`. -/
theorem three_points_short :
    kernelPairs threePoints 3 6 6 [] = .ok ⟨[], [some ⟨1, 0⟩, some ⟨2, 0⟩, some ⟨2, 1⟩], 3⟩
      ∧ kernelPairs threePoints 3 6 6 [2, 0, 1]
        = .ok ⟨[], [some ⟨2, 0⟩, some ⟨2, 1⟩, some ⟨1, 0⟩], 3⟩ :=
  ⟨by with_unfolding_all rfl, by with_unfolding_all rfl⟩

/-- The tables that `generateKernel` builds with `storedRingOps` for the rings of
radius 0 with 1 point and radius 10 with 4 points: the first points are `fivePoints`,
and the pairs are those of the pair generation on them. -/
theorem stored_five_tables (dMax dMin : ℚ) :
    ∃ T pairs, generateKernel storedRingOps [0, 10] [1, 4] dMax dMin [] = .ok T
      ∧ kernelPairs fivePoints 5 dMin dMax [] = .ok pairs
      ∧ T.points_ = 5
      ∧ (∀ i, i < 5 → T.patternPoints_[i]? = fivePoints[i]?)
      ∧ T.shortPairs_ = pairs.shortPairs_ ∧ T.longPairs_ = pairs.longPairs_
      ∧ T.noShortPairs_ = pairs.noShortPairs_ ∧ T.noLongPairs_ = pairs.longPairs_.length := by
  obtain ⟨T, hT⟩ := generateKernel_total storedRingOps [0, 10] [1, 4] dMax dMin
    (by decide) (by decide) (by decide) (by decide)
  obtain ⟨_, _, pairs, hp, hTeq⟩ := generateKernel_ok _ _ _ _ _ _ _ hT
  have h5 : ((([1, 4] : List Int).sum) % 4294967296).toNat = 5 := by decide
  rw [h5] at hp hTeq
  rw [kernelPairs_congr _ fivePoints 5 dMin dMax [] stored_five_points] at hp
  refine ⟨T, pairs, hT, hp, ?_⟩
  subst hTeq
  exact ⟨rfl, stored_five_points, rfl, rfl, rfl, rfl⟩

/-- The tables that `generateKernel` builds with `storedRingOps` for the rings of
radius 0 with 1 point and radius 10 with 8 points: the first points are `ninePoints`,
and the pairs are those of the pair generation on them. -/
theorem stored_nine_tables (dMax dMin : ℚ) :
    ∃ T pairs, generateKernel storedRingOps [0, 10] [1, 8] dMax dMin [] = .ok T
      ∧ kernelPairs ninePoints 9 dMin dMax [] = .ok pairs
      ∧ T.points_ = 9
      ∧ (∀ i, i < 9 → T.patternPoints_[i]? = ninePoints[i]?)
      ∧ T.shortPairs_ = pairs.shortPairs_ ∧ T.longPairs_ = pairs.longPairs_
      ∧ T.noShortPairs_ = pairs.noShortPairs_ ∧ T.noLongPairs_ = pairs.longPairs_.length := by
  obtain ⟨T, hT⟩ := generateKernel_total storedRingOps [0, 10] [1, 8] dMax dMin
    (by decide) (by decide) (by decide) (by decide)
  obtain ⟨_, _, pairs, hp, hTeq⟩ := generateKernel_ok _ _ _ _ _ _ _ hT
  have h9 : ((([1, 8] : List Int).sum) % 4294967296).toNat = 9 := by decide
  rw [h9] at hp hTeq
  rw [kernelPairs_congr _ ninePoints 9 dMin dMax [] stored_nine_points] at hp
  refine ⟨T, pairs, hT, hp, ?_⟩
  subst hTeq
  exact ⟨rfl, stored_nine_points, rfl, rfl, rfl, rfl⟩

/-- Quantities of a pair of the first `n` points are those of a list with the same
first `n` points. -/
theorem pair_quantities_congr (P Q : List BriskPatternPoint) (n : Nat)
    (h : ∀ i, i < n → P[i]? = Q[i]?) (ij : Nat × Nat) (hij : ij ∈ pairEnumeration n) :
    pairNormSq P ij = pairNormSq Q ij
      ∧ pairSquaredDistance P ij = pairSquaredDistance Q ij := by
  have hb := (mem_pairEnumeration n ij.1 ij.2).mp hij
  exact ⟨pairNormSq_congr P Q ij (h _ (by omega)) (h _ (by omega)),
    pairSquaredDistance_congr P Q ij (h _ (by omega)) (h _ (by omega))⟩

/-! ## The angles of the pattern -/

/-- C1: the SSSE3 path does not return the byte-wise reference for every word count.
With 32 words differing in every bit each 8-bit lane of the local accumulator
reaches 256 and wraps to 0, so the call returns 0 where the reference is 4096;
and with a word count of 0 the `do ... while` body still runs once, so the call
returns the 128 differing bits of the first word where the reference is 0. -/
theorem ssse3_differs_from_reference :
    (SSSE3PopcntofXORed (some (onesSignature 32)) (some (zeroSignature 32)) 32 = .ok 0
      ∧ popcountReference (onesSignature 32) (zeroSignature 32) 32 = 4096)
    ∧ (SSSE3PopcntofXORed (some (onesSignature 1)) (some (zeroSignature 1)) 0 = .ok 128
      ∧ popcountReference (onesSignature 1) (zeroSignature 1) 0 = 0) := by
  refine ⟨⟨?_, ?_⟩, ?_, ?_⟩
  · exact ssse3_ones_zero 32 (by omega)
  · exact popcountReference_ones_zero 32
  · rw [ssse3_value _ _ _ (by simp [onesSignature]) (by simp [zeroSignature])]
    rfl
  · rfl

/-- C7: both Hamming paths are symmetric in their two signatures, for every
word count and whatever the pointers are. -/
theorem hamming_symmetric (a b : Option (List M128)) (n : Int) :
    SSSE3PopcntofXORed a b n = SSSE3PopcntofXORed b a n
      ∧ NEONPopcntofXORed a b n = NEONPopcntofXORed b a n :=
  ⟨ssse3_comm a b n, neon_comm a b n⟩

/-- C8: the distance of a signature to itself is 0 on both paths, for every word
count `n` such that the buffer holds the words read (at least one word and at
least `n` words for the SSSE3 path, at least `n` words for the NEON path). -/
theorem hamming_self_zero (a : List M128) (n : Int) (h1 : 1 ≤ a.length)
    (hn : n ≤ a.length) :
    SSSE3PopcntofXORed (some a) (some a) n = .ok 0
      ∧ NEONPopcntofXORed (some a) (some a) n = .ok 0 := by
  constructor
  · rw [ssse3_value a a n (by omega) (by omega)]
    simp only [colSum_self, Nat.zero_mod]
    rw [lanesTotal_const]
  · rw [neon_value a a n hn hn, popcountReference_eq, pairsPop_self]

theorem hamming_self_zero_witness :
    (1 ≤ [onesWord, zeroWord].length ∧ (2 : Int) ≤ [onesWord, zeroWord].length)
      ∧ (SSSE3PopcntofXORed (some [onesWord, zeroWord]) (some [onesWord, zeroWord]) 2 = .ok 0
        ∧ NEONPopcntofXORed (some [onesWord, zeroWord]) (some [onesWord, zeroWord]) 2 = .ok 0) :=
  ⟨⟨by decide, by decide⟩, hamming_self_zero [onesWord, zeroWord] 2 (by decide) (by decide)⟩

/-- C9: the SSSE3 result is not bounded by `128 * n` for a word count of 0: the
body of the `do ... while` loop runs once, and the call returns the 128 differing
bits of the first word. -/
theorem ssse3_exceeds_bit_count_at_zero :
    SSSE3PopcntofXORed (some [onesWord]) (some [zeroWord]) 0 = .ok 128
      ∧ ¬ ((128 : Int) ≤ 128 * 0) := by
  constructor
  · rw [ssse3_value _ _ _ (by simp) (by simp)]
    rfl
  · decide

/-- C10 (counterexample): with 33554432 words differing in every bit the NEON
path returns 0, the 32-bit `result` having wrapped, where the reference is
4294967296. -/
theorem neon_wraps_at_2_pow_25_words :
    NEONPopcntofXORed (some (onesSignature 33554432)) (some (zeroSignature 33554432)) 33554432
        = .ok 0
      ∧ popcountReference (onesSignature 33554432) (zeroSignature 33554432) 33554432
        = 4294967296 := by
  have h := popcountReference_ones_zero 33554432
  have h1 : ((33554432 : Nat) : Int) ≤ (onesSignature 33554432).length := by
    rw [onesSignature_length]
  have h2 : ((33554432 : Nat) : Int) ≤ (zeroSignature 33554432).length := by
    rw [zeroSignature_length]
  have hv := neon_value _ _ _ h1 h2
  rw [Int.toNat_ofNat, h] at hv
  exact ⟨hv, h⟩

/-- C10 (amended): when both buffers hold the `n` words, the NEON path returns the
byte-wise reference reduced modulo `2 ^ 32`, which is the reference itself for
fewer than 33554432 words. -/
theorem neon_returns_reference_mod (a b : List M128) (n : Int)
    (ha : n ≤ a.length) (hb : n ≤ b.length) :
    NEONPopcntofXORed (some a) (some b) n
        = .ok (popcountReference a b n.toNat % 4294967296)
      ∧ (n < 33554432 →
          NEONPopcntofXORed (some a) (some b) n = .ok (popcountReference a b n.toNat)) := by
  refine ⟨neon_value a b n ha hb, fun hlt => ?_⟩
  rw [neon_value a b n ha hb]
  have h := popcountReference_le a b n.toNat
  rw [Nat.mod_eq_of_lt (by omega)]

theorem neon_returns_reference_mod_witness :
    ((1 : Int) ≤ [onesWord].length ∧ (1 : Int) ≤ [zeroWord].length)
      ∧ (NEONPopcntofXORed (some [onesWord]) (some [zeroWord]) 1
          = .ok (popcountReference [onesWord] [zeroWord] (1 : Int).toNat % 4294967296)
        ∧ ((1 : Int) < 33554432 →
          NEONPopcntofXORed (some [onesWord]) (some [zeroWord]) 1
            = .ok (popcountReference [onesWord] [zeroWord] (1 : Int).toNat))) :=
  ⟨⟨by decide, by decide⟩, neon_returns_reference_mod [onesWord] [zeroWord] 1 (by decide) (by decide)⟩

/-- C11: on both paths the call throws (`signature NULL`) exactly when one of the
two pointers is null, and with two non-null pointers whose buffers hold the words
read it returns a value. -/
theorem hamming_throws_iff_null (a b : Option (List M128)) (n : Int) :
    (SSSE3PopcntofXORed a b n = .error .signatureNull ↔ a = none ∨ b = none)
      ∧ (NEONPopcntofXORed a b n = .error .signatureNull ↔ a = none ∨ b = none)
      ∧ (∀ s1 s2, a = some s1 → b = some s2 →
          (n - 1).toNat < s1.length → (n - 1).toNat < s2.length →
          ∃ d, SSSE3PopcntofXORed a b n = .ok d)
      ∧ (∀ s1 s2, a = some s1 → b = some s2 → n ≤ s1.length → n ≤ s2.length →
          ∃ d, NEONPopcntofXORed a b n = .ok d) := by
  refine ⟨ssse3_null_iff a b n, neon_null_iff a b n, ?_, ?_⟩
  · intro s1 s2 e1 e2 h1 h2
    subst e1 e2
    exact ⟨_, ssse3_value s1 s2 n h1 h2⟩
  · intro s1 s2 e1 e2 h1 h2
    subst e1 e2
    exact ⟨_, neon_value s1 s2 n h1 h2⟩

theorem hamming_throws_iff_null_witness :
    (SSSE3PopcntofXORed (some [onesWord]) none 1 = .error .signatureNull
        ↔ some [onesWord] = none ∨ (none : Option (List M128)) = none)
      ∧ (∃ d, SSSE3PopcntofXORed (some [onesWord]) (some [zeroWord]) 1 = .ok d)
      ∧ (∃ d, NEONPopcntofXORed (some [onesWord]) (some [zeroWord]) 1 = .ok d) :=
  ⟨(hamming_throws_iff_null (some [onesWord]) none 1).1,
    (hamming_throws_iff_null (some [onesWord]) (some [zeroWord]) 1).2.2.1 _ _ rfl rfl
      (by decide) (by decide),
    (hamming_throws_iff_null (some [onesWord]) (some [zeroWord]) 1).2.2.2 _ _ rfl rfl
      (by decide) (by decide)⟩

/-! ## Claims about the brute-force matcher -/

/-- C2: `commonKnnMatchImpl` does not return `min(k, c)` matches. With one train
row, no mask and `k = 2` the slot of the query holds two matches: the train row at
its distance 128 and the same row again at distance 2147483648, which is the
sentinel `2147483647` of the invalidated entry converted to `float`. -/
theorem knn_returns_k_matches_for_one_candidate :
    commonKnnMatchImpl (exampleMatcher [exampleMat [constRow 0]]) (exampleMat [constRow 255])
        [] 2 [] false = .ok [[⟨0, 0, 0, 128⟩, ⟨0, 0, 0, 2147483648⟩]]
      ∧ (exampleMat [constRow 0]).rows = 1
      ∧ exampleDistance (constRow 255) (constRow 0) 16 = 128 :=
  ⟨rfl, rfl, rfl⟩

/-- C3: `commonKnnMatchImpl` returns a train row that the mask excludes. With two
train rows of which the mask allows the second only, and `k = 2`, the slot of the
query holds the allowed row 1 and the excluded row 0, the latter at distance
2147483648. -/
theorem knn_returns_masked_row :
    commonKnnMatchImpl (exampleMatcher [exampleMat [constRow 0, constRow 255]])
        (exampleMat [constRow 255]) [] 2 [maskSecondOnly] false
        = .ok [[⟨0, 1, 0, 0⟩, ⟨0, 0, 0, 2147483648⟩]]
      ∧ isPossibleMatch maskSecondOnly 0 0 = false :=
  ⟨rfl, rfl⟩

/-- C4: for `k ≥ 0` every result slot that `commonKnnMatchImpl` produces holds at
most `k` matches. -/
theorem knn_at_most_k {D : Type} (M : BruteForceMatcher D) (query : Mat D) (knn : Int)
    (masks : List MaskMat) (compact : Bool) (out : List (List DMatch)) (hk : 0 ≤ knn)
    (h : commonKnnMatchImpl M query [] knn masks compact = .ok out) :
    ∀ slot ∈ out, (slot.length : Int) ≤ knn := by
  obtain ⟨_, _, hl⟩ := commonKnnMatchImpl_ok M query knn masks compact out h
  intro slot hs
  rcases knnLoop_slots M query knn masks compact _ _ _ hl slot hs with h0 | ⟨q, d, hq⟩
  · subst h0; simpa using hk
  · have := (knnQuery_spec M query knn masks q d slot hq).1
    omega

theorem knn_at_most_k_witness :
    (0 : Int) ≤ 1
      ∧ commonKnnMatchImpl (exampleMatcher [exampleMat [constRow 0, constRow 255]])
        (exampleMat [constRow 255, constRow 0]) [] 1 [] false
        = .ok [[⟨0, 1, 0, 0⟩], [⟨1, 0, 0, 0⟩]]
      ∧ ∀ slot ∈ [[(⟨0, 1, 0, 0⟩ : DMatch)], [⟨1, 0, 0, 0⟩]], (slot.length : Int) ≤ 1 :=
  ⟨by decide, rfl,
    knn_at_most_k (exampleMatcher [exampleMat [constRow 0, constRow 255]])
      (exampleMat [constRow 255, constRow 0]) 1 [] false _ (by decide) rfl⟩

/-- C5: in every result slot produced by `commonKnnMatchImpl` and by
`commonRadiusMatchImpl` the distances of the matches are in non-decreasing
order. -/
theorem matches_sorted_by_distance {D : Type} (M : BruteForceMatcher D) (query : Mat D)
    (knn : Int) (maxDistance : ℚ) (masks : List MaskMat) (compact : Bool) :
    (∀ out, commonKnnMatchImpl M query [] knn masks compact = .ok out →
        ∀ slot ∈ out, (slot.map DMatch.distance).Sorted (· ≤ ·))
      ∧ (∀ out, commonRadiusMatchImpl M query [] maxDistance masks compact = .ok out →
        ∀ slot ∈ out, (slot.map DMatch.distance).Sorted (· ≤ ·)) := by
  constructor
  · intro out h slot hs
    obtain ⟨_, _, hl⟩ := commonKnnMatchImpl_ok M query knn masks compact out h
    rcases knnLoop_slots M query knn masks compact _ _ _ hl slot hs with h0 | ⟨q, d, hq⟩
    · subst h0; simp
    · exact sorted_distances slot (knnQuery_spec M query knn masks q d slot hq).2.1
  · intro out h slot hs
    obtain ⟨_, hl⟩ := commonRadiusMatchImpl_ok M query maxDistance masks compact out h
    rcases radiusLoop_slots M query maxDistance masks compact _ _ _ hl slot hs
      with h0 | ⟨q, d, hq⟩
    · subst h0; simp
    · exact sorted_distances slot (radiusQuery_spec M query maxDistance masks q d slot hq).1

theorem matches_sorted_by_distance_witness :
    (∀ slot ∈ [[(⟨0, 0, 0, 128⟩ : DMatch), ⟨0, 0, 0, 2147483648⟩]],
        (slot.map DMatch.distance).Sorted (· ≤ ·))
      ∧ (∀ slot ∈ [[(⟨0, 1, 0, 0⟩ : DMatch), ⟨0, 0, 0, 128⟩], [⟨1, 0, 0, 0⟩, ⟨1, 1, 0, 128⟩]],
        (slot.map DMatch.distance).Sorted (· ≤ ·)) :=
  ⟨(matches_sorted_by_distance (exampleMatcher [exampleMat [constRow 0]])
      (exampleMat [constRow 255]) 2 129 [] false).1 _ rfl,
    (matches_sorted_by_distance (exampleMatcher [exampleMat [constRow 0, constRow 255]])
      (exampleMat [constRow 255, constRow 0]) 2 129 [] false).2 _ rfl⟩

/-- For a query row `q` that is not masked out, `commonRadiusMatchImpl` returns a slot
that holds, up to order, one record `(q, train row, train set, distance)` for every
eligible train row for which the value of the distance functor of the matcher is
strictly below `maxDistance`, and nothing else; without compaction the slot is slot
`q`. The call must pass its assertions (query of the matcher's type, train sets empty
or of that type and width), the masks are absent or one per train set, and the values
of the functor are values a `float` holds exactly. -/
theorem radius_slot_of_functor {D : Type} (M : BruteForceMatcher D) (query : Mat D)
    (maxDistance : ℚ) (masks : List MaskMat) (compact : Bool) (q : Nat) (d1 : D)
    (ht : M.valueType = query.type)
    (hok : trainsOk M query = true)
    (hm : masks = [] ∨ M.trainDescCollection.length ≤ masks.length)
    (hq : query.data[q]? = some d1) (hmask : isMaskedOut masks q = false)
    (hex : ∀ train ∈ M.trainDescCollection, ∀ d2 ∈ train.data,
      roundF32 (M.distance_ d1 d2 query.cols) = M.distance_ d1 d2 query.cols) :
    ∃ out, commonRadiusMatchImpl M query [] maxDistance masks compact = .ok out
      ∧ ∃ slot ∈ out,
        slot.Perm (radiusReference M query.cols maxDistance masks q d1 M.trainDescCollection 0)
        ∧ (compact = false → out[q]? = some slot) := by
  obtain ⟨out, hout⟩ := (radiusLoop_result M query maxDistance masks compact hm query.data 0).1
    (Or.inl hok)
  refine ⟨out, ?_, ?_⟩
  · simp [commonRadiusMatchImpl, ht, hout]
  · obtain ⟨slot, hs, hslot⟩ := radiusLoop_mem M query maxDistance masks compact _ _ _ hout q d1
      hq (by simpa using hmask)
    rw [Nat.zero_add] at hslot
    have heq := radiusSets_eq M query maxDistance masks q d1 M.trainDescCollection 0
      (by simpa using hm) hok hex
    refine ⟨slot, hs, ?_, ?_⟩
    · simp only [radiusQuery, heq, Except.ok.injEq] at hslot
      rw [← hslot]
      exact sortMatches_perm _
    · intro hc
      subst hc
      obtain ⟨_, hfull⟩ := radiusLoop_full M query maxDistance masks _ _ _ hout
      obtain ⟨slot2, hs2, hc2⟩ := hfull q d1 hq
      rw [Nat.zero_add, hmask] at hc2
      simp only [Bool.false_eq_true, if_false, hslot, Except.ok.injEq] at hc2
      rw [hc2]
      exact hs2

/-- The radius match with the SSSE3 distance on rows of one word: the row at distance
0 from the query is returned for the threshold 128, and the row at distance 128 is
not. -/
theorem radius_slot_of_functor_example :
    ∃ out, commonRadiusMatchImpl (exampleMatcher [exampleMat [constRow 0, constRow 255]])
        (exampleMat [constRow 255]) [] 128 [] false = .ok out
      ∧ ∃ slot ∈ out,
        slot.Perm (radiusReference (exampleMatcher [exampleMat [constRow 0, constRow 255]]) 16
          128 [] 0 (constRow 255) [exampleMat [constRow 0, constRow 255]] 0)
        ∧ (false = false → out[0]? = some slot) :=
  radius_slot_of_functor (exampleMatcher [exampleMat [constRow 0, constRow 255]])
    (exampleMat [constRow 255]) 128 [] false 0 (constRow 255) rfl rfl (Or.inl rfl) rfl rfl
    (by decide)

/-- The SSSE3 distance functor on two rows of 32 words, one of bytes `0xFF` and one
of bytes `0x00`, gives 0. -/
theorem wide_rows_distance :
    exampleDistance (onesSignature 32) (zeroSignature 32) 512 = 0 := by
  have h := ssse3_ones_zero 32 (by omega)
  simp only [exampleDistance]
  have e : (512 : Int) / 16 = ((32 : Nat) : Int) := by decide
  rw [e, h]
  rfl

/-- C6: `RadiusMatch` returns a train row whose Hamming distance to the query is not
below the threshold. With the distance functor of the SSSE3 build, a query row of 512
bytes `0xFF`, one train row of 512 bytes `0x00` and the threshold 1, the Hamming
distance of the two rows is 4096, yet `commonRadiusMatchImpl` returns the match
`(0, 0, 0)` with the distance 0: the functor returns the count of
`SSSE3PopcntofXORed` over 32 words, which is 0. -/
theorem radius_returns_row_at_distance_4096 :
    commonRadiusMatchImpl (exampleMatcher [⟨0, 512, [zeroSignature 32]⟩])
        ⟨0, 512, [onesSignature 32]⟩ [] 1 [] false = .ok [[⟨0, 0, 0, 0⟩]]
      ∧ popcountReference (onesSignature 32) (zeroSignature 32) 32 = 4096
      ∧ SSSE3PopcntofXORed (some (onesSignature 32)) (some (zeroSignature 32)) (512 / 16)
        = .ok 0
      ∧ ¬ ((4096 : ℚ) < 1) := by
  refine ⟨?_, popcountReference_ones_zero 32, ssse3_ones_zero 32 (by omega), by norm_num⟩
  have hd := wide_rows_distance
  have r0 : roundF32Nat 0 = 0 := by decide
  simp only [commonRadiusMatchImpl, exampleMatcher, radiusLoop, isMaskedOut, radiusQuery,
    radiusSets, trainAsserts, radiusRow, Mat.empty, Mat.rows]
  simp [hd, roundF32, r0, sortMatches]

/-- C17: a result slot is not always empty when the query has no candidate. With a
first train set of one row whose mask allows nothing, and an empty second train set
with an empty mask, the query is not masked out and its only train row is not
eligible, yet `commonKnnMatchImpl` fills slot 0 with a match to that row at distance
2147483648. -/
theorem knn_slot_not_empty_without_candidate :
    commonKnnMatchImpl (exampleMatcher [exampleMat [constRow 0], exampleMat []])
        (exampleMat [constRow 255]) [] 1 [maskNone, maskEmpty] false
        = .ok [[⟨0, 0, 0, 2147483648⟩]]
      ∧ isMaskedOut [maskNone, maskEmpty] 0 = false
      ∧ eligible [maskNone, maskEmpty] 0 0 0 = false
      ∧ (exampleMat ([] : List (List M128))).rows = 0 :=
  ⟨rfl, rfl, rfl, rfl⟩

/-- C18 (counterexample): with compaction, no train set and one query row,
`commonKnnMatchImpl` still pushes a slot for the query, and the slot is empty. -/
theorem knn_compact_keeps_empty_slot :
    commonKnnMatchImpl (exampleMatcher []) (exampleMat [constRow 255]) [] 1 [] true
      = .ok [[]] :=
  rfl

/-- C18 (amended): with compaction and an initially empty output
`commonKnnMatchImpl` produces exactly one slot for each query row that is not
masked out, in query order, and none for a masked-out row; the slot of query row `q`
holds only matches of query row `q`. -/
theorem knn_compact_slots {D : Type} (M : BruteForceMatcher D) (query : Mat D) (knn : Int)
    (masks : List MaskMat) (out : List (List DMatch))
    (h : commonKnnMatchImpl M query [] knn masks true = .ok out) :
    List.Forall₂ (fun (q : Nat) (slot : List DMatch) => ∀ m ∈ slot, m.queryIdx = (q : Int))
      ((List.range query.rows).filter fun q => !isMaskedOut masks q) out := by
  obtain ⟨_, _, hl⟩ := commonKnnMatchImpl_ok M query knn masks true out h
  have h2 := knnLoop_compact M query knn masks _ _ _ hl
  apply forall₂_enum_filter (fun q => !isMaskedOut masks q)
    (fun q slot => ∀ m ∈ slot, m.queryIdx = (q : Int)) query.data out
  refine List.Forall₂.imp ?_ h2
  intro qd slot hq
  exact (knnQuery_spec M query knn masks qd.1 qd.2 slot hq).2.2

theorem knn_compact_slots_witness :
    commonKnnMatchImpl (exampleMatcher [exampleMat [constRow 0]])
        (exampleMat [constRow 255, constRow 0]) [] 1
        [⟨2, 1, fun q _ => if q = 1 then 1 else 0⟩] true = .ok [[⟨1, 0, 0, 0⟩]]
      ∧ List.Forall₂ (fun (q : Nat) (slot : List DMatch) => ∀ m ∈ slot, m.queryIdx = (q : Int))
        ((List.range (exampleMat [constRow 255, constRow 0]).rows).filter fun q =>
          !isMaskedOut [⟨2, 1, fun q _ => if q = 1 then 1 else 0⟩] q)
        [[(⟨1, 0, 0, 0⟩ : DMatch)]] :=
  ⟨rfl, knn_compact_slots (exampleMatcher [exampleMat [constRow 0]])
    (exampleMat [constRow 255, constRow 0]) 1 [⟨2, 1, fun q _ => if q = 1 then 1 else 0⟩] _ rfl⟩

/-- C12: applied to a zero row `k`, `setDescriptorBits` returns and leaves bit
`n mod 32` of word `n div 32` of the row set exactly when the value of the first
point of short pair `n` is strictly greater than the value of the second, for every
`n` below the number of short pairs, and every later bit of the row clear. The row
width is a multiple of four bytes with room for the pairs, the row lies in the
buffer, and the pairs index existing values. -/
theorem setDescriptorBits_sets_pair_bits (E : BriskDescriptorExtractor) (k : Nat)
    (values : List Int) (d : Descriptors) (hs : 4 ∣ E.strings_)
    (hfit : E.shortPairs_.length ≤ 8 * E.strings_)
    (hv : ∀ p ∈ E.shortPairs_, p.i < values.length ∧ p.j < values.length)
    (hb : E.strings_ / 4 * (k + 1) ≤ d.words.length)
    (hz : ∀ m, m < 8 * E.strings_ → rowBit d.words (E.strings_ / 4 * k) m = false) :
    ∃ d', setDescriptorBits E k values (some d) = .ok d'
      ∧ (∀ (n : Nat) (h : n < E.shortPairs_.length),
        (rowBit d'.words (E.strings_ / 4 * k) n = true
          ↔ values.getD (E.shortPairs_[n]).i 0 > values.getD (E.shortPairs_[n]).j 0))
      ∧ (∀ n, E.shortPairs_.length ≤ n → n < 8 * E.strings_ →
        rowBit d'.words (E.strings_ / 4 * k) n = false) := by
  obtain ⟨s, hs⟩ := hs
  have hdiv : E.strings_ / 4 = s := by omega
  rw [hdiv] at hb hz ⊢
  obtain ⟨d', h1, _, _, _, hrow, _⟩ := setDescriptorBits_spec E k values d s hs (by omega) hv hb
  refine ⟨d', h1, ?_, ?_⟩
  · intro n hn
    rw [hrow n (by omega), hz n (by omega), Bool.false_or]
    simp [descriptorBit, List.getElem?_eq_getElem hn, pairBit]
  · intro n hn1 hn2
    rw [hrow n (by omega), hz n hn2, Bool.false_or]
    simp [descriptorBit, List.getElem?_eq_none hn1]

theorem setDescriptorBits_sets_pair_bits_witness :
    ∃ d', setDescriptorBits exampleExtractor 1 [0, 2, 4]
        (some (AllocateDescriptors exampleExtractor 2)) = .ok d'
      ∧ (∀ (n : Nat) (h : n < exampleExtractor.shortPairs_.length),
        (rowBit d'.words (exampleExtractor.strings_ / 4 * 1) n = true
          ↔ ([0, 2, 4] : List Int).getD (exampleExtractor.shortPairs_[n]).i 0
            > ([0, 2, 4] : List Int).getD (exampleExtractor.shortPairs_[n]).j 0))
      ∧ (∀ n, exampleExtractor.shortPairs_.length ≤ n → n < 8 * exampleExtractor.strings_ →
        rowBit d'.words (exampleExtractor.strings_ / 4 * 1) n = false) :=
  setDescriptorBits_sets_pair_bits exampleExtractor 1 [0, 2, 4]
    (AllocateDescriptors exampleExtractor 2) ⟨4, rfl⟩ (by decide) (by decide) (by decide)
    (fun m _ => rowBit_replicate_zero _ _ m)

/-- C13: on an accepted image, with dimensions and borders that `float` holds
exactly and rotation indices that stay in the table, `doDescriptorComputation`
returns, and the key points it returns are, in order, the input key points with
`border ≤ x < cols - border` and `border ≤ y < rows - border` for their border
`sizeList_[scale]`, each unchanged but for its angle; no other key point is
returned. -/
theorem keypoints_are_those_inside_border (E : BriskDescriptorExtractor) (F : FloatOps)
    (image : Image) (keypoints : List KeyPoint) (himg : imageAccepted image)
    (hfit : patternFits E) (hsc : scalesInRange E F keypoints)
    (hrot : rotationsInTable E F keypoints)
    (hsize : ∀ b ∈ E.sizeList_, b < 16777216)
    (hcols : 0 ≤ image.cols ∧ image.cols < 16777216)
    (hrows : 0 ≤ image.rows ∧ image.rows < 16777216) :
    ∃ kps d, doDescriptorComputation E F image keypoints = .ok (kps, d)
      ∧ List.Forall₂ (fun (out inp : KeyPoint) => out = { inp with angle := out.angle }) kps
        (keypoints.filter fun kp => insideBorder image (keypointBorder E F kp) kp) := by
  obtain ⟨kps, d, hok, _, _, hlen, hrows2⟩ :=
    doDescriptorComputation_spec E F image keypoints himg hfit hsc hrot
  have hfilter : keypoints.filter (keepsKeypoint E F image)
      = keypoints.filter fun kp => insideBorder image (keypointBorder E F kp) kp := by
    apply List.filter_congr
    intro kp hkp
    exact keepsKeypoint_eq_insideBorder E F image kp (hsc kp hkp) hsize hcols hrows
  rw [hfilter] at hlen hrows2
  refine ⟨kps, d, hok, ?_⟩
  rw [List.forall₂_iff_get]
  refine ⟨hlen, ?_⟩
  intro i h1 h2
  obtain ⟨out, theta, ho, hres, _⟩ := hrows2 i _ (List.getElem?_eq_getElem h2)
  have hmem : (keypoints.filter fun kp => insideBorder image (keypointBorder E F kp) kp)[i]
      ∈ keypoints := (List.mem_filter.mp (List.getElem_mem h2)).1
  obtain ⟨out2, theta2, hres2, hout, _⟩ := resolveTheta_spec E F image
    ((keypoints.filter fun kp => insideBorder image (keypointBorder E F kp) kp)[i])
    (keypointScale E F
      ((keypoints.filter fun kp => insideBorder image (keypointBorder E F kp) kp)[i])) hfit.2.2.2
    hrot.2.1 (by have := hsc _ hmem; rw [hrot.1] at this; exact this)
  rw [hres] at hres2
  simp only [Except.ok.injEq, Prod.mk.injEq] at hres2
  rw [List.getElem?_eq_getElem h1] at ho
  simp only [Option.some.injEq] at ho
  simp only [List.get_eq_getElem]
  rw [ho, hres2.1]
  exact hout

theorem keypoints_are_those_inside_border_witness :
    ∃ kps d, doDescriptorComputation exampleExtractor exampleFloatOps exampleImage
        exampleKeypoints = .ok (kps, d)
      ∧ List.Forall₂ (fun (out inp : KeyPoint) => out = { inp with angle := out.angle }) kps
        (exampleKeypoints.filter fun kp =>
          insideBorder exampleImage (keypointBorder exampleExtractor exampleFloatOps kp) kp) :=
  keypoints_are_those_inside_border exampleExtractor exampleFloatOps exampleImage
    exampleKeypoints example_accepted example_fits example_scales example_rotations example_sizes
    ⟨by decide, by decide⟩ ⟨by decide, by decide⟩

/-- C14: on an accepted image and with rotation indices that stay in the table,
`doDescriptorComputation` returns a descriptor matrix with one row per key point
returned and `strings_` columns, the key points returned being those the border test
keeps; row `r` holds the bits of the values sampled for the `r`-th of them at its
scale and resolved rotation, an index from 0 to `n_rot_ - 1`, bit `m` being the
comparison of short pair `m`. -/
theorem one_descriptor_row_per_keypoint (E : BriskDescriptorExtractor) (F : FloatOps)
    (image : Image) (keypoints : List KeyPoint) (himg : imageAccepted image)
    (hfit : patternFits E) (hsc : scalesInRange E F keypoints)
    (hrot : rotationsInTable E F keypoints) :
    ∃ kps d, doDescriptorComputation E F image keypoints = .ok (kps, d)
      ∧ d.rows = kps.length ∧ d.cols = E.strings_
      ∧ kps.length = (keypoints.filter (keepsKeypoint E F image)).length
      ∧ ∀ (r : Nat) (inp : KeyPoint),
        (keypoints.filter (keepsKeypoint E F image))[r]? = some inp →
        ∃ out theta, kps[r]? = some out
          ∧ resolveTheta E F image inp (keypointScale E F inp) = .ok (out, theta)
          ∧ 0 ≤ theta ∧ theta < (n_rot_ : Int)
          ∧ ∀ m, m < 8 * E.strings_ →
            rowBit d.words (E.strings_ / 4 * r) m
              = descriptorBit (sampledList E F image out (keypointScale E F inp) theta)
                E.shortPairs_ m :=
  doDescriptorComputation_spec E F image keypoints himg hfit hsc hrot

theorem one_descriptor_row_per_keypoint_witness :
    ∃ kps d, doDescriptorComputation exampleExtractor exampleFloatOps exampleImage
        exampleKeypoints = .ok (kps, d)
      ∧ d.rows = kps.length ∧ d.cols = exampleExtractor.strings_
      ∧ kps.length
        = (exampleKeypoints.filter
          (keepsKeypoint exampleExtractor exampleFloatOps exampleImage)).length
      ∧ ∀ (r : Nat) (inp : KeyPoint),
        (exampleKeypoints.filter
          (keepsKeypoint exampleExtractor exampleFloatOps exampleImage))[r]? = some inp →
        ∃ out theta, kps[r]? = some out
          ∧ resolveTheta exampleExtractor exampleFloatOps exampleImage inp
            (keypointScale exampleExtractor exampleFloatOps inp) = .ok (out, theta)
          ∧ 0 ≤ theta ∧ theta < (n_rot_ : Int)
          ∧ ∀ m, m < 8 * exampleExtractor.strings_ →
            rowBit d.words (exampleExtractor.strings_ / 4 * r) m
              = descriptorBit (sampledList exampleExtractor exampleFloatOps exampleImage out
                (keypointScale exampleExtractor exampleFloatOps inp) theta)
                exampleExtractor.shortPairs_ m :=
  one_descriptor_row_per_keypoint exampleExtractor exampleFloatOps exampleImage
    exampleKeypoints example_accepted example_fits example_scales example_rotations

/-- C15: on an accepted (8-bit) image whose width and height are below the border of
scale 0, `doDescriptorComputation` returns no key point and a descriptor matrix
without rows, whatever the key points and the scale invariance. The border of scale 0
is taken to be the smallest entry of `sizeList_`, the entries are below `2 ^ 31`, and
the scale indices are in range. -/
theorem small_image_yields_nothing (E : BriskDescriptorExtractor) (F : FloatOps)
    (image : Image) (keypoints : List KeyPoint) (B0 : Nat) (himg : imageAccepted image)
    (hsc : scalesInRange E F keypoints) (h0 : E.sizeList_[0]? = some B0)
    (hmin : ∀ b ∈ E.sizeList_, B0 ≤ b ∧ b < 2147483648)
    (hcols : image.cols < B0) (hrows : image.rows < B0) :
    ∃ d, doDescriptorComputation E F image keypoints = .ok ([], d) ∧ d.rows = 0 := by
  obtain ⟨hc, hch, hdep⟩ := himg
  have hfil : keypoints.filter (keepsKeypoint E F image) = [] := by
    rw [List.filter_eq_nil_iff]
    intro kp _
    rw [keepsKeypoint_small_image E F image kp B0 hmin hcols]
    simp
  have hes : image.elemSize = 1 := by simp [Image.elemSize, hch, hdep, Depth.elemSize1]
  refine ⟨AllocateDescriptors E 0, ?_, rfl⟩
  simp only [doDescriptorComputation, hc, hch, hes, borderLoop_eq E F image keypoints hsc, hfil,
    Image.isC1, hdep]
  simp [extractLoop]

theorem small_image_yields_nothing_witness :
    ∃ d, doDescriptorComputation exampleExtractor exampleFloatOps ⟨true, 1, .CV_8U, 1, 1⟩
      exampleKeypoints = .ok ([], d) ∧ d.rows = 0 :=
  small_image_yields_nothing exampleExtractor exampleFloatOps ⟨true, 1, .CV_8U, 1, 1⟩
    exampleKeypoints 2 ⟨rfl, rfl, rfl⟩ example_scales rfl
    (by
      intro b hb
      simp only [exampleExtractor, List.mem_replicate] at hb
      omega)
    (by decide) (by decide)

/-- C16: `doDescriptorComputation` throws for every continuous single-channel
16-bit image: the first test requires an element size of one byte, so the later
branch for `CV_16UC1` is never reached. -/
theorem sixteen_bit_image_is_rejected (E : BriskDescriptorExtractor) (F : FloatOps)
    (cols rows : Int) (keypoints : List KeyPoint) :
    doDescriptorComputation E F ⟨true, 1, .CV_16U, cols, rows⟩ keypoints
      = .error .requires8Bit := rfl

/-- C20: on an accepted image, with rotation invariance and rotation indices that
stay in the table, `doDescriptorComputation` returns, for every key point the border
test keeps, a key point with the same `x`, `y` and `size`; when the angle was `-1` on
entry, its angle is `atan2` of the sums `direction1` and `direction0` of the loop
over the long pairs, each converted to `float`, divided by `M_PI`, multiplied by 180
and rounded to single precision; otherwise it is the angle on entry. -/
theorem unset_angles_are_estimated (E : BriskDescriptorExtractor) (F : FloatOps)
    (image : Image) (keypoints : List KeyPoint) (himg : imageAccepted image)
    (hfit : patternFits E) (hsc : scalesInRange E F keypoints)
    (hrt : rotationsInTable E F keypoints)
    (hrot : E.rotationInvariance = true) :
    ∃ kps d, doDescriptorComputation E F image keypoints = .ok (kps, d)
      ∧ kps.length = (keypoints.filter (keepsKeypoint E F image)).length
      ∧ ∀ (r : Nat) (inp : KeyPoint),
        (keypoints.filter (keepsKeypoint E F image))[r]? = some inp →
        ∃ out, kps[r]? = some out
          ∧ out.x = inp.x ∧ out.y = inp.y ∧ out.size = inp.size
          ∧ (inp.angle = -1 →
            ∃ direction,
              directionLoop (sampledList E F image inp (keypointScale E F inp) 0)
                E.longPairs_ 0 0 = .ok direction
              ∧ out.angle
                = f32 (F.atan2 ((roundF32 direction.2 : Int) : ℚ)
                  ((roundF32 direction.1 : Int) : ℚ) / M_PI * 180))
          ∧ (inp.angle ≠ -1 → out.angle = inp.angle) := by
  obtain ⟨kps, d, hok, _, _, hlen, hrows2⟩ :=
    doDescriptorComputation_spec E F image keypoints himg hfit hsc hrt
  refine ⟨kps, d, hok, hlen, ?_⟩
  intro r inp hinp
  obtain ⟨out, theta, ho, hres, _⟩ := hrows2 r inp hinp
  have hmem : inp ∈ keypoints :=
    (List.mem_filter.mp (mem_of_getElem?_some _ _ _ hinp)).1
  obtain ⟨out2, theta2, hres2, hout, hest, hkeep, _⟩ := resolveTheta_spec E F image inp
    (keypointScale E F inp) hfit.2.2.2 hrt.2.1
    (by have := hsc _ hmem; rw [hrt.1] at this; exact this)
  rw [hres] at hres2
  simp only [Except.ok.injEq, Prod.mk.injEq] at hres2
  obtain ⟨h1, _⟩ := hres2
  subst h1
  refine ⟨out, ho, ?_, ?_, ?_, hest hrot, hkeep⟩
  · rw [hout]
  · rw [hout]
  · rw [hout]

theorem unset_angles_are_estimated_witness :
    ∃ kps d, doDescriptorComputation exampleExtractor exampleFloatOps exampleImage
        exampleKeypoints = .ok (kps, d)
      ∧ kps.length
        = (exampleKeypoints.filter
          (keepsKeypoint exampleExtractor exampleFloatOps exampleImage)).length
      ∧ ∀ (r : Nat) (inp : KeyPoint),
        (exampleKeypoints.filter
          (keepsKeypoint exampleExtractor exampleFloatOps exampleImage))[r]? = some inp →
        ∃ out, kps[r]? = some out
          ∧ out.x = inp.x ∧ out.y = inp.y ∧ out.size = inp.size
          ∧ (inp.angle = -1 →
            ∃ direction,
              directionLoop (sampledList exampleExtractor exampleFloatOps exampleImage inp
                (keypointScale exampleExtractor exampleFloatOps inp) 0)
                exampleExtractor.longPairs_ 0 0 = .ok direction
              ∧ out.angle
                = f32 (exampleFloatOps.atan2 ((roundF32 direction.2 : Int) : ℚ)
                  ((roundF32 direction.1 : Int) : ℚ) / M_PI * 180))
          ∧ (inp.angle ≠ -1 → out.angle = inp.angle) :=
  unset_angles_are_estimated exampleExtractor exampleFloatOps exampleImage exampleKeypoints
    example_accepted example_fits example_scales example_rotations rfl

/-! ## Claims about the scale and rotation indices -/

/-- C21: with scale invariance the scale index of a key point lies in `[0, 64)`: it
is the value of the cast expression saturated to 0 below and to 63 above, and
because of the saturation it is also the saturated floor of the value `t` that is
cast, whenever the cast truncates `t`. -/
theorem scale_index_saturated (E : BriskDescriptorExtractor) (F : FloatOps) (kp : KeyPoint)
    (hsi : E.scaleInvariance = true) :
    keypointScale E F kp < 64
      ∧ (keypointScale E F kp : Int) = clampInt (F.scaleExpr kp.size) 0 63
      ∧ ∀ t : ℚ, F.scaleExpr kp.size = truncToInt t →
        (keypointScale E F kp : Int) = clampInt ⌊t⌋ 0 63 := by
  have h := keypointScale_clamp E F kp hsi
  refine ⟨?_, h, ?_⟩
  · have : clampInt (F.scaleExpr kp.size) 0 63 ≤ 63 := by
      simp only [clampInt, max_def, min_def]
      split_ifs <;> omega
    omega
  · intro t ht
    rw [h, ht, truncToInt_clamp t 63 (by decide)]

theorem scale_index_saturated_witness :
    keypointScale exampleExtractor exampleFloatOps ⟨5, 5, 7, -1, 0, 0, 0⟩ < 64
      ∧ (keypointScale exampleExtractor exampleFloatOps ⟨5, 5, 7, -1, 0, 0, 0⟩ : Int)
        = clampInt (exampleFloatOps.scaleExpr 7) 0 63
      ∧ ∀ t : ℚ, exampleFloatOps.scaleExpr 7 = truncToInt t →
        (keypointScale exampleExtractor exampleFloatOps ⟨5, 5, 7, -1, 0, 0, 0⟩ : Int)
          = clampInt ⌊t⌋ 0 63 :=
  scale_index_saturated exampleExtractor exampleFloatOps ⟨5, 5, 7, -1, 0, 0, 0⟩ rfl

/-- C22 (counterexample): for a supplied angle of 720 degrees the rotation index is
1024, outside `[0, 1024)`: the cast gives 2048 and the code subtracts `n_rot_`
once. For a supplied angle of -400 degrees it is -113. -/
theorem rotation_index_out_of_range :
    resolveTheta exampleExtractor exactRotationOps exampleImage ⟨5, 5, 7, 720, 0, 0, 0⟩ 0
        = .ok (⟨5, 5, 7, 720, 0, 0, 0⟩, 1024)
      ∧ resolveTheta exampleExtractor exactRotationOps exampleImage ⟨5, 5, 7, -400, 0, 0, 0⟩ 0
        = .ok (⟨5, 5, 7, -400, 0, 0, 0⟩, -113) := by
  constructor
  · have h : rotSuppliedExact 720 = 2048 := by
      simp only [rotSuppliedExact, truncToInt, n_rot_]
      norm_num
    simp only [resolveTheta, exactRotationOps, exampleExtractor]
    norm_num [h, wrapTheta, n_rot_]
  · have h : rotSuppliedExact (-400) = -1137 := by
      simp only [rotSuppliedExact, truncToInt, n_rot_]
      norm_num
      rw [Int.ceil_eq_iff]
      norm_num
    simp only [resolveTheta, exactRotationOps, exampleExtractor]
    norm_num [h, wrapTheta, n_rot_]

/-- C22 (amended): with rotation invariance the rotation index lies in `[0, 1024)`
whenever the cast expression for the angle gives a value in `[-1024, 2048)`, and the
exact cast expressions do so for every angle from -360 to 719 degrees. The angle
step returns when the key point comes with an angle, or without rotation invariance,
or when the unrotated pattern that the estimate samples lies in the table. -/
theorem rotation_index_in_range (E : BriskDescriptorExtractor) (F : FloatOps) (image : Image)
    (inp : KeyPoint) (scale : Nat)
    (hl : ∀ p ∈ E.longPairs_, p.i < E.points_ ∧ p.j < E.points_)
    (hest : ∀ a, -1024 ≤ F.rotEstimated a ∧ F.rotEstimated a < 2048)
    (hsup : -1024 ≤ F.rotSupplied inp.angle ∧ F.rotSupplied inp.angle < 2048) :
    (((E.points_ * scales_ * n_rot_ < 4294967296 ∧ scale < scales_) ∨ inp.angle ≠ -1
          ∨ E.rotationInvariance = false) →
        ∃ out theta, resolveTheta E F image inp scale = .ok (out, theta)
          ∧ 0 ≤ theta ∧ theta < 1024)
      ∧ (∀ out theta, resolveTheta E F image inp scale = .ok (out, theta) →
        0 ≤ theta ∧ theta < 1024)
      ∧ ∀ a : ℚ, -360 ≤ a → a ≤ 719 →
        (-1024 ≤ rotEstimatedExact a ∧ rotEstimatedExact a < 2048)
          ∧ (-1024 ≤ rotSuppliedExact a ∧ rotSuppliedExact a < 2048) := by
  refine ⟨?_, ?_, rotExact_range⟩
  · intro hcase
    obtain ⟨direction, hd⟩ := directionLoop_ok (sampledList E F image inp scale 0) E.longPairs_
      0 0 (by simpa [sampledList_length] using hl)
    simp only [resolveTheta]
    by_cases ha : inp.angle = -1
    · by_cases hr : E.rotationInvariance = true
      · have hps : E.points_ * scales_ * n_rot_ < 4294967296 ∧ scale < scales_ := by
          rcases hcase with h | h | h
          · exact h
          · exact absurd ha h
          · rw [hr] at h; exact absurd h (by decide)
        have hsv := sampleValues_ok E F image inp scale 0 hps.1 hps.2 (Int.le_refl 0)
          (by decide)
        simp only [ha, hr, if_true, Bool.not_true, Bool.false_eq_true, if_false, hsv, hd]
        exact ⟨_, _, rfl, wrapTheta_range _ (hest _).1 (hest _).2⟩
      · have hr' : E.rotationInvariance = false := by simpa using hr
        simp only [ha, hr', if_true, Bool.not_false]
        exact ⟨_, _, rfl, by decide, by decide⟩
    · by_cases hr : E.rotationInvariance = true
      · simp only [ha, hr, if_false, Bool.not_true, Bool.false_eq_true]
        exact ⟨_, _, rfl, wrapTheta_range _ hsup.1 hsup.2⟩
      · have hr' : E.rotationInvariance = false := by simpa using hr
        simp only [ha, hr', if_false, Bool.not_false, if_true]
        exact ⟨_, _, rfl, by decide, by decide⟩
  · intro out theta h
    simp only [resolveTheta] at h
    split at h
    · split at h
      · simp only [Except.ok.injEq, Prod.mk.injEq] at h
        rw [← h.2]
        exact ⟨by decide, by decide⟩
      · split at h
        · exact absurd h (by simp)
        · split at h
          · exact absurd h (by simp)
          · simp only [Except.ok.injEq, Prod.mk.injEq] at h
            rw [← h.2]
            exact wrapTheta_range _ (hest _).1 (hest _).2
    · split at h
      · simp only [Except.ok.injEq, Prod.mk.injEq] at h
        rw [← h.2]
        exact ⟨by decide, by decide⟩
      · simp only [Except.ok.injEq, Prod.mk.injEq] at h
        rw [← h.2]
        exact wrapTheta_range _ hsup.1 hsup.2

theorem rotation_index_in_range_witness :
    (∃ out theta, resolveTheta exampleExtractor exampleFloatOps exampleImage
        ⟨5, 5, 7, 90, 0, 0, 0⟩ 0 = .ok (out, theta) ∧ 0 ≤ theta ∧ theta < 1024)
      ∧ ∀ a : ℚ, -360 ≤ a → a ≤ 719 →
        (-1024 ≤ rotEstimatedExact a ∧ rotEstimatedExact a < 2048)
          ∧ (-1024 ≤ rotSuppliedExact a ∧ rotSuppliedExact a < 2048) :=
  ⟨(rotation_index_in_range exampleExtractor exampleFloatOps exampleImage
      ⟨5, 5, 7, 90, 0, 0, 0⟩ 0
      (by decide) (fun _ => ⟨by simp [exampleFloatOps], by simp [exampleFloatOps]⟩)
      ⟨by decide, by decide⟩).1 (Or.inl ⟨by decide, by decide⟩),
    (rotation_index_in_range exampleExtractor exampleFloatOps exampleImage
      ⟨5, 5, 7, 90, 0, 0, 0⟩ 0
      (by decide) (fun _ => ⟨by simp [exampleFloatOps], by simp [exampleFloatOps]⟩)
      ⟨by decide, by decide⟩).2.2⟩

/-- C30: for the estimated angle of -90 degrees the corrected rotation index is
769, while -90 / (360 / 1024) = -256 rounded and reduced modulo 1024 is 768: the
cast of `-256 + 0.5` truncates toward zero to -255. -/
theorem rotation_index_of_negative_angle :
    wrapTheta (rotEstimatedExact (-90)) = 769 ∧ rotationIndexReference (-90) = 768 := by
  constructor
  · have h : rotEstimatedExact (-90) = -255 := by
      simp only [rotEstimatedExact, truncToInt, n_rot_]
      norm_num
      rw [Int.ceil_eq_iff]
      norm_num
    rw [h]
    decide
  · have h : roundNearest ((-90 : ℚ) / (360 / 1024)) = -256 := by
      simp only [roundNearest]
      rw [Int.floor_eq_iff]
      norm_num
    simp only [rotationIndexReference, h]
    decide

/-! ## Claims about the pair generation -/

/-- C25 (counterexample): the pairs are not assigned by the exact squared distance of
the stored points. For one ring of radius 0 with 1 point and one ring of radius 10
with 4 points and `dMax = dMin = 10`, the stored points 2, 3 and 4 lie at an exact
squared distance above 100 from the centre, yet `generateKernel` stores only the six
pairs of ring points as long pairs: the `float` value `norm_sq` of a pair with the
centre is 100, which is not above the `float` `dMin_sq`. -/
theorem center_pairs_are_not_long :
    ∃ T, generateKernel storedRingOps [0, 10] [1, 4] 10 10 [] = .ok T
      ∧ T.points_ = 5
      ∧ (∀ i, i < 5 → T.patternPoints_[i]? = fivePoints[i]?)
      ∧ ((2, 0) ∈ pairEnumeration T.points_ ∧ (3, 0) ∈ pairEnumeration T.points_
        ∧ (4, 0) ∈ pairEnumeration T.points_)
      ∧ (10 * 10 < pairSquaredDistance T.patternPoints_ (2, 0)
        ∧ 10 * 10 < pairSquaredDistance T.patternPoints_ (3, 0)
        ∧ 10 * 10 < pairSquaredDistance T.patternPoints_ (4, 0))
      ∧ T.longPairs_ = [⟨2, 1, 102, -101⟩, ⟨3, 1, 102, 0⟩, ⟨3, 2, 102, 102⟩,
          ⟨4, 1, 102, 102⟩, ⟨4, 2, 0, 102⟩, ⟨4, 3, -101, 102⟩]
      ∧ T.noLongPairs_ = 6 ∧ T.noShortPairs_ = 0
      ∧ pairNormSq T.patternPoints_ (2, 0) = f32 (10 * 10) := by
  obtain ⟨T, pairs, hT, hp, h5, hpts, _, hl, hns, hnl⟩ := stored_five_tables 10 10
  rw [five_points_pairs] at hp
  injection hp with hp
  subst hp
  have hm : ∀ i, 0 < i → i < 5 → (i, 0) ∈ pairEnumeration T.points_ := fun i h0 hi => by
    rw [h5]
    exact (mem_pairEnumeration 5 i 0).mpr ⟨h0, hi⟩
  have hq : ∀ i, 0 < i → i < 5 →
      pairSquaredDistance T.patternPoints_ (i, 0) = pairSquaredDistance fivePoints (i, 0)
        ∧ pairNormSq T.patternPoints_ (i, 0) = pairNormSq fivePoints (i, 0) :=
    fun i h0 hi =>
      ⟨pairSquaredDistance_congr _ _ _ (hpts i hi) (hpts 0 (by omega)),
        pairNormSq_congr _ _ _ (hpts i hi) (hpts 0 (by omega))⟩
  obtain ⟨⟨e2, e3, e4⟩, n2, _, _, ht⟩ := five_points_center
  refine ⟨T, hT, h5, hpts, ⟨hm 2 (by omega) (by omega), hm 3 (by omega) (by omega),
    hm 4 (by omega) (by omega)⟩, ⟨?_, ?_, ?_⟩, hl, ?_, hns, ?_⟩
  · rw [(hq 2 (by omega) (by omega)).1]; exact e2
  · rw [(hq 3 (by omega) (by omega)).1]; exact e3
  · rw [(hq 4 (by omega) (by omega)).1]; exact e4
  · rw [hnl]; rfl
  · rw [(hq 2 (by omega) (by omega)).2, n2, ht]

/-- C25 (amended): when the pair generation of `generateKernel` returns, the pairs it
has visited are the pairs `(i, j)` with `j < i < points_`, each once; the long pairs
are, in order, the pairs whose single-precision `norm_sq` is above the `float`
`dMin_sq = dMin * dMin`, the short pairs stored are the pairs whose `norm_sq` is below
the `float` `dMax_sq = dMax * dMax`, and `noShortPairs_` and `noLongPairs_` are the
numbers of those pairs. -/
theorem pairs_assigned_by_distance (pts : List BriskPatternPoint) (points_ : Nat)
    (dMin dMax : ℚ) (ic : List Nat) (T : PairTables)
    (h : kernelPairs pts points_ dMin dMax ic = .ok T) :
    (∀ i j, (i, j) ∈ pairEnumeration points_ ↔ j < i ∧ i < points_)
      ∧ (pairEnumeration points_).Nodup
      ∧ T.longPairs_.map (fun p => (p.i, p.j))
        = (pairEnumeration points_).filter
          (fun ij => decide (pairNormSq pts ij > f32 (dMin * dMin)))
      ∧ T.longPairs_.length
        = ((pairEnumeration points_).filter
          (fun ij => decide (pairNormSq pts ij > f32 (dMin * dMin)))).length
      ∧ T.noShortPairs_
        = ((pairEnumeration points_).filter
          (fun ij => decide (pairNormSq pts ij < f32 (dMax * dMax)))).length
      ∧ T.shortPairs_
        = writeShorts (effectiveIndexChange points_ ic) 0
          ((pairEnumeration points_).filter
            (fun ij => decide (pairNormSq pts ij < f32 (dMax * dMax))))
          (List.replicate (pairCapacity points_) none) := by
  obtain ⟨h1, h2, h3, _, _⟩ := kernelPairs_ok pts points_ dMin dMax ic T h
  refine ⟨mem_pairEnumeration points_, pairEnumeration_nodup points_, h1, ?_, h2, h3⟩
  show T.longPairs_.length
    = ((pairEnumeration points_).filter (isLongPair pts (f32 (dMin * dMin)))).length
  rw [← h1, List.length_map]

theorem pairs_assigned_by_distance_witness :
    kernelPairs threePoints 3 4 4 [] = .ok ⟨[⟨2, 1, 246, -327⟩], [some ⟨1, 0⟩, none, none], 1⟩
      ∧ (pairEnumeration 3).filter
          (fun ij => decide (pairNormSq threePoints ij > f32 (4 * 4))) = [(2, 1)]
      ∧ (pairEnumeration 3).filter (isShortPair threePoints (f32 (4 * 4))) = [(1, 0)] :=
  ⟨three_points_pairs,
    (pairs_assigned_by_distance threePoints 3 4 4 []
      ⟨[⟨2, 1, 246, -327⟩], [some ⟨1, 0⟩, none, none], 1⟩ three_points_pairs).2.2.1.symm,
    three_points_filters.2⟩

/-- C26 (counterexample): the pattern of one ring of radius 0 with 1 point and one
ring of radius 10 with 8 points is not partitioned whenever no pair has a distance
from `dMax` to `dMin`. With `dMax = dMin = 20` no pair of the nine stored points has
the exact squared distance 400, yet `generateKernel` assigns 32 of the 36 pairs: the
`float` value `norm_sq` of the four pairs of opposite ring points is 400, which is
neither above `dMin_sq` nor below `dMax_sq`. -/
theorem nine_point_pattern_leaves_pairs_out :
    ∃ T, generateKernel storedRingOps [0, 10] [1, 8] 20 20 [] = .ok T
      ∧ T.points_ = 9
      ∧ (∀ i, i < 9 → T.patternPoints_[i]? = ninePoints[i]?)
      ∧ (pairEnumeration T.points_).length = 36
      ∧ (∀ ij ∈ pairEnumeration T.points_,
        ¬ (20 * 20 ≤ pairSquaredDistance T.patternPoints_ ij
          ∧ pairSquaredDistance T.patternPoints_ ij ≤ 20 * 20))
      ∧ T.noShortPairs_ = 32 ∧ T.noLongPairs_ = 0
      ∧ T.noShortPairs_ + T.noLongPairs_ = 32 := by
  obtain ⟨T, pairs, hT, hp, h9, hpts, _, _, hns, hnl⟩ := stored_nine_tables 20 20
  have hv := nine_points_pairs_far
  rw [hp] at hv
  simp only [Except.map, Except.ok.injEq, Prod.mk.injEq] at hv
  have hs : T.noShortPairs_ = 32 := by rw [hns]; exact hv.2
  have hl : T.noLongPairs_ = 0 := by rw [hnl]; exact hv.1
  refine ⟨T, hT, h9, hpts, by rw [h9, pairEnumeration_length], ?_, hs, hl, by rw [hs, hl]⟩
  intro ij hij
  rw [h9] at hij
  rw [(pair_quantities_congr _ ninePoints 9 hpts ij hij).2]
  exact of_decide_eq_true ((List.all_eq_true.mp nine_points_exact_far) ij hij)

/-- C26 (amended): the pattern of one ring of radius 0 with 1 point and one ring of
radius 10 with 8 points has 9 points and 36 pairs; with `0 ≤ dMax ≤ dMin` no pair is
both a long pair and a short pair, and when in addition no pair has a single-precision
`norm_sq` from the `float` `dMax_sq` to the `float` `dMin_sq`, `noShortPairs_` and
`noLongPairs_` add up to 36. -/
theorem nine_point_pattern_partition (ops : PatternOps) (dMax dMin : ℚ) (ic : List Nat)
    (T : KernelTables) (h0 : 0 ≤ dMax) (hle : dMax ≤ dMin)
    (h : generateKernel ops [0, 10] [1, 8] dMax dMin ic = .ok T) :
    T.points_ = 9
      ∧ (pairEnumeration T.points_).length = 36
      ∧ (∀ ij ∈ pairEnumeration T.points_,
        ¬ (pairNormSq T.patternPoints_ ij > f32 (dMin * dMin)
          ∧ pairNormSq T.patternPoints_ ij < f32 (dMax * dMax)))
      ∧ T.noLongPairs_
        = ((pairEnumeration T.points_).filter
          (fun ij => decide (pairNormSq T.patternPoints_ ij > f32 (dMin * dMin)))).length
      ∧ T.noShortPairs_
        = ((pairEnumeration T.points_).filter
          (fun ij => decide (pairNormSq T.patternPoints_ ij < f32 (dMax * dMax)))).length
      ∧ ((∀ ij ∈ pairEnumeration T.points_,
          ¬ (f32 (dMax * dMax) ≤ pairNormSq T.patternPoints_ ij
            ∧ pairNormSq T.patternPoints_ ij ≤ f32 (dMin * dMin))) →
        T.noShortPairs_ + T.noLongPairs_ = 36) := by
  have hsq : f32 (dMax * dMax) ≤ f32 (dMin * dMin) :=
    f32_mono _ _ (mul_le_mul hle hle h0 (le_trans h0 hle))
  obtain ⟨_, _, pairs, hp, hT⟩ := generateKernel_ok _ _ _ _ _ _ _ h
  have h9 : ((([1, 8] : List Int).sum) % 4294967296).toNat = 9 := by decide
  rw [h9] at hp hT
  generalize (((List.range scales_).map fun scale =>
    (scalePoints ops [0, 10] [1, 8] scale).map Prod.fst).flatten) = P at hp hT
  obtain ⟨h1, h2, _, _, _⟩ := kernelPairs_ok P 9 dMin dMax ic pairs hp
  have hlen : (pairEnumeration 9).length = 36 := by rw [pairEnumeration_length]
  have hl : pairs.longPairs_.length
      = ((pairEnumeration 9).filter (isLongPair P (f32 (dMin * dMin)))).length := by
    rw [← h1, List.length_map]
  subst hT
  refine ⟨rfl, hlen, ?_, hl, h2, ?_⟩
  · intro ij _ hboth
    linarith [hboth.1, hboth.2]
  · intro hgap
    show pairs.noShortPairs_ + pairs.longPairs_.length = 36
    rw [h2, hl, ← hlen]
    apply filter_partition_length
    intro ij hij
    have hg := hgap ij hij
    simp only [isLongPair, isShortPair, decide_eq_true_eq, decide_eq_false_iff_not, not_lt]
    simp only [] at hg
    by_cases hs : pairNormSq P ij < f32 (dMax * dMax)
    · left; exact ⟨hs, by linarith⟩
    · right
      refine ⟨le_of_not_lt hs, ?_⟩
      by_contra hn
      exact hg ⟨le_of_not_lt hs, le_of_not_lt hn⟩

theorem nine_point_pattern_partition_witness :
    ∃ T, generateKernel storedRingOps [0, 10] [1, 8] 8 9 [] = .ok T
      ∧ (∀ i, i < 9 → T.patternPoints_[i]? = ninePoints[i]?)
      ∧ T.points_ = 9 ∧ T.noShortPairs_ + T.noLongPairs_ = 36 := by
  obtain ⟨T, _, hT, _, h9, hpts, _⟩ := stored_nine_tables 8 9
  have h := nine_point_pattern_partition storedRingOps 8 9 [] T (by norm_num) (by norm_num) hT
  refine ⟨T, hT, hpts, h.1, h.2.2.2.2.2 ?_⟩
  intro ij hij
  rw [h9] at hij
  rw [(pair_quantities_congr _ ninePoints 9 hpts ij hij).1]
  exact of_decide_eq_true ((List.all_eq_true.mp nine_points_gap) ij hij)

/-- C27 (counterexample): the short pair stored at position `n` is not always the
`n`-th pair whose exact squared distance is below `dMax²`. For one ring of radius 0
with 1 point and one ring of radius 10 with 8 points and `dMax = dMin = 10`, the first
pair in the order of the loops whose exact squared distance is below 100 is `(2, 0)`,
and twelve pairs have one; `generateKernel` stores the eight pairs of neighbours on
the ring, `(2, 1)` at position 0: the `float` value `norm_sq` of a pair with the
centre is 100. -/
theorem short_pair_position_not_by_exact_distance :
    ∃ T, generateKernel storedRingOps [0, 10] [1, 8] 10 10 [] = .ok T
      ∧ T.points_ = 9
      ∧ (∀ i, i < 9 → T.patternPoints_[i]? = ninePoints[i]?)
      ∧ (pairEnumeration T.points_).filter
          (fun ij => decide (pairSquaredDistance T.patternPoints_ ij < 10 * 10))
        = [(2, 0), (2, 1), (3, 2), (4, 0), (4, 3), (5, 4), (6, 0), (6, 5), (7, 6), (8, 0),
          (8, 1), (8, 7)]
      ∧ T.noShortPairs_ = 8
      ∧ T.shortPairs_.take 8 = [some ⟨2, 1⟩, some ⟨3, 2⟩, some ⟨4, 3⟩, some ⟨5, 4⟩,
          some ⟨6, 5⟩, some ⟨7, 6⟩, some ⟨8, 1⟩, some ⟨8, 7⟩] := by
  obtain ⟨T, pairs, hT, hp, h9, hpts, hsp, _, hns, _⟩ := stored_nine_tables 10 10
  have hv := nine_points_pairs_near
  rw [hp] at hv
  simp only [Except.map, Except.ok.injEq, Prod.mk.injEq] at hv
  refine ⟨T, hT, h9, hpts, ?_, by rw [hns]; exact hv.2.1, by rw [hsp]; exact hv.2.2⟩
  rw [h9, ← nine_points_exact_near]
  apply List.filter_congr
  intro ij hij
  rw [(pair_quantities_congr _ ninePoints 9 hpts ij hij).2]

theorem getD_range (n k : Nat) (h : k < n) : (List.range n).getD k 0 = k := by
  simp [List.getD_eq_getElem?_getD, List.getElem?_range h]

theorem getD_inj_of_nodup (ic : List Nat) (hn : ic.Nodup) (k1 k2 : Nat) (h1 : k1 < ic.length)
    (h2 : k2 < ic.length) (h : ic.getD k1 0 = ic.getD k2 0) : k1 = k2 := by
  simp only [List.getD_eq_getElem?_getD, List.getElem?_eq_getElem h1,
    List.getElem?_eq_getElem h2, Option.getD_some] at h
  exact (List.Nodup.getElem_inj_iff hn).mp h

/-- C27 (amended): when the pair generation returns, then without a remapping the
`n`-th pair whose single-precision `norm_sq` is below the `float`
`dMax_sq = dMax * dMax` (`isShortPair`), in the order of the loops, is stored at
position `n`; and with a remapping that is a permutation of `0 .. noShortPairs_ - 1`
it is stored at position `indexChange[n]`, so that the first `noShortPairs_` entries
of the array are a permutation of those pairs. -/
theorem short_pairs_stored_by_index (pts : List BriskPatternPoint) (points_ : Nat)
    (dMin dMax : ℚ) (ic : List Nat) (T : PairTables)
    (h : kernelPairs pts points_ dMin dMax ic = .ok T) :
    (ic = [] → ∀ (n : Nat) (ij : Nat × Nat),
        ((pairEnumeration points_).filter (isShortPair pts (f32 (dMax * dMax))))[n]? = some ij →
        T.shortPairs_[n]? = some (some ⟨ij.1, ij.2⟩))
      ∧ (ic ≠ [] → ic.Perm (List.range T.noShortPairs_) →
        (∀ (n : Nat) (ij : Nat × Nat),
          ((pairEnumeration points_).filter (isShortPair pts (f32 (dMax * dMax))))[n]? = some ij →
          T.shortPairs_[ic.getD n 0]? = some (some ⟨ij.1, ij.2⟩))
        ∧ (T.shortPairs_.take T.noShortPairs_).Perm
          (((pairEnumeration points_).filter (isShortPair pts (f32 (dMax * dMax)))).map
            fun ij => some ⟨ij.1, ij.2⟩)) := by
  obtain ⟨_, h2, h3, h4, h5⟩ := kernelPairs_ok pts points_ dMin dMax ic T h
  constructor
  · intro hic n ij hn
    subst hic
    have hlt : n < ((pairEnumeration points_).filter (isShortPair pts (f32 (dMax * dMax)))).length :=
      (List.getElem?_eq_some_iff.mp hn).1
    simp only [effectiveIndexChange, List.length_nil, if_true, List.length_range] at h3 h5
    have hget := writeShorts_get (List.range (pairCapacity points_))
      ((pairEnumeration points_).filter (isShortPair pts (f32 (dMax * dMax)))) 0
      (List.replicate (pairCapacity points_) none)
      (fun k1 k2 hk1 hk2 heq => by
        rw [Nat.zero_add, Nat.zero_add, getD_range _ _ (h5 k1 hk1).1,
          getD_range _ _ (h5 k2 hk2).1] at heq
        exact heq)
      (fun k hk => by
        rw [Nat.zero_add, List.length_replicate]
        exact (h5 k hk).2)
      n ij hn
    rw [Nat.zero_add, getD_range _ _ (h5 n hlt).1] at hget
    rw [h3]
    exact hget
  · intro hic hperm
    have heff : effectiveIndexChange points_ ic = ic := by
      simp only [effectiveIndexChange]
      rw [if_neg]
      intro hlen
      exact hic (List.length_eq_zero.mp hlen)
    rw [heff] at h3 h5
    have hnodup : ic.Nodup := hperm.nodup_iff.mpr (List.nodup_range _)
    have hiclen : ic.length = T.noShortPairs_ := by rw [hperm.length_eq, List.length_range]
    have hpoint : ∀ (n : Nat) (ij : Nat × Nat),
        ((pairEnumeration points_).filter (isShortPair pts (f32 (dMax * dMax))))[n]? = some ij →
        T.shortPairs_[ic.getD n 0]? = some (some ⟨ij.1, ij.2⟩) := by
      intro n ij hn
      have hget := writeShorts_get ic
        ((pairEnumeration points_).filter (isShortPair pts (f32 (dMax * dMax)))) 0
        (List.replicate (pairCapacity points_) none)
        (fun k1 k2 hk1 hk2 heq => by
          rw [Nat.zero_add, Nat.zero_add] at heq
          exact getD_inj_of_nodup ic hnodup k1 k2 (h5 k1 hk1).1 (h5 k2 hk2).1 heq)
        (fun k hk => by
          rw [Nat.zero_add, List.length_replicate]
          exact (h5 k hk).2)
        n ij hn
      rw [Nat.zero_add] at hget
      rw [h3]
      exact hget
    refine ⟨hpoint, ?_⟩
    have hle : T.noShortPairs_ ≤ T.shortPairs_.length := by
      rw [h4]
      by_cases hz : T.noShortPairs_ = 0
      · omega
      · have hmem : T.noShortPairs_ - 1 ∈ ic :=
          hperm.mem_iff.mpr (List.mem_range.mpr (by omega))
        obtain ⟨k, hk, hkeq⟩ := List.getElem_of_mem hmem
        have hb := (h5 k (by rw [← h2, ← hiclen]; exact hk)).2
        have : ic.getD k 0 = T.noShortPairs_ - 1 := by
          simp [List.getD_eq_getElem?_getD, List.getElem?_eq_getElem hk, hkeq]
        omega
    have htake : T.shortPairs_.take T.noShortPairs_
        = (List.range T.noShortPairs_).map fun pos => T.shortPairs_.getD pos none := by
      apply List.ext_getElem?
      intro i
      by_cases hi : i < T.noShortPairs_
      · rw [List.getElem?_take_of_lt hi, List.getElem?_map, List.getElem?_range hi]
        simp [List.getD_eq_getElem?_getD, List.getElem?_eq_getElem (by omega : i < T.shortPairs_.length)]
      · rw [List.getElem?_eq_none (by simp; omega), List.getElem?_eq_none (by simp; omega)]
    rw [htake]
    have hmap : ic.map (fun pos => T.shortPairs_.getD pos none)
        = ((pairEnumeration points_).filter (isShortPair pts (f32 (dMax * dMax)))).map
          fun ij => some ⟨ij.1, ij.2⟩ := by
      apply List.ext_getElem?
      intro k
      by_cases hk : k < ic.length
      · have hk2 : k < ((pairEnumeration points_).filter (isShortPair pts (f32 (dMax * dMax)))).length := by
          rw [← h2, ← hiclen]; exact hk
        have hp := hpoint k _ (List.getElem?_eq_getElem hk2)
        have hd : ic.getD k 0 = ic[k] := by
          simp [List.getD_eq_getElem?_getD, List.getElem?_eq_getElem hk]
        rw [hd] at hp
        simp [List.getElem?_map, List.getElem?_eq_getElem hk, List.getElem?_eq_getElem hk2,
          List.getD_eq_getElem?_getD, hp]
      · have hk2 : ¬ k < ((pairEnumeration points_).filter (isShortPair pts (f32 (dMax * dMax)))).length := by
          rw [← h2, ← hiclen]; exact hk
        rw [List.getElem?_eq_none (by simp; omega), List.getElem?_eq_none (by simp; omega)]
    rw [← hmap]
    exact (hperm.map _).symm

theorem short_pairs_stored_by_index_witness :
    (([] : List Nat) = [] → ∀ (n : Nat) (ij : Nat × Nat),
        ((pairEnumeration 3).filter (isShortPair threePoints (f32 (6 * 6))))[n]? = some ij →
        ([some (⟨1, 0⟩ : BriskShortPair), some ⟨2, 0⟩, some ⟨2, 1⟩])[n]?
          = some (some ⟨ij.1, ij.2⟩))
      ∧ kernelPairs threePoints 3 6 6 [2, 0, 1]
        = .ok ⟨[], [some ⟨2, 0⟩, some ⟨2, 1⟩, some ⟨1, 0⟩], 3⟩ :=
  ⟨(short_pairs_stored_by_index threePoints 3 6 6 []
      ⟨[], [some ⟨1, 0⟩, some ⟨2, 0⟩, some ⟨2, 1⟩], 3⟩ three_points_short.1).1,
    three_points_short.2⟩

/-- C29 (counterexample): a call with lists of different lengths does not always fail,
and it can build a pattern. For one radius and two numbers of points the `assert` of
a build without `NDEBUG` aborts the program, which is no exception; in a build with
`NDEBUG` nothing is tested, the loops read the first number only, and the call returns
the tables of a pattern of one point. -/
theorem generateKernel_release_builds_pattern :
    generateKernel examplePatternOps [0] [1, 8] 1 1 [] = .error .assertion
      ∧ ∃ T, generateKernelNDEBUG examplePatternOps [0] [1, 8] 1 1 [] = .ok T
        ∧ T.points_ = 1 ∧ T.patternPoints_.length = 65536 := by
  refine ⟨by simp [generateKernel], ?_⟩
  obtain ⟨T, hT⟩ := kernelTables_total examplePatternOps [0] [1] 1 1 rfl (by decide)
    (by decide)
  have hlen := patternPoints_length examplePatternOps [0] [1] rfl
  obtain ⟨pairs, _, hTeq⟩ := kernelTables_ok _ _ _ _ _ _ _ hT
  refine ⟨T, ?_, ?_, ?_⟩
  · have ht : ([1, 8] : List Int).take ([0] : List ℚ).length = [1] := rfl
    simp only [generateKernelNDEBUG, ht, hT]
    rfl
  · rw [hTeq]; rfl
  · rw [hTeq]; exact hlen.trans (by decide)

/-- C29 (amended): when the list of radii and the list of numbers of points differ in
length, `generateKernel` in a build without `NDEBUG` stops at its `assert` and builds
no table; in a build with `NDEBUG` it reads beyond the end of the list of numbers when
that one is the shorter, and otherwise builds the tables of the first numbers. -/
theorem generateKernel_rejects_mismatch (ops : PatternOps) (radiusList : List ℚ)
    (numberList : List Int) (dMax dMin : ℚ) (indexChange : List Nat)
    (h : radiusList.length ≠ numberList.length) :
    generateKernel ops radiusList numberList dMax dMin indexChange = .error .assertion
      ∧ (numberList.length < radiusList.length →
        generateKernelNDEBUG ops radiusList numberList dMax dMin indexChange
          = .error .outOfBounds)
      ∧ (radiusList.length < numberList.length → ∀ T,
        kernelTables ops radiusList (numberList.take radiusList.length) dMax dMin indexChange
          = .ok T →
        generateKernelNDEBUG ops radiusList numberList dMax dMin indexChange = .ok T) := by
  refine ⟨by simp [generateKernel, h], fun hlt => ?_, fun hlt T hT => ?_⟩
  · simp only [generateKernelNDEBUG, if_pos hlt]
  · simp only [generateKernelNDEBUG, if_neg (Nat.lt_asymm hlt), hT]

theorem generateKernel_rejects_mismatch_witness :
    generateKernel examplePatternOps [0, 10] [1] (585 / 100) (82 / 10) [] = .error .assertion
      ∧ generateKernelNDEBUG examplePatternOps [0, 10] [1] (585 / 100) (82 / 10) []
        = .error .outOfBounds :=
  ⟨(generateKernel_rejects_mismatch examplePatternOps [0, 10] [1] (585 / 100) (82 / 10) []
      (by decide)).1,
    (generateKernel_rejects_mismatch examplePatternOps [0, 10] [1] (585 / 100) (82 / 10) []
      (by decide)).2.1 (by decide)⟩

/-! ## Claims about the construction of the tables -/

/-- C24 (as stated, refuted): a pattern of 5890 coincident points has 17343105 short
pairs, for which `generateKernel` sets `strings_` to 2167888 bytes: fewer than the
2167904 of `ceil(noShortPairs_ / 128) * 16`, and fewer than the bits need. -/
theorem strings_below_ceil_for_many_pairs :
    ∃ T, generateKernel examplePatternOps [0] [5890] 1 1 [] = .ok T
      ∧ T.noShortPairs_ = 17343105 ∧ T.strings_ = 2167888
      ∧ (T.noShortPairs_ + 127) / 128 * 16 = 2167904 ∧ 8 * T.strings_ < T.noShortPairs_ := by
  obtain ⟨T, hT⟩ := generateKernel_total examplePatternOps [0] [5890] 1 1
    (by decide) (by decide) (by decide) (by decide)
  obtain ⟨h1, h2, h3⟩ := zero_radius_all_short examplePatternOps [5890] 1 1
    (by rw [mul_one, f32_one]; norm_num) T hT
  have hp : T.points_ = 5890 := by rw [h2]; decide
  have hn : T.noShortPairs_ = 17343105 := by rw [h1, hp]
  have hs : T.strings_ = 2167888 := by
    rw [h3, hn]
    with_unfolding_all rfl
  exact ⟨T, hT, hn, hs, by rw [hn], by rw [hn, hs]; decide⟩

/-- C24 (amended): for fewer than `2^24` short pairs the number of bytes that
`generateKernel` stores in `strings_` is `ceil(noShortPairs_ / 128) * 16`; every
construction from a stream that returns stores 48 bytes for its 384 short pairs;
and that number is what `descriptorSize` reports and the width of the rows
allocated for the output. -/
theorem descriptor_length_is_ceil (ops : PatternOps) (radiusList : List ℚ)
    (numberList : List Int) (dMax dMin : ℚ) (indexChange : List Nat) (T : KernelTables)
    (h : generateKernel ops radiusList numberList dMax dMin indexChange = .ok T)
    (hn : T.noShortPairs_ < 16777216) :
    T.strings_ = (T.noShortPairs_ + 127) / 128 * 16
      ∧ (∀ pattern_stream patternScale T2,
        InitFromStream ops pattern_stream patternScale = .ok T2 →
        T2.noShortPairs_ = 384 ∧ T2.strings_ = 48
          ∧ T2.strings_ = (T2.noShortPairs_ + 127) / 128 * 16)
      ∧ (∀ E : BriskDescriptorExtractor, descriptorSize E = E.strings_
        ∧ ∀ count, (AllocateDescriptors E count).cols = E.strings_) := by
  have h48 : stringsOf 384 = 48 := by rw [stringsOf_small 384 (by decide)]
  refine ⟨?_, ?_, fun E => ⟨rfl, fun _ => rfl⟩⟩
  · obtain ⟨_, _, pairs, _, hT⟩ := generateKernel_ok _ _ _ _ _ _ _ h
    subst hT
    exact stringsOf_small _ hn
  · intro ps s T2 h2
    obtain ⟨u, _, _, h3, h4⟩ := InitFromStream_ok _ _ _ _ h2
    rw [h4, h3, h48]
    exact ⟨rfl, rfl, rfl⟩

theorem descriptor_length_is_ceil_witness :
    ∃ T, generateKernel examplePatternOps [0, 10] [1, 8] (585 / 100) (82 / 10) [] = .ok T
      ∧ T.strings_ = (T.noShortPairs_ + 127) / 128 * 16 := by
  obtain ⟨T, hT⟩ := generateKernel_total examplePatternOps [0, 10] [1, 8] (585 / 100) (82 / 10)
    (by decide) (by decide) (by decide) (by decide)
  have hn : T.noShortPairs_ < 16777216 := by
    obtain ⟨_, _, pairs, hp, hTeq⟩ := generateKernel_ok _ _ _ _ _ _ _ hT
    obtain ⟨_, h2, _⟩ := kernelPairs_ok _ _ _ _ _ _ hp
    subst hTeq
    show pairs.noShortPairs_ < _
    rw [h2]
    refine Nat.lt_of_le_of_lt (List.length_filter_le _ _) ?_
    rw [pairEnumeration_length]
    decide
  exact ⟨T, hT, (descriptor_length_is_ceil examplePatternOps [0, 10] [1, 8] (585 / 100)
    (82 / 10) [] T hT hn).1⟩

/-- C28: for a good stream that holds a well-formed pattern (fewer than 65536 points,
the declared number of short pairs followed by that many pairs, indices that fit an
`unsigned int`, long pairs of existing points), `InitFromStream` raises exactly when
the declared number of short pairs differs from 384, and with 384 it returns the
tables. -/
theorem stream_raises_iff_count_differs (ops : PatternOps) (points : List BriskPatternPoint)
    (n : Nat) (shortPairs : List BriskShortPair) (longPairs : List (Nat × Nat))
    (patternScale : ℚ) (hp : points.length < 65536) (hn : n < 4294967296)
    (hs : shortPairs.length = n)
    (hsi : ∀ p ∈ shortPairs, p.i < 4294967296 ∧ p.j < 4294967296)
    (hl : longPairs.length < 4294967296)
    (hli : ∀ p ∈ longPairs, p.1 < points.length ∧ p.2 < points.length) :
    ((∃ e, InitFromStream ops ⟨true, serializePattern points n shortPairs longPairs⟩
        patternScale = .error e) ↔ n ≠ 384)
      ∧ (∀ e, InitFromStream ops ⟨true, serializePattern points n shortPairs longPairs⟩
        patternScale = .error e → e = .shortPairsMismatch)
      ∧ (n = 384 → ∃ T,
        InitFromStream ops ⟨true, serializePattern points n shortPairs longPairs⟩ patternScale
          = .ok T
        ∧ T.noShortPairs_ = 384 ∧ T.shortPairs_ = shortPairs.map some) := by
  obtain ⟨h1, h2⟩ := InitFromStream_serialized ops points n shortPairs longPairs patternScale
    hp hn hs hsi hl hli
  by_cases hc : n = 384
  · obtain ⟨T, hT, hT1, hT2, _⟩ := h2 hc
    refine ⟨⟨fun ⟨e, he⟩ => ?_, fun hne => absurd hc hne⟩, fun e he => ?_,
      fun _ => ⟨T, hT, hT1, hT2⟩⟩
    · rw [hT] at he
      exact absurd he (by simp)
    · rw [hT] at he
      exact absurd he (by simp)
  · have he := h1 hc
    refine ⟨⟨fun _ => hc, fun _ => ⟨_, he⟩⟩, fun e he2 => ?_, fun h => absurd h hc⟩
    rw [he] at he2
    simp only [Except.error.injEq] at he2
    exact he2.symm

theorem stream_raises_iff_count_differs_witness :
    (∃ T, InitFromStream examplePatternOps
        ⟨true, serializePattern threePoints 384 (List.replicate 384 ⟨1, 0⟩) [(2, 1)]⟩ 1 = .ok T
      ∧ T.noShortPairs_ = 384)
    ∧ InitFromStream examplePatternOps
        ⟨true, serializePattern threePoints 2 [⟨1, 0⟩, ⟨2, 0⟩] [(2, 1)]⟩ 1
      = .error .shortPairsMismatch := by
  obtain ⟨T, hT, h384, _⟩ := (stream_raises_iff_count_differs examplePatternOps threePoints 384
    (List.replicate 384 ⟨1, 0⟩) [(2, 1)] 1 (by decide) (by decide) (List.length_replicate _ _)
    (by intro p hp
        rw [List.eq_of_mem_replicate hp]
        exact ⟨by decide, by decide⟩)
    (by decide) (by decide)).2.2 rfl
  refine ⟨⟨T, hT, h384⟩, ?_⟩
  have h2 := InitFromStream_serialized examplePatternOps threePoints 2 [⟨1, 0⟩, ⟨2, 0⟩]
    [(2, 1)] 1 (by decide) (by decide) (by decide) (by decide) (by decide) (by decide)
  exact h2.1 (by decide)


/-! ## Claims about the orientation sums and the rows of the descriptors -/

/-- C31 (as stated, refuted): for the long pair that the tables of three points hold,
with weights 246 and -327 scaled by 2048, and a difference of values of 100, the
loop adds 24 and -31, the products divided by 1024; divided by 2048 they would
be 12 and -15. -/
theorem direction_terms_not_divided_by_2048 :
    kernelPairs threePoints 3 4 4 [] = .ok ⟨[⟨2, 1, 246, -327⟩], [some ⟨1, 0⟩, none, none], 1⟩
      ∧ longPairWeight (3 - 0) 25 = 246 ∧ longPairWeight (0 - 4) 25 = -327
      ∧ directionLoop [0, 0, 100] [⟨2, 1, 246, -327⟩] 0 0 = .ok (24, -31)
      ∧ directionTerm [0, 0, 100] 2 1 246 2048 = 12
      ∧ directionTerm [0, 0, 100] 2 1 (-327) 2048 = -15 :=
  ⟨three_points_pairs, three_points_weights.1, three_points_weights.2, rfl, rfl, rfl⟩

/-- C31 (amended): for the long pairs that the pair generation has stored, whose
weights are the differences of coordinates divided by the squared distance and
scaled by 2048, the orientation loop adds for every pair the product of the
difference of the two values and the weight, divided by 1024 as `int`s are. -/
theorem direction_terms_divided_by_1024 (pts : List BriskPatternPoint) (points_ : Nat)
    (dMin dMax : ℚ) (ic : List Nat) (T : PairTables) (values : List Int)
    (h : kernelPairs pts points_ dMin dMax ic = .ok T)
    (hv : ∀ p ∈ T.longPairs_, p.i < values.length ∧ p.j < values.length) :
    directionLoop values T.longPairs_ 0 0
        = .ok ((T.longPairs_.map fun p =>
              directionTerm values p.i p.j p.weighted_dx 1024).sum,
            (T.longPairs_.map fun p =>
              directionTerm values p.i p.j p.weighted_dy 1024).sum)
      ∧ ∀ p ∈ T.longPairs_, ∃ pi pj, pts[p.i]? = some pi ∧ pts[p.j]? = some pj
        ∧ p.weighted_dx = longPairWeight (floatDifference pi.x pj.x) (normSq pi pj)
        ∧ p.weighted_dy = longPairWeight (floatDifference pi.y pj.y) (normSq pi pj) := by
  refine ⟨?_, kernelPairs_weights pts points_ dMin dMax ic T h⟩
  rw [directionLoop_sum values T.longPairs_ 0 0 hv, Int.zero_add, Int.zero_add]

theorem direction_terms_divided_by_1024_witness :
    directionLoop [0, 0, 100] [⟨2, 1, 246, -327⟩] 0 0
      = .ok ((([⟨2, 1, 246, -327⟩] : List BriskLongPair).map fun p =>
            directionTerm [0, 0, 100] p.i p.j p.weighted_dx 1024).sum,
          (([⟨2, 1, 246, -327⟩] : List BriskLongPair).map fun p =>
            directionTerm [0, 0, 100] p.i p.j p.weighted_dy 1024).sum) :=
  (direction_terms_divided_by_1024 threePoints 3 4 4 []
    ⟨[⟨2, 1, 246, -327⟩], [some ⟨1, 0⟩, none, none], 1⟩ [0, 0, 100]
    three_points_pairs (by decide)).1

/-- C37: when the row width is a multiple of four bytes with room for the bits of
the short pairs, `setDescriptorBits` for key point `k` leaves the size and shape of
the descriptor matrix as they are and changes no byte before byte `strings_ * k` or
from byte `strings_ * (k + 1)` on: the word that holds such a byte is the same
before and after. -/
theorem setDescriptorBits_changes_only_its_row (E : BriskDescriptorExtractor) (k : Nat)
    (values : List Int) (d d' : Descriptors) (hs : 4 ∣ E.strings_)
    (hfit : E.shortPairs_.length ≤ 8 * E.strings_)
    (h : setDescriptorBits E k values (some d) = .ok d') :
    d'.rows = d.rows ∧ d'.cols = d.cols ∧ d'.words.length = d.words.length
      ∧ ∀ byte, (byte < E.strings_ * k ∨ E.strings_ * (k + 1) ≤ byte) →
        d'.words[byte / 4]? = d.words[byte / 4]? := by
  obtain ⟨s, hs⟩ := hs
  simp only [setDescriptorBits] at h
  split at h
  · rename_i words hw
    simp only [Except.ok.injEq] at h
    subst h
    obtain ⟨h1, h2⟩ := setBitsLoop_frame values E.shortPairs_ _ 0 d.words words (by decide) hw
    refine ⟨rfl, rfl, h1, fun byte hb => ?_⟩
    apply h2
    have e1 : E.strings_ * k = 4 * (s * k) := by rw [hs, Nat.mul_assoc]
    have e2 : E.strings_ * (k + 1) = 4 * (s * k) + 4 * s := by
      rw [hs, Nat.mul_add, Nat.mul_one, Nat.mul_assoc]
    rw [e1] at hb ⊢
    rw [e2] at hb
    rw [hs] at hfit
    generalize s * k = a at hb ⊢
    omega
  · simp at h

theorem setDescriptorBits_changes_only_its_row_witness :
    setDescriptorBits exampleExtractor 1 [0, 2, 4] (some (AllocateDescriptors exampleExtractor 2))
        = .ok ⟨2, 16, [0, 0, 0, 0, 6, 0, 0, 0]⟩
      ∧ ∀ byte, (byte < exampleExtractor.strings_ * 1 ∨ exampleExtractor.strings_ * (1 + 1) ≤ byte) →
        ([0, 0, 0, 0, 6, 0, 0, 0] : List Nat)[byte / 4]?
          = (AllocateDescriptors exampleExtractor 2).words[byte / 4]? :=
  ⟨rfl, (setDescriptorBits_changes_only_its_row exampleExtractor 1 [0, 2, 4]
    (AllocateDescriptors exampleExtractor 2) ⟨2, 16, [0, 0, 0, 0, 6, 0, 0, 0]⟩ ⟨4, rfl⟩
    (by decide) rfl).2.2.2⟩


/-! ## Claims about the sampling of the image -/

/-- C32: for the sample position `(-1/2, 1/2)` on an image of 2 by 2 pixels and a
`sigma` below 0.5, column `floor(-1/2) = -1` of the neighbourhood lies outside the
image, and the function does not return -1: the conversion to `int` gives column 0,
the weights along `x` are -512 and 1536, and the value returned is 15360. -/
theorem bilinear_sample_at_negative_position :
    ⌊(-1 / 2 : ℚ)⌋ = -1
      ∧ truncToInt (-1 / 2) = 0
      ∧ truncToInt (((-1 / 2 : ℚ) - ((0 : Int) : ℚ)) * 1024) = -512
      ∧ bilinearSample smallImage (-1 / 2) (1 / 2) = .ok 15360
      ∧ SmoothedIntensity [⟨-1, 0, 1 / 4⟩] 1 smallImage [] (1 / 2) (1 / 2) 0 0 0 = .ok 15360 :=
  ⟨by with_unfolding_all rfl, by with_unfolding_all rfl, by with_unfolding_all rfl,
    by with_unfolding_all rfl, by with_unfolding_all rfl⟩

/-- C33: on an image of 7 by 7 pixels whose only non-zero pixel is `(5, 5)`, with
its exact integral table, for the sample at `(3.25, 3.25)` with `sigma = 2`
(`dx + dy = 6`), the branch on the integral table gives 0 and the pixel walk
gives 9180; `SmoothedIntensity` takes the first and returns 0. -/
theorem integral_branch_differs_from_pixel_walk :
    (areaGeometry (13 / 4) (13 / 4) 2).dx + (areaGeometry (13 / 4) (13 / 4) 2).dy = 6
      ∧ integralBranch spotImage (integralTable spotImage) (areaGeometry (13 / 4) (13 / 4) 2)
        (areaWeights (areaGeometry (13 / 4) (13 / 4) 2) 16) = .ok 0
      ∧ pixelWalk spotImage (areaGeometry (13 / 4) (13 / 4) 2)
        (areaWeights (areaGeometry (13 / 4) (13 / 4) 2) 16) = .ok 9180
      ∧ areaSample spotImage (integralTable spotImage) (13 / 4) (13 / 4) 2 = .ok 0 :=
  ⟨by with_unfolding_all rfl, by with_unfolding_all rfl, by with_unfolding_all rfl,
    by with_unfolding_all rfl⟩

/-- C34: for an area sample on an image whose buffer has `rows * cols` pixels, with
an integral table of `(rows + 1) * (cols + 1)` entries, `SmoothedIntensity` makes no
access outside the two buffers; past the four tests on the borders of the square,
neither the branch on the integral table nor the pixel walk does. -/
theorem area_sample_reads_inside (image : PixelImage) (integral : List Int)
    (xf yf sigma_half : ℚ) (hs : 1 / 2 ≤ sigma_half)
    (hdata : (image.data.length : Int) = image.rows * image.cols)
    (hint : (integral.length : Int) = (image.rows + 1) * (image.cols + 1)) :
    areaSample image integral xf yf sigma_half ≠ .error .outOfBounds
      ∧ (0 ≤ xf - sigma_half → xf + sigma_half ≤ ((image.cols - 1 : Int) : ℚ) →
        0 ≤ yf - sigma_half → yf + sigma_half ≤ ((image.rows - 1 : Int) : ℚ) →
        integralBranch image integral (areaGeometry xf yf sigma_half)
            (areaWeights (areaGeometry xf yf sigma_half) (4 * sigma_half * sigma_half))
          ≠ .error .outOfBounds
        ∧ pixelWalk image (areaGeometry xf yf sigma_half)
            (areaWeights (areaGeometry xf yf sigma_half) (4 * sigma_half * sigma_half))
          ≠ .error .outOfBounds) := by
  have hboth : 0 ≤ xf - sigma_half → xf + sigma_half ≤ ((image.cols - 1 : Int) : ℚ) →
      0 ≤ yf - sigma_half → yf + sigma_half ≤ ((image.rows - 1 : Int) : ℚ) →
      integralBranch image integral (areaGeometry xf yf sigma_half)
          (areaWeights (areaGeometry xf yf sigma_half) (4 * sigma_half * sigma_half))
        ≠ .error .outOfBounds
      ∧ pixelWalk image (areaGeometry xf yf sigma_half)
          (areaWeights (areaGeometry xf yf sigma_half) (4 * sigma_half * sigma_half))
        ≠ .error .outOfBounds := by
    intro hx0 hx1 hy0 hy1
    obtain ⟨a1, a2, a3, a4, b1, b2, b3, b4⟩ :=
      areaGeometry_bounds xf yf sigma_half image.cols image.rows hs hx0 hx1 hy0 hy1
    obtain ⟨r1, h1⟩ := integralBranch_in_buffer image integral (areaGeometry xf yf sigma_half)
      (areaWeights (areaGeometry xf yf sigma_half) (4 * sigma_half * sigma_half)) hdata hint
      a1 a2 (by omega) b1 b2 (by omega)
    obtain ⟨r2, h2⟩ := pixelWalk_in_buffer image (areaGeometry xf yf sigma_half)
      (areaWeights (areaGeometry xf yf sigma_half) (4 * sigma_half * sigma_half)) hdata
      a1 a2 (by omega) b1 b2 (by omega)
    rw [h1, h2]
    exact ⟨scaledResult_ne_outOfBounds _ _, scaledResult_ne_outOfBounds _ _⟩
  refine ⟨?_, hboth⟩
  simp only [areaSample]
  split
  · simp
  · split
    · simp
    · split
      · simp
      · split
        · simp
        · rename_i c1 c2 c3 c4
          obtain ⟨i1, i2⟩ := hboth (not_lt.mp c1) (not_lt.mp c2) (not_lt.mp c3) (not_lt.mp c4)
          split
          · exact i1
          · exact i2

theorem area_sample_reads_inside_witness :
    areaSample spotImage (integralTable spotImage) (13 / 4) (13 / 4) 2 ≠ .error .outOfBounds
      ∧ pixelWalk spotImage (areaGeometry (13 / 4) (13 / 4) 2)
          (areaWeights (areaGeometry (13 / 4) (13 / 4) 2) (4 * 2 * 2))
        ≠ .error .outOfBounds := by
  have h := area_sample_reads_inside spotImage (integralTable spotImage) (13 / 4) (13 / 4) 2
    (by norm_num) (by decide) (by decide)
  exact ⟨h.1, (h.2 (by norm_num) (by norm_num [spotImage]) (by norm_num)
    (by norm_num [spotImage])).2⟩

/-- C38: for a query row that is not masked out, with distances that are values of
an integer `DistanceType` (between `-FLT_MAX` and its largest value), the matches
that the selection loop has pushed are in non-decreasing order of distance before
`std::sort` is called; every sorted arrangement of them has the same sequence of
distances, and the sort of the model leaves them as they are. -/
theorem knn_pushed_in_order {D : Type} (M : BruteForceMatcher D) (queryDescriptors : Mat D)
    (knn : Int) (masks : List MaskMat) (qIdx : Nat) (d1 : D) (allDists : List (List Int))
    (hd : ∀ d2 dimension, -FLT_MAX ≤ M.distance_ d1 d2 dimension
      ∧ M.distance_ d1 d2 dimension ≤ M.distMax)
    (hlo : -FLT_MAX ≤ M.distMax) (hhi : M.distMax ≤ FLT_MAX)
    (h : knnAllDists M queryDescriptors masks qIdx d1 M.trainDescCollection 0 = .ok allDists) :
    (knnSelect M.distMax qIdx knn.toNat allDists []).Sorted DMatch.le
      ∧ knnQuery M queryDescriptors knn masks qIdx d1
        = .ok (knnSelect M.distMax qIdx knn.toNat allDists [])
      ∧ ∀ sorted : List DMatch,
        sorted.Perm (knnSelect M.distMax qIdx knn.toNat allDists []) →
        sorted.Sorted DMatch.le →
        sorted.map DMatch.distance
          = (knnSelect M.distMax qIdx knn.toNat allDists []).map DMatch.distance := by
  have hs : (knnSelect M.distMax qIdx knn.toNat allDists []).Sorted DMatch.le := by
    apply knnSelect_sorted M.distMax qIdx hlo hhi
    · intro row hrow x hx
      rcases knnAllDists_entries M queryDescriptors masks qIdx d1 _ 0 allDists h row hrow x hx
        with hx | ⟨d2, hx⟩
      · rw [hx]; exact ⟨hlo, Int.le_refl _⟩
      · rw [hx]; exact hd d2 _
    · exact List.sorted_nil
    · intro m hm; simp at hm
    · intro m hm; simp at hm
  refine ⟨hs, ?_, ?_⟩
  · simp only [knnQuery, h, sortMatches]
    rw [List.Sorted.insertionSort_eq hs]
  · intro sorted hp hsorted
    apply List.eq_of_perm_of_sorted (r := fun a b : Int => a ≤ b) (hp.map _)
    · exact List.Pairwise.map _ (fun a b hab => hab) hsorted
    · exact List.Pairwise.map _ (fun a b hab => hab) hs

theorem knn_pushed_in_order_witness :
    (knnSelect 2147483647 0 (2 : Int).toNat [[1, 1, 5]] []).Sorted DMatch.le
      ∧ knnAllDists (absDiffMatcher [⟨0, 1, [5, 3, 9]⟩]) ⟨0, 1, [4]⟩ [] 0 4
        [⟨0, 1, [5, 3, 9]⟩] 0 = .ok [[1, 1, 5]] := by
  have h : knnAllDists (absDiffMatcher [⟨0, 1, [5, 3, 9]⟩]) ⟨0, 1, [4]⟩ [] 0 4
      (absDiffMatcher [⟨0, 1, [5, 3, 9]⟩]).trainDescCollection 0 = .ok [[1, 1, 5]] := by
    rfl
  have hF : FLT_MAX = ((16777215 * 2 ^ 104 : Nat) : Int) := FLT_MAX_eq
  exact ⟨(knn_pushed_in_order (absDiffMatcher [⟨0, 1, [5, 3, 9]⟩]) ⟨0, 1, [4]⟩ 2 [] 0 4
    [[1, 1, 5]]
    (fun d2 dimension => by
      show -FLT_MAX ≤ min (((4 : Int) - d2).natAbs : Int) 1000
        ∧ min (((4 : Int) - d2).natAbs : Int) 1000 ≤ 2147483647
      omega)
    (by decide) (by decide) h).1, h⟩

/-- C39: `clone(false)` on a matcher with one train set, the new matcher having an
empty train collection when constructed, assigns beyond the end of that collection:
`std::transform` is given its `begin()` as destination and nothing makes room for
the copy. -/
theorem clone_writes_outside_new_collection :
    clone (absDiffMatcher [⟨0, 1, [5, 3, 9]⟩]) [] id false = .error .outOfBounds :=
  rfl


end brisk
